import Mathlib

/-!
# Wisswesser line notation: writer and grammar automaton

A shallow embedding of `src/parser/writewln2.cpp` (the molecule-to-WLN writer) and of
`BuildWLNFSM` from `src/wlngrep/wlngrep.cpp` (the hand-built grammar NFA), followed by
theorems about them.

Conventions of the embedding.

* Pointers are natural numbers and `0` is the null pointer.  An `OBAtom*` is the atom's
  `GetIdx()` (OpenBabel numbers atoms from 1), a `WLNSymbol*` is the slot of
  `WLNGraph::SYMBOLS` that holds the symbol, a `WLNEdge*` the slot of `WLNGraph::EDGES`.
* `std::map<K*, V>` is a total function with the value-initialised default, which is what
  `operator[]` gives on a missing key.  `std::set<K*>` iterates in address order; atoms and
  rings are taken to lie in memory in index order, so a set is an ascending list.
* A run either returns a value or stops in a `Fault`: a dereferenced null pointer, an access
  outside an array, a use of freed memory, or exhausted fuel.  Fuel bounds exactly the loops
  whose trip count the source leaves open (`while` over a stack, a linked list, a rotation);
  `WriteWLN_mono` shows that a run which did not exhaust its fuel is the same with more.
* `unsigned int` counters wrap at `2^32`.
* Code that OpenBabel or headers outside the sources supply is a parameter: the molecule
  with its SSSR (`OBMol`), and the automaton type behind `BuildWLNFSM` (`FSMAutomata`).
-/

namespace Wisswesser

/-! ## Faults and machine integers -/

/-- Ways in which a run of the C++ code fails to return. -/
inductive Fault where
  | nullDeref
  | outOfBounds
  | useAfterFree
  | outOfFuel
  deriving DecidableEq, Repr

deriving instance DecidableEq for Except

/-- Pool size `#define REASONABLE 1024`. -/
def REASONABLE : Nat := 1024

/-- Wrap-around of an `unsigned int`. -/
def u32 (n : Nat) : Nat := n % 4294967296

/-- Decrement of an `unsigned int`. -/
def u32dec (n : Nat) : Nat := (n + 4294967295) % 4294967296

/-- Update of one key of a map or of one slot of a pool. -/
def setAt {α : Type} (f : Nat → α) (i : Nat) (v : α) : Nat → α :=
  fun j => if j = i then v else f j

/-! ## The molecule supplied by the chemistry toolkit -/

/-- An OpenBabel atom, as far as the writer reads it. -/
structure OBAtom where
  atomicNum : Nat
  formalCharge : Int
  explicitValence : Nat
  inRing : Bool
  deriving DecidableEq, Repr

/-- An OpenBabel bond between the atoms with the given indices. -/
structure OBBond where
  beginAtom : Nat
  endAtom : Nat
  order : Nat
  deriving DecidableEq, Repr

/-- An SSSR ring: `_path` lists the indices of its atoms in ring order. -/
structure OBRing where
  path : List Nat
  deriving DecidableEq, Repr

/-- An OpenBabel molecule: the atom with index `i` is `atoms[i-1]`; every atom lists its
bonds in the order of `bonds`; `sssr` is the ring set `GetSSSR()`. -/
structure OBMol where
  atoms : List OBAtom
  bonds : List OBBond
  sssr : List OBRing
  deriving DecidableEq, Repr

namespace OBMol

/-- Pointer returned by `mol->GetAtom(idx)`: null outside `1..NumAtoms()`. -/
def GetAtom (mol : OBMol) (idx : Nat) : Nat :=
  if 1 ≤ idx ∧ idx ≤ mol.atoms.length then idx else 0

/-- Dereference of an atom pointer. -/
def atom (mol : OBMol) (a : Nat) : Except Fault OBAtom :=
  match a with
  | 0 => .error .nullDeref
  | k + 1 =>
    match mol.atoms.get? k with
    | some x => .ok x
    | none => .error .nullDeref

/-- Value of `a->GetAtomicNum()`. -/
def GetAtomicNum (mol : OBMol) (a : Nat) : Except Fault Nat :=
  (mol.atom a).map (fun x => x.atomicNum)

/-- Value of `a->GetFormalCharge()`. -/
def GetFormalCharge (mol : OBMol) (a : Nat) : Except Fault Int :=
  (mol.atom a).map (fun x => x.formalCharge)

/-- Value of `a->GetExplicitValence()`. -/
def GetExplicitValence (mol : OBMol) (a : Nat) : Except Fault Nat :=
  (mol.atom a).map (fun x => x.explicitValence)

/-- Value of `a->IsInRing()`. -/
def IsInRing (mol : OBMol) (a : Nat) : Except Fault Bool :=
  (mol.atom a).map (fun x => x.inRing)

/-- Bonds of atom `a` in the order `FOR_BONDS_OF_ATOM` visits them. -/
def bondsOf (mol : OBMol) (a : Nat) : List OBBond :=
  mol.bonds.filter (fun b => b.beginAtom = a ∨ b.endAtom = a)

/-- Atom at the other end of bond `b`, `b->GetNbrAtom(a)`. -/
def nbrAtom (b : OBBond) (a : Nat) : Nat :=
  if b.beginAtom = a then b.endAtom else b.beginAtom

/-- Neighbours of atom `a` in the order `FOR_NBORS_OF_ATOM` visits them. -/
def nbors (mol : OBMol) (a : Nat) : List Nat :=
  (mol.bondsOf a).map (fun b => nbrAtom b a)

/-- Result of `a->GetBond(n)`: the first bond of `a` that leads to `n`. -/
def GetBond (mol : OBMol) (a n : Nat) : Option OBBond :=
  (mol.bondsOf a).find? (fun b => nbrAtom b a = n)

/-- Result of `obring->IsMember(atom)` and of `obring->IsInRing(idx)`. -/
def ringHas (r : OBRing) (a : Nat) : Bool := r.path.contains a

/-- Ring behind an `OBRing*`; ring pointers are positions in `sssr`. -/
def ring (mol : OBMol) (r : Nat) : OBRing := (mol.sssr.get? r).getD ⟨[]⟩

end OBMol

/-! ## Structures of the WLN graph -/

/-- Struct `WLNEdge`. -/
structure WLNEdge where
  parent : Nat
  child : Nat
  nxt : Nat
  aromatic : Bool
  order : Nat
  deriving DecidableEq, Repr

/-- Struct `WLNSymbol`. -/
structure WLNSymbol where
  ch : Char
  special : String
  type : Nat
  allowed_edges : Nat
  num_edges : Nat
  num_children : Nat
  on_child : Nat
  previous : Nat
  bonds : Nat
  deriving DecidableEq, Repr

/-- Default constructor `WLNEdge()`. -/
def WLNEdge.new : WLNEdge := ⟨0, 0, 0, false, 0⟩

/-- Default constructor `WLNSymbol()`. -/
def WLNSymbol.new : WLNSymbol := ⟨Char.ofNat 0, "", 0, 0, 0, 0, 0, 0, 0⟩

/-- Method `set_edge_and_type(e, t = STANDARD)`. -/
def WLNSymbol.set_edge_and_type (s : WLNSymbol) (e : Nat) : WLNSymbol :=
  { s with allowed_edges := e, type := 0 }

/-- Struct `WLNGraph`: the pools and counters (the lookup maps, which only the `.dot`
dump reads, are left out). -/
structure WLNGraph where
  root : Nat
  edge_count : Nat
  symbol_count : Nat
  ring_count : Nat
  SYMBOLS : Nat → WLNSymbol
  EDGES : Nat → WLNEdge
  glob_index : Nat

/-- Constructor `WLNGraph()`. -/
def WLNGraph.new : WLNGraph :=
  ⟨0, 0, 0, 0, fun _ => WLNSymbol.new, fun _ => WLNEdge.new, 1⟩

namespace WLNGraph

/-- Dereference of a symbol pointer. -/
def sym (g : WLNGraph) (p : Nat) : Except Fault WLNSymbol :=
  if p = 0 then .error .nullDeref else .ok (g.SYMBOLS p)

/-- Dereference of an edge pointer. -/
def edge (g : WLNGraph) (p : Nat) : Except Fault WLNEdge :=
  if p = 0 then .error .nullDeref else .ok (g.EDGES p)

/-- Store through a symbol pointer. -/
def setSym (g : WLNGraph) (p : Nat) (s : WLNSymbol) : WLNGraph :=
  { g with SYMBOLS := setAt g.SYMBOLS p s }

/-- Store through an edge pointer. -/
def setEdge (g : WLNGraph) (p : Nat) (e : WLNEdge) : WLNGraph :=
  { g with EDGES := setAt g.EDGES p e }

end WLNGraph

/-! ## Symbols -/

/-- Function `AllocateWLNSymbol`: the new symbol goes to slot `symbol_count` after the
increment; a null result leaves the incremented counter behind. -/
def AllocateWLNSymbol (ch : Char) (graph : WLNGraph) : WLNGraph × Nat :=
  let graph := { graph with symbol_count := u32 (graph.symbol_count + 1) }
  if graph.symbol_count > REASONABLE then (graph, 0)
  else if ch = Char.ofNat 0 then (graph, 0)
  else
    let wln : WLNSymbol := { WLNSymbol.new with ch := ch }
    ({ graph with SYMBOLS := setAt graph.SYMBOLS graph.symbol_count wln,
                  glob_index := u32 (graph.glob_index + 1) }, graph.symbol_count)

/-- Two-letter codes of the `all special elemental cases` of `CreateWLNNode`, in the order
of the `case` labels. -/
def specialCases : List (Nat × String) :=
  [(89, "AC"), (47, "AG"), (13, "AL"), (95, "AM"), (18, "AR"), (33, "AS"), (85, "AT"), (79, "AU"),
   (56, "BA"), (4, "BE"), (107, "BH"), (83, "BI"), (97, "BK"), (20, "CA"), (48, "CD"), (58, "CE"),
   (98, "CF"), (96, "CN"), (112, "CN"), (27, "CO"), (24, "CR"), (55, "CS"), (29, "CU"), (105, "DB"),
   (110, "DS"), (66, "DY"), (68, "ER"), (99, "ES"), (63, "EU"), (26, "FE"), (114, "FL"), (100, "FM"),
   (87, "FR"), (31, "GA"), (64, "GD"), (32, "GE"), (2, "HE"), (72, "HF"), (80, "HG"), (67, "HO"),
   (108, "HS"), (49, "IN"), (77, "IR"), (36, "KR"), (19, "KA"), (57, "LA"), (3, "LI"), (103, "LR"),
   (71, "LU"), (116, "LV"), (115, "MC"), (101, "MD"), (12, "MG"), (25, "MN"), (42, "MO"), (109, "MT"),
   (11, "NA"), (41, "NB"), (60, "ND"), (10, "NE"), (113, "NH"), (28, "NI"), (102, "NO"), (93, "NP"),
   (118, "OG"), (76, "OS"), (91, "PA"), (82, "PB"), (46, "PD"), (61, "PM"), (84, "PO"), (59, "PR"),
   (78, "PT"), (94, "PU"), (88, "RA"), (37, "RB"), (75, "RE"), (104, "RF"), (111, "RG"), (45, "RH"),
   (86, "RN"), (44, "RU"), (51, "SB"), (21, "SC"), (34, "SE"), (106, "SG"), (14, "SI"), (62, "SM"),
   (50, "SN"), (38, "SR"), (73, "TA"), (65, "TB"), (43, "TC"), (52, "TE"), (90, "TH"), (22, "TI"),
   (81, "TL"), (69, "TM"), (117, "TS"), (92, "UR"), (23, "VA"), (54, "XE"), (39, "YT"), (70, "YB"),
   (30, "ZN"), (40, "ZR")]

/-- Statement `node = AllocateWLNSymbol(ch, graph); node->set_edge_and_type(e);` of
`CreateWLNNode`: the second half dereferences `node` unchecked. -/
def allocWithEdges (ch : Char) (e : Nat) (graph : WLNGraph) : Except Fault (WLNGraph × Nat) :=
  let (graph, node) := AllocateWLNSymbol ch graph
  if node = 0 then .error .nullDeref
  else .ok (graph.setSym node ((graph.SYMBOLS node).set_edge_and_type e), node)

/-- Statement `node = AllocateWLNSymbol('*', graph); node->special += code;` of
`CreateWLNNode`. -/
def allocSpecial (code : String) (graph : WLNGraph) : Except Fault (WLNGraph × Nat) :=
  let (graph, node) := AllocateWLNSymbol '*' graph
  if node = 0 then .error .nullDeref
  else
    let s := graph.SYMBOLS node
    .ok (graph.setSym node { s with special := s.special ++ code }, node)

/-- Loop `FOR_NBORS_OF_ATOM` of the carbon case: the pair `(neighbours, orders)`. -/
def carbonCounts (mol : OBMol) (atom : Nat) : Except Fault (Nat × Nat) :=
  (mol.nbors atom).foldlM
    (fun (acc : Nat × Nat) neighbour =>
      match mol.GetBond atom neighbour with
      | none => .error .nullDeref
      | some bond => .ok (u32 (acc.1 + 1), u32 (acc.2 + bond.order)))
    (0, 0)

/-- The `switch` of `CreateWLNNode`; `none` is the `default:` label, which returns null. -/
def createSwitch (mol : OBMol) (atom : Nat) (graph : WLNGraph) :
    Except Fault (Option (WLNGraph × Nat)) := do
  let a ← mol.atom atom
  match a.atomicNum with
  | 1 => (allocWithEdges 'H' 1 graph).map some
  | 5 => (allocWithEdges 'B' 3 graph).map some
  | 6 =>
    let (neighbours, orders) ← carbonCounts mol atom
    if neighbours ≤ 2 then (allocWithEdges '1' 4 graph).map some
    else if neighbours > 2 then
      if orders = 3 then (allocWithEdges 'Y' 3 graph).map some
      else (allocWithEdges 'X' 4 graph).map some
    else (allocWithEdges 'C' 4 graph).map some
  | 7 => (allocWithEdges 'N' a.explicitValence graph).map some
  | 8 =>
    if a.explicitValence < 2 ∧ a.formalCharge ≠ -1 then (allocWithEdges 'Q' 1 graph).map some
    else (allocWithEdges 'O' 2 graph).map some
  | 9 => (allocWithEdges 'F' a.explicitValence graph).map some
  | 15 => (allocWithEdges 'P' 6 graph).map some
  | 16 => (allocWithEdges 'S' 6 graph).map some
  | 17 => (allocWithEdges 'G' a.explicitValence graph).map some
  | 35 => (allocWithEdges 'E' a.explicitValence graph).map some
  | 53 => (allocWithEdges 'I' a.explicitValence graph).map some
  | n =>
    match specialCases.lookup n with
    | some code => (allocSpecial code graph).map some
    | none => .ok none

/-- Function `CreateWLNNode`: the symbol for `atom`, null for a null atom or an element
without a `case`. -/
def CreateWLNNode (mol : OBMol) (atom : Nat) (graph : WLNGraph) :
    Except Fault (WLNGraph × Nat) :=
  if atom = 0 then .ok (graph, 0)
  else do
    match ← createSwitch mol atom graph with
    | none => return (graph, 0)
    | some (graph, node) =>
      let graph := if graph.root = 0 then { graph with root := node } else graph
      let s := graph.SYMBOLS node
      let graph := if s.allowed_edges = 0 then graph.setSym node (s.set_edge_and_type 8) else graph
      return (graph, node)

/-! ## Edges -/

/-- Loop `while(curr->nxt)` of `AllocateWLNEdge`: walks to the last edge of the list that
starts at `curr`; `none` when an edge before the last one already leads to `child`. -/
def lastEdge (graph : WLNGraph) (child : Nat) : Nat → Nat → Except Fault (Option Nat)
  | 0, _ => .error .outOfFuel
  | fuel + 1, curr =>
    let e := graph.EDGES curr
    if e.nxt ≠ 0 then
      if e.child = child then .ok none
      else lastEdge graph child fuel e.nxt
    else .ok (some curr)

/-- Tail of `AllocateWLNEdge`, once the new edge hangs in the parent's list: sets
`child->previous`, raises the counters and fills the edge in. -/
def linkEdge (child parent edge : Nat) (graph : WLNGraph) : WLNGraph :=
  let graph := graph.setSym child { graph.SYMBOLS child with previous := parent }
  let graph := graph.setSym child
    { graph.SYMBOLS child with num_edges := u32 ((graph.SYMBOLS child).num_edges + 1) }
  let graph := graph.setSym parent
    { graph.SYMBOLS parent with num_edges := u32 ((graph.SYMBOLS parent).num_edges + 1) }
  let graph := graph.setEdge edge
    { graph.EDGES edge with parent := parent, child := child, order := 1 }
  graph.setSym parent
    { graph.SYMBOLS parent with
      num_children := u32 ((graph.SYMBOLS parent).num_children + 1) }

/-- Function `AllocateWLNEdge`: the new edge pointer, null on failure. -/
def AllocateWLNEdge (fuel : Nat) (child parent : Nat) (graph : WLNGraph) :
    Except Fault (WLNGraph × Nat) :=
  if child = 0 ∨ parent = 0 then .ok (graph, 0)
  else
    let graph := { graph with edge_count := u32 (graph.edge_count + 1) }
    if graph.edge_count > REASONABLE then .ok (graph, 0)
    else if u32 ((graph.SYMBOLS child).num_edges + 1) > (graph.SYMBOLS child).allowed_edges then
      .ok (graph, 0)
    else if u32 ((graph.SYMBOLS parent).num_edges + 1) > (graph.SYMBOLS parent).allowed_edges then
      .ok (graph, 0)
    else
      let edge := graph.edge_count
      let graph := graph.setEdge edge WLNEdge.new
      let curr := (graph.SYMBOLS parent).bonds
      if curr ≠ 0 then do
        match ← lastEdge graph child fuel curr with
        | none => return (graph, 0)
        | some last =>
          return (linkEdge child parent edge
            (graph.setEdge last { graph.EDGES last with nxt := edge }), edge)
      else
        .ok (linkEdge child parent edge
          (graph.setSym parent { graph.SYMBOLS parent with bonds := edge }), edge)

/-- Loop of `search_edge`: the first edge of the list at `edge` that leads to `child`. -/
def search_edge_from (graph : WLNGraph) (child : Nat) : Nat → Nat → Except Fault Nat
  | 0, _ => .error .outOfFuel
  | fuel + 1, edge =>
    if edge = 0 then .ok 0
    else if (graph.EDGES edge).child = child then .ok edge
    else search_edge_from graph child fuel (graph.EDGES edge).nxt

/-- Function `search_edge`. -/
def search_edge (fuel : Nat) (child parent : Nat) (graph : WLNGraph) : Except Fault Nat :=
  if child = 0 ∨ parent = 0 then .ok 0
  else search_edge_from graph child fuel (graph.SYMBOLS parent).bonds

/-- Function `unsaturate_edge`: the counters are raised before the caps are tested, so a
null result leaves the raised counters behind. -/
def unsaturate_edge (edge : Nat) (n : Nat) (graph : WLNGraph) :
    Except Fault (WLNGraph × Nat) :=
  if edge = 0 then .ok (graph, 0)
  else
    let graph := graph.setEdge edge
      { graph.EDGES edge with order := u32 ((graph.EDGES edge).order + n) }
    let parent := (graph.EDGES edge).parent
    if parent = 0 then .error .nullDeref
    else
      let graph := graph.setSym parent
        { graph.SYMBOLS parent with num_edges := u32 ((graph.SYMBOLS parent).num_edges + n) }
      let child := (graph.EDGES edge).child
      if child = 0 then .error .nullDeref
      else
        let graph := graph.setSym child
          { graph.SYMBOLS child with num_edges := u32 ((graph.SYMBOLS child).num_edges + n) }
        if (graph.SYMBOLS parent).num_edges > (graph.SYMBOLS parent).allowed_edges then
          .ok (graph, 0)
        else if (graph.SYMBOLS child).num_edges > (graph.SYMBOLS child).allowed_edges then
          .ok (graph, 0)
        else .ok (graph, edge)

/-- Loop `while(search)` of `remove_edge`: the edge in front of `edge` in the list at
`search`, with `found`. -/
def findPrev (graph : WLNGraph) (edge : Nat) : Nat → Nat → Nat → Except Fault (Bool × Nat)
  | 0, _, _ => .error .outOfFuel
  | fuel + 1, search, prev =>
    if search = 0 then .ok (false, prev)
    else if search = edge then .ok (true, prev)
    else findPrev graph edge fuel (graph.EDGES search).nxt search

/-- Function `remove_edge`. -/
def remove_edge (fuel : Nat) (head edge : Nat) (graph : WLNGraph) :
    Except Fault (WLNGraph × Bool) :=
  if head = 0 ∨ edge = 0 then .ok (graph, false)
  else
    let graph := graph.setSym head
      { graph.SYMBOLS head with num_edges := u32dec (graph.SYMBOLS head).num_edges }
    let child := (graph.EDGES edge).child
    if child = 0 then .error .nullDeref
    else
      let graph := graph.setSym child
        { graph.SYMBOLS child with num_edges := u32dec (graph.SYMBOLS child).num_edges }
      if (graph.SYMBOLS head).bonds = edge then
        .ok (graph.setSym head { graph.SYMBOLS head with bonds := 0 }, true)
      else do
        let (found, prev) ← findPrev graph edge fuel (graph.SYMBOLS head).bonds 0
        if !found then return (graph, false)
        else if prev = 0 then throw .nullDeref
        else
          let tmp := (graph.EDGES edge).nxt
          return (graph.setEdge prev { graph.EDGES prev with nxt := tmp }, true)

/-- Edge list of a symbol, `for(edge = sym->bonds; edge; edge = edge->nxt)`, as the list of
edge pointers it visits. -/
def edgesFrom (graph : WLNGraph) : Nat → Nat → Except Fault (List Nat)
  | 0, _ => .error .outOfFuel
  | fuel + 1, edge =>
    if edge = 0 then .ok []
    else (edgesFrom graph fuel (graph.EDGES edge).nxt).map (fun l => edge :: l)

/-! ## Ring construction -/

/-- Insertion into a `std::set` of pointers, kept in ascending order. -/
def setInsert (x : Nat) : List Nat → List Nat
  | [] => [x]
  | y :: ys => if x < y then x :: y :: ys else if x = y then y :: ys else y :: setInsert x ys

/-- Read of `array[i]`. -/
def arrGet (l : List Nat) (i : Nat) : Except Fault Nat :=
  match l.get? i with
  | some x => .ok x
  | none => .error .outOfBounds

/-- Write of `array[i] = v`. -/
def arrSet (l : List Nat) (i : Nat) (v : Nat) : Except Fault (List Nat) :=
  if i < l.length then .ok (l.set i v) else .error .outOfBounds

/-- What `ConstructLocalSSSR` fills in: the ring atoms, the ring shares and the rings of
the system, with the counts of fuse, multicyclic and branching points. -/
structure LocalSSSR where
  ring_atoms : List Nat
  ring_shares : Nat → Nat
  local_SSSR : List Nat
  fuses : Nat
  multicyclic : Nat
  branching : Nat

/-- Loop `FOR_RINGS_OF_MOL` of `ConstructLocalSSSR` for one atom: `in_rings` and the
enlarged ring set. -/
def ringsOfAtom (mol : OBMol) (atom : Nat) (local_SSSR : List Nat) : Nat × List Nat :=
  (List.range mol.sssr.length).foldl
    (fun (acc : Nat × List Nat) r =>
      if OBMol.ringHas (mol.ring r) atom then (u32 (acc.1 + 1), setInsert r acc.2) else acc)
    (0, local_SSSR)

/-- Loop `FOR_NBORS_OF_ATOM` of `ConstructLocalSSSR`: pushes the unvisited ring
neighbours. -/
def pushRingNbors (mol : OBMol) :
    List Nat → List Nat → (Nat → Bool) → Except Fault (List Nat × (Nat → Bool))
  | [], stack, visited => .ok (stack, visited)
  | neighbour :: rest, stack, visited => do
    if (← mol.IsInRing neighbour) && !visited neighbour then
      pushRingNbors mol rest (neighbour :: stack) (setAt visited neighbour true)
    else pushRingNbors mol rest stack visited

/-- Loop `while(!atom_stack.empty())` of `ConstructLocalSSSR`. -/
def ConstructLocalSSSR.loop (mol : OBMol) :
    Nat → List Nat → (Nat → Bool) → LocalSSSR → Except Fault LocalSSSR
  | 0, _, _, _ => .error .outOfFuel
  | _ + 1, [], _, st => .ok st
  | fuel + 1, atom :: stack, visited, st => do
    let visited := setAt visited atom true
    let ring_atoms := setInsert atom st.ring_atoms
    let (in_rings, local_SSSR) := ringsOfAtom mol atom st.local_SSSR
    let ring_shares := setAt st.ring_shares atom in_rings
    let _ ← mol.atom atom
    let (stack, visited) ← pushRingNbors mol (mol.nbors atom) stack visited
    let st : LocalSSSR :=
      if in_rings > 3 then
        ⟨ring_atoms, ring_shares, local_SSSR, st.fuses, st.multicyclic, u32 (st.branching + 1)⟩
      else if in_rings = 3 then
        ⟨ring_atoms, ring_shares, local_SSSR, st.fuses, u32 (st.multicyclic + 1), st.branching⟩
      else if in_rings = 2 then
        ⟨ring_atoms, ring_shares, local_SSSR, u32 (st.fuses + 1), st.multicyclic, st.branching⟩
      else ⟨ring_atoms, ring_shares, local_SSSR, st.fuses, st.multicyclic, st.branching⟩
    ConstructLocalSSSR.loop mol fuel stack visited st

/-- Function `ConstructLocalSSSR`: the ring type code with the filled-in sets. -/
def ConstructLocalSSSR (fuel : Nat) (ring_root : Nat) (mol : OBMol) :
    Except Fault (Nat × LocalSSSR) := do
  let st0 : LocalSSSR := ⟨[], fun _ => 0, [], 0, 0, 0⟩
  if ring_root = 0 then return (0, st0)
  else
    let st ← ConstructLocalSSSR.loop mol fuel [ring_root] (fun _ => false) st0
    if st.branching ≠ 0 then return (0, st)
    else if st.multicyclic ≠ 0 then return (3, st)
    else return (2, st)

/-- Function `GetSeedAtoms`. -/
def GetSeedAtoms (ring_atoms : List Nat) (ring_shares : Nat → Nat) (target_shares : Nat) :
    List Nat :=
  ring_atoms.filter (fun a => ring_shares a = target_shares)

/-- The rotation `tmp = path[0]; path.pop_front(); path.push_back(tmp);` of a deque. -/
def rotateFront (path : List Nat) : List Nat :=
  match path with
  | [] => []
  | x :: xs => xs ++ [x]

/-- Loop `while(path[0] != insert_start->GetIdx())` of `ShiftandAddLocantPath`. -/
def rotateTo (target : Nat) : Nat → List Nat → Except Fault (List Nat)
  | 0, _ => .error .outOfFuel
  | _ + 1, [] => .error .outOfBounds
  | fuel + 1, x :: xs =>
    if x ≠ target then rotateTo target fuel (xs ++ [x]) else .ok (x :: xs)

/-- State that `ShiftandAddLocantPath` and `CreateLocantPath` work on. -/
structure PathState where
  locant_path : List Nat
  locant_pos : Nat
  atoms_seen : Nat → Bool
  nt_pairs : List (Nat × Nat)
  nt_sizes : List Nat

/-- Inner loop `for(int k=path_size-1;k>hp_pos+j;k--) locant_path[k] = locant_path[k-1];`. -/
def shiftRight (locant_path : List Nat) (path_size bound : Nat) : Except Fault (List Nat) :=
  ((List.range path_size).reverse.filter (fun k => k > bound)).foldlM
    (fun lp k => do arrSet lp k (← arrGet lp (k - 1))) locant_path

/-- Insertion loop of the clockwise or anti-clockwise case of `ShiftandAddLocantPath`. -/
def insertUnseen (mol : OBMol) (path_size hp_pos : Nat) :
    List Nat → Nat → PathState → Except Fault PathState
  | [], _, st => .ok st
  | idx :: rest, j, st =>
    let ratom := mol.GetAtom idx
    if !st.atoms_seen ratom then do
      let lp ← shiftRight st.locant_path path_size (hp_pos + j)
      let lp ← arrSet lp (hp_pos + 1 + j) ratom
      insertUnseen mol path_size hp_pos rest (j + 1)
        { st with locant_path := lp, atoms_seen := setAt st.atoms_seen ratom true,
                  locant_pos := u32 (st.locant_pos + 1) }
    else insertUnseen mol path_size hp_pos rest j st

/-- Appending loop of the ring-wrap case of `ShiftandAddLocantPath`. -/
def appendUnseen (mol : OBMol) : List Nat → PathState → Except Fault PathState
  | [], st => .ok st
  | idx :: rest, st =>
    let ratom := mol.GetAtom idx
    if !st.atoms_seen ratom then do
      let lp ← arrSet st.locant_path st.locant_pos ratom
      appendUnseen mol rest
        { st with locant_path := lp, atoms_seen := setAt st.atoms_seen ratom true,
                  locant_pos := u32 (st.locant_pos + 1) }
    else appendUnseen mol rest st

/-- Function `ShiftandAddLocantPath`; the new `locant_pos` is that of the returned state. -/
def ShiftandAddLocantPath (fuel : Nat) (mol : OBMol) (path_size hp_pos : Nat)
    (obring : OBRing) (st : PathState) : Except Fault PathState := do
  let insert_start ← arrGet st.locant_path hp_pos
  let insert_end ← arrGet st.locant_path (hp_pos + 1)
  let path := obring.path
  if path ≠ [] ∧ insert_end = 0 then throw .nullDeref
  else
    let seen := path.any (fun idx => insert_end = idx)
    let insert_start ← (if !seen then arrGet st.locant_path (u32dec st.locant_pos)
      else pure insert_start)
    let insert_end ← (if !seen then arrGet st.locant_path 0 else pure insert_end)
    if insert_start = 0 then throw .nullDeref
    else
      let path ← rotateTo insert_start fuel path
      if seen then
        let second ← arrGet path 1
        let path := if second = insert_start then (rotateFront path).reverse else path
        let first ← arrGet st.locant_path hp_pos
        let next ← arrGet st.locant_path (hp_pos + 1)
        let st := { st with nt_pairs := st.nt_pairs ++ [(first, next)],
                            nt_sizes := st.nt_sizes ++ [obring.path.length] }
        insertUnseen mol path_size hp_pos path 0 st
      else
        let second ← arrGet path 1
        if insert_end = 0 then throw .nullDeref
        else
          let path := if second = insert_end then (rotateFront path).reverse else path
          let st ← appendUnseen mol path st
          let first ← arrGet st.locant_path 0
          let last ← arrGet st.locant_path (u32dec st.locant_pos)
          return { st with nt_pairs := st.nt_pairs ++ [(first, last)],
                           nt_sizes := st.nt_sizes ++ [obring.path.length] }

/-- First loop of `CreateLocantPath`: the ring that holds the seed; the `break` leaves
only the inner loop, so the last such ring of the set wins. -/
def seedRing (mol : OBMol) (local_SSSR : List Nat) (seed_atom : Nat) : Option Nat :=
  local_SSSR.foldl
    (fun acc r => if (mol.ring r).path.any (fun idx => mol.GetAtom idx = seed_atom)
      then some r else acc)
    none

/-- Loop `while(locant_path[0] != seed_atom)` of `CreateLocantPath`. -/
def rotateSeed (seed_atom path_size locant_pos : Nat) : Nat → List Nat → Except Fault (List Nat)
  | 0, _ => .error .outOfFuel
  | fuel + 1, lp => do
    let head ← arrGet lp 0
    if head ≠ seed_atom then
      let lp ← arrSet lp locant_pos head
      let lp ← (List.range (path_size - 1)).foldlM
        (fun lp i => do arrSet lp i (← arrGet lp (i + 1))) lp
      rotateSeed seed_atom path_size locant_pos fuel lp
    else .ok lp

/-- Search of `CreateLocantPath` for the hinge: the lowest position whose atom has
`ring_shares > 1` and lies in a ring not yet seen, with the first such ring. -/
def findHinge (mol : OBMol) (ring_shares : Nat → Nat) (local_SSSR : List Nat)
    (rings_seen : Nat → Bool) (locant_path : List Nat) :
    List Nat → Except Fault (Option (Nat × Nat))
  | [] => .ok none
  | i :: rest => do
    let ratom ← arrGet locant_path i
    if ring_shares ratom > 1 then
      let unseen := local_SSSR.filter (fun r => !rings_seen r)
      if unseen ≠ [] ∧ ratom = 0 then throw .nullDeref
      else
        match unseen.find? (fun r => OBMol.ringHas (mol.ring r) ratom) with
        | some r => return some (i, r)
        | none => findHinge mol ring_shares local_SSSR rings_seen locant_path rest
    else findHinge mol ring_shares local_SSSR rings_seen locant_path rest

/-- Loop `for(rings_handled ...)` of `CreateLocantPath`; `none` is the `return 0`. -/
def placeRings (fuel : Nat) (mol : OBMol) (ring_shares : Nat → Nat) (local_SSSR : List Nat)
    (path_size : Nat) :
    Nat → Nat → (Nat → Bool) → PathState → Except Fault (Option PathState)
  | 0, _, _, st => .ok (some st)
  | n + 1, obring, rings_seen, st => do
    let rings_seen := setAt rings_seen obring true
    let hinge ← findHinge mol ring_shares local_SSSR rings_seen st.locant_path
      (List.range st.locant_pos)
    let hp_pos := match hinge with
      | some (i, _) => i
      | none => 0
    let obring := match hinge with
      | some (_, r) => r
      | none => obring
    let st ← ShiftandAddLocantPath fuel mol path_size hp_pos (mol.ring obring) st
    if st.locant_pos = 0 then return none
    else placeRings fuel mol ring_shares local_SSSR path_size n obring rings_seen st

/-- Function `CreateLocantPath`: `none` is the null result; the pair lists are the
caller's vectors. -/
def CreateLocantPath (fuel : Nat) (mol : OBMol) (local_SSSR : List Nat)
    (ring_shares : Nat → Nat) (nt_pairs : List (Nat × Nat)) (nt_sizes : List Nat)
    (path_size : Nat) (seed_atom : Nat) : Except Fault (Option PathState) := do
  let locant_path := List.replicate path_size 0
  match seedRing mol local_SSSR seed_atom with
  | none => return none
  | some obring =>
    let st : PathState := ⟨locant_path, 0, fun _ => false, nt_pairs, nt_sizes⟩
    let st ← (mol.ring obring).path.foldlM
      (fun (st : PathState) idx => do
        let ratom := mol.GetAtom idx
        let lp ← arrSet st.locant_path st.locant_pos ratom
        pure { st with locant_path := lp, locant_pos := u32 (st.locant_pos + 1),
                       atoms_seen := setAt st.atoms_seen ratom true })
      st
    let lp ← rotateSeed seed_atom path_size st.locant_pos fuel st.locant_path
    let first ← arrGet lp 0
    let last ← arrGet lp (u32dec st.locant_pos)
    let st := { st with locant_path := lp, nt_pairs := st.nt_pairs ++ [(first, last)],
                        nt_sizes := st.nt_sizes ++ [(mol.ring obring).path.length] }
    placeRings fuel mol ring_shares local_SSSR path_size (local_SSSR.length - 1) obring
      (fun _ => false) st

/-! ## Ring notation -/

/-- Function `int_to_locant`, an `unsigned char`. -/
def int_to_locant (i : Nat) : Char := Char.ofNat ((i + 64) % 256)

/-- Function `IsHeteroRing`. -/
def IsHeteroRing (mol : OBMol) : List Nat → Except Fault Bool
  | [] => .ok false
  | a :: rest => do
    if (← mol.GetAtomicNum a) ≠ 6 then return true
    else IsHeteroRing mol rest

/-- Function `UpdateReducedPath`: the reduced path, null where the share is at most 1. -/
def UpdateReducedPath (locant_path : List Nat) (ring_shares : Nat → Nat) : List Nat :=
  locant_path.map (fun a => if ring_shares a > 1 then a else 0)

/-- Loop `for(pos; pos < path_size; pos++)` of `ReadLocantPath`: position of `first`. -/
def findPos (first : Nat) : List Nat → Nat
  | [] => 0
  | a :: rest => if a = first then 0 else findPos first rest + 1

/-- Loop over `j` of `ReadLocantPath`: can the walk reach `second` without meeting
another entry of the reduced path. -/
def uninterrupted (second : Nat) : List Nat → Bool
  | [] => false
  | r :: rest =>
    if r ≠ 0 ∧ r ≠ second then false
    else if r ≠ 0 ∧ r = second then true
    else uninterrupted second rest

/-- State of the `while` loop of `ReadLocantPath`. -/
structure ReadState where
  ring_str : String
  ring_shares : Nat → Nat
  reduced_path : List Nat
  nt_pairs : List (Nat × Nat)
  nt_sizes : List Nat

/-- Loop over the pairs `i` inside the `while` of `ReadLocantPath`: writes the first pair
that can be written and stops. -/
def popPair (locant_path : List Nat) (st : ReadState) :
    List (Nat × (Nat × Nat)) → Except Fault ReadState
  | [] => .ok st
  | (i, first, second) :: rest =>
    let pos := findPos first locant_path
    if uninterrupted second (st.reduced_path.drop (pos + 1)) then do
      let size ← arrGet st.nt_sizes i
      let ring_str := if pos ≠ 0 then (st.ring_str.push ' ').push (int_to_locant (pos + 1))
        else st.ring_str
      let ring_str := ring_str ++ toString size
      let shares := setAt st.ring_shares first (u32dec (st.ring_shares first))
      let shares := setAt shares second (u32dec (shares second))
      return ⟨ring_str, shares, UpdateReducedPath locant_path shares,
        st.nt_pairs.eraseIdx i, st.nt_sizes.eraseIdx i⟩
    else popPair locant_path st rest

/-- Loop `while(!nt_pairs.empty() && safety < expected_rings)` of `ReadLocantPath`; the
argument counts the rounds that `safety` still allows. -/
def readLoop (locant_path : List Nat) : Nat → ReadState → Except Fault ReadState
  | 0, st => .ok st
  | n + 1, st =>
    if st.nt_pairs = [] then .ok st
    else do
      let st ← popPair locant_path st (st.nt_pairs.enum)
      readLoop locant_path n st

/-- Function `ReadLocantPath`: the ring string (empty on failure) with what is left of
the caller's pair vectors. -/
def ReadLocantPath (mol : OBMol) (locant_path : List Nat) (path_size : Nat)
    (ring_shares : Nat → Nat) (nt_pairs : List (Nat × Nat)) (nt_sizes : List Nat)
    (expected_rings : Nat) : Except Fault (String × List (Nat × Nat) × List Nat) := do
  let ring_str := if ← IsHeteroRing mol (locant_path.take path_size) then "T" else "L"
  let reduced_path := UpdateReducedPath locant_path ring_shares
  let st ← readLoop locant_path expected_rings
    ⟨ring_str, ring_shares, reduced_path, nt_pairs, nt_sizes⟩
  match st.nt_pairs with
  | [] => throw .outOfBounds
  | (first, second) :: _ =>
    let head ← arrGet locant_path 0
    let last ← arrGet locant_path (u32dec path_size)
    if first = head ∧ second = last then
      let size ← arrGet st.nt_sizes 0
      return (st.ring_str ++ toString size, [], [])
    else return ("", st.nt_pairs, st.nt_sizes)

/-- Function `ReadHeteroAtoms`, from position `i` on. -/
def ReadHeteroAtoms (mol : OBMol) :
    List Nat → Nat → Nat → String → WLNGraph → Except Fault (String × WLNGraph)
  | [], _, _, buffer, graph => .ok (buffer, graph)
  | a :: rest, i, last_hetero_index, buffer, graph => do
    if (← mol.GetAtomicNum a) ≠ 6 then
      let buffer := if i > 0 ∧ last_hetero_index ≠ i - 1
        then (buffer.push ' ').push (int_to_locant (i + 1)) else buffer
      let (graph, sym) ← CreateWLNNode mol a graph
      let s ← graph.sym sym
      let buffer := if s.ch = '*' then ((buffer.push '-') ++ s.special).push '-'
        else buffer.push s.ch
      ReadHeteroAtoms mol rest (i + 1) i buffer graph
    else ReadHeteroAtoms mol rest (i + 1) last_hetero_index buffer graph

/-! ## Canonicalisation -/

/-- Test `str[i] <= '9' && str[i] >= '0'`. -/
def isDigitCh (c : Char) : Bool := c ≤ '9' && c ≥ '0'

/-- Function `highest_unbroken_numerical_chain`. -/
def highest_unbroken_numerical_chain (str : String) : Nat :=
  let r := str.toList.foldl
    (fun (acc : Nat × Nat) c =>
      if isDigitCh c then (acc.1, acc.2 + 1)
      else ((if acc.2 > acc.1 then acc.2 else acc.1), 0))
    (0, 0)
  if r.2 > r.1 then r.2 else r.1

/-- Function `first_locant_seen`: the byte of the first character after the `L` or `T`
that is neither a space nor a digit, `0` when there is none. -/
def first_locant_seen (str : String) : Nat :=
  match (str.toList.drop 1).find? (fun c => c ≠ ' ' && !isDigitCh c) with
  | some c => c.toNat
  | none => 0

/-- Loop of `MinimalWLNRingNotation` over what is left of the strings; the state is
`(highest_chain, lowest_loc, return_index)`. -/
def minimalLoop : List String → Nat → Nat × Nat × Nat → Nat
  | [], _, (_, _, return_index) => return_index
  | str :: rest, i, (highest_chain, lowest_loc, return_index) =>
    let chain := highest_unbroken_numerical_chain str
    let loc := first_locant_seen str
    if chain > highest_chain then minimalLoop rest (i + 1) (chain, loc, i)
    else if chain = highest_chain ∧ lowest_loc > loc then
      minimalLoop rest (i + 1) (highest_chain, loc, i)
    else minimalLoop rest (i + 1) (highest_chain, lowest_loc, return_index)

/-- Function `MinimalWLNRingNotation`. -/
def MinimalWLNRingNotation (ring_strings : List String) : Nat :=
  minimalLoop ring_strings 0 (0, 0, 0)

/-! ## The `BabelGraph` methods -/

/-- Struct `BabelGraph`. -/
structure BabelGraph where
  atom_symbol_map : Nat → Nat
  symbol_atom_map : Nat → Nat
  ring_handled : Nat → Bool

/-- Constructor `BabelGraph()`. -/
def BabelGraph.new : BabelGraph := ⟨fun _ => 0, fun _ => 0, fun _ => false⟩

/-- Test `!visited[neighbour] && !neighbour->IsInRing()`, which reads the atom only when
it is unvisited. -/
def unvisitedAcyclic (mol : OBMol) (visited : Nat → Bool) (neighbour : Nat) :
    Except Fault Bool :=
  if visited neighbour then .ok false
  else (mol.IsInRing neighbour).map (fun r => !r)

/-- Loop `FOR_NBORS_OF_ATOM` of the anionic-oxygen case of `BuildWLNTree`. -/
def pushAcyclic (mol : OBMol) (visited : Nat → Bool) :
    List Nat → List Nat → Except Fault (List Nat)
  | [], stack => .ok stack
  | neighbour :: rest, stack => do
    if ← unvisitedAcyclic mol visited neighbour then
      pushAcyclic mol visited rest (neighbour :: stack)
    else pushAcyclic mol visited rest stack

/-- State of `BuildWLNTree` between two statements. -/
structure TreeState where
  obabel : BabelGraph
  graph : WLNGraph
  stack : List Nat

/-- Second `FOR_NBORS_OF_ATOM` loop of `BuildWLNTree`; the flag is false when the loop
left through `return 0`. -/
def linkNbors (fuel : Nat) (mol : OBMol) (atom node : Nat) (visited : Nat → Bool) :
    List Nat → TreeState → Except Fault (TreeState × Bool)
  | [], st => .ok (st, true)
  | neighbour :: rest, st => do
    let fresh ← (if st.obabel.atom_symbol_map neighbour = 0
      then (mol.IsInRing neighbour).map (fun r => !r) else pure false)
    if fresh then
      let (graph, child) ← CreateWLNNode mol neighbour st.graph
      if child = 0 then return ({ st with graph := graph }, false)
      else
        let obabel := { st.obabel with
          atom_symbol_map := setAt st.obabel.atom_symbol_map neighbour child,
          symbol_atom_map := setAt st.obabel.symbol_atom_map child neighbour }
        match mol.GetBond atom neighbour with
        | none => return ({ st with graph := graph, obabel := obabel }, false)
        | some bond =>
          let order := bond.order
          let (graph, edge) ← AllocateWLNEdge fuel child node graph
          let (graph, _) ← (if order > 1 then unsaturate_edge edge (order - 1) graph
            else pure (graph, edge))
          let push ← unvisitedAcyclic mol visited neighbour
          linkNbors fuel mol atom node visited rest
            { graph := graph, obabel := obabel,
              stack := if push then neighbour :: st.stack else st.stack }
    else
      let push ← unvisitedAcyclic mol visited neighbour
      linkNbors fuel mol atom node visited rest
        { st with stack := if push then neighbour :: st.stack else st.stack }

/-- Loop `while(!atom_stack.empty())` of `BuildWLNTree`; the result carries `root`. -/
def BuildWLNTree.loop (mol : OBMol) :
    Nat → (Nat → Bool) → Nat → TreeState → Except Fault (TreeState × Nat)
  | 0, _, _, _ => .error .outOfFuel
  | fuel + 1, visited, root, st =>
    match st.stack with
    | [] => .ok (st, root)
    | atom :: stack => do
      let st := { st with stack := stack }
      let visited := setAt visited atom true
      let a ← mol.atom atom
      if a.formalCharge = -1 ∧ a.atomicNum = 8 then
        let stack ← pushAcyclic mol visited (mol.nbors atom) st.stack
        BuildWLNTree.loop mol fuel visited root { st with stack := stack }
      else if st.obabel.atom_symbol_map atom = 0 then
        let (graph, node) ← CreateWLNNode mol atom st.graph
        let root := if root = 0 then node else root
        if node = 0 then return ({ st with graph := graph }, 0)
        else
          let obabel := { st.obabel with
            atom_symbol_map := setAt st.obabel.atom_symbol_map atom node,
            symbol_atom_map := setAt st.obabel.symbol_atom_map node atom }
          let (st, go) ← linkNbors (fuel + 1) mol atom node visited (mol.nbors atom)
            { st with graph := graph, obabel := obabel }
          if !go then return (st, 0)
          else BuildWLNTree.loop mol fuel visited root st
      else
        let (st, go) ← linkNbors (fuel + 1) mol atom (st.obabel.atom_symbol_map atom) visited
          (mol.nbors atom) st
        if !go then return (st, 0)
        else BuildWLNTree.loop mol fuel visited root st

/-- Method `BuildWLNTree`: the root symbol, null on failure. -/
def BuildWLNTree (fuel : Nat) (start_atom : Nat) (mol : OBMol) (obabel : BabelGraph)
    (graph : WLNGraph) : Except Fault (BabelGraph × WLNGraph × Nat) := do
  let (st, root) ← BuildWLNTree.loop mol fuel (fun _ => false) 0 ⟨obabel, graph, [start_atom]⟩
  return (st.obabel, st.graph, root)

/-- Condition of `CheckCarbonyl` on one edge: an oxygen child on a double bond, or an
anionic oxygen child. -/
def isCarbonylEdge (mol : OBMol) (obabel : BabelGraph) (graph : WLNGraph) (edge : Nat) :
    Except Fault Bool :=
  let e := graph.EDGES edge
  if (graph.SYMBOLS e.child).ch = 'O' then
    if e.order = 2 then .ok true
    else (mol.GetFormalCharge (obabel.symbol_atom_map e.child)).map (fun c => c = -1)
  else .ok false

/-- Loop of `CheckCarbonyl`: the first carbonyl edge of the list, null when none. -/
def firstCarbonyl (mol : OBMol) (obabel : BabelGraph) (graph : WLNGraph) :
    List Nat → Except Fault Nat
  | [] => .ok 0
  | edge :: rest => do
    if ← isCarbonylEdge mol obabel graph edge then return edge
    else firstCarbonyl mol obabel graph rest

/-- Method `CheckCarbonyl`, with the updated `visited` map. -/
def CheckCarbonyl (fuel : Nat) (mol : OBMol) (obabel : BabelGraph) (graph : WLNGraph)
    (sym : Nat) (visited : Nat → Bool) : Except Fault (Bool × (Nat → Bool)) := do
  let edges ← edgesFrom graph fuel (graph.SYMBOLS sym).bonds
  let oxygen ← firstCarbonyl mol obabel graph edges
  if oxygen = 0 then return (false, visited)
  else return (true, setAt visited (graph.EDGES oxygen).child true)

/-- Loop of `CheckDIOXO`: the deque of oxygens, double-bonded ones to the front. -/
def dioxoDeque (mol : OBMol) (obabel : BabelGraph) (graph : WLNGraph) :
    List Nat → List Nat → Except Fault (List Nat)
  | [], oxygens => .ok oxygens
  | edge :: rest, oxygens =>
    let e := graph.EDGES edge
    if (graph.SYMBOLS e.child).ch = 'O' ∧ e.order = 2 then
      dioxoDeque mol obabel graph rest (e.child :: oxygens)
    else if (graph.SYMBOLS e.child).ch = 'O' then do
      if (← mol.GetFormalCharge (obabel.symbol_atom_map e.child)) = -1 then
        dioxoDeque mol obabel graph rest (oxygens ++ [e.child])
      else dioxoDeque mol obabel graph rest oxygens
    else dioxoDeque mol obabel graph rest oxygens

/-- Method `CheckDIOXO`, with the updated `visited` map. -/
def CheckDIOXO (fuel : Nat) (mol : OBMol) (obabel : BabelGraph) (graph : WLNGraph)
    (sym : Nat) (visited : Nat → Bool) : Except Fault (Bool × (Nat → Bool)) := do
  let edges ← edgesFrom graph fuel (graph.SYMBOLS sym).bonds
  let oxygens ← dioxoDeque mol obabel graph edges []
  match oxygens with
  | o0 :: o1 :: _ => return (true, setAt (setAt visited o0 true) o1 true)
  | _ => return (false, visited)

/-- Loop of `WriteCarbonChain`: the count and the last carbon of the run. -/
def carbonRun (graph : WLNGraph) : Nat → Nat → Nat → Except Fault (Nat × Nat)
  | 0, _, _ => .error .outOfFuel
  | fuel + 1, carbons, carbon_sym =>
    let bonds := (graph.SYMBOLS carbon_sym).bonds
    if bonds ≠ 0 ∧ (graph.SYMBOLS (graph.EDGES bonds).child).ch = '1'
        ∧ (graph.EDGES bonds).order = 1 then
      carbonRun graph fuel (u32 (carbons + 1)) (graph.EDGES bonds).child
    else .ok (carbons, carbon_sym)

/-- Method `WriteCarbonChain`: the last carbon with the extended buffer. -/
def WriteCarbonChain (fuel : Nat) (graph : WLNGraph) (sym : Nat) (buffer : String) :
    Except Fault (Nat × String) := do
  let (carbons, carbon_sym) ← carbonRun graph fuel 1 sym
  return (carbon_sym, buffer ++ toString carbons)

/-- State of the `while` loop of `WriteWLNFromNode`. -/
structure WriteState where
  graph : WLNGraph
  stack : List (Nat × Nat)
  branch_stack : List Nat
  visited : Nat → Bool
  prev : Nat
  following_terminator : Bool
  buffer : String

/-- Statement `prev->on_child++`. -/
def bumpOnChild (graph : WLNGraph) (prev : Nat) : WLNGraph :=
  graph.setSym prev { graph.SYMBOLS prev with on_child := u32 ((graph.SYMBOLS prev).on_child + 1) }

/-- Loop `while(!branch_stack.empty() && prev != branch_stack.top())` of the branching
return: pops the closed branches, one `&` for each that is not full. -/
def unwindBranches (graph : WLNGraph) (prev : Nat) : List Nat → String → List Nat × String
  | [], buffer => ([], buffer)
  | branch_top :: rest, buffer =>
    if prev ≠ branch_top then
      let s := graph.SYMBOLS branch_top
      let buffer := if s.num_children ≠ s.on_child ∨ s.num_edges < s.allowed_edges
        then buffer.push '&' else buffer
      unwindBranches graph prev rest buffer
    else (branch_top :: rest, buffer)

/-- Closing loop of `WriteWLNFromNode`: pushes the unvisited children of `top`. -/
def pushChildren (graph : WLNGraph) (visited : Nat → Bool) :
    List Nat → List (Nat × Nat) → List (Nat × Nat)
  | [], stack => stack
  | edge :: rest, stack =>
    let e := graph.EDGES edge
    if !visited e.child then pushChildren graph visited rest ((e.child, e.order) :: stack)
    else pushChildren graph visited rest stack

/-- Statements shared by the terminator symbols: `prev = branch_stack.top();
following_terminator = true;` when a branch is open. -/
def afterTerminator (st : WriteState) : WriteState :=
  match st.branch_stack with
  | [] => st
  | b :: _ => { st with prev := b, following_terminator := true }

/-- The `switch (top->ch)` of `WriteWLNFromNode`: the state and the symbol that `top`
names afterwards, or `none` for the `default:` label. -/
def writeSymbol (fuel : Nat) (mol : OBMol) (obabel : BabelGraph) (top : Nat)
    (st : WriteState) : Except Fault (Option (WriteState × Nat)) := do
  let t := st.graph.SYMBOLS top
  let c := t.ch
  if c = 'O' then
    return some ({ st with buffer := st.buffer.push 'O' }, top)
  else if c = 'Q' then
    let buffer := st.buffer.push 'Q'
    let buffer := if t.num_edges = 0 then buffer.push 'H' else buffer
    return some (afterTerminator { st with buffer := buffer }, top)
  else if c = '1' then
    let (last, buffer) ← WriteCarbonChain fuel st.graph top st.buffer
    return some ({ st with buffer := buffer, prev := last }, last)
  else if c = 'Y' ∨ c = 'X' then
    let (dioxo, visited) ← CheckDIOXO fuel mol obabel st.graph top st.visited
    if dioxo then
      return some ({ st with visited := visited, buffer := (st.buffer.push c).push 'W' }, top)
    else
      let (carbonyl, visited) ← CheckCarbonyl fuel mol obabel st.graph top visited
      if carbonyl then
        return some ({ st with visited := visited, buffer := st.buffer.push 'V' }, top)
      else
        return some ({ st with visited := visited, buffer := st.buffer.push c,
                               branch_stack := top :: st.branch_stack }, top)
  else if c = 'N' then
    if t.num_edges < 2 then
      let buffer := st.buffer.push 'Z'
      let buffer := if t.num_edges = 0 then buffer.push 'H' else buffer
      return some (afterTerminator { st with buffer := buffer }, top)
    else if t.num_children < 2 ∧ t.num_edges < 3 then
      return some ({ st with buffer := st.buffer.push 'M' }, top)
    else if t.num_children < 3 ∧ t.num_edges < 4 then
      let buffer := st.buffer.push 'N'
      let (dioxo, visited) ← CheckDIOXO fuel mol obabel st.graph top st.visited
      let buffer := if dioxo then buffer.push 'W' else buffer
      return some ({ st with visited := visited, buffer := buffer,
                             branch_stack := top :: st.branch_stack }, top)
    else
      let (dioxo, visited) ← CheckDIOXO fuel mol obabel st.graph top st.visited
      if dioxo then
        return some ({ st with visited := visited, buffer := (st.buffer.push 'N').push 'W' }, top)
      else
        return some ({ st with visited := visited, buffer := st.buffer.push 'K',
                               branch_stack := top :: st.branch_stack }, top)
  else if c = 'E' ∨ c = 'F' ∨ c = 'G' ∨ c = 'I' then
    if t.num_edges > 1 then
      let buffer := ((st.buffer.push '-').push c).push '-'
      let (dioxo, visited) ← CheckDIOXO fuel mol obabel st.graph top st.visited
      let buffer := if dioxo then buffer.push 'W' else buffer
      return some ({ st with visited := visited, buffer := buffer,
                             branch_stack := top :: st.branch_stack }, top)
    else
      let buffer := st.buffer.push c
      let hydrogen ← (if t.num_edges = 0
        then (mol.GetFormalCharge (obabel.symbol_atom_map top)).map (fun q => decide (q = 0))
        else pure false)
      let buffer := if hydrogen then buffer.push 'H' else buffer
      return some (afterTerminator { st with buffer := buffer }, top)
  else if c = 'B' ∨ c = 'S' ∨ c = 'P' then
    let buffer := st.buffer.push c
    let (dioxo, visited) ← CheckDIOXO fuel mol obabel st.graph top st.visited
    let buffer := if dioxo then buffer.push 'W' else buffer
    let branch_stack := if t.num_children > 0 then top :: st.branch_stack else st.branch_stack
    return some ({ st with visited := visited, buffer := buffer,
                           branch_stack := branch_stack }, top)
  else if c = '*' then
    let buffer := ((st.buffer.push '-') ++ t.special).push '-'
    let hydrogen ← (if t.num_edges = 0
      then (mol.GetFormalCharge (obabel.symbol_atom_map top)).map (fun q => decide (q = 0))
      else pure false)
    if hydrogen then return some ({ st with buffer := buffer.push 'H' }, top)
    else if t.num_children > 0 then
      return some ({ st with buffer := buffer, branch_stack := top :: st.branch_stack }, top)
    else return some ({ st with buffer := buffer }, top)
  else return none

/-- Head of a round of `WriteWLNFromNode`, from the test for a branching return down to
the bond unsaturations: `top` with bond order `order` has just been taken from the stack,
of which `stack` is the rest. -/
def enterSymbol (top order : Nat) (stack : List (Nat × Nat)) (st : WriteState) : WriteState :=
  let previous := (st.graph.SYMBOLS top).previous
  let st :=
    if (previous ≠ 0 ∧ st.prev ≠ 0) ∧ previous ≠ st.prev ∧ st.branch_stack ≠ [] then
      let prev := previous
      let buffer := if !st.following_terminator then st.buffer.push '&' else st.buffer
      let (branch_stack, buffer) := unwindBranches st.graph prev st.branch_stack buffer
      { st with prev := prev, buffer := buffer, branch_stack := branch_stack,
                graph := bumpOnChild st.graph prev }
    else if st.prev ≠ 0 then { st with graph := bumpOnChild st.graph st.prev }
    else st
  let st := { st with following_terminator := false, stack := stack,
                      visited := setAt st.visited top true, prev := top }
  let st := if order = 2 then { st with buffer := st.buffer.push 'U' } else st
  if order = 3 then { st with buffer := st.buffer ++ "UU" } else st

/-- Loop `while(!stack.empty())` of `WriteWLNFromNode`. -/
def WriteWLNFromNode.loop (mol : OBMol) (obabel : BabelGraph) :
    Nat → WriteState → Except Fault (Bool × WriteState)
  | 0, _ => .error .outOfFuel
  | fuel + 1, st =>
    match st.stack with
    | [] => .ok (true, st)
    | (top, order) :: stack =>
      if top = 0 then .error .nullDeref
      else do
        let st := enterSymbol top order stack st
        match ← writeSymbol (fuel + 1) mol obabel top st with
        | none => return (false, st)
        | some (st, top) =>
          let edges ← edgesFrom st.graph (fuel + 1) (st.graph.SYMBOLS top).bonds
          WriteWLNFromNode.loop mol obabel fuel
            { st with stack := pushChildren st.graph st.visited edges st.stack }

/-- Method `WriteWLNFromNode`: the result with the buffer and the graph after the run. -/
def WriteWLNFromNode (fuel : Nat) (mol : OBMol) (obabel : BabelGraph) (root : Nat)
    (graph : WLNGraph) (buffer : String) : Except Fault (Bool × WLNGraph × String) := do
  let (ok, st) ← WriteWLNFromNode.loop mol obabel fuel
    ⟨graph, [(root, 0)], [], fun _ => false, 0, false, buffer⟩
  return (ok, st.graph, st.buffer)

/-- Method `ParseNonCyclic`. -/
def ParseNonCyclic (fuel : Nat) (start_atom : Nat) (mol : OBMol) (obabel : BabelGraph)
    (graph : WLNGraph) (buffer : String) :
    Except Fault (Bool × BabelGraph × WLNGraph × String) := do
  let (obabel, graph, root_node) ← BuildWLNTree fuel start_atom mol obabel graph
  if root_node = 0 then return (false, obabel, graph, buffer)
  else
    let (ok, graph, buffer) ← WriteWLNFromNode fuel mol obabel root_node graph buffer
    return (ok, obabel, graph, buffer)

/-- The pair `std::pair<OBAtom **, unsigned int>` that `ParseCyclic` returns: the locant
path (`none` is the null pointer) and its size. -/
abbrev PathPair := Option (List Nat) × Nat

/-- State of the loop over the seeds in `ParseCyclic`. -/
structure SeedState where
  nt_pairs : List (Nat × Nat)
  nt_sizes : List Nat
  cyclic_strings : List String
  locant_paths : List (List Nat)

/-- Loop `for(i < seed_atoms.size())` of `ParseCyclic`; `none` is the return of the null pair. -/
def seedLoop (fuel : Nat) (mol : OBMol) (sssr : LocalSSSR) (path_size expected_rings : Nat) :
    List Nat → SeedState → Except Fault (Option SeedState)
  | [], st => .ok (some st)
  | seed :: rest, st => do
    match ← CreateLocantPath fuel mol sssr.local_SSSR sssr.ring_shares st.nt_pairs st.nt_sizes
        path_size seed with
    | none => return none
    | some ps =>
      let (cyclic_str, nt_pairs, nt_sizes) ←
        ReadLocantPath mol ps.locant_path path_size sssr.ring_shares ps.nt_pairs ps.nt_sizes
          expected_rings
      if cyclic_str = "" then return none
      else
        seedLoop fuel mol sssr path_size expected_rings rest
          ⟨nt_pairs, nt_sizes, st.cyclic_strings ++ [cyclic_str],
           st.locant_paths ++ [ps.locant_path]⟩

/-- Method `ParseCyclic`: the locant path of the minimal notation with its size, and the
graph and the buffer after the call. -/
def ParseCyclic (fuel : Nat) (ring_root : Nat) (mol : OBMol) (graph : WLNGraph)
    (buffer : String) : Except Fault (PathPair × WLNGraph × String) := do
  let (ring_type, sssr) ← ConstructLocalSSSR fuel ring_root mol
  let path_size := sssr.ring_atoms.length
  if path_size ≠ 0 ∧ ring_type ≠ 0 then
    let expected_rings := sssr.local_SSSR.length
    let seed_atoms := GetSeedAtoms sssr.ring_atoms sssr.ring_shares ring_type
    if seed_atoms = [] then return ((none, 0), graph, buffer)
    else
      match ← seedLoop fuel mol sssr path_size expected_rings seed_atoms ⟨[], [], [], []⟩ with
      | none => return ((none, 0), graph, buffer)
      | some st =>
        let minimal_index := MinimalWLNRingNotation st.cyclic_strings
        match st.cyclic_strings.get? minimal_index, st.locant_paths.get? minimal_index with
        | some str, some locant_path =>
          let buffer := buffer ++ str
          let (buffer, graph) ← ReadHeteroAtoms mol (locant_path.take path_size) 0 0 buffer graph
          return ((some locant_path, path_size), graph, buffer.push 'J')
        | _, _ => throw .outOfBounds
  else return ((none, 0), graph, buffer)

/-- State of `ParseAllCyclic`. -/
structure CyclicState where
  obabel : BabelGraph
  graph : WLNGraph
  buffer : String

/-- Loop `FOR_BONDS_OF_ATOM` of `ParseAllCyclic` for the ring atom at position `i`; the
flag is false when the loop left through `return false`. -/
def externalBranches (fuel : Nat) (mol : OBMol) (i : Nat) :
    List OBBond → CyclicState → Except Fault (CyclicState × Bool)
  | [], st => .ok (st, true)
  | b :: rest, st => do
    let ext_atom := b.endAtom
    if !(← mol.IsInRing ext_atom) then
      let buffer := (st.buffer.push ' ').push (int_to_locant (i + 1))
      let buffer := if b.order > 1 then buffer.push 'U' else buffer
      let buffer := if b.order > 2 then buffer.push 'U' else buffer
      let (ok, obabel, graph, buffer) ← ParseNonCyclic fuel ext_atom mol st.obabel st.graph buffer
      if !ok then return (⟨obabel, graph, buffer⟩, false)
      else externalBranches fuel mol i rest ⟨obabel, graph, buffer⟩
    else externalBranches fuel mol i rest st

/-- Loop `for(i < path_size)` of `ParseAllCyclic`, from position `i` on. -/
def locantBranches (fuel : Nat) (mol : OBMol) :
    List Nat → Nat → CyclicState → Except Fault (CyclicState × Bool)
  | [], _, st => .ok (st, true)
  | a :: rest, i, st => do
    if !st.obabel.ring_handled a then
      let st := { st with obabel :=
        { st.obabel with ring_handled := setAt st.obabel.ring_handled a true } }
      let _ ← mol.atom a
      let (st, go) ← externalBranches fuel mol i (mol.bondsOf a) st
      if !go then return (st, false)
      else locantBranches fuel mol rest (i + 1) st
    else locantBranches fuel mol rest (i + 1) st

/-- Loop `while(!locant_stack.empty())` of `ParseAllCyclic`.  Nothing pops the stack; the
flag beside each pair records that `free(loc_path)` has run on it, after which the next
round reads (or frees again) released memory. -/
def ParseAllCyclic.loop (mol : OBMol) :
    Nat → List (PathPair × Bool) → CyclicState → Except Fault (Bool × CyclicState)
  | 0, _, _ => .error .outOfFuel
  | fuel + 1, locant_stack, st =>
    match locant_stack with
    | [] => .ok (true, st)
    | ((loc_path, path_size), freed) :: below =>
      match loc_path with
      | none => .ok (false, st)
      | some path =>
        if freed then .error .useAfterFree
        else do
          let (st, go) ← locantBranches (fuel + 1) mol (path.take path_size) 0 st
          if !go then return (false, st)
          else ParseAllCyclic.loop mol fuel (((some path, path_size), true) :: below) st

/-- Argument `mol->GetSSSR()[0]->_path[0]` of the first `ParseCyclic` call. -/
def firstRingAtom (mol : OBMol) : Except Fault Nat :=
  match mol.sssr with
  | [] => .error .outOfBounds
  | r :: _ =>
    match r.path with
    | [] => .error .outOfBounds
    | idx :: _ => .ok idx

/-- Method `ParseAllCyclic`. -/
def ParseAllCyclic (fuel : Nat) (mol : OBMol) (obabel : BabelGraph) (graph : WLNGraph)
    (buffer : String) : Except Fault (Bool × CyclicState) := do
  let first ← firstRingAtom mol
  let (path_pair, graph, buffer) ← ParseCyclic fuel (mol.GetAtom first) mol graph buffer
  ParseAllCyclic.loop mol fuel [(path_pair, false)] ⟨obabel, graph, buffer⟩

/-! ## The API function -/

/-- Loop `FOR_ATOMS_OF_MOL` of the acyclic branch of `WriteWLN`; the flag is false when
the loop left through `return false`. -/
def componentLoop (fuel : Nat) (mol : OBMol) :
    List Nat → Bool → CyclicState → Except Fault (CyclicState × Bool)
  | [], _, st => .ok (st, true)
  | a :: rest, started, st => do
    if st.obabel.atom_symbol_map a = 0 then
      let buffer := if started then st.buffer ++ " &" else st.buffer
      let (ok, obabel, graph, buffer) ← ParseNonCyclic fuel a mol st.obabel st.graph buffer
      if !ok then return (⟨obabel, graph, buffer⟩, false)
      else componentLoop fuel mol rest true ⟨obabel, graph, buffer⟩
    else componentLoop fuel mol rest started st

/-- Function `WriteWLN(buffer, mol)`: the returned flag with the buffer after the call. -/
def WriteWLN (fuel : Nat) (buffer : String) (mol : OBMol) : Except Fault (Bool × String) :=
  let wln_graph := WLNGraph.new
  let obabel := BabelGraph.new
  let cyclic := mol.sssr.length
  if cyclic = 0 then
    (componentLoop fuel mol (List.range' 1 mol.atoms.length) false
      ⟨obabel, wln_graph, buffer⟩).map (fun r => (r.2, r.1.buffer))
  else
    (ParseAllCyclic fuel mol obabel wln_graph buffer).map (fun r => (r.1, r.2.buffer))

/-! ## The grammar automaton of `wlngrep.cpp` -/

/-- Modelled from the spec: the automaton type `FSMAutomata` of `rfsm.h`, which is not
among the sources.  A state is an integer identity with an accept flag (states are
numbered in the order `AddState` makes them); the adjacency of the NFA is the list of
labelled transitions `(source, target, input byte)`. -/
structure FSMAutomata where
  root : Option Nat
  accept : List Bool
  transitions : List (Nat × Nat × Char)
  deriving DecidableEq, Repr

namespace FSMAutomata

/-- Modelled from the spec: `AddState(accept)` of `rfsm.h` appends a state with the given
accept flag and returns it; the first state made is the root. -/
def AddState (accept : Bool) : StateM FSMAutomata Nat := fun m =>
  (m.accept.length,
   ⟨if m.root = none then some m.accept.length else m.root, m.accept ++ [accept], m.transitions⟩)

/-- Modelled from the spec: `AddTransition(source, target, ch)` of `rfsm.h` adds one
labelled transition. -/
def AddTransition (source target : Nat) (ch : Char) : StateM FSMAutomata Unit := fun m =>
  ((), ⟨m.root, m.accept, (source, target, ch) :: m.transitions⟩)

/-- Modelled from the spec: the set of states the NFA can be in after one more input
byte. -/
def step (m : FSMAutomata) (states : List Nat) (ch : Char) : List Nat :=
  (m.transitions.filter (fun t => states.contains t.1 && t.2.2 == ch)).map (fun t => t.2.1)

/-- Modelled from the spec: states reachable from the root on the whole input. -/
def run (m : FSMAutomata) (input : List Char) : List Nat :=
  input.foldl m.step m.root.toList

/-- Modelled from the spec: the NFA accepts an input when some run from the root over the
whole input ends in an accepting state. -/
def accepts (m : FSMAutomata) (input : String) : Bool :=
  (m.run input.toList).any (fun q => (m.accept.get? q).getD false)

end FSMAutomata

/-- The characters `lo, lo+1, ..., hi` of a loop `for(unsigned char ch = lo; ch <= hi; ch++)`. -/
def chars (lo hi : Char) : List Char :=
  (List.range' lo.toNat (hi.toNat + 1 - lo.toNat)).map Char.ofNat

set_option maxRecDepth 8000 in
open FSMAutomata in
/-- Function `BuildWLNFSM`: adds the states and transitions of the WLN grammar to an
automaton whose root is `root`. -/
def BuildWLNFSM (root : Nat) : StateM FSMAutomata Unit := do
  let first_allowed ← AddState true
  let digits ← AddState true
  for ch in chars '1' '9' do
    AddTransition root digits ch
    AddTransition first_allowed digits ch
  for ch in chars '0' '9' do
    AddTransition digits digits ch
  for ch in chars 'A' 'Z' do
    if ['L', 'T', 'D', 'J', 'A', ' ', '-', '&', '/', 'U', 'R'].contains ch then pure ()
    else
      AddTransition root first_allowed ch
      AddTransition first_allowed first_allowed ch
      AddTransition digits first_allowed ch
  let branch ← AddState true
  AddTransition first_allowed branch '&'
  AddTransition branch branch '&'
  AddTransition digits branch '&'
  for ch in chars 'A' 'Z' do
    if ['L', 'T', 'D', 'J', 'A', ' ', '-', '&', '/', 'U', 'H', 'R'].contains ch then pure ()
    else
      AddTransition branch first_allowed ch
  for ch in chars '1' '9' do
    AddTransition branch digits ch
  let db_only ← AddState false
  AddTransition db_only db_only 'U'
  AddTransition first_allowed db_only 'U'
  AddTransition digits db_only 'U'
  AddTransition branch db_only 'U'
  for ch in chars 'A' 'Z' do
    if ['L', 'T', 'D', 'J', 'A', ' ', '-', '/', 'U', 'H', 'C', 'R'].contains ch then pure ()
    else
      AddTransition db_only first_allowed ch
  for ch in chars '1' '9' do
    AddTransition db_only digits ch
  let element_dash_start ← AddState false
  let element_dash_end ← AddState true
  AddTransition root element_dash_start '-'
  AddTransition first_allowed element_dash_start '-'
  AddTransition db_only element_dash_start '-'
  AddTransition digits element_dash_start '-'
  AddTransition branch element_dash_start '-'
  let char_1 ← AddState false
  let char_2 ← AddState false
  for ch in chars 'A' 'Z' do
    AddTransition element_dash_start char_1 ch
    AddTransition char_1 char_2 ch
  AddTransition char_2 element_dash_end '-'
  let hypo_char ← AddState false
  AddTransition element_dash_start hypo_char 'P'
  AddTransition element_dash_start hypo_char 'S'
  AddTransition element_dash_start hypo_char 'E'
  AddTransition element_dash_start hypo_char 'F'
  AddTransition element_dash_start hypo_char 'G'
  AddTransition element_dash_start hypo_char 'I'
  AddTransition element_dash_start hypo_char 'E'
  AddTransition hypo_char element_dash_end '-'
  for ch in chars 'A' 'Z' do
    if ['L', 'T', 'D', 'J', 'A', ' ', '-', '&', '/', 'U', 'R'].contains ch then pure ()
    else
      AddTransition element_dash_end first_allowed ch
  for ch in chars '1' '9' do
    AddTransition element_dash_end digits ch
  AddTransition element_dash_end db_only 'U'
  AddTransition element_dash_end branch '&'
  let ion_space ← AddState false
  let ion_ampersand ← AddState false
  AddTransition ion_space ion_ampersand '&'
  AddTransition first_allowed ion_space ' '
  AddTransition digits ion_space ' '
  AddTransition branch ion_space ' '
  AddTransition element_dash_end ion_space ' '
  for ch in chars 'A' 'Z' do
    if ['L', 'T', 'D', 'J', 'A', ' ', '-', '&', '/', 'U', 'H'].contains ch then pure ()
    else
      AddTransition ion_ampersand first_allowed ch
  for ch in chars '1' '9' do
    AddTransition ion_ampersand digits ch
  AddTransition ion_ampersand element_dash_start '-'
  let charge_start ← AddState false
  let charge_end ← AddState true
  let charge_slash ← AddState false
  for ch in chars '1' '9' do
    AddTransition ion_ampersand charge_start ch
  for ch in chars '0' '9' do
    AddTransition charge_start charge_start ch
  AddTransition charge_start charge_slash '/'
  for ch in chars '1' '9' do
    AddTransition charge_slash charge_end ch
  for ch in chars '0' '9' do
    AddTransition charge_end charge_end ch
  AddTransition charge_end ion_space ' '
  let benzene ← AddState true
  AddTransition root benzene 'R'
  AddTransition benzene benzene 'R'
  AddTransition first_allowed benzene 'R'
  AddTransition digits benzene 'R'
  AddTransition db_only benzene 'R'
  AddTransition element_dash_end benzene 'R'
  AddTransition branch benzene 'R'
  for ch in chars 'A' 'Z' do
    if ['L', 'T', 'D', 'J', 'A', ' ', '-', '&', '/', 'U', 'H'].contains ch then pure ()
    else
      AddTransition benzene first_allowed ch
  for ch in chars '1' '9' do
    AddTransition benzene digits ch
  AddTransition benzene branch '&'
  AddTransition benzene element_dash_start '-'
  AddTransition benzene db_only 'U'
  AddTransition benzene ion_space ' '
  let locant_space ← AddState false
  let locant_ch ← AddState true
  AddTransition benzene locant_space ' '
  for ch in chars 'A' 'Z' do
    AddTransition locant_space locant_ch ch
  AddTransition locant_space locant_ch '0'
  for ch in chars 'A' 'Z' do
    if ['L', 'T', 'D', 'J', 'A', ' ', '-', '&', '/', 'U', 'H'].contains ch then pure ()
    else
      AddTransition locant_ch first_allowed ch
  for ch in chars '1' '9' do
    AddTransition locant_ch digits ch
  AddTransition locant_ch element_dash_start '-'
  AddTransition locant_ch branch '&'
  AddTransition locant_ch db_only 'U'
  AddTransition first_allowed locant_space ' '
  AddTransition digits locant_space ' '
  AddTransition branch locant_space ' '
  AddTransition element_dash_end locant_space ' '
  let open_ring ← AddState false
  let close_ring ← AddState true
  AddTransition root open_ring 'L'
  AddTransition root open_ring 'T'
  AddTransition close_ring locant_space ' '
  AddTransition close_ring ion_space ' '
  AddTransition ion_ampersand open_ring 'L'
  AddTransition ion_ampersand open_ring 'T'
  AddTransition close_ring close_ring '&'
  let ring_digits ← AddState false
  for ch in chars '0' '9' do
    AddTransition ring_digits ring_digits ch
  for ch in chars '1' '9' do
    AddTransition open_ring ring_digits ch
  AddTransition ring_digits close_ring 'J'
  let big_ring_dash_open ← AddState false
  let big_ring_dash_close ← AddState false
  let big_ring_digits ← AddState false
  AddTransition open_ring big_ring_dash_open '-'
  for ch in chars '1' '9' do
    AddTransition big_ring_dash_open big_ring_digits ch
  for ch in chars '0' '9' do
    AddTransition big_ring_digits big_ring_digits ch
  AddTransition big_ring_digits big_ring_dash_close '-'
  for ch in chars '1' '9' do
    AddTransition big_ring_dash_close ring_digits ch
  AddTransition ring_digits big_ring_dash_open '-'
  AddTransition big_ring_dash_close big_ring_dash_open '-'
  AddTransition big_ring_dash_close close_ring 'J'
  let digit_space ← AddState false
  let digit_locant ← AddState false
  AddTransition digit_locant digit_locant '&'
  AddTransition digit_locant digit_locant '-'
  AddTransition digit_locant digit_space ' '
  AddTransition open_ring digit_space ' '
  for ch in chars 'A' 'Z' do
    AddTransition digit_space digit_locant ch
  for ch in chars '1' '9' do
    AddTransition digit_locant ring_digits ch
  AddTransition digit_locant big_ring_dash_open '-'
  AddTransition ring_digits digit_space ' '
  AddTransition big_ring_dash_close digit_space ' '
  let multi_space ← AddState false
  let multi_digit ← AddState false
  let multi_locants ← AddState false
  AddTransition digit_locant multi_space ' '
  AddTransition ring_digits multi_space ' '
  AddTransition big_ring_dash_close multi_space ' '
  for ch in chars '1' '9' do
    AddTransition multi_space multi_digit ch
  for ch in chars 'A' 'Z' do
    AddTransition multi_digit multi_locants ch
    AddTransition multi_locants multi_locants ch
  let multi_size_space ← AddState false
  let multi_size ← AddState false
  AddTransition multi_locants multi_locants '&'
  AddTransition multi_locants multi_locants '-'
  AddTransition multi_locants multi_size_space ' '
  for ch in chars 'A' 'Z' do
    AddTransition multi_size_space multi_size ch
  AddTransition multi_size multi_size '&'
  AddTransition multi_size close_ring 'J'
  let pair_slash ← AddState false
  let pair_loc_a ← AddState false
  let pair_loc_b ← AddState false
  AddTransition ring_digits pair_slash '/'
  AddTransition big_ring_dash_close pair_slash '/'
  for ch in chars 'A' 'Z' do
    AddTransition pair_slash pair_loc_a ch
  AddTransition pair_loc_a pair_loc_a '&'
  AddTransition pair_loc_a pair_loc_a '-'
  for ch in chars 'A' 'Z' do
    AddTransition pair_loc_a pair_loc_b ch
  AddTransition pair_loc_b pair_loc_b '&'
  AddTransition pair_loc_b pair_loc_b '-'
  AddTransition pair_loc_b pair_slash '/'
  AddTransition pair_loc_b digit_space ' '
  AddTransition pair_loc_b multi_space ' '
  let hetero_space ← AddState false
  let hetero_locant ← AddState false
  let hetero_atom ← AddState false
  for ch in chars 'A' 'Z' do
    if ['L', 'T', 'D', 'J', 'A', ' ', '-', '/'].contains ch then pure ()
    else
      AddTransition hetero_locant hetero_atom ch
      AddTransition hetero_atom hetero_atom ch
      AddTransition ring_digits hetero_atom ch
      AddTransition big_ring_dash_close hetero_atom ch
  AddTransition hetero_atom close_ring 'J'
  AddTransition hetero_atom hetero_space ' '
  AddTransition ring_digits hetero_space ' '
  AddTransition big_ring_dash_close hetero_space ' '
  for ch in chars 'A' 'Z' do
    AddTransition hetero_space hetero_locant ch
  AddTransition hetero_locant hetero_locant '&'
  AddTransition multi_size hetero_space ' '
  AddTransition hetero_locant hetero_space ' '
  let aromatics ← AddState false
  AddTransition aromatics aromatics '&'
  AddTransition aromatics aromatics 'T'
  AddTransition aromatics close_ring 'J'
  AddTransition big_ring_dash_close aromatics '&'
  AddTransition big_ring_dash_close aromatics 'T'
  AddTransition ring_digits aromatics '&'
  AddTransition ring_digits aromatics 'T'
  AddTransition hetero_atom aromatics '&'
  AddTransition hetero_atom aromatics 'T'
  AddTransition multi_size aromatics ' '
  AddTransition multi_size aromatics 'T'
  AddTransition multi_size aromatics '&'
  let inline_ring ← AddState false
  let inline_space ← AddState false
  let inline_locant ← AddState false
  AddTransition inline_ring inline_ring '&'
  AddTransition first_allowed inline_ring '-'
  AddTransition element_dash_end inline_ring '-'
  AddTransition digits inline_ring '-'
  AddTransition branch inline_ring '-'
  AddTransition db_only inline_ring '-'
  AddTransition locant_ch inline_ring '-'
  AddTransition inline_ring inline_space ' '
  for ch in chars 'A' 'Z' do
    AddTransition inline_space inline_locant ch
  AddTransition inline_space inline_locant '0'
  AddTransition inline_locant inline_locant '&'
  AddTransition inline_locant open_ring 'L'
  AddTransition inline_locant open_ring 'T'

open FSMAutomata in
/-- The NFA that `CreateWLNDFA` builds before it determinises: `wln->AddState()` makes the
root, whose accept flag is the default argument declared in `rfsm.h`, then `BuildWLNFSM`
fills the automaton in. -/
def CreateWLNNFA (rootAccept : Bool) : FSMAutomata :=
  ((do let root ← AddState rootAccept; BuildWLNFSM root) ⟨none, [], []⟩).2

/-! ## Molecules of the end-to-end scenarios -/

/-- A carbon atom with the given explicit valence and ring flag. -/
def carbon (explicitValence : Nat) (inRing : Bool) : OBAtom := ⟨6, 0, explicitValence, inRing⟩

/-- Ethanol as read from the SMILES `CCO`: atoms C, C, O. -/
def ethanol : OBMol :=
  ⟨[carbon 1 false, carbon 2 false, ⟨8, 0, 1, false⟩], [⟨1, 2, 1⟩, ⟨2, 3, 1⟩], []⟩

/-- Ethanol as read from the SMILES `OCC`: atoms O, C, C. -/
def ethanolFromOxygen : OBMol :=
  ⟨[⟨8, 0, 1, false⟩, carbon 2 false, carbon 1 false], [⟨1, 2, 1⟩, ⟨2, 3, 1⟩], []⟩

/-- Acetone as read from the SMILES `CC(=O)C`. -/
def acetone : OBMol :=
  ⟨[carbon 1 false, carbon 4 false, ⟨8, 0, 2, false⟩, carbon 1 false],
   [⟨1, 2, 1⟩, ⟨2, 3, 2⟩, ⟨2, 4, 1⟩], []⟩

/-- Benzene as read from the SMILES `c1ccccc1`, kekulised, with its one SSSR ring. -/
def benzene : OBMol :=
  ⟨List.replicate 6 (carbon 3 true),
   [⟨1, 2, 2⟩, ⟨2, 3, 1⟩, ⟨3, 4, 2⟩, ⟨4, 5, 1⟩, ⟨5, 6, 2⟩, ⟨1, 6, 1⟩],
   [⟨[1, 2, 3, 4, 5, 6]⟩]⟩

/-- Pyridine as read from the SMILES `c1ccncc1`, kekulised, with its one SSSR ring. -/
def pyridine : OBMol :=
  ⟨[carbon 3 true, carbon 3 true, carbon 3 true, ⟨7, 0, 3, true⟩, carbon 3 true, carbon 3 true],
   [⟨1, 2, 2⟩, ⟨2, 3, 1⟩, ⟨3, 4, 2⟩, ⟨4, 5, 1⟩, ⟨5, 6, 2⟩, ⟨1, 6, 1⟩],
   [⟨[1, 2, 3, 4, 5, 6]⟩]⟩

/-- Naphthalene as read from the SMILES `c1ccc2ccccc2c1`, kekulised: atoms 4 and 9 are the
fusion atoms of its two six-membered SSSR rings. -/
def naphthalene : OBMol :=
  ⟨[carbon 3 true, carbon 3 true, carbon 3 true, carbon 4 true, carbon 3 true,
    carbon 3 true, carbon 3 true, carbon 3 true, carbon 4 true, carbon 3 true],
   [⟨1, 2, 2⟩, ⟨2, 3, 1⟩, ⟨3, 4, 2⟩, ⟨4, 5, 1⟩, ⟨5, 6, 2⟩, ⟨6, 7, 1⟩, ⟨7, 8, 2⟩, ⟨8, 9, 1⟩,
    ⟨4, 9, 1⟩, ⟨9, 10, 2⟩, ⟨1, 10, 1⟩],
   [⟨[1, 2, 3, 4, 9, 10]⟩, ⟨[4, 5, 6, 7, 8, 9]⟩]⟩

/-- The molecule without atoms. -/
def emptyMolecule : OBMol := ⟨[], [], []⟩

/-- Two silicon atoms joined by a single bond, as read from the SMILES `[Si][Si]`. -/
def disilicon : OBMol := ⟨[⟨14, 0, 1, false⟩, ⟨14, 0, 1, false⟩], [⟨1, 2, 1⟩], []⟩

/-- The unbranched saturated chain of `n` carbon atoms, listed from one end to the other,
as read from the SMILES `CC...C`. -/
def carbonChain (n : Nat) : OBMol :=
  ⟨(List.range n).map
      (fun i => carbon ((if 0 < i then 1 else 0) + (if i + 1 < n then 1 else 0)) false),
   (List.range (n - 1)).map (fun i => ⟨i + 1, i + 2, 1⟩), []⟩

/-- Does a run return with the success flag set. -/
def returnsSuccess (r : Except Fault (Bool × String)) : Bool :=
  match r with
  | .ok (true, _) => true
  | _ => false

/-- Modelled from the spec: every run of the NFA from the root over the whole input ends
in an accepting state, and there is such a run. -/
def FSMAutomata.everyRunAccepts (m : FSMAutomata) (input : String) : Bool :=
  let final := m.run input.toList
  !final.isEmpty && final.all (fun q => (m.accept.get? q).getD false)

/-- Result of `ParseCyclic` seen from outside: the returned pair and the buffer. -/
def cyclicResult (r : Except Fault (PathPair × WLNGraph × String)) :
    Except Fault (PathPair × String) :=
  r.map (fun x => (x.1, x.2.2))

/-! ## Further molecules, graphs and notions of the statements -/

/-- Sum of the orders of the bonds of an atom. -/
def orderSum (mol : OBMol) (atom : Nat) : Nat := ((mol.bondsOf atom).map (fun b => b.order)).sum

/-- Isopropanol as read from the SMILES `CC(C)O`. -/
def isopropanol : OBMol :=
  ⟨[carbon 1 false, carbon 3 false, carbon 1 false, ⟨8, 0, 1, false⟩],
   [⟨1, 2, 1⟩, ⟨2, 3, 1⟩, ⟨2, 4, 1⟩], []⟩

/-- Ammonia as read from the SMILES `N`: the hydrogens are implicit, the explicit valence
of the nitrogen is 0. -/
def ammonia : OBMol := ⟨[⟨7, 0, 0, false⟩], [], []⟩

/-- Chloromethane as read from the SMILES `CCl`. -/
def chloromethane : OBMol := ⟨[carbon 1 false, ⟨17, 0, 1, false⟩], [⟨1, 2, 1⟩], []⟩

/-- A lone neutral atom of the given element, as read from a SMILES such as `[W]`. -/
def singleAtom (atomicNum : Nat) : OBMol := ⟨[⟨atomicNum, 0, 0, false⟩], [], []⟩

/-- Atomic numbers of H, B, C, N, O, F, P, S, Cl, Br and I, the elements with a one-letter
`case` in `CreateWLNNode`. -/
def standardElements : List Nat := [1, 5, 6, 7, 8, 9, 15, 16, 17, 35, 53]

/-- Is the string made of exactly two letters `A`..`Z`. -/
def isTwoUppercase (code : String) : Bool :=
  code.length == 2 && code.toList.all (fun c => 'A' ≤ c && c ≤ 'Z')

/-- Does `CreateWLNNode`, on a lone atom of the given element and a fresh graph, return a
symbol with tag `*`, a payload of two uppercase letters and 8 allowed edges. -/
def specialCreated (atomicNum : Nat) : Bool :=
  match CreateWLNNode (singleAtom atomicNum) 1 WLNGraph.new with
  | .ok (g, node) =>
    node ≠ 0 && (g.SYMBOLS node).ch = '*' && isTwoUppercase (g.SYMBOLS node).special
      && (g.SYMBOLS node).allowed_edges = 8
  | .error _ => false

/-- A graph that holds two symbols `X` with 4 allowed edges each and no edge, made with
`AllocateWLNSymbol` and `set_edge_and_type`. -/
def twoSymbols : WLNGraph :=
  let g := (AllocateWLNSymbol 'X' WLNGraph.new).1
  let g := g.setSym 1 ((g.SYMBOLS 1).set_edge_and_type 4)
  let g := (AllocateWLNSymbol 'X' g).1
  g.setSym 2 ((g.SYMBOLS 2).set_edge_and_type 4)

/-- Calls of `AllocateWLNEdge(child, parent, graph)` one after the other, as many as the
list is long: the pointers returned, and the edges of the parent's list after the last
call. -/
def allocateRepeatedly (fuel child parent : Nat) :
    List Unit → WLNGraph → Except Fault (List Nat × List WLNEdge)
  | [], graph =>
    (edgesFrom graph fuel (graph.SYMBOLS parent).bonds).map (fun l => ([], l.map graph.EDGES))
  | _ :: rest, graph => do
    let (graph, edge) ← AllocateWLNEdge fuel child parent graph
    let (edges, l) ← allocateRepeatedly fuel child parent rest graph
    return (edge :: edges, l)

/-- Carbon monoxide as read from the SMILES `[C-]#[O+]`: both atoms have explicit
valence 3. -/
def carbonMonoxide : OBMol := ⟨[⟨6, -1, 3, false⟩, ⟨8, 1, 3, false⟩], [⟨1, 2, 3⟩], []⟩

/-- The statements of `BuildWLNTree` for the bond between the first two atoms of `mol`,
written out: both symbols are made, the edge is allocated and `unsaturate_edge(edge, n)` is
called.  The result is the pointer that `unsaturate_edge` returns, with the child symbol as
the call leaves it. -/
def unsaturateFirstBond (fuel n : Nat) (mol : OBMol) : Except Fault (Nat × WLNSymbol) := do
  let (graph, node) ← CreateWLNNode mol 1 WLNGraph.new
  let (graph, child) ← CreateWLNNode mol 2 graph
  let (graph, edge) ← AllocateWLNEdge fuel child node graph
  let (graph, edge) ← unsaturate_edge edge n graph
  return (edge, graph.SYMBOLS child)

/-- The symbols of the graph that `BuildWLNTree` leaves behind on a fresh graph, in the
order of their allocation, with the root it returns. -/
def treeSymbols (fuel start_atom : Nat) (mol : OBMol) : Except Fault (Nat × List WLNSymbol) :=
  (BuildWLNTree fuel start_atom mol BabelGraph.new WLNGraph.new).map
    (fun r => (r.2.2, (List.range r.2.1.symbol_count).map (fun i => r.2.1.SYMBOLS (i + 1))))

/-- Is there a symbol in the list with more edges than it is allowed. -/
def exceedsCap (symbols : List WLNSymbol) : Bool :=
  symbols.any (fun s => s.num_edges > s.allowed_edges)

/-- The molecule 2-phenylnaphthalene as read from the SMILES `c1(ccc2ccccc2c1)c1ccccc1`,
kekulised: atoms 1 to 10 are the naphthalene (fusion atoms 4 and 9), atoms 11 to 16 the
phenyl ring, bonded to atom 1. -/
def phenylnaphthalene : OBMol :=
  ⟨[carbon 4 true, carbon 3 true, carbon 3 true, carbon 4 true, carbon 3 true,
    carbon 3 true, carbon 3 true, carbon 3 true, carbon 4 true, carbon 3 true,
    carbon 4 true, carbon 3 true, carbon 3 true, carbon 3 true, carbon 3 true, carbon 3 true],
   [⟨1, 2, 2⟩, ⟨2, 3, 1⟩, ⟨3, 4, 2⟩, ⟨4, 5, 1⟩, ⟨5, 6, 2⟩, ⟨6, 7, 1⟩, ⟨7, 8, 2⟩, ⟨8, 9, 1⟩,
    ⟨4, 9, 1⟩, ⟨9, 10, 2⟩, ⟨1, 10, 1⟩, ⟨1, 11, 1⟩, ⟨11, 12, 2⟩, ⟨12, 13, 1⟩, ⟨13, 14, 2⟩,
    ⟨14, 15, 1⟩, ⟨15, 16, 2⟩, ⟨11, 16, 1⟩],
   [⟨[1, 2, 3, 4, 9, 10]⟩, ⟨[4, 5, 6, 7, 8, 9]⟩, ⟨[11, 12, 13, 14, 15, 16]⟩]⟩

/-- Benzonorbornene (1,2,3,4-tetrahydro-1,4-methanonaphthalene) as read from the SMILES
`c12ccccc1C1CCC2C1`: atoms 1 to 6 are the benzene ring, 7 and 10 the bridgeheads, 11 the
bridge; the SSSR lists the two five-membered rings before the six-membered one. -/
def benzonorbornene : OBMol :=
  ⟨[carbon 4 true, carbon 3 true, carbon 3 true, carbon 3 true, carbon 3 true, carbon 4 true,
    carbon 3 true, carbon 2 true, carbon 2 true, carbon 3 true, carbon 2 true],
   [⟨1, 2, 2⟩, ⟨2, 3, 1⟩, ⟨3, 4, 2⟩, ⟨4, 5, 1⟩, ⟨5, 6, 2⟩, ⟨1, 6, 1⟩, ⟨6, 7, 1⟩, ⟨7, 8, 1⟩,
    ⟨8, 9, 1⟩, ⟨9, 10, 1⟩, ⟨1, 10, 1⟩, ⟨10, 11, 1⟩, ⟨7, 11, 1⟩],
   [⟨[10, 11, 7, 6, 1]⟩, ⟨[8, 7, 11, 10, 9]⟩, ⟨[6, 5, 4, 3, 2, 1]⟩]⟩

/-- What `ParseCyclic` has after `ConstructLocalSSSR` and `GetSeedAtoms`: the ring type,
the ring atoms, the rings of the system and the seeds. -/
def ringSystem (fuel ring_root : Nat) (mol : OBMol) :
    Except Fault (Nat × List Nat × List Nat × List Nat) :=
  (ConstructLocalSSSR fuel ring_root mol).map
    (fun r => (r.1, r.2.ring_atoms, r.2.local_SSSR,
      GetSeedAtoms r.2.ring_atoms r.2.ring_shares r.1))

/-- The call of `CreateLocantPath` that `ParseCyclic` makes for the seed `seed`, on empty
pair vectors: the locant path with the pairs and sizes, `none` for the null path. -/
def seedCandidate (fuel ring_root : Nat) (mol : OBMol) (seed : Nat) :
    Except Fault (Option (List Nat × List (Nat × Nat) × List Nat)) := do
  let (_, s) ← ConstructLocalSSSR fuel ring_root mol
  let ps ← CreateLocantPath fuel mol s.local_SSSR s.ring_shares [] [] s.ring_atoms.length seed
  return ps.map (fun p => (p.locant_path, p.nt_pairs, p.nt_sizes))

/-- The call of `ReadLocantPath` that `ParseCyclic` makes on the candidate of the seed
`seed`: the ring string it returns. -/
def seedNotation (fuel ring_root : Nat) (mol : OBMol) (seed : Nat) :
    Except Fault (Option String) := do
  let (_, s) ← ConstructLocalSSSR fuel ring_root mol
  let ps ← CreateLocantPath fuel mol s.local_SSSR s.ring_shares [] [] s.ring_atoms.length seed
  match ps with
  | none => return none
  | some p =>
    let r ← ReadLocantPath mol p.locant_path s.ring_atoms.length s.ring_shares p.nt_pairs
      p.nt_sizes s.local_SSSR.length
    return some r.1

/-- Sodium chloride as read from the SMILES `[Na+].[Cl-]`. -/
def sodiumChloride : OBMol := ⟨[⟨11, 1, 0, false⟩, ⟨17, -1, 0, false⟩], [], []⟩

/-- Atoms `a` and `b` are joined by a chain of bonds of the molecule. -/
def Connected (mol : OBMol) (a b : Nat) : Prop :=
  Relation.ReflTransGen (fun x y => y ∈ mol.nbors x) a b

/-- Atom `a` is the first atom, in the atom order of the molecule, of its connected
component. -/
def IsComponentStart (mol : OBMol) (a : Nat) : Prop :=
  1 ≤ a ∧ a ≤ mol.atoms.length ∧ ∀ b, Connected mol a b → a ≤ b

/-- The texts that `ParseNonCyclic` writes for the atoms of the list, one call for each
atom in the order of the list, each on an empty buffer and on the atom map and the graph
that the call before it left; `none` when a call returns false. -/
def transcribeFrom (fuel : Nat) (mol : OBMol) :
    List Nat → BabelGraph → WLNGraph → Except Fault (Option (List String))
  | [], _, _ => .ok (some [])
  | a :: rest, obabel, graph =>
    match ParseNonCyclic fuel a mol obabel graph "" with
    | .error e => .error e
    | .ok (false, _, _, _) => .ok none
    | .ok (true, obabel, graph, t) =>
      (transcribeFrom fuel mol rest obabel graph).map (Option.map (fun ts => t :: ts))

/-- A graph that holds three symbols `X` with 4 allowed edges each and no edge, made with
`AllocateWLNSymbol` and `set_edge_and_type`. -/
def threeSymbols : WLNGraph :=
  let g := (AllocateWLNSymbol 'X' twoSymbols).1
  g.setSym 3 ((g.SYMBOLS 3).set_edge_and_type 4)

/-- The graph `threeSymbols` after `AllocateWLNEdge` has linked the symbols 2 and 3, in
this order, as children of symbol 1. -/
def twoChildren (fuel : Nat) : Except Fault WLNGraph := do
  let (graph, _) ← AllocateWLNEdge fuel 2 1 threeSymbols
  let (graph, _) ← AllocateWLNEdge fuel 3 1 graph
  return graph

/-- What a call `remove_edge(head, edge)` on the graph `twoChildren` leaves: the edge list
of `head` before the call, the returned flag, the edge list of `head` after the call, and
`num_edges` of `head` and of the two children after the call. -/
def removeFromTwoChildren (fuel head edge : Nat) :
    Except Fault (List Nat × Bool × List Nat × Nat × Nat × Nat) := do
  let graph ← twoChildren fuel
  let before ← edgesFrom graph fuel (graph.SYMBOLS head).bonds
  let (graph, ok) ← remove_edge fuel head edge graph
  let after ← edgesFrom graph fuel (graph.SYMBOLS head).bonds
  return (before, ok, after, (graph.SYMBOLS head).num_edges, (graph.SYMBOLS 2).num_edges,
    (graph.SYMBOLS 3).num_edges)

/-- Calls of `AllocateWLNSymbol('X', graph)` one after the other, `n` of them: the graph
after the last call with the pointer that the last call returns (null for `n = 0`). -/
def allocateSymbols : Nat → WLNGraph → WLNGraph × Nat
  | 0, graph => (graph, 0)
  | n + 1, graph => AllocateWLNSymbol 'X' (allocateSymbols n graph).1

/-- The graph `twoSymbols` with the edge counter set to 1023: the state of the counter
after 1023 calls of `AllocateWLNEdge` that got past the null test. -/
def edgesNearlyFull : WLNGraph := { twoSymbols with edge_count := 1023 }

/-- Is the slot inside an array of `REASONABLE` entries. -/
def inPool (slot : Nat) : Bool := decide (slot < REASONABLE)

/-- Number of SSSR rings of the molecule that the atom belongs to. -/
def ringShare (mol : OBMol) (a : Nat) : Nat :=
  (mol.sssr.filter (fun r => OBMol.ringHas r a)).length

/-- Atom `b` is reached from atom `a` along bonds that each lead to a ring atom: the atoms
of the ring system of `a`. -/
def RingReach (mol : OBMol) (a b : Nat) : Prop :=
  Relation.ReflTransGen (fun x y => y ∈ mol.nbors x ∧ mol.IsInRing y = .ok true) a b

/-- Does the string contain a digit character. -/
def hasDigit (str : String) : Bool := str.toList.any isDigitCh

/-- Length of the longest unbroken run of digit characters of the string: the largest,
over the positions of the string, of the number of digits that follow one another from
that position on. -/
def longestDigitRun (str : String) : Nat :=
  (str.toList.tails.map (fun t => (t.takeWhile isDigitCh).length)).foldr max 0

/-- The first locant of a ring notation: behind the prefix `L` or `T` stand ring sizes,
which are digits, and spaces; the first locant is the character that follows them, taken
as its byte, and it is 0 when nothing follows them. -/
def firstLocant (str : String) : Nat :=
  let after := str.toList.tail
  let sizes := after.takeWhile (fun c => c = ' ' || isDigitCh c)
  match after.get? sizes.length with
  | some c => c.toNat
  | none => 0

/-- Candidate `best` has the best key of the list: its digit run is the longest of the
list and, among the candidates with the longest run, its first locant is the smallest. -/
def HasBestKey (ring_strings : List String) (best : String) : Prop :=
  (∀ s ∈ ring_strings, longestDigitRun s ≤ longestDigitRun best)
    ∧ ∀ s ∈ ring_strings, longestDigitRun s = longestDigitRun best →
        firstLocant best ≤ firstLocant s

/-- Indane as read from the SMILES `c1cccc2c1CCC2`, kekulised: atoms 1 to 6 are the
six-membered ring, 5 and 6 the fusion atoms, 7 to 9 the rest of the five-membered ring; the
SSSR lists the six-membered ring first. -/
def indane : OBMol :=
  ⟨[carbon 3 true, carbon 3 true, carbon 3 true, carbon 3 true, carbon 4 true, carbon 4 true,
    carbon 2 true, carbon 2 true, carbon 2 true],
   [⟨1, 2, 2⟩, ⟨2, 3, 1⟩, ⟨3, 4, 2⟩, ⟨4, 5, 1⟩, ⟨5, 6, 2⟩, ⟨1, 6, 1⟩, ⟨6, 7, 1⟩, ⟨7, 8, 1⟩,
    ⟨8, 9, 1⟩, ⟨5, 9, 1⟩],
   [⟨[1, 2, 3, 4, 5, 6]⟩, ⟨[5, 6, 7, 8, 9]⟩]⟩

/-- The molecule `indane` with the SSSR listing the five-membered ring first. -/
def indaneFiveFirst : OBMol :=
  { indane with sssr := [⟨[5, 6, 7, 8, 9]⟩, ⟨[1, 2, 3, 4, 5, 6]⟩] }

/-- The ring strings that the seeds of `ParseCyclic` produce, in the order of the seeds
(`none` when a seed makes `ParseCyclic` return the null pair). -/
def candidateStrings (fuel ring_root : Nat) (mol : OBMol) : Except Fault (Option (List String)) := do
  let (ring_type, sssr) ← ConstructLocalSSSR fuel ring_root mol
  let st ← seedLoop fuel mol sssr sssr.ring_atoms.length sssr.local_SSSR.length
    (GetSeedAtoms sssr.ring_atoms sssr.ring_shares ring_type) ⟨[], [], [], []⟩
  return st.map (fun s => s.cyclic_strings)

/-- Quinoline as read from the SMILES `c1ccc2ncccc2c1`, kekulised: the skeleton and the
rings of `naphthalene` with the nitrogen as atom 5, next to the fusion atom 4. -/
def quinoline : OBMol :=
  ⟨[carbon 3 true, carbon 3 true, carbon 3 true, carbon 4 true, ⟨7, 0, 3, true⟩,
    carbon 3 true, carbon 3 true, carbon 3 true, carbon 4 true, carbon 3 true],
   [⟨1, 2, 2⟩, ⟨2, 3, 1⟩, ⟨3, 4, 2⟩, ⟨4, 5, 1⟩, ⟨5, 6, 2⟩, ⟨6, 7, 1⟩, ⟨7, 8, 2⟩, ⟨8, 9, 1⟩,
    ⟨4, 9, 1⟩, ⟨9, 10, 2⟩, ⟨1, 10, 1⟩],
   [⟨[1, 2, 3, 4, 9, 10]⟩, ⟨[4, 5, 6, 7, 8, 9]⟩]⟩

/-- Isoquinoline as read from the SMILES `c1ccc2cnccc2c1`, kekulised: as `quinoline` with
the nitrogen as atom 6. -/
def isoquinoline : OBMol :=
  ⟨[carbon 3 true, carbon 3 true, carbon 3 true, carbon 4 true, carbon 3 true,
    ⟨7, 0, 3, true⟩, carbon 3 true, carbon 3 true, carbon 4 true, carbon 3 true],
   [⟨1, 2, 2⟩, ⟨2, 3, 1⟩, ⟨3, 4, 2⟩, ⟨4, 5, 1⟩, ⟨5, 6, 2⟩, ⟨6, 7, 1⟩, ⟨7, 8, 2⟩, ⟨8, 9, 1⟩,
    ⟨4, 9, 1⟩, ⟨9, 10, 2⟩, ⟨1, 10, 1⟩],
   [⟨[1, 2, 3, 4, 9, 10]⟩, ⟨[4, 5, 6, 7, 8, 9]⟩]⟩

/-- The text that `ReadHeteroAtoms` appends, on an empty buffer and a fresh graph, for the
locant path given. -/
def heteroText (mol : OBMol) (locant_path : List Nat) : Except Fault String :=
  (ReadHeteroAtoms mol locant_path 0 0 "" WLNGraph.new).map Prod.fst

/-- The rule that the statement gives for `ReadHeteroAtoms`, from position `i` on: a
non-carbon atom gets a space and its locant letter in front unless `i = 0` or the position
before it holds a non-carbon atom, which `prev_hetero` records; the tags are written as
`ReadHeteroAtoms` writes them. -/
def ReadHeteroAtomsAsStated (mol : OBMol) :
    List Nat → Nat → Bool → String → WLNGraph → Except Fault (String × WLNGraph)
  | [], _, _, buffer, graph => .ok (buffer, graph)
  | a :: rest, i, prev_hetero, buffer, graph => do
    if (← mol.GetAtomicNum a) ≠ 6 then
      let buffer := if i > 0 ∧ prev_hetero = false
        then (buffer.push ' ').push (int_to_locant (i + 1)) else buffer
      let (graph, sym) ← CreateWLNNode mol a graph
      let s ← graph.sym sym
      let buffer := if s.ch = '*' then ((buffer.push '-') ++ s.special).push '-'
        else buffer.push s.ch
      ReadHeteroAtomsAsStated mol rest (i + 1) true buffer graph
    else ReadHeteroAtomsAsStated mol rest (i + 1) false buffer graph

/-- The text that the rule `ReadHeteroAtomsAsStated` appends, on an empty buffer and a
fresh graph, for the locant path given. -/
def heteroTextAsStated (mol : OBMol) (locant_path : List Nat) : Except Fault String :=
  (ReadHeteroAtomsAsStated mol locant_path 0 false "" WLNGraph.new).map Prod.fst

/-- Does edge `e` of the graph lead to a child `O` on a double bond. -/
def isDoubleO (graph : WLNGraph) (e : Nat) : Bool :=
  decide ((graph.SYMBOLS (graph.EDGES e).child).ch = 'O') && decide ((graph.EDGES e).order = 2)

/-- Does edge `e` of the graph lead to a child `O`, not on a double bond, whose atom has
the formal charge -1. -/
def isAnionicO (mol : OBMol) (obabel : BabelGraph) (graph : WLNGraph) (e : Nat) : Bool :=
  decide ((graph.SYMBOLS (graph.EDGES e).child).ch = 'O') && !decide ((graph.EDGES e).order = 2)
    && decide (mol.GetFormalCharge (obabel.symbol_atom_map (graph.EDGES e).child) = .ok (-1))

/-- The sulfoxylate dianion as read from the SMILES `S([O-])[O-]`: two single-bonded
anionic oxygens on the sulfur, no double bond. -/
def sulfoxylate : OBMol :=
  ⟨[⟨16, 0, 2, false⟩, ⟨8, -1, 1, false⟩, ⟨8, -1, 1, false⟩], [⟨1, 2, 1⟩, ⟨1, 3, 1⟩], []⟩

/-- The sulfate dianion as read from the SMILES `S([O-])(=O)(=O)[O-]`: the edge list of the
sulfur holds an anionic oxygen, the two double-bonded oxygens, and the other anionic
oxygen. -/
def sulfate : OBMol :=
  ⟨[⟨16, 0, 6, false⟩, ⟨8, -1, 1, false⟩, ⟨8, 0, 2, false⟩, ⟨8, 0, 2, false⟩,
    ⟨8, -1, 1, false⟩],
   [⟨1, 2, 1⟩, ⟨1, 3, 2⟩, ⟨1, 4, 2⟩, ⟨1, 5, 1⟩], []⟩

/-- The tree that `BuildWLNTree` builds from the first atom of the molecule on a fresh
graph: the atom maps, the graph and the root (the fresh ones when the run faults). -/
def treeOf (fuel : Nat) (mol : OBMol) : BabelGraph × WLNGraph × Nat :=
  match BuildWLNTree fuel 1 mol BabelGraph.new WLNGraph.new with
  | .ok r => r
  | .error _ => (BabelGraph.new, WLNGraph.new, 0)

/-- The children of the root of `treeOf`, in the order of its edge list: for each edge the
tag of the child, the bond order and the formal charge of the child's atom. -/
def rootChildren (fuel : Nat) (mol : OBMol) : Except Fault (List (Char × Nat × Int)) := do
  let (obabel, graph, root) := treeOf fuel mol
  let edges ← edgesFrom graph fuel (graph.SYMBOLS root).bonds
  edges.mapM (fun e => do
    let child := (graph.EDGES e).child
    let q ← mol.GetFormalCharge (obabel.symbol_atom_map child)
    return ((graph.SYMBOLS child).ch, (graph.EDGES e).order, q))

/-- The call `CheckDIOXO(root, visited)` on the tree `treeOf` with nothing visited yet: the
returned flag and the symbols that the call marks visited. -/
def rootDioxo (fuel : Nat) (mol : OBMol) : Except Fault (Bool × List Nat) := do
  let (obabel, graph, root) := treeOf fuel mol
  let (dioxo, visited) ← CheckDIOXO fuel mol obabel graph root (fun _ => false)
  return (dioxo, (List.range (graph.symbol_count + 1)).filter (fun s => visited s))

/-- The molecule 2-methylnaphthalene as read from the SMILES `c1(ccc2ccccc2c1)C`,
kekulised: `naphthalene` with a methyl group, atom 11, on atom 1. -/
def methylnaphthalene : OBMol :=
  ⟨[carbon 4 true, carbon 3 true, carbon 3 true, carbon 4 true, carbon 3 true,
    carbon 3 true, carbon 3 true, carbon 3 true, carbon 4 true, carbon 3 true,
    carbon 1 false],
   [⟨1, 2, 2⟩, ⟨2, 3, 1⟩, ⟨3, 4, 2⟩, ⟨4, 5, 1⟩, ⟨5, 6, 2⟩, ⟨6, 7, 1⟩, ⟨7, 8, 2⟩, ⟨8, 9, 1⟩,
    ⟨4, 9, 1⟩, ⟨9, 10, 2⟩, ⟨1, 10, 1⟩, ⟨1, 11, 1⟩],
   [⟨[1, 2, 3, 4, 9, 10]⟩, ⟨[4, 5, 6, 7, 8, 9]⟩]⟩

/-- The first round of the loop of `ParseAllCyclic` on a fresh graph: the call of
`ParseCyclic` and then the loop over the positions of its locant path.  The result is the
buffer after the round with the flag of the round, false when it left through
`return false`. -/
def firstRound (fuel : Nat) (mol : OBMol) : Except Fault (String × Bool) := do
  let first ← firstRingAtom mol
  let (path_pair, graph, buffer) ← ParseCyclic fuel (mol.GetAtom first) mol WLNGraph.new ""
  match path_pair.1 with
  | none => return (buffer, false)
  | some path =>
    let (st, go) ← locantBranches fuel mol (path.take path_pair.2) 0
      ⟨BabelGraph.new, graph, buffer⟩
    return (st.buffer, go)

/-- Trimethyloxonium as read from the SMILES `C[O+](C)C`: the oxygen, atom 2, has three
single bonds. -/
def trimethyloxonium : OBMol :=
  ⟨[carbon 1 false, ⟨8, 1, 3, false⟩, carbon 1 false, carbon 1 false],
   [⟨1, 2, 1⟩, ⟨2, 3, 1⟩, ⟨2, 4, 1⟩], []⟩

/-- The statements that `BuildWLNTree` runs on `trimethyloxonium` from atom 1, written out
in the order of its loop: the symbols of the atoms 1 and 2 and their edge, then for the
oxygen the symbol of atom 3 with its edge and the symbol of atom 4 with its edge.  The
result is the pointers that the three calls of `AllocateWLNEdge` return, with the symbols
of the graph in the order of their allocation. -/
def oxoniumEdges (fuel : Nat) : Except Fault (List Nat × List WLNSymbol) := do
  let (graph, node) ← CreateWLNNode trimethyloxonium 1 WLNGraph.new
  let (graph, oxygen) ← CreateWLNNode trimethyloxonium 2 graph
  let (graph, edge1) ← AllocateWLNEdge fuel oxygen node graph
  let (graph, child) ← CreateWLNNode trimethyloxonium 3 graph
  let (graph, edge2) ← AllocateWLNEdge fuel child oxygen graph
  let (graph, child) ← CreateWLNNode trimethyloxonium 4 graph
  let (graph, edge3) ← AllocateWLNEdge fuel child oxygen graph
  return ([edge1, edge2, edge3],
    (List.range graph.symbol_count).map (fun i => graph.SYMBOLS (i + 1)))

/-- The molecule 2-methylnaphthalene as read from the SMILES `Cc1ccc2ccccc2c1`,
kekulised: the methyl carbon is atom 1 and the begin atom of its bond to the ring atom 2;
the fusion atoms are 5 and 10. -/
def methylnaphthaleneMethylFirst : OBMol :=
  ⟨[carbon 1 false, carbon 4 true, carbon 3 true, carbon 3 true, carbon 4 true, carbon 3 true,
    carbon 3 true, carbon 3 true, carbon 3 true, carbon 4 true, carbon 3 true],
   [⟨1, 2, 1⟩, ⟨2, 3, 2⟩, ⟨3, 4, 1⟩, ⟨4, 5, 2⟩, ⟨5, 6, 1⟩, ⟨6, 7, 2⟩, ⟨7, 8, 1⟩, ⟨8, 9, 2⟩,
    ⟨9, 10, 1⟩, ⟨5, 10, 1⟩, ⟨10, 11, 2⟩, ⟨2, 11, 1⟩],
   [⟨[2, 3, 4, 5, 10, 11]⟩, ⟨[5, 6, 7, 8, 9, 10]⟩]⟩

/-- The molecule `indane` with both SSSR rings listing their atoms in the opposite
direction. -/
def indaneReversed : OBMol :=
  { indane with sssr := [⟨[6, 5, 4, 3, 2, 1]⟩, ⟨[9, 8, 7, 6, 5]⟩] }

/-- Are the atoms at each two consecutive positions of the path bonded in the molecule, or
the two endpoints of one of the pairs. -/
def pathLinked (mol : OBMol) (pairs : List (Nat × Nat)) : List Nat → Bool
  | a :: b :: rest =>
    ((mol.GetBond a b).isSome || pairs.contains (a, b) || pairs.contains (b, a))
      && pathLinked mol pairs (b :: rest)
  | _ => true

/-- Biphenyl as read from the SMILES `c1ccccc1c1ccccc1` with the bond between the rings
from atom 1 to atom 7, kekulised: two six-membered SSSR rings without a common atom. -/
def biphenyl : OBMol :=
  ⟨List.replicate 12 (carbon 3 true),
   [⟨1, 2, 2⟩, ⟨2, 3, 1⟩, ⟨3, 4, 2⟩, ⟨4, 5, 1⟩, ⟨5, 6, 2⟩, ⟨1, 6, 1⟩, ⟨1, 7, 1⟩, ⟨7, 8, 2⟩,
    ⟨8, 9, 1⟩, ⟨9, 10, 2⟩, ⟨10, 11, 1⟩, ⟨11, 12, 2⟩, ⟨7, 12, 1⟩],
   [⟨[1, 2, 3, 4, 5, 6]⟩, ⟨[7, 8, 9, 10, 11, 12]⟩]⟩

/-- The ring shares that `ConstructLocalSSSR` records for the ring atoms, in the order of
the ring atoms. -/
def ringSharesOf (fuel ring_root : Nat) (mol : OBMol) : Except Fault (List Nat) :=
  (ConstructLocalSSSR fuel ring_root mol).map (fun r => r.2.ring_atoms.map r.2.ring_shares)

/-- Molecular hydrogen as read from the SMILES `[H][H]`. -/
def hydrogenMolecule : OBMol := ⟨[⟨1, 0, 1, false⟩, ⟨1, 0, 1, false⟩], [⟨1, 2, 1⟩], []⟩

/-- The tags of the list of the statement without `H`. -/
def handledTags : List Char :=
  ['B', '1', 'Y', 'X', 'N', 'Q', 'O', 'F', 'G', 'E', 'I', 'P', 'S', '*']

/-- Propane as read from the SMILES `C(C)C`: the middle carbon is atom 1. -/
def propaneFromMiddle : OBMol :=
  ⟨[carbon 2 false, carbon 1 false, carbon 1 false], [⟨1, 2, 1⟩, ⟨1, 3, 1⟩], []⟩

/-- Is the symbol written as a terminator by `WriteWLNFromNode`: `Q`, a nitrogen with
fewer than two edges (`Z`), or a halogen with at most one edge. -/
def isTerminator (s : WLNSymbol) : Bool :=
  s.ch = 'Q' || (s.ch = 'N' && decide (s.num_edges < 2))
    || ((s.ch = 'E' || s.ch = 'F' || s.ch = 'G' || s.ch = 'I') && decide (s.num_edges ≤ 1))

/-- The marks `U` and `UU` that `WriteWLNFromNode` writes for a bond of order 2 and 3. -/
def bondMarks (order : Nat) : String :=
  if order = 2 then "U" else if order = 3 then "UU" else ""

/-- The payload of the symbol that `CreateWLNNode` makes, on a fresh graph, for a lone atom
of the given element, when the symbol has the tag `*`. -/
def specialCode (atomicNum : Nat) : Option String :=
  match CreateWLNNode (singleAtom atomicNum) 1 WLNGraph.new with
  | .ok (g, node) => if node ≠ 0 ∧ (g.SYMBOLS node).ch = '*' then some (g.SYMBOLS node).special
    else none
  | .error _ => none

/-- The pairs of different atomic numbers up to 118 that get the same payload. -/
def sharedCodes : List (Nat × Nat) :=
  (List.range' 1 118).flatMap (fun z1 =>
    ((List.range' 1 118).filter (fun z2 =>
      z1 < z2 && (specialCode z1).isSome && specialCode z1 == specialCode z2)).map
        (fun z2 => (z1, z2)))

/-- The state of the loop of `WriteWLNFromNode` on the tree of isopropanol when the
symbol `Q`, symbol 4, has been taken from the stack: `1Y` is written, the branch of the
symbol `Y`, symbol 2, is open, and the methyl symbol 3 waits on the stack. -/
def isopropanolAtQ : WriteState :=
  ⟨(treeOf 64 isopropanol).2.1, [(3, 1)], [2], fun _ => false, 4, false, "1Y"⟩

/-! ## Notions used by the proofs -/

/-- Order of the runs by fuel: a run with less fuel either ran out of fuel or agrees with
the run that has more. -/
def FuelLe {α : Type} (a b : Except Fault α) : Prop := a = .error .outOfFuel ∨ a = b

/-- Symbol `i` of the tree of a chain of `m` carbons. -/
def chainSymbol (m i : Nat) : WLNSymbol :=
  ⟨'1', "", 0, 4, (if i = 1 then 0 else 1) + (if i < m then 1 else 0),
   (if i < m then 1 else 0), 0, i - 1, (if i < m then i else 0)⟩

/-- Graph that `BuildWLNTree` has built once a chain has `m` symbols. -/
def chainGraph (m : Nat) : WLNGraph :=
  ⟨(if m = 0 then 0 else 1), m - 1, m, 0,
   fun i => if 1 ≤ i ∧ i ≤ m then chainSymbol m i else WLNSymbol.new,
   fun i => if 1 ≤ i ∧ i < m then ⟨i, i + 1, 0, false, 1⟩ else WLNEdge.new, m + 1⟩

/-- Maps of `BabelGraph` once the first `m` atoms of a chain have symbols. -/
def chainMaps (m : Nat) : BabelGraph :=
  ⟨fun i => if 1 ≤ i ∧ i ≤ m then i else 0, fun i => if 1 ≤ i ∧ i ≤ m then i else 0,
   fun _ => false⟩

/-- The `visited` map of `BuildWLNTree` once the first `k` atoms of a chain are popped. -/
def chainVisited (k : Nat) : Nat → Bool := fun i => decide (1 ≤ i ∧ i ≤ k)

/-- Graph after `CreateWLNNode` has made the symbol of a chain carbon. -/
def withCarbon (g : WLNGraph) : WLNGraph :=
  { g with
    root := if g.root = 0 then g.symbol_count + 1 else g.root,
    symbol_count := g.symbol_count + 1,
    SYMBOLS := setAt g.SYMBOLS (g.symbol_count + 1) ⟨'1', "", 0, 4, 0, 0, 0, 0, 0⟩,
    glob_index := u32 (g.glob_index + 1) }

/-- Graph after `AllocateWLNEdge` has linked `child` as the first edge of `parent`. -/
def withEdge (g : WLNGraph) (child parent : Nat) : WLNGraph :=
  let c := g.SYMBOLS child
  let p := g.SYMBOLS parent
  { g with
    edge_count := g.edge_count + 1,
    EDGES := setAt g.EDGES (g.edge_count + 1) ⟨parent, child, 0, false, 1⟩,
    SYMBOLS := setAt (setAt g.SYMBOLS child { c with previous := parent, num_edges := c.num_edges + 1 })
      parent { p with bonds := g.edge_count + 1, num_edges := p.num_edges + 1,
                      num_children := p.num_children + 1 } }

/-- Number of symbols of the tree once atom `k` of a chain of `N` carbons is worked off. -/
def chainNext (N k : Nat) : Nat := if k < N then k + 1 else k

/-- Tag that `CreateWLNNode` gives to nitrogen, fluorine, chlorine, bromine and iodine. -/
def valenceTag (atomicNum : Nat) : Char :=
  if atomicNum = 7 then 'N' else if atomicNum = 9 then 'F' else if atomicNum = 17 then 'G'
  else if atomicNum = 35 then 'E' else 'I'

/-- The linked list of edges that starts at the pointer `p` is exactly `l`. -/
def listAt (E : Nat → WLNEdge) : Nat → List Nat → Prop
  | p, [] => p = 0
  | p, e :: rest => p = e ∧ e ≠ 0 ∧ listAt E (E e).nxt rest

/-- An anionic oxygen: the atoms that `BuildWLNTree` passes over, without making a symbol,
when it takes them from its stack. -/
def IsAnion (mol : OBMol) (x : Nat) : Prop :=
  ∃ a, mol.atom x = .ok a ∧ a.formalCharge = -1 ∧ a.atomicNum = 8

/-- What a complete run of the neighbour loop of `BuildWLNTree` over `l` has done to the
stack and to the atom map. -/
def Linked (visited : Nat → Bool) (l : List Nat) (st st2 : TreeState) : Prop :=
  (∀ y ∈ l, visited y = true ∨ y ∈ st2.stack) ∧ (∀ z ∈ st2.stack, z ∈ st.stack ∨ z ∈ l)
    ∧ (∀ z ∈ st.stack, z ∈ st2.stack)
    ∧ (∀ z, st.obabel.atom_symbol_map z ≠ 0 → st2.obabel.atom_symbol_map z ≠ 0)
    ∧ (∀ z, st2.obabel.atom_symbol_map z ≠ 0 → st.obabel.atom_symbol_map z ≠ 0 ∨ z ∈ l)

/-- Invariant of the loop of `BuildWLNTree` started at atom `a` with the atom map `ob0`. -/
structure TreeInv (mol : OBMol) (a : Nat) (ob0 : BabelGraph) (visited : Nat → Bool)
    (root : Nat) (st : TreeState) : Prop where
  stack_conn : ∀ x ∈ st.stack, Connected mol a x
  visited_conn : ∀ x, visited x = true → Connected mol a x
  visited_valid : ∀ x, visited x = true → ∃ ax, mol.atom x = .ok ax
  closed : ∀ x, visited x = true → ∀ y ∈ mol.nbors x, visited y = true ∨ y ∈ st.stack
  mapped : ∀ x, visited x = true → ¬ IsAnion mol x → st.obabel.atom_symbol_map x ≠ 0
  mono : ∀ x, ob0.atom_symbol_map x ≠ 0 → st.obabel.atom_symbol_map x ≠ 0
  fresh : ∀ x, st.obabel.atom_symbol_map x ≠ 0 →
    ob0.atom_symbol_map x ≠ 0 ∨ Connected mol a x
  root_new : root ≠ 0 → ∃ x, Connected mol a x ∧ ob0.atom_symbol_map x = 0 ∧ ¬ IsAnion mol x
  start : visited a = true ∨ a ∈ st.stack

/-- The write state with `pre` put in front of its buffer. -/
def WriteState.pre (pre : String) (st : WriteState) : WriteState :=
  { st with buffer := pre ++ st.buffer }

/-- The texts of the list one after the other with ` &` in front of each, except in front
of the first when nothing has been written yet. -/
def joinFrom (started : Bool) : List String → String
  | [] => ""
  | t :: rest => (if started then " &" ++ t else t) ++ joinFrom true rest

/-- Invariant of the loop over the atoms in `WriteWLN` when it reaches atom `i`: the atoms
with a symbol lie in components that start before `i`, and of those components every atom
but the anionic oxygens has a symbol. -/
def OuterInv (mol : OBMol) (ob : BabelGraph) (i : Nat) : Prop :=
  (∀ x, ob.atom_symbol_map x ≠ 0 → ∃ s, s < i ∧ IsComponentStart mol s ∧ Connected mol s x)
    ∧ ∀ s, s < i → IsComponentStart mol s →
        ∀ x, Connected mol s x → ¬ IsAnion mol x → ob.atom_symbol_map x ≠ 0

/-- Index `r` of the list holds a candidate with a digit, which has the best key of the
list, and no candidate before it has the same key. -/
def IsFirstBest (l : List String) (r : Nat) : Prop :=
  ∃ b, l.get? r = some b ∧ 0 < longestDigitRun b ∧ HasBestKey l b
    ∧ ∀ j s, l.get? j = some s → longestDigitRun s = longestDigitRun b →
        firstLocant s = firstLocant b → r ≤ j

/-- State of `ConstructLocalSSSR` after the round of its loop that takes `atom` from the
stack. -/
def sssrStep (mol : OBMol) (atom : Nat) (st : LocalSSSR) : LocalSSSR :=
  let ring_atoms := setInsert atom st.ring_atoms
  let in_rings := (ringsOfAtom mol atom st.local_SSSR).1
  let local_SSSR := (ringsOfAtom mol atom st.local_SSSR).2
  let ring_shares := setAt st.ring_shares atom in_rings
  if in_rings > 3 then
    ⟨ring_atoms, ring_shares, local_SSSR, st.fuses, st.multicyclic, u32 (st.branching + 1)⟩
  else if in_rings = 3 then
    ⟨ring_atoms, ring_shares, local_SSSR, st.fuses, u32 (st.multicyclic + 1), st.branching⟩
  else if in_rings = 2 then
    ⟨ring_atoms, ring_shares, local_SSSR, u32 (st.fuses + 1), st.multicyclic, st.branching⟩
  else ⟨ring_atoms, ring_shares, local_SSSR, st.fuses, st.multicyclic, st.branching⟩

/-- Invariant of the loop of `ConstructLocalSSSR` started at `root`. -/
structure SSSRInv (mol : OBMol) (root : Nat) (stack : List Nat) (visited : Nat → Bool)
    (st : LocalSSSR) : Prop where
  valid : ∀ a ∈ st.ring_atoms, ∃ x, mol.atom a = .ok x
  nodup : st.ring_atoms.Nodup
  ring_vis : ∀ a ∈ st.ring_atoms, visited a = true
  vis : ∀ a, visited a = true → a ∈ st.ring_atoms ∨ a ∈ stack
  stack_vis : ∀ a ∈ stack.tail, visited a = true
  stack_nodup : stack.Nodup
  stack_fresh : ∀ a ∈ stack, a ∉ st.ring_atoms
  stack_valid : ∀ a ∈ stack, ∃ x, mol.atom a = .ok x
  reach : ∀ a, a ∈ st.ring_atoms ∨ a ∈ stack → RingReach mol root a
  closed : ∀ a ∈ st.ring_atoms, ∀ n ∈ mol.nbors a, mol.IsInRing n = .ok true →
    n ∈ st.ring_atoms ∨ n ∈ stack
  shares : ∀ a ∈ st.ring_atoms, st.ring_shares a = ringShare mol a
  branching : st.branching
    = (st.ring_atoms.filter (fun a => decide (3 < ringShare mol a))).length
  multicyclic : st.multicyclic
    = (st.ring_atoms.filter (fun a => decide (ringShare mol a = 3))).length
  start : root ∈ st.ring_atoms ∨ root ∈ stack

/-- The graph after the two decrements `head->num_edges--; edge->child->num_edges--;` of
`remove_edge`. -/
def decrementBoth (graph : WLNGraph) (head edge : Nat) : WLNGraph :=
  let graph := graph.setSym head
    { graph.SYMBOLS head with num_edges := u32dec (graph.SYMBOLS head).num_edges }
  let child := (graph.EDGES edge).child
  graph.setSym child
    { graph.SYMBOLS child with num_edges := u32dec (graph.SYMBOLS child).num_edges }

/-- The states of the automaton of `BuildWLNFSM` between the opening of a ring and its
closing `J`, by the order in which `AddState` makes them: `open_ring` (18) and the states
from `ring_digits` (20) to `aromatics` (37). -/
def ringStates : List Nat := 18 :: List.range' 20 18

/-! ## Theorems -/

/-! ### Fuel -/

/-- A run is below itself. -/
theorem FuelLe.refl {α : Type} (a : Except Fault α) : FuelLe a a := Or.inr rfl

/-- The run that exhausted its fuel is below every run. -/
theorem FuelLe.bot {α : Type} (b : Except Fault α) : FuelLe (.error .outOfFuel) b := Or.inl rfl

/-- A value returned by the smaller run is returned by the larger one. -/
theorem FuelLe.of_ok {α : Type} {a b : Except Fault α} {r : α} (h : FuelLe a b)
    (ha : a = .ok r) : b = .ok r := by
  rcases h with h | h
  · rw [h] at ha; cases ha
  · rw [← h]; exact ha

/-- Sequencing respects the fuel order. -/
theorem FuelLe.bind {α β : Type} {a a' : Except Fault α} {f f' : α → Except Fault β}
    (h : FuelLe a a') (hf : ∀ x, FuelLe (f x) (f' x)) : FuelLe (a >>= f) (a' >>= f') := by
  rcases h with h | h
  · left; rw [h]; rfl
  · subst h
    cases a with
    | error e => right; rfl
    | ok x => exact hf x

/-- Mapping over the result respects the fuel order. -/
theorem FuelLe.map {α β : Type} {a a' : Except Fault α} (g : α → β)
    (h : FuelLe a a') : FuelLe (a.map g) (a'.map g) := by
  rcases h with h | h
  · left; rw [h]; rfl
  · right; rw [h]

theorem edgesFrom_mono (graph : WLNGraph) :
    ∀ (fuel fuel' edge : Nat), fuel ≤ fuel' →
      FuelLe (edgesFrom graph fuel edge) (edgesFrom graph fuel' edge) := by
  intro fuel
  induction fuel with
  | zero => intro fuel' edge _; exact FuelLe.bot _
  | succ f ih =>
    intro fuel' edge h
    obtain ⟨f', rfl⟩ : ∃ f', fuel' = f' + 1 := ⟨fuel' - 1, by omega⟩
    simp only [edgesFrom]
    split
    · exact FuelLe.refl _
    · exact FuelLe.map _ (ih f' _ (by omega))

theorem lastEdge_mono (graph : WLNGraph) (child : Nat) :
    ∀ (fuel fuel' curr : Nat), fuel ≤ fuel' →
      FuelLe (lastEdge graph child fuel curr) (lastEdge graph child fuel' curr) := by
  intro fuel
  induction fuel with
  | zero => intro fuel' edge _; exact FuelLe.bot _
  | succ f ih =>
    intro fuel' curr h
    obtain ⟨f', rfl⟩ : ∃ f', fuel' = f' + 1 := ⟨fuel' - 1, by omega⟩
    simp only [lastEdge]
    split
    · split
      · exact FuelLe.refl _
      · exact ih f' _ (by omega)
    · exact FuelLe.refl _

theorem carbonRun_mono (graph : WLNGraph) :
    ∀ (fuel fuel' carbons sym : Nat), fuel ≤ fuel' →
      FuelLe (carbonRun graph fuel carbons sym) (carbonRun graph fuel' carbons sym) := by
  intro fuel
  induction fuel with
  | zero => intro fuel' _ _ _; exact FuelLe.bot _
  | succ f ih =>
    intro fuel' c s h
    obtain ⟨f', rfl⟩ : ∃ f', fuel' = f' + 1 := ⟨fuel' - 1, by omega⟩
    simp only [carbonRun]
    split
    · exact ih f' _ _ (by omega)
    · exact FuelLe.refl _

/-- A conditional respects the fuel order branch by branch. -/
theorem FuelLe.ite {α : Type} {c : Prop} [Decidable c] {a a' b b' : Except Fault α}
    (h1 : c → FuelLe a a') (h2 : ¬ c → FuelLe b b') :
    FuelLe (if c then a else b) (if c then a' else b') := by
  by_cases hc : c
  · simp only [hc, if_true]; exact h1 hc
  · simp only [hc, if_false]; exact h2 hc

theorem FuelLe.bind_right {α β : Type} {a a' : Except Fault α} (f : α → Except Fault β)
    (h : FuelLe a a') : FuelLe (a >>= f) (a' >>= f) :=
  FuelLe.bind h (fun _ => FuelLe.refl _)

theorem FuelLe.bind_left {α β : Type} (a : Except Fault α) {f f' : α → Except Fault β}
    (hf : ∀ x, FuelLe (f x) (f' x)) : FuelLe (a >>= f) (a >>= f') :=
  FuelLe.bind (FuelLe.refl _) hf

theorem AllocateWLNEdge_mono (fuel fuel' : Nat) (h : fuel ≤ fuel') (child parent : Nat)
    (graph : WLNGraph) :
    FuelLe (AllocateWLNEdge fuel child parent graph) (AllocateWLNEdge fuel' child parent graph) := by
  unfold AllocateWLNEdge
  split
  · exact FuelLe.refl _
  · simp only
    split
    · exact FuelLe.refl _
    · split
      · exact FuelLe.refl _
      · split
        · exact FuelLe.refl _
        · split
          · exact FuelLe.bind_right _ (lastEdge_mono _ _ _ _ _ h)
          · exact FuelLe.refl _

theorem CheckCarbonyl_mono (fuel fuel' : Nat) (h : fuel ≤ fuel') (mol : OBMol)
    (obabel : BabelGraph) (graph : WLNGraph) (sym : Nat) (visited : Nat → Bool) :
    FuelLe (CheckCarbonyl fuel mol obabel graph sym visited)
      (CheckCarbonyl fuel' mol obabel graph sym visited) := by
  unfold CheckCarbonyl
  exact FuelLe.bind_right _ (edgesFrom_mono _ _ _ _ h)

theorem CheckDIOXO_mono (fuel fuel' : Nat) (h : fuel ≤ fuel') (mol : OBMol)
    (obabel : BabelGraph) (graph : WLNGraph) (sym : Nat) (visited : Nat → Bool) :
    FuelLe (CheckDIOXO fuel mol obabel graph sym visited)
      (CheckDIOXO fuel' mol obabel graph sym visited) := by
  unfold CheckDIOXO
  exact FuelLe.bind_right _ (edgesFrom_mono _ _ _ _ h)

theorem WriteCarbonChain_mono (fuel fuel' : Nat) (h : fuel ≤ fuel') (graph : WLNGraph)
    (sym : Nat) (buffer : String) :
    FuelLe (WriteCarbonChain fuel graph sym buffer) (WriteCarbonChain fuel' graph sym buffer) := by
  unfold WriteCarbonChain
  exact FuelLe.bind_right _ (carbonRun_mono _ _ _ _ _ h)

theorem writeSymbol_mono (fuel fuel' : Nat) (h : fuel ≤ fuel') (mol : OBMol)
    (obabel : BabelGraph) (top : Nat) (st : WriteState) :
    FuelLe (writeSymbol fuel mol obabel top st) (writeSymbol fuel' mol obabel top st) := by
  have hd := fun v => CheckDIOXO_mono fuel fuel' h mol obabel st.graph top v
  have hc := fun v => CheckCarbonyl_mono fuel fuel' h mol obabel st.graph top v
  have hw := WriteCarbonChain_mono fuel fuel' h st.graph top st.buffer
  unfold writeSymbol
  simp only
  repeat' first
    | exact FuelLe.refl _
    | exact hw
    | exact hd _
    | exact hc _
    | apply FuelLe.ite
    | apply FuelLe.bind
    | intro _

theorem linkNbors_mono (fuel fuel' : Nat) (h : fuel ≤ fuel') (mol : OBMol) (atom node : Nat)
    (visited : Nat → Bool) :
    ∀ (l : List Nat) (st : TreeState),
      FuelLe (linkNbors fuel mol atom node visited l st)
        (linkNbors fuel' mol atom node visited l st) := by
  intro l
  induction l with
  | nil => intro st; exact FuelLe.refl _
  | cons n rest ih =>
    intro st
    have ha := fun c p g => AllocateWLNEdge_mono fuel fuel' h c p g
    simp only [linkNbors]
    repeat' first
      | exact FuelLe.refl _
      | exact ih _
      | exact ha _ _ _
      | apply FuelLe.ite
      | apply FuelLe.bind
      | intro _
      | split

theorem BuildWLNTree_loop_mono (mol : OBMol) :
    ∀ (fuel fuel' : Nat) (visited : Nat → Bool) (root : Nat) (st : TreeState), fuel ≤ fuel' →
      FuelLe (BuildWLNTree.loop mol fuel visited root st)
        (BuildWLNTree.loop mol fuel' visited root st) := by
  intro fuel
  induction fuel with
  | zero => intro fuel' _ _ _ _; exact FuelLe.bot _
  | succ f ih =>
    intro fuel' visited root st h
    obtain ⟨f', rfl⟩ : ∃ f', fuel' = f' + 1 := ⟨fuel' - 1, by omega⟩
    have hl := fun a n v l s => linkNbors_mono (f + 1) (f' + 1) h mol a n v l s
    have hi := fun v r s => ih f' v r s (by omega)
    simp only [BuildWLNTree.loop]
    repeat' first
      | exact FuelLe.refl _
      | exact hi _ _ _
      | exact hl _ _ _ _ _
      | apply FuelLe.ite
      | apply FuelLe.bind
      | intro _
      | split

theorem BuildWLNTree_mono (fuel fuel' : Nat) (h : fuel ≤ fuel') (start_atom : Nat) (mol : OBMol)
    (obabel : BabelGraph) (graph : WLNGraph) :
    FuelLe (BuildWLNTree fuel start_atom mol obabel graph)
      (BuildWLNTree fuel' start_atom mol obabel graph) := by
  unfold BuildWLNTree
  exact FuelLe.bind_right _ (BuildWLNTree_loop_mono mol _ _ _ _ _ h)

theorem WriteWLNFromNode_loop_mono (mol : OBMol) (obabel : BabelGraph) :
    ∀ (fuel fuel' : Nat) (st : WriteState), fuel ≤ fuel' →
      FuelLe (WriteWLNFromNode.loop mol obabel fuel st)
        (WriteWLNFromNode.loop mol obabel fuel' st) := by
  intro fuel
  induction fuel with
  | zero => intro fuel' _ _; exact FuelLe.bot _
  | succ f ih =>
    intro fuel' st h
    obtain ⟨f', rfl⟩ : ∃ f', fuel' = f' + 1 := ⟨fuel' - 1, by omega⟩
    have hw := fun t s => writeSymbol_mono (f + 1) (f' + 1) h mol obabel t s
    have he := fun g e => edgesFrom_mono g (f + 1) (f' + 1) e h
    have hi := fun s => ih f' s (by omega)
    simp only [WriteWLNFromNode.loop]
    repeat' first
      | exact FuelLe.refl _
      | exact hi _
      | exact hw _ _
      | exact he _ _
      | apply FuelLe.ite
      | apply FuelLe.bind
      | intro _
      | split

theorem WriteWLNFromNode_mono (fuel fuel' : Nat) (h : fuel ≤ fuel') (mol : OBMol)
    (obabel : BabelGraph) (root : Nat) (graph : WLNGraph) (buffer : String) :
    FuelLe (WriteWLNFromNode fuel mol obabel root graph buffer)
      (WriteWLNFromNode fuel' mol obabel root graph buffer) := by
  unfold WriteWLNFromNode
  exact FuelLe.bind_right _ (WriteWLNFromNode_loop_mono mol obabel _ _ _ h)

theorem ParseNonCyclic_mono (fuel fuel' : Nat) (h : fuel ≤ fuel') (start_atom : Nat)
    (mol : OBMol) (obabel : BabelGraph) (graph : WLNGraph) (buffer : String) :
    FuelLe (ParseNonCyclic fuel start_atom mol obabel graph buffer)
      (ParseNonCyclic fuel' start_atom mol obabel graph buffer) := by
  have hb := BuildWLNTree_mono fuel fuel' h start_atom mol obabel graph
  have hw := fun o r g b => WriteWLNFromNode_mono fuel fuel' h mol o r g b
  unfold ParseNonCyclic
  repeat' first
    | exact FuelLe.refl _
    | exact hb
    | exact hw _ _ _ _
    | apply FuelLe.ite
    | apply FuelLe.bind
    | intro _

theorem componentLoop_mono (fuel fuel' : Nat) (h : fuel ≤ fuel') (mol : OBMol) :
    ∀ (l : List Nat) (started : Bool) (st : CyclicState),
      FuelLe (componentLoop fuel mol l started st) (componentLoop fuel' mol l started st) := by
  intro l
  induction l with
  | nil => intro _ st; exact FuelLe.refl _
  | cons a rest ih =>
    intro started st
    have hp := fun s o g b => ParseNonCyclic_mono fuel fuel' h s mol o g b
    simp only [componentLoop]
    repeat' first
      | exact FuelLe.refl _
      | exact ih _ _
      | exact hp _ _ _ _
      | apply FuelLe.ite
      | apply FuelLe.bind
      | intro _

theorem ConstructLocalSSSR_loop_mono (mol : OBMol) :
    ∀ (fuel fuel' : Nat) (stack : List Nat) (visited : Nat → Bool) (st : LocalSSSR),
      fuel ≤ fuel' →
      FuelLe (ConstructLocalSSSR.loop mol fuel stack visited st)
        (ConstructLocalSSSR.loop mol fuel' stack visited st) := by
  intro fuel
  induction fuel with
  | zero => intro fuel' _ _ _ _; exact FuelLe.bot _
  | succ f ih =>
    intro fuel' stack visited st h
    obtain ⟨f', rfl⟩ : ∃ f', fuel' = f' + 1 := ⟨fuel' - 1, by omega⟩
    have hi := fun s v t => ih f' s v t (by omega)
    cases stack with
    | nil => exact FuelLe.refl _
    | cons atom stack =>
      simp only [ConstructLocalSSSR.loop]
      repeat' first
        | exact FuelLe.refl _
        | exact hi _ _ _
        | apply FuelLe.ite
        | apply FuelLe.bind
        | intro _

theorem ConstructLocalSSSR_mono (fuel fuel' : Nat) (h : fuel ≤ fuel') (ring_root : Nat)
    (mol : OBMol) :
    FuelLe (ConstructLocalSSSR fuel ring_root mol) (ConstructLocalSSSR fuel' ring_root mol) := by
  have hl := fun s v t => ConstructLocalSSSR_loop_mono mol fuel fuel' s v t h
  unfold ConstructLocalSSSR
  simp only
  repeat' first
    | exact FuelLe.refl _
    | exact hl _ _ _
    | apply FuelLe.ite
    | apply FuelLe.bind
    | intro _

theorem rotateTo_mono (target : Nat) :
    ∀ (fuel fuel' : Nat) (path : List Nat), fuel ≤ fuel' →
      FuelLe (rotateTo target fuel path) (rotateTo target fuel' path) := by
  intro fuel
  induction fuel with
  | zero => intro fuel' _ _; exact FuelLe.bot _
  | succ f ih =>
    intro fuel' path h
    obtain ⟨f', rfl⟩ : ∃ f', fuel' = f' + 1 := ⟨fuel' - 1, by omega⟩
    cases path with
    | nil => exact FuelLe.refl _
    | cons x xs =>
      simp only [rotateTo]
      apply FuelLe.ite
      · intro _; exact ih f' _ (by omega)
      · intro _; exact FuelLe.refl _

theorem rotateSeed_mono (seed_atom path_size locant_pos : Nat) :
    ∀ (fuel fuel' : Nat) (lp : List Nat), fuel ≤ fuel' →
      FuelLe (rotateSeed seed_atom path_size locant_pos fuel lp)
        (rotateSeed seed_atom path_size locant_pos fuel' lp) := by
  intro fuel
  induction fuel with
  | zero => intro fuel' _ _; exact FuelLe.bot _
  | succ f ih =>
    intro fuel' lp h
    obtain ⟨f', rfl⟩ : ∃ f', fuel' = f' + 1 := ⟨fuel' - 1, by omega⟩
    have hi := fun l => ih f' l (by omega)
    simp only [rotateSeed]
    repeat' first
      | exact FuelLe.refl _
      | exact hi _
      | apply FuelLe.ite
      | apply FuelLe.bind
      | intro _

theorem ShiftandAddLocantPath_mono (fuel fuel' : Nat) (h : fuel ≤ fuel') (mol : OBMol)
    (path_size hp_pos : Nat) (obring : OBRing) (st : PathState) :
    FuelLe (ShiftandAddLocantPath fuel mol path_size hp_pos obring st)
      (ShiftandAddLocantPath fuel' mol path_size hp_pos obring st) := by
  have hr := fun t p => rotateTo_mono t fuel fuel' p h
  unfold ShiftandAddLocantPath
  simp only
  repeat' first
    | exact FuelLe.refl _
    | exact hr _ _
    | apply FuelLe.ite
    | apply FuelLe.bind
    | intro _

theorem placeRings_mono (fuel fuel' : Nat) (h : fuel ≤ fuel') (mol : OBMol)
    (ring_shares : Nat → Nat) (local_SSSR : List Nat) (path_size : Nat) :
    ∀ (n obring : Nat) (rings_seen : Nat → Bool) (st : PathState),
      FuelLe (placeRings fuel mol ring_shares local_SSSR path_size n obring rings_seen st)
        (placeRings fuel' mol ring_shares local_SSSR path_size n obring rings_seen st) := by
  intro n
  induction n with
  | zero => intro _ _ _; exact FuelLe.refl _
  | succ n ih =>
    intro obring rings_seen st
    have hs := fun a b c d => ShiftandAddLocantPath_mono fuel fuel' h mol a b c d
    simp only [placeRings]
    repeat' first
      | exact FuelLe.refl _
      | exact ih _ _ _
      | exact hs _ _ _ _
      | apply FuelLe.ite
      | apply FuelLe.bind
      | intro _

theorem CreateLocantPath_mono (fuel fuel' : Nat) (h : fuel ≤ fuel') (mol : OBMol)
    (local_SSSR : List Nat) (ring_shares : Nat → Nat) (nt_pairs : List (Nat × Nat))
    (nt_sizes : List Nat) (path_size seed_atom : Nat) :
    FuelLe (CreateLocantPath fuel mol local_SSSR ring_shares nt_pairs nt_sizes path_size seed_atom)
      (CreateLocantPath fuel' mol local_SSSR ring_shares nt_pairs nt_sizes path_size seed_atom) := by
  have hp := fun a b c d => placeRings_mono fuel fuel' h mol ring_shares local_SSSR path_size a b c d
  have hr := fun a b c l => rotateSeed_mono a b c fuel fuel' l h
  unfold CreateLocantPath
  simp only
  split
  · exact FuelLe.refl _
  · repeat' first
      | exact FuelLe.refl _
      | exact hp _ _ _ _
      | exact hr _ _ _ _
      | apply FuelLe.ite
      | apply FuelLe.bind
      | intro _

theorem seedLoop_mono (fuel fuel' : Nat) (h : fuel ≤ fuel') (mol : OBMol) (sssr : LocalSSSR)
    (path_size expected_rings : Nat) :
    ∀ (l : List Nat) (st : SeedState),
      FuelLe (seedLoop fuel mol sssr path_size expected_rings l st)
        (seedLoop fuel' mol sssr path_size expected_rings l st) := by
  intro l
  induction l with
  | nil => intro st; exact FuelLe.refl _
  | cons seed rest ih =>
    intro st
    have hc := fun a b c d e f => CreateLocantPath_mono fuel fuel' h mol a b c d e f
    simp only [seedLoop]
    repeat' first
      | exact FuelLe.refl _
      | exact ih _
      | exact hc _ _ _ _ _ _
      | apply FuelLe.ite
      | apply FuelLe.bind
      | intro _
      | split

theorem ParseCyclic_mono (fuel fuel' : Nat) (h : fuel ≤ fuel') (ring_root : Nat) (mol : OBMol)
    (graph : WLNGraph) (buffer : String) :
    FuelLe (ParseCyclic fuel ring_root mol graph buffer)
      (ParseCyclic fuel' ring_root mol graph buffer) := by
  have hc := ConstructLocalSSSR_mono fuel fuel' h ring_root mol
  have hs := fun a b c d e => seedLoop_mono fuel fuel' h mol a b c d e
  unfold ParseCyclic
  repeat' first
    | exact FuelLe.refl _
    | exact hc
    | exact hs _ _ _ _ _
    | apply FuelLe.ite
    | apply FuelLe.bind
    | intro _

theorem externalBranches_mono (fuel fuel' : Nat) (h : fuel ≤ fuel') (mol : OBMol) (i : Nat) :
    ∀ (l : List OBBond) (st : CyclicState),
      FuelLe (externalBranches fuel mol i l st) (externalBranches fuel' mol i l st) := by
  intro l
  induction l with
  | nil => intro st; exact FuelLe.refl _
  | cons b rest ih =>
    intro st
    have hp := fun s o g b => ParseNonCyclic_mono fuel fuel' h s mol o g b
    simp only [externalBranches]
    repeat' first
      | exact FuelLe.refl _
      | exact ih _
      | exact hp _ _ _ _
      | apply FuelLe.ite
      | apply FuelLe.bind
      | intro _

theorem locantBranches_mono (fuel fuel' : Nat) (h : fuel ≤ fuel') (mol : OBMol) :
    ∀ (l : List Nat) (i : Nat) (st : CyclicState),
      FuelLe (locantBranches fuel mol l i st) (locantBranches fuel' mol l i st) := by
  intro l
  induction l with
  | nil => intro _ st; exact FuelLe.refl _
  | cons a rest ih =>
    intro i st
    have he := fun i l s => externalBranches_mono fuel fuel' h mol i l s
    simp only [locantBranches]
    repeat' first
      | exact FuelLe.refl _
      | exact ih _ _
      | exact he _ _ _
      | apply FuelLe.ite
      | apply FuelLe.bind
      | intro _

theorem ParseAllCyclic_loop_mono (mol : OBMol) :
    ∀ (fuel fuel' : Nat) (locant_stack : List (PathPair × Bool)) (st : CyclicState),
      fuel ≤ fuel' →
      FuelLe (ParseAllCyclic.loop mol fuel locant_stack st)
        (ParseAllCyclic.loop mol fuel' locant_stack st) := by
  intro fuel
  induction fuel with
  | zero => intro fuel' _ _ _; exact FuelLe.bot _
  | succ f ih =>
    intro fuel' ls st h
    obtain ⟨f', rfl⟩ : ∃ f', fuel' = f' + 1 := ⟨fuel' - 1, by omega⟩
    have hl := fun l i s => locantBranches_mono (f + 1) (f' + 1) h mol l i s
    have hi := fun l s => ih f' l s (by omega)
    simp only [ParseAllCyclic.loop]
    repeat' first
      | exact FuelLe.refl _
      | exact hi _ _
      | exact hl _ _ _
      | apply FuelLe.ite
      | apply FuelLe.bind
      | intro _
      | split

theorem ParseAllCyclic_mono (fuel fuel' : Nat) (h : fuel ≤ fuel') (mol : OBMol)
    (obabel : BabelGraph) (graph : WLNGraph) (buffer : String) :
    FuelLe (ParseAllCyclic fuel mol obabel graph buffer)
      (ParseAllCyclic fuel' mol obabel graph buffer) := by
  have hp := fun r g b => ParseCyclic_mono fuel fuel' h r mol g b
  have hl := fun l s => ParseAllCyclic_loop_mono mol fuel fuel' l s h
  unfold ParseAllCyclic
  repeat' first
    | exact FuelLe.refl _
    | exact hp _ _ _
    | exact hl _ _
    | apply FuelLe.bind
    | intro _

/-- More fuel never changes a run of `WriteWLN` that did not run out of fuel. -/
theorem WriteWLN_mono (fuel fuel' : Nat) (h : fuel ≤ fuel') (buffer : String) (mol : OBMol) :
    FuelLe (WriteWLN fuel buffer mol) (WriteWLN fuel' buffer mol) := by
  unfold WriteWLN
  simp only
  apply FuelLe.ite
  · intro _; exact FuelLe.map _ (componentLoop_mono fuel fuel' h mol _ _ _)
  · intro _; exact FuelLe.map _ (ParseAllCyclic_mono fuel fuel' h mol _ _ _)

/-- A result that `WriteWLN` returns with some fuel is the result with any larger fuel. -/
theorem WriteWLN_fuel (fuel fuel' : Nat) (h : fuel ≤ fuel') (buffer : String) (mol : OBMol)
    (r : Bool × String) (hr : WriteWLN fuel buffer mol = .ok r) :
    WriteWLN fuel' buffer mol = .ok r :=
  (WriteWLN_mono fuel fuel' h buffer mol).of_ok hr

/-- The results that `WriteWLN` returns with two amounts of fuel agree. -/
theorem WriteWLN_deterministic (fuel fuel' : Nat) (buffer : String) (mol : OBMol)
    (r r' : Bool × String) (hr : WriteWLN fuel buffer mol = .ok r)
    (hr' : WriteWLN fuel' buffer mol = .ok r') : r = r' := by
  rcases Nat.le_total fuel fuel' with h | h
  · have := WriteWLN_fuel fuel fuel' h buffer mol r hr
    rw [this] at hr'
    exact Except.ok.inj hr'
  · have := WriteWLN_fuel fuel' fuel h buffer mol r' hr'
    rw [this] at hr
    exact (Except.ok.inj hr).symm

/-! ### Ring systems -/

/-- The loop of `ParseAllCyclic` never leaves through its `return true`: nothing pops the
locant stack, so the loop condition never turns false. -/
theorem ParseAllCyclic_loop_not_true (mol : OBMol) (fuel : Nat) :
    ∀ (locant_stack : List (PathPair × Bool)) (st : CyclicState) (r : Bool × CyclicState),
      locant_stack ≠ [] → ParseAllCyclic.loop mol fuel locant_stack st = .ok r → r.1 = false := by
  induction fuel with
  | zero => intro ls st r _ h; simp [ParseAllCyclic.loop] at h
  | succ fuel ih =>
    intro ls st r hne h
    match ls, hne with
    | ((none, path_size), freed) :: below, _ =>
      simp [ParseAllCyclic.loop] at h
      rw [← h]
    | ((some path, path_size), freed) :: below, _ =>
      simp only [ParseAllCyclic.loop] at h
      cases freed with
      | true => simp at h
      | false =>
        cases hb : locantBranches (fuel + 1) mol (List.take path_size path) 0 st with
        | error e => simp [hb, bind, Except.bind] at h
        | ok v =>
          obtain ⟨st1, go⟩ := v
          simp only [hb, bind, Except.bind] at h
          cases go with
          | false =>
            simp [pure, Except.pure] at h
            rw [← h]
          | true =>
            simp at h
            exact ih _ _ _ (by simp) h

/-- On a molecule with at least one ring `WriteWLN` never returns success. -/
theorem WriteWLN_cyclic_not_success (fuel : Nat) (buffer : String) (mol : OBMol)
    (hring : mol.sssr ≠ []) : returnsSuccess (WriteWLN fuel buffer mol) = false := by
  have hlen : mol.sssr.length ≠ 0 := by simpa using hring
  simp only [WriteWLN, hlen, if_false]
  cases hp : ParseAllCyclic fuel mol BabelGraph.new WLNGraph.new buffer with
  | error e => rfl
  | ok w =>
    have hw : w.1 = false := by
      simp only [ParseAllCyclic, bind, Except.bind] at hp
      cases hf : firstRingAtom mol with
      | error e => simp [hf] at hp
      | ok first =>
        simp only [hf] at hp
        cases hc : ParseCyclic fuel (mol.GetAtom first) mol WLNGraph.new buffer with
        | error e => simp [hc] at hp
        | ok c =>
          simp only [hc] at hp
          exact ParseAllCyclic_loop_not_true mol fuel _ _ _ (by simp) hp
    obtain ⟨b, st⟩ := w
    simp only at hw
    subst hw
    rfl

/-! ### Carbon chains -/

/-- Atom `k` of a chain is a carbon outside every ring. -/
theorem carbonChain_atom (N k : Nat) (h1 : 1 ≤ k) (h2 : k ≤ N) :
    (carbonChain N).atom k
      = .ok (carbon ((if 0 < k - 1 then 1 else 0) + (if k < N then 1 else 0)) false) := by
  obtain ⟨j, rfl⟩ : ∃ j, k = j + 1 := ⟨k - 1, by omega⟩
  have hj : j < N := by omega
  simp [OBMol.atom, carbonChain, List.getElem?_map, List.getElem?_range hj]

theorem chainBonds_filter (k : Nat) (h1 : 1 ≤ k) (m : Nat) :
    ((List.range m).map (fun i => (⟨i + 1, i + 2, 1⟩ : OBBond))).filter
        (fun b => b.beginAtom = k ∨ b.endAtom = k)
      = (if 1 < k ∧ k - 2 < m then [⟨k - 1, k, 1⟩] else [])
        ++ (if k - 1 < m then [⟨k, k + 1, 1⟩] else []) := by
  induction m with
  | zero => simp
  | succ m ih =>
    rw [List.range_succ, List.map_append, List.filter_append, ih]
    rcases Nat.lt_trichotomy (m + 1) k with h | h | h
    · by_cases h' : m + 2 = k
      · have e1 : k - 1 = m + 1 := by omega
        have e2 : k - 2 = m := by omega
        simp [e1, e2, ← h']
      · have a1 : ¬ (k - 2 < m) := by omega
        have a2 : ¬ (k - 1 < m) := by omega
        have a3 : ¬ (k - 2 < m + 1) := by omega
        have a4 : ¬ (k - 1 < m + 1) := by omega
        have a5 : ¬ (m + 1 = k) := by omega
        simp [a1, a2, a3, a4, a5, h']
    · subst h
      by_cases hm : m = 0
      · subst hm; simp
      · have a1 : m + 1 - 2 < m := by omega
        have a2 : 1 < m + 1 := by omega
        have a3 : 0 < m := by omega
        have a4 : m - 1 < m + 1 := by omega
        simp [a1, a2, a3, a4]
    · have a1 : k - 1 < m := by omega
      have a2 : k - 1 < m + 1 := by omega
      have a5 : ¬ (m + 1 = k) := by omega
      have a6 : ¬ (m + 2 = k) := by omega
      by_cases hk : 1 < k
      · have a3 : k - 2 < m := by omega
        have a4 : k - 2 < m + 1 := by omega
        simp [a1, a2, a3, a4, a5, a6, hk]
      · simp [a1, a2, a5, a6, hk]

theorem carbonChain_bondsOf (N k : Nat) (h1 : 1 ≤ k) (h2 : k ≤ N) :
    (carbonChain N).bondsOf k
      = (if 1 < k then [⟨k - 1, k, 1⟩] else []) ++ (if k < N then [⟨k, k + 1, 1⟩] else []) := by
  simp only [OBMol.bondsOf, carbonChain]
  rw [chainBonds_filter k h1 (N - 1)]
  by_cases hk : 1 < k
  · have a1 : k - 2 < N - 1 := by omega
    by_cases hN : k < N
    · have a2 : k - 1 < N - 1 := by omega
      simp [hk, a1, a2, hN]
    · have a2 : ¬ (k - 1 < N - 1) := by omega
      simp [hk, a1, a2, hN]
  · by_cases hN : k < N
    · have a2 : k - 1 < N - 1 := by omega
      simp [hk, a2, hN]
    · have a2 : ¬ (k - 1 < N - 1) := by omega
      simp [hk, a2, hN]

/-- Neighbours of atom `k` of a chain: the atom before it, then the atom after it. -/
theorem carbonChain_nbors (N k : Nat) (h1 : 1 ≤ k) (h2 : k ≤ N) :
    (carbonChain N).nbors k
      = (if 1 < k then [k - 1] else []) ++ (if k < N then [k + 1] else []) := by
  rw [OBMol.nbors, carbonChain_bondsOf N k h1 h2]
  by_cases hk : 1 < k <;> by_cases hN : k < N <;> simp [hk, hN, OBMol.nbrAtom] <;> omega

theorem carbonChain_GetBond_next (N k : Nat) (h1 : 1 ≤ k) (h2 : k < N) :
    (carbonChain N).GetBond k (k + 1) = some ⟨k, k + 1, 1⟩ := by
  rw [OBMol.GetBond, carbonChain_bondsOf N k h1 (by omega)]
  by_cases hk : 1 < k
  · have : ¬ (k - 1 = k) := by omega
    simp [hk, h2, OBMol.nbrAtom, List.find?, this]
  · simp [hk, h2, OBMol.nbrAtom, List.find?]

theorem carbonChain_GetBond_prev (N k : Nat) (h1 : 1 < k) (h2 : k ≤ N) :
    (carbonChain N).GetBond k (k - 1) = some ⟨k - 1, k, 1⟩ := by
  rw [OBMol.GetBond, carbonChain_bondsOf N k (by omega) h2]
  have : ¬ (k - 1 = k) := by omega
  simp [h1, OBMol.nbrAtom, List.find?, this]

theorem carbonChain_carbonCounts (N k : Nat) (h1 : 1 ≤ k) (h2 : k ≤ N) :
    ∃ c o, carbonCounts (carbonChain N) k = .ok (c, o) ∧ c ≤ 2 := by
  simp only [carbonCounts]
  rw [carbonChain_nbors N k h1 h2]
  by_cases hk : 1 < k <;> by_cases hN : k < N
  · refine ⟨2, 2, ?_, le_refl _⟩
    simp [hk, hN, List.foldlM, carbonChain_GetBond_next N k h1 hN,
      carbonChain_GetBond_prev N k hk h2, u32, bind, Except.bind, pure, Except.pure]
  · refine ⟨1, 1, ?_, by omega⟩
    simp [hk, hN, List.foldlM, carbonChain_GetBond_prev N k hk h2, u32, bind, Except.bind,
      pure, Except.pure]
  · refine ⟨1, 1, ?_, by omega⟩
    simp [hk, hN, List.foldlM, carbonChain_GetBond_next N k h1 hN, u32, bind, Except.bind,
      pure, Except.pure]
  · refine ⟨0, 0, ?_, by omega⟩
    simp [hk, hN, List.foldlM, pure, Except.pure]

theorem u32_of_lt {n : Nat} (h : n < 4294967296) : u32 n = n := Nat.mod_eq_of_lt h

theorem AllocateWLNSymbol_ok (ch : Char) (g : WLNGraph) (hch : ch ≠ Char.ofNat 0)
    (h : g.symbol_count < 1024) :
    AllocateWLNSymbol ch g
      = ({ g with symbol_count := g.symbol_count + 1,
                  SYMBOLS := setAt g.SYMBOLS (g.symbol_count + 1) { WLNSymbol.new with ch := ch },
                  glob_index := u32 (g.glob_index + 1) }, g.symbol_count + 1) := by
  have h1 : u32 (g.symbol_count + 1) = g.symbol_count + 1 := u32_of_lt (by omega)
  have h2 : ¬ (g.symbol_count + 1 > REASONABLE) := by simp [REASONABLE]; omega
  simp only [AllocateWLNSymbol, h1, h2, hch, if_false]

theorem AllocateWLNSymbol_full (ch : Char) (g : WLNGraph) (h : g.symbol_count = 1024) :
    (AllocateWLNSymbol ch g).2 = 0 := by
  simp [AllocateWLNSymbol, h, u32, REASONABLE]

theorem setAt_setAt {α : Type} (f : Nat → α) (i : Nat) (v w : α) :
    setAt (setAt f i v) i w = setAt f i w := by
  funext j; simp only [setAt]; split <;> rfl

theorem setAt_same {α : Type} (f : Nat → α) (i : Nat) (v : α) : setAt f i v i = v := by
  simp [setAt]

/-- While the pool has room `CreateWLNNode` gives a chain carbon the symbol `1` with four
allowed edges, in the next free slot. -/
theorem CreateWLNNode_chain (N k : Nat) (h1 : 1 ≤ k) (h2 : k ≤ N) (g : WLNGraph)
    (hg : g.symbol_count < 1024) :
    CreateWLNNode (carbonChain N) k g = .ok (withCarbon g, g.symbol_count + 1) := by
  obtain ⟨c, o, hco, hle⟩ := carbonChain_carbonCounts N k h1 h2
  have hk0 : k ≠ 0 := by omega
  have hch : ('1' : Char) ≠ Char.ofNat 0 := by decide
  have ha := AllocateWLNSymbol_ok '1' g hch hg
  simp only [CreateWLNNode, createSwitch, hk0, carbonChain_atom N k h1 h2, carbon, hco, hle,
    bind, Except.bind, pure, Except.pure, allocWithEdges, ha, if_true, if_false, Except.map]
  have hne : g.symbol_count + 1 ≠ 0 := by omega
  simp only [hne, if_false, WLNGraph.setSym, setAt_setAt, setAt_same,
    WLNSymbol.set_edge_and_type, WLNSymbol.new]
  by_cases hr : g.root = 0
  · simp [hr, setAt_same, withCarbon]
  · simp [hr, setAt_same, withCarbon]

/-- An `AllocateWLNEdge` call that passes the caps on a parent without edges succeeds and
yields `withEdge`. -/
theorem AllocateWLNEdge_first (fuel child parent : Nat) (g : WLNGraph)
    (hc : child ≠ 0) (hp : parent ≠ 0) (hcp : parent ≠ child) (he : g.edge_count < 1024)
    (hce : (g.SYMBOLS child).num_edges < (g.SYMBOLS child).allowed_edges)
    (hca : (g.SYMBOLS child).allowed_edges < 4294967296)
    (hpe : (g.SYMBOLS parent).num_edges < (g.SYMBOLS parent).allowed_edges)
    (hpa : (g.SYMBOLS parent).allowed_edges < 4294967296)
    (hpc : (g.SYMBOLS parent).num_children < 4294967295)
    (hb : (g.SYMBOLS parent).bonds = 0) :
    AllocateWLNEdge fuel child parent g = .ok (withEdge g child parent, g.edge_count + 1) := by
  have e1 : u32 (g.edge_count + 1) = g.edge_count + 1 := u32_of_lt (by omega)
  have e2 : ¬ (g.edge_count + 1 > REASONABLE) := by simp [REASONABLE]; omega
  have e3 : u32 ((g.SYMBOLS child).num_edges + 1) = (g.SYMBOLS child).num_edges + 1 :=
    u32_of_lt (by omega)
  have e4 : u32 ((g.SYMBOLS parent).num_edges + 1) = (g.SYMBOLS parent).num_edges + 1 :=
    u32_of_lt (by omega)
  have e5 : u32 ((g.SYMBOLS parent).num_children + 1) = (g.SYMBOLS parent).num_children + 1 :=
    u32_of_lt (by omega)
  have e6 : ¬ ((g.SYMBOLS child).num_edges + 1 > (g.SYMBOLS child).allowed_edges) := by omega
  have e7 : ¬ ((g.SYMBOLS parent).num_edges + 1 > (g.SYMBOLS parent).allowed_edges) := by omega
  have e8 : ¬ (child = 0 ∨ parent = 0) := by simp [hc, hp]
  simp only [AllocateWLNEdge, e8, if_false, e1, e2, e3, e4, e6, e7, hb, bind, Except.bind, pure,
    Except.pure, WLNGraph.setEdge, WLNGraph.setSym, ne_eq, not_true_eq_false, linkEdge]
  simp only [withEdge, Except.ok.injEq, Prod.mk.injEq, WLNGraph.mk.injEq, and_true, true_and]
  constructor
  · funext j
    by_cases hj1 : j = parent
    · subst hj1
      simp [setAt, hcp, e4, e5, hb]
    · by_cases hj2 : j = child
      · subst hj2
        simp [setAt, hj1, hcp, e3]
      · simp [setAt, hj1, hj2]
  · funext j
    by_cases hj : j = g.edge_count + 1
    · simp [setAt, hj, WLNEdge.new]
    · simp [setAt, hj]

theorem chainGraph_zero : chainGraph 0 = WLNGraph.new := by
  simp only [chainGraph, WLNGraph.new, WLNGraph.mk.injEq]
  refine ⟨by simp, by simp, trivial, trivial, ?_, ?_, by simp⟩
  · funext j
    have : ¬ (1 ≤ j ∧ j ≤ 0) := by omega
    simp only [this, if_false]
  · funext j
    have : ¬ (1 ≤ j ∧ j < 0) := by omega
    simp only [this, if_false]

theorem withCarbon_chainGraph_zero : withCarbon (chainGraph 0) = chainGraph 1 := by
  simp only [withCarbon, chainGraph, WLNGraph.mk.injEq]
  refine ⟨by simp, by simp, by simp, trivial, ?_, ?_, by simp [u32]⟩
  · funext j
    by_cases hj : j = 1
    · subst hj; simp [setAt, chainSymbol]
    · have a1 : ¬ (1 ≤ j ∧ j ≤ 1) := by omega
      have a2 : ¬ (1 ≤ j ∧ j ≤ 0) := by omega
      simp only [setAt, Nat.zero_add, hj, a1, a2, if_false]
  · funext j
    have a1 : ¬ (1 ≤ j ∧ j < 1) := by omega
    have a2 : ¬ (1 ≤ j ∧ j < 0) := by omega
    simp only [a1, a2, if_false]

theorem withEdge_chainGraph (m : Nat) (h1 : 1 ≤ m) (h2 : m < 4294967290) :
    withEdge (withCarbon (chainGraph m)) (m + 1) m = chainGraph (m + 1) := by
  have hm0 : m ≠ 0 := by omega
  simp only [withEdge, withCarbon, chainGraph, WLNGraph.mk.injEq]
  refine ⟨by simp [hm0], by simp; omega, by simp, trivial, ?_, ?_, by simp [u32]; omega⟩
  · funext j
    by_cases hj1 : j = m
    · subst hj1
      have a1 : 1 ≤ j ∧ j ≤ j + 1 := by omega
      have a2 : ¬ (j = j + 1) := by omega
      simp [setAt, a1, a2, h1, chainSymbol]
    · by_cases hj2 : j = m + 1
      · subst hj2
        simp [setAt, chainSymbol, hm0]
      · by_cases hj3 : 1 ≤ j ∧ j ≤ m
        · have a1 : 1 ≤ j ∧ j ≤ m + 1 := by omega
          have a2 : j < m := by omega
          have a3 : j < m + 1 := by omega
          simp [setAt, hj1, hj2, hj3, a1, a2, a3, chainSymbol]
        · have a1 : ¬ (1 ≤ j ∧ j ≤ m + 1) := by omega
          simp [setAt, hj1, hj2, hj3, a1]
  · funext j
    by_cases hj1 : j = m
    · subst hj1
      have a1 : 1 ≤ j ∧ j < j + 1 := by omega
      have a2 : j - 1 + 1 = j := by omega
      simp [setAt, a1, a2]
    · by_cases hj3 : 1 ≤ j ∧ j < m
      · have a1 : 1 ≤ j ∧ j < m + 1 := by omega
        have a2 : ¬ (j = m - 1 + 1) := by omega
        simp [setAt, hj3, a1, a2]
      · have a1 : ¬ (1 ≤ j ∧ j < m + 1) := by omega
        have a2 : ¬ (j = m - 1 + 1) := by omega
        simp [setAt, hj3, a1, a2]

theorem linkNbors_skip (fuel : Nat) (mol : OBMol) (atom node : Nat) (visited : Nat → Bool)
    (j : Nat) (rest : List Nat) (st : TreeState)
    (hmap : st.obabel.atom_symbol_map j ≠ 0) (hv : visited j = true) :
    linkNbors fuel mol atom node visited (j :: rest) st
      = linkNbors fuel mol atom node visited rest st := by
  simp [linkNbors, hmap, unvisitedAcyclic, hv, bind, Except.bind, pure, Except.pure]

theorem carbonChain_IsInRing (N k : Nat) (h1 : 1 ≤ k) (h2 : k ≤ N) :
    (carbonChain N).IsInRing k = .ok false := by
  simp [OBMol.IsInRing, carbonChain_atom N k h1 h2, Except.map, carbon]

theorem chainMaps_succ (k : Nat) :
    (⟨setAt (chainMaps k).atom_symbol_map (k + 1) (k + 1),
      setAt (chainMaps k).symbol_atom_map (k + 1) (k + 1),
      (chainMaps k).ring_handled⟩ : BabelGraph) = chainMaps (k + 1) := by
  have key : setAt (fun i => if 1 ≤ i ∧ i ≤ k then i else 0) (k + 1) (k + 1)
      = fun i => if 1 ≤ i ∧ i ≤ k + 1 then i else 0 := by
    funext j
    by_cases hj : j = k + 1
    · subst hj; simp [setAt]
    · by_cases hj2 : 1 ≤ j ∧ j ≤ k
      · have a1 : 1 ≤ j ∧ j ≤ k + 1 := by omega
        simp only [setAt, hj, hj2, a1, if_true, if_false, and_self]
      · have a1 : ¬ (1 ≤ j ∧ j ≤ k + 1) := by omega
        simp only [setAt, hj, hj2, a1, if_false]
  simp only [chainMaps, key]

theorem withCarbon_chainGraph_sym_child (k : Nat) :
    (withCarbon (chainGraph k)).SYMBOLS (k + 1) = ⟨'1', "", 0, 4, 0, 0, 0, 0, 0⟩ := by
  simp [withCarbon, chainGraph, setAt]

theorem withCarbon_chainGraph_sym_parent (k : Nat) (h1 : 1 ≤ k) :
    (withCarbon (chainGraph k)).SYMBOLS k = chainSymbol k k := by
  have a1 : ¬ (k = k + 1) := by omega
  simp [withCarbon, chainGraph, setAt, a1, h1]

theorem linkNbors_chain_next (fuel N k : Nat) (h1 : 1 ≤ k) (hN : k < N) (hk : k < 1024)
    (stack : List Nat) :
    linkNbors fuel (carbonChain N) k k (chainVisited k) [k + 1] ⟨chainMaps k, chainGraph k, stack⟩
      = .ok (⟨chainMaps (k + 1), chainGraph (k + 1), (k + 1) :: stack⟩, true) := by
  have hmap : (chainMaps k).atom_symbol_map (k + 1) = 0 := by
    have : ¬ (1 ≤ k + 1 ∧ k + 1 ≤ k) := by omega
    simp [chainMaps, this]
  have hring := carbonChain_IsInRing N (k + 1) (by omega) (by omega)
  have hnode := CreateWLNNode_chain N (k + 1) (by omega) (by omega) (chainGraph k)
    (by simpa [chainGraph] using hk)
  have hsc : (chainGraph k).symbol_count = k := rfl
  rw [hsc] at hnode
  have hbond := carbonChain_GetBond_next N k h1 hN
  have hedge := AllocateWLNEdge_first fuel (k + 1) k (withCarbon (chainGraph k))
    (by omega) (by omega) (by omega)
    (by simp [withCarbon, chainGraph]; omega)
    (by rw [withCarbon_chainGraph_sym_child]; decide)
    (by rw [withCarbon_chainGraph_sym_child]; decide)
    (by rw [withCarbon_chainGraph_sym_parent k h1]; simp [chainSymbol]; split <;> omega)
    (by rw [withCarbon_chainGraph_sym_parent k h1]; simp [chainSymbol])
    (by rw [withCarbon_chainGraph_sym_parent k h1]; simp [chainSymbol])
    (by rw [withCarbon_chainGraph_sym_parent k h1]; simp [chainSymbol])
  have hec : (withCarbon (chainGraph k)).edge_count + 1 = k := by
    simp [withCarbon, chainGraph]; omega
  rw [withEdge_chainGraph k h1 (by omega), hec] at hedge
  have hvis : chainVisited k (k + 1) = false := by
    have : ¬ (1 ≤ k + 1 ∧ k + 1 ≤ k) := by omega
    simp [chainVisited, this]
  simp only [linkNbors, hmap, hring, Except.map, hnode, hbond, hedge, unvisitedAcyclic, hvis,
    bind, Except.bind, pure, Except.pure, if_true, if_false, Bool.not_false, ite_true,
    Nat.add_one_ne_zero, gt_iff_lt, Nat.lt_irrefl, chainMaps_succ, Bool.false_eq_true]

/-- The neighbour loop of `BuildWLNTree` at atom `k` of a chain links the next atom, if
there is one, and pushes it. -/
theorem linkNbors_chain (fuel N k : Nat) (h1 : 1 ≤ k) (h2 : k ≤ N) (hk : k < N → k < 1024) :
    linkNbors fuel (carbonChain N) k k (chainVisited k) ((carbonChain N).nbors k)
        ⟨chainMaps k, chainGraph k, []⟩
      = .ok (⟨chainMaps (chainNext N k), chainGraph (chainNext N k),
              if k < N then [k + 1] else []⟩, true) := by
  rw [carbonChain_nbors N k h1 h2]
  have skip : ∀ rest, 1 < k →
      linkNbors fuel (carbonChain N) k k (chainVisited k) ((k - 1) :: rest)
          ⟨chainMaps k, chainGraph k, []⟩
        = linkNbors fuel (carbonChain N) k k (chainVisited k) rest
          ⟨chainMaps k, chainGraph k, []⟩ := by
    intro rest hk1
    apply linkNbors_skip
    · have : 1 ≤ k - 1 ∧ k - 1 ≤ k := by omega
      simp only [chainMaps, this, and_self, if_true]
      omega
    · have : 1 ≤ k - 1 ∧ k - 1 ≤ k := by omega
      simp [chainVisited, this]
  by_cases hk1 : 1 < k <;> by_cases hN : k < N
  · simp only [hk1, hN, if_true, List.singleton_append, skip _ hk1, chainNext]
    exact linkNbors_chain_next fuel N k h1 hN (hk hN) []
  · simp only [hk1, hN, if_true, if_false, List.append_nil, skip _ hk1, chainNext, linkNbors]
  · simp only [hk1, hN, if_true, if_false, List.nil_append, chainNext]
    exact linkNbors_chain_next fuel N k h1 hN (hk hN) []
  · simp only [hk1, hN, if_false, List.append_nil, chainNext, linkNbors]

theorem chainVisited_succ (k : Nat) : setAt (chainVisited k) (k + 1) true = chainVisited (k + 1) := by
  funext j
  by_cases hj : j = k + 1
  · subst hj; simp [setAt, chainVisited]
  · by_cases hj2 : 1 ≤ j ∧ j ≤ k
    · have a1 : 1 ≤ j ∧ j ≤ k + 1 := by omega
      simp [setAt, chainVisited, hj, hj2, a1]
    · have a1 : ¬ (1 ≤ j ∧ j ≤ k + 1) := by omega
      simp [setAt, chainVisited, hj, hj2, a1]

theorem chainVisited_zero : chainVisited 0 = fun _ => false := by
  funext j
  simp only [chainVisited, decide_eq_false_iff_not]
  omega

theorem chainMaps_zero : chainMaps 0 = BabelGraph.new := by
  have key : (fun i => if 1 ≤ i ∧ i ≤ 0 then i else 0) = fun _ => 0 := by
    funext j
    have : ¬ (1 ≤ j ∧ j ≤ 0) := by omega
    simp only [this, if_false]
  simp only [chainMaps, BabelGraph.new, key]

/-- One round of the loop of `BuildWLNTree` on a chain, for an atom that has its symbol. -/
theorem BuildWLNTree_loop_step (fuel N k : Nat) (h1 : 1 ≤ k) (h2 : k + 1 ≤ N)
    (hk : k + 1 < N → k + 1 < 1024) (root : Nat) :
    BuildWLNTree.loop (carbonChain N) (fuel + 1) (chainVisited k) root
        ⟨chainMaps (k + 1), chainGraph (k + 1), [k + 1]⟩
      = BuildWLNTree.loop (carbonChain N) fuel (chainVisited (k + 1)) root
        ⟨chainMaps (chainNext N (k + 1)), chainGraph (chainNext N (k + 1)),
         if k + 1 < N then [k + 1 + 1] else []⟩ := by
  have hmap : (chainMaps (k + 1)).atom_symbol_map (k + 1) = k + 1 := by
    have : 1 ≤ k + 1 ∧ k + 1 ≤ k + 1 := by omega
    simp only [chainMaps, this, and_self, if_true]
  have hlink := linkNbors_chain (fuel + 1) N (k + 1) (by omega) h2 hk
  conv => lhs; unfold BuildWLNTree.loop
  simp only [carbonChain_atom N (k + 1) (by omega) h2, carbon, chainVisited_succ, hmap,
    hlink, bind, Except.bind, pure, Except.pure]
  simp

/-- First round of the loop of `BuildWLNTree` on a chain: the start atom gets its symbol. -/
theorem BuildWLNTree_loop_first (fuel N : Nat) (h2 : 1 ≤ N) :
    BuildWLNTree.loop (carbonChain N) (fuel + 1) (fun _ => false) 0
        ⟨BabelGraph.new, WLNGraph.new, [1]⟩
      = BuildWLNTree.loop (carbonChain N) fuel (chainVisited 1) 1
        ⟨chainMaps (chainNext N 1), chainGraph (chainNext N 1), if 1 < N then [2] else []⟩ := by
  have hnode := CreateWLNNode_chain N 1 (le_refl _) h2 (chainGraph 0) (by simp [chainGraph])
  have hsc : (chainGraph 0).symbol_count = 0 := rfl
  rw [hsc, withCarbon_chainGraph_zero] at hnode
  have hlink := linkNbors_chain (fuel + 1) N 1 (le_refl _) h2 (by intro; omega)
  have hv := chainVisited_succ 0
  rw [chainVisited_zero] at hv
  have hm := chainMaps_succ 0
  rw [chainMaps_zero] at hm
  conv => lhs; unfold BuildWLNTree.loop
  simp only [carbonChain_atom N 1 (le_refl _) h2, carbon, ← chainGraph_zero, hnode, hv,
    bind, Except.bind, pure, Except.pure]
  have hm' : (⟨setAt (fun _ => 0) 1 1, setAt (fun _ => 0) 1 1, fun _ => false⟩ : BabelGraph)
      = chainMaps 1 := hm
  simp [BabelGraph.new, hm', hlink]

/-- The loop of `BuildWLNTree` on a chain of at most 1024 carbons, from the round of atom
`k + 1` on, ends with the tree of the whole chain. -/
theorem BuildWLNTree_loop_rest (N : Nat) (hN : N ≤ 1024) (root : Nat) :
    ∀ (d k fuel : Nat), 1 ≤ k → k + d = N → d + 1 ≤ fuel →
      BuildWLNTree.loop (carbonChain N) fuel (chainVisited k) root
          ⟨chainMaps (chainNext N k), chainGraph (chainNext N k), if k < N then [k + 1] else []⟩
        = .ok (⟨chainMaps N, chainGraph N, []⟩, root) := by
  intro d
  induction d with
  | zero =>
    intro k fuel h1 hkd hf
    have hk : k = N := by omega
    subst hk
    obtain ⟨f, rfl⟩ : ∃ f, fuel = f + 1 := ⟨fuel - 1, by omega⟩
    simp [chainNext, BuildWLNTree.loop]
  | succ d ih =>
    intro k fuel h1 hkd hf
    have hk : k < N := by omega
    obtain ⟨f, rfl⟩ : ∃ f, fuel = f + 1 := ⟨fuel - 1, by omega⟩
    have hstep := BuildWLNTree_loop_step f N k h1 (by omega) (by intro; omega) root
    simp only [chainNext, hk, if_true]
    rw [hstep]
    exact ih (k + 1) f (by omega) (by omega) (by omega)

/-- On a chain of `1 ≤ N ≤ 1024` carbons `BuildWLNTree`, started at the first atom with
empty maps and an empty graph, returns the root symbol 1 and the chain of `N` symbols. -/
theorem BuildWLNTree_chain (N fuel : Nat) (h1 : 1 ≤ N) (hN : N ≤ 1024) (hf : N + 1 ≤ fuel) :
    BuildWLNTree fuel 1 (carbonChain N) BabelGraph.new WLNGraph.new
      = .ok (chainMaps N, chainGraph N, 1) := by
  obtain ⟨f, rfl⟩ : ∃ f, fuel = f + 1 := ⟨fuel - 1, by omega⟩
  simp only [BuildWLNTree, BuildWLNTree_loop_first f N h1,
    BuildWLNTree_loop_rest N hN 1 (N - 1) 1 f (le_refl _) (by omega) (by omega),
    bind, Except.bind, pure, Except.pure]

theorem chainGraph_sym (N i : Nat) (h1 : 1 ≤ i) (h2 : i ≤ N) :
    (chainGraph N).SYMBOLS i = chainSymbol N i := by
  have : 1 ≤ i ∧ i ≤ N := ⟨h1, h2⟩
  simp only [chainGraph, this, and_self, if_true]

theorem chainGraph_edge (N i : Nat) (h1 : 1 ≤ i) (h2 : i < N) :
    (chainGraph N).EDGES i = ⟨i, i + 1, 0, false, 1⟩ := by
  have : 1 ≤ i ∧ i < N := ⟨h1, h2⟩
  simp only [chainGraph, this, and_self, if_true]

/-- The loop of `WriteCarbonChain` runs from symbol `i` of a chain to its last symbol. -/
theorem carbonRun_chain (N : Nat) (hN : N ≤ 1024) :
    ∀ (d i c fuel : Nat), 1 ≤ i → i + d = N → c + d ≤ 1024 → d + 1 ≤ fuel →
      carbonRun (chainGraph N) fuel c i = .ok (c + d, N) := by
  intro d
  induction d with
  | zero =>
    intro i c fuel h1 hi hc hf
    have : i = N := by omega
    subst this
    obtain ⟨f, rfl⟩ : ∃ f, fuel = f + 1 := ⟨fuel - 1, by omega⟩
    simp [carbonRun, chainGraph_sym i i h1 (le_refl _), chainSymbol]
  | succ d ih =>
    intro i c fuel h1 hi hc hf
    have hlt : i < N := by omega
    obtain ⟨f, rfl⟩ : ∃ f, fuel = f + 1 := ⟨fuel - 1, by omega⟩
    have hi0 : i ≠ 0 := by omega
    have hu : u32 (c + 1) = c + 1 := u32_of_lt (by omega)
    simp only [carbonRun, chainGraph_sym N i h1 (by omega), chainSymbol, hlt, if_true,
      chainGraph_edge N i h1 hlt, chainGraph_sym N (i + 1) (by omega) (by omega), ne_eq, hi0,
      not_false_eq_true, and_self, hu]
    rw [ih (i + 1) (c + 1) f (by omega) (by omega) (by omega) (by omega)]
    congr 2
    omega

theorem writeSymbol_chain (N fuel : Nat) (h1 : 1 ≤ N) (hN : N ≤ 1024) (hf : N ≤ fuel)
    (obabel : BabelGraph) (st : WriteState) (hg : st.graph = chainGraph N) :
    writeSymbol fuel (carbonChain N) obabel 1 st
      = .ok (some ({ st with buffer := st.buffer ++ toString N, prev := N }, N)) := by
  have hrun := carbonRun_chain N hN (N - 1) 1 1 fuel (le_refl _) (by omega) (by omega)
    (by omega)
  have h1N : 1 + (N - 1) = N := by omega
  rw [h1N] at hrun
  have hsym1 := chainGraph_sym N 1 (le_refl _) h1
  have c1 : ¬ (('1' : Char) = 'O') := by decide
  have c2 : ¬ (('1' : Char) = 'Q') := by decide
  simp only [writeSymbol, hg, hsym1, chainSymbol, c1, c2, if_false, if_true,
    WriteCarbonChain, hrun, bind, Except.bind, pure, Except.pure]

/-- On the tree of a chain of `N` carbons `WriteWLNFromNode` appends the decimal numeral
of `N` and nothing else. -/
theorem WriteWLNFromNode_chain (N fuel : Nat) (h1 : 1 ≤ N) (hN : N ≤ 1024) (hf : N + 1 ≤ fuel)
    (obabel : BabelGraph) (buffer : String) :
    WriteWLNFromNode fuel (carbonChain N) obabel 1 (chainGraph N) buffer
      = .ok (true, chainGraph N, buffer ++ toString N) := by
  obtain ⟨f, rfl⟩ : ∃ f, fuel = f + 1 := ⟨fuel - 1, by omega⟩
  obtain ⟨f2, rfl⟩ : ∃ f2, f = f2 + 1 := ⟨f - 1, by omega⟩
  have hsym1 := chainGraph_sym N 1 (le_refl _) h1
  have hsymN := chainGraph_sym N N h1 (le_refl _)
  have hprev : (chainSymbol N 1).previous = 0 := rfl
  have hbonds : (chainSymbol N N).bonds = 0 := by simp [chainSymbol]
  have henter : enterSymbol 1 0 [] ⟨chainGraph N, [(1, 0)], [], fun _ => false, 0, false, buffer⟩
      = ⟨chainGraph N, [], [], setAt (fun _ => false) 1 true, 1, false, buffer⟩ := by
    simp [enterSymbol, hsym1, hprev]
  simp only [WriteWLNFromNode, WriteWLNFromNode.loop, one_ne_zero, if_false, henter]
  rw [writeSymbol_chain N (f2 + 1 + 1) h1 hN (by omega) obabel _ rfl]
  simp only [bind, Except.bind, pure, Except.pure, hsymN, hbonds, edgesFrom, if_true,
    Except.map, pushChildren]

theorem ParseNonCyclic_chain (N fuel : Nat) (h1 : 1 ≤ N) (hN : N ≤ 1024) (hf : N + 1 ≤ fuel)
    (buffer : String) :
    ParseNonCyclic fuel 1 (carbonChain N) BabelGraph.new WLNGraph.new buffer
      = .ok (true, chainMaps N, chainGraph N, buffer ++ toString N) := by
  simp only [ParseNonCyclic, BuildWLNTree_chain N fuel h1 hN hf,
    WriteWLNFromNode_chain N fuel h1 hN hf, bind, Except.bind, pure, Except.pure,
    one_ne_zero, if_false]

theorem componentLoop_mapped (fuel : Nat) (mol : OBMol) (started : Bool) (st : CyclicState) :
    ∀ l : List Nat, (∀ a ∈ l, st.obabel.atom_symbol_map a ≠ 0) →
      componentLoop fuel mol l started st = .ok (st, true) := by
  intro l
  induction l with
  | nil => intro _; simp [componentLoop]
  | cons a rest ih =>
    intro h
    have ha := h a (List.mem_cons_self _ _)
    simp only [componentLoop, ha, if_false]
    exact ih (fun b hb => h b (List.mem_cons_of_mem _ hb))

/-- On a chain of `1 ≤ N ≤ 1024` carbons, given enough fuel, `WriteWLN` returns success
with the decimal numeral of `N` appended to the buffer. -/
theorem WriteWLN_chain (N fuel : Nat) (h1 : 1 ≤ N) (hN : N ≤ 1024) (hf : N + 1 ≤ fuel)
    (buffer : String) :
    WriteWLN fuel buffer (carbonChain N) = .ok (true, buffer ++ toString N) := by
  have hlen : (carbonChain N).atoms.length = N := by simp [carbonChain]
  have hs : (carbonChain N).sssr.length = 0 := by simp [carbonChain]
  obtain ⟨M, rfl⟩ : ∃ M, N = M + 1 := ⟨N - 1, by omega⟩
  have hmap0 : BabelGraph.new.atom_symbol_map 1 = 0 := rfl
  have hrest := componentLoop_mapped fuel (carbonChain (M + 1)) true
    ⟨chainMaps (M + 1), chainGraph (M + 1), buffer ++ toString (M + 1)⟩ (List.range' 2 M)
    (by
      intro a ha
      have := List.mem_range'.1 ha
      obtain ⟨i, hi, rfl⟩ := this
      have a1 : 1 ≤ 2 + 1 * i ∧ 2 + 1 * i ≤ M + 1 := by omega
      simp only [chainMaps, a1, and_self, if_true]
      omega)
  simp only [WriteWLN, hs, hlen, if_true, List.range'_succ, componentLoop, hmap0,
    ParseNonCyclic_chain (M + 1) fuel h1 hN hf, bind, Except.bind, pure, Except.pure,
    Bool.false_eq_true, if_false, Bool.not_true, hrest, Except.map]

/-- With 1024 symbols allocated `CreateWLNNode` dereferences the null pointer that
`AllocateWLNSymbol` returns. -/
theorem CreateWLNNode_chain_full (N k : Nat) (h1 : 1 ≤ k) (h2 : k ≤ N) (g : WLNGraph)
    (hg : g.symbol_count = 1024) :
    CreateWLNNode (carbonChain N) k g = .error .nullDeref := by
  obtain ⟨c, o, hco, hle⟩ := carbonChain_carbonCounts N k h1 h2
  have hk0 : k ≠ 0 := by omega
  have ha : AllocateWLNSymbol '1' g = ({ g with symbol_count := 1025 }, 0) := by
    simp [AllocateWLNSymbol, hg, u32, REASONABLE]
  simp only [CreateWLNNode, createSwitch, hk0, carbonChain_atom N k h1 h2, carbon, hco, hle,
    bind, Except.bind, pure, Except.pure, allocWithEdges, ha, if_true, if_false, Except.map]

/-- On a chain of more than 1024 carbons the round of atom 1024 asks for symbol 1025:
`AllocateWLNSymbol` returns null and `CreateWLNNode` dereferences it. -/
theorem BuildWLNTree_loop_full (f N : Nat) (hN : 1024 < N) (root : Nat) :
    BuildWLNTree.loop (carbonChain N) (f + 1) (chainVisited 1023) root
        ⟨chainMaps 1024, chainGraph 1024, [1024]⟩ = .error .nullDeref := by
  have hmap : (chainMaps 1024).atom_symbol_map 1024 = 1024 := by simp [chainMaps]
  have hmap2 : (chainMaps 1024).atom_symbol_map 1023 ≠ 0 := by simp [chainMaps]
  have hmap3 : (chainMaps 1024).atom_symbol_map 1025 = 0 := by simp [chainMaps]
  have hv : chainVisited 1024 1023 = true := by simp [chainVisited]
  have hnb : (carbonChain N).nbors 1024 = [1023, 1025] := by
    rw [carbonChain_nbors N 1024 (by omega) (by omega)]
    simp [hN]
  have hring := carbonChain_IsInRing N 1025 (by omega) (by omega)
  have hnode := CreateWLNNode_chain_full N 1025 (by omega) (by omega) (chainGraph 1024) rfl
  have hlink : linkNbors (f + 1) (carbonChain N) 1024 1024 (chainVisited 1024) [1023, 1025]
      ⟨chainMaps 1024, chainGraph 1024, []⟩ = .error .nullDeref := by
    rw [linkNbors_skip _ _ _ _ _ _ _ _ hmap2 hv]
    simp only [linkNbors, hmap3, hring, Except.map, hnode, bind, Except.bind, pure, Except.pure,
      if_true, Bool.not_false]
  conv => lhs; unfold BuildWLNTree.loop
  simp only [carbonChain_atom N 1024 (by omega) (by omega), carbon, chainVisited_succ 1023, hmap,
    hnb, hlink, bind, Except.bind, pure, Except.pure]
  simp

theorem BuildWLNTree_loop_rest_fails (N : Nat) (hN : 1024 < N) (root : Nat) :
    ∀ (d k fuel : Nat), 1 ≤ k → k + d = 1023 →
      ∃ e, BuildWLNTree.loop (carbonChain N) fuel (chainVisited k) root
          ⟨chainMaps (k + 1), chainGraph (k + 1), [k + 1]⟩ = .error e := by
  intro d
  induction d with
  | zero =>
    intro k fuel h1 hk
    have : k = 1023 := by omega
    subst this
    cases fuel with
    | zero => exact ⟨.outOfFuel, by simp [BuildWLNTree.loop]⟩
    | succ f => exact ⟨_, BuildWLNTree_loop_full f N hN root⟩
  | succ d ih =>
    intro k fuel h1 hk
    cases fuel with
    | zero => exact ⟨.outOfFuel, by simp [BuildWLNTree.loop]⟩
    | succ f =>
      have hstep := BuildWLNTree_loop_step f N k h1 (by omega) (by intro; omega) root
      have hlt : k + 1 < N := by omega
      simp only [chainNext, hlt, if_true] at hstep
      rw [hstep]
      exact ih (k + 1) f (by omega) (by omega)

/-- On a chain of more than 1024 carbons `WriteWLN` never returns: the run stops in a
fault whatever the fuel. -/
theorem WriteWLN_chain_too_long (N fuel : Nat) (hN : 1024 < N) (buffer : String) :
    ∃ e, WriteWLN fuel buffer (carbonChain N) = .error e := by
  have hlen : (carbonChain N).atoms.length = N := by simp [carbonChain]
  have hs : (carbonChain N).sssr.length = 0 := by simp [carbonChain]
  obtain ⟨M, rfl⟩ : ∃ M, N = M + 1 := ⟨N - 1, by omega⟩
  have hmap0 : BabelGraph.new.atom_symbol_map 1 = 0 := rfl
  have hbuild : ∃ e, BuildWLNTree fuel 1 (carbonChain (M + 1)) BabelGraph.new WLNGraph.new
      = .error e := by
    cases fuel with
    | zero => exact ⟨.outOfFuel, by simp [BuildWLNTree, BuildWLNTree.loop, bind, Except.bind]⟩
    | succ f =>
      have h2 : (1 : Nat) < M + 1 := by omega
      obtain ⟨e, he⟩ := BuildWLNTree_loop_rest_fails (M + 1) hN 1 1022 1 f (le_refl _) rfl
      refine ⟨e, ?_⟩
      have hfirst := BuildWLNTree_loop_first f (M + 1) (by omega)
      simp only [chainNext, h2, if_true] at hfirst
      simp only [BuildWLNTree, hfirst, he, bind, Except.bind]
  obtain ⟨e, he⟩ := hbuild
  refine ⟨e, ?_⟩
  simp only [WriteWLN, hs, hlen, if_true, List.range'_succ, componentLoop, hmap0,
    ParseNonCyclic, he, bind, Except.bind, Except.map]

/-! ### End-to-end scenarios -/

/-- Claim C1, as the code behaves: on naphthalene `ParseCyclic` writes exactly `L66J`, but
`WriteWLN` never returns success; the loop over the locant stack pops nothing and its
second round uses the locant path it has freed. -/
theorem naphthalene_never_returns :
    cyclicResult (ParseCyclic 64 1 naphthalene WLNGraph.new "")
        = .ok ((some [4, 5, 6, 7, 8, 9, 10, 1, 2, 3], 10), "L66J")
      ∧ (∀ fuel, WriteWLN (fuel + 64) "" naphthalene = .error .useAfterFree)
      ∧ ∀ fuel, returnsSuccess (WriteWLN fuel "" naphthalene) = false := by
  refine ⟨by decide!, fun fuel => ?_,
    fun fuel => WriteWLN_cyclic_not_success fuel "" naphthalene (by decide)⟩
  have h64 : WriteWLN 64 "" naphthalene = .error .useAfterFree := by decide!
  rcases WriteWLN_mono 64 (fuel + 64) (by omega) "" naphthalene with h | h
  · rw [h64] at h; cases h
  · rw [← h, h64]

/-- Claim C2, as the code behaves: on benzene no atom has ring share 2, `GetSeedAtoms`
finds no seed, and `WriteWLN` returns false with an empty buffer. -/
theorem benzene_rejected :
    GetSeedAtoms [1, 2, 3, 4, 5, 6] (fun _ => 1) 2 = []
      ∧ (∀ fuel, WriteWLN (fuel + 64) "" benzene = .ok (false, ""))
      ∧ ∀ fuel, returnsSuccess (WriteWLN fuel "" benzene) = false :=
  ⟨by decide,
   fun fuel => WriteWLN_fuel 64 (fuel + 64) (by omega) "" benzene _ (by decide!),
   fun fuel => WriteWLN_cyclic_not_success fuel "" benzene (by decide)⟩

/-- Claim C3, as the code behaves: on pyridine `WriteWLN` returns false with an empty
buffer, for the same reason as on benzene. -/
theorem pyridine_rejected :
    (∀ fuel, WriteWLN (fuel + 64) "" pyridine = .ok (false, ""))
      ∧ ∀ fuel, returnsSuccess (WriteWLN fuel "" pyridine) = false :=
  ⟨fun fuel => WriteWLN_fuel 64 (fuel + 64) (by omega) "" pyridine _ (by decide!),
   fun fuel => WriteWLN_cyclic_not_success fuel "" pyridine (by decide)⟩

/-- Claim C4, failing input: on ethanol given as the atoms C, C, O `WriteWLN` returns
success with the buffer `2Q`, whatever the fuel from 64 on, and no amount of fuel makes it
return `Q2`: the transcription starts at the first atom of the molecule and is compared
with no other.  Given as O, C, C the same molecule is written `Q2`, so the notation
written is not one notation of the molecule. -/
theorem ethanol_not_Q2 :
    (∀ fuel, WriteWLN (fuel + 64) "" ethanol = .ok (true, "2Q"))
      ∧ (¬ ∃ fuel, WriteWLN fuel "" ethanol = .ok (true, "Q2"))
      ∧ ∀ fuel, WriteWLN (fuel + 64) "" ethanolFromOxygen = .ok (true, "Q2") := by
  refine ⟨fun fuel => WriteWLN_fuel 64 (fuel + 64) (by omega) "" ethanol _ (by decide!), ?_,
    fun fuel => WriteWLN_fuel 64 (fuel + 64) (by omega) "" ethanolFromOxygen _ (by decide!)⟩
  rintro ⟨fuel, h⟩
  have h64 : WriteWLN 64 "" ethanol = .ok (true, "2Q") := by decide!
  have := WriteWLN_deterministic fuel 64 "" ethanol _ _ h h64
  revert this
  decide

/-- Claim C5: on acetone `WriteWLN` returns success with the buffer `1V1`, the central
carbon and its double-bonded oxygen being written as the one symbol `V`. -/
theorem acetone_written (fuel : Nat) : WriteWLN (fuel + 64) "" acetone = .ok (true, "1V1") :=
  WriteWLN_fuel 64 (fuel + 64) (by omega) "" acetone _ (by decide!)

/-- Claim C6 refuted as stated: the chain of 1025 carbons is not written as `1025`,
whatever the fuel; the pool of 1024 symbols is exhausted. -/
theorem carbon_chain_1025_not_written :
    ¬ ∃ fuel, WriteWLN fuel "" (carbonChain 1025) = .ok (true, toString 1025) := by
  rintro ⟨fuel, h⟩
  obtain ⟨e, he⟩ := WriteWLN_chain_too_long 1025 fuel (by decide) ""
  rw [he] at h
  cases h

/-- Claim C6, amended: for every `1 ≤ n ≤ 1023`, the unbranched saturated chain of `n`
carbons listed from one end to the other is written, with fuel `n + 1` or more, as exactly
the decimal numeral of `n`. -/
theorem carbon_chain_written (n fuel : Nat) (h1 : 1 ≤ n) (h2 : n ≤ 1023) (hf : n + 1 ≤ fuel) :
    WriteWLN fuel "" (carbonChain n) = .ok (true, toString n) := by
  have := WriteWLN_chain n fuel h1 (by omega) hf ""
  rwa [String.empty_append] at this

/-- Witness of `carbon_chain_written` at `n = 12`. -/
theorem carbon_chain_written_witness :
    1 ≤ 12 ∧ 12 ≤ 1023 ∧ 12 + 1 ≤ 13 ∧ WriteWLN 13 "" (carbonChain 12) = .ok (true, "12") :=
  ⟨by decide, by decide, by decide, carbon_chain_written 12 13 (by decide) (by decide) (by decide)⟩

/-- Claim C10 refuted as stated: on the molecule without atoms `WriteWLN` does not
return false. -/
theorem empty_molecule_not_rejected :
    ¬ ∃ fuel s, WriteWLN fuel "" emptyMolecule = .ok (false, s) := by
  rintro ⟨fuel, s, h⟩
  simp [WriteWLN, emptyMolecule, componentLoop, Except.map] at h

/-- Claim C10, amended: on the molecule without atoms `WriteWLN` returns true, whatever
the fuel, and leaves the buffer empty. -/
theorem empty_molecule_written (fuel : Nat) :
    WriteWLN fuel "" emptyMolecule = .ok (true, "") := by
  simp [WriteWLN, emptyMolecule, componentLoop, Except.map]

/-! ### The writer against the grammar automaton -/

/-- Claim C9: each of the lines `L6TJ`, `1X28P2X1` and `T6NJ` is accepted in full by the
automaton of `BuildWLNFSM`, every run over the whole line ending in an accepting state,
whatever the accept flag of the root; so three of the three lines match. -/
theorem grep_lines_accepted (rootAccept : Bool) :
    (CreateWLNNFA rootAccept).accepts "L6TJ" = true
      ∧ (CreateWLNNFA rootAccept).accepts "1X28P2X1" = true
      ∧ (CreateWLNNFA rootAccept).accepts "T6NJ" = true
      ∧ (CreateWLNNFA rootAccept).everyRunAccepts "L6TJ" = true
      ∧ (CreateWLNNFA rootAccept).everyRunAccepts "1X28P2X1" = true
      ∧ (CreateWLNNFA rootAccept).everyRunAccepts "T6NJ" = true
      ∧ (["L6TJ", "1X28P2X1", "T6NJ"].filter (CreateWLNNFA rootAccept).accepts).length = 3 := by
  cases rootAccept <;> decide!

/-- Claim C7, failing input: on two bonded silicon atoms `WriteWLN` returns success with
the buffer `-SI--SI-`, which the automaton of `BuildWLNFSM` rejects whatever the accept
flag of the root. -/
theorem disilicon_not_in_grammar (rootAccept : Bool) :
    (∀ fuel, WriteWLN (fuel + 64) "" disilicon = .ok (true, "-SI--SI-"))
      ∧ (CreateWLNNFA rootAccept).accepts "-SI--SI-" = false :=
  ⟨fun fuel => WriteWLN_fuel 64 (fuel + 64) (by omega) "" disilicon _ (by decide!),
   by cases rootAccept <;> decide!⟩

/-! ### Components of a molecule without rings -/

/-- A sequence that returns a value has returned one at its first step. -/
theorem bind_ok {α β : Type} {m : Except Fault α} {f : α → Except Fault β} {r : β}
    (h : (m >>= f) = .ok r) : ∃ x, m = .ok x ∧ f x = .ok r := by
  cases m with
  | error e => cases h
  | ok x => exact ⟨x, rfl, h⟩

/-- A mapped run that returns a value comes from a run that returned. -/
theorem map_ok {α β : Type} {m : Except Fault α} {g : α → β} {r : β}
    (h : m.map g = .ok r) : ∃ x, m = .ok x ∧ g x = r := by
  cases m with
  | error e => cases h
  | ok x => exact ⟨x, rfl, Except.ok.inj h⟩

/-- An atom pointer that can be dereferenced lies in `1..NumAtoms()`. -/
theorem atom_mem (mol : OBMol) (x : Nat) (a : OBAtom) (h : mol.atom x = .ok a) :
    a ∈ mol.atoms ∧ 1 ≤ x ∧ x ≤ mol.atoms.length := by
  unfold OBMol.atom at h
  cases x with
  | zero => cases h
  | succ k =>
    simp only at h
    cases hk : mol.atoms.get? k with
    | none => rw [hk] at h; cases h
    | some y =>
      rw [hk] at h
      cases h
      have hlt : k < mol.atoms.length := List.get?_eq_some.1 hk |>.1
      exact ⟨List.get?_mem hk, by omega, by omega⟩

/-- In a molecule without ring atoms `IsInRing()` is false wherever it can be asked. -/
theorem IsInRing_ok (mol : OBMol) (hflags : ∀ a ∈ mol.atoms, a.inRing = false) (y : Nat)
    (r : Bool) (h : mol.IsInRing y = .ok r) : r = false := by
  obtain ⟨a, ha, hr⟩ := map_ok h
  rw [← hr]
  exact hflags a (atom_mem mol y a ha).1

/-- In a molecule without ring atoms the push test is `!visited[neighbour]`. -/
theorem unvisitedAcyclic_ok (mol : OBMol) (hflags : ∀ a ∈ mol.atoms, a.inRing = false)
    (visited : Nat → Bool) (y : Nat) (b : Bool) (h : unvisitedAcyclic mol visited y = .ok b) :
    b = !visited y := by
  unfold unvisitedAcyclic at h
  split_ifs at h with hv
  · cases h; simp [hv]
  · obtain ⟨r, hr, hb⟩ := map_ok h
    rw [IsInRing_ok mol hflags y r hr] at hb
    simp [← hb, hv]

/-- The loop over the neighbours of an anionic oxygen leaves each of them visited or on
the stack, and pushes nothing else. -/
theorem pushAcyclic_ok (mol : OBMol) (hflags : ∀ a ∈ mol.atoms, a.inRing = false)
    (visited : Nat → Bool) :
    ∀ (l stack res : List Nat), pushAcyclic mol visited l stack = .ok res →
      (∀ y ∈ l, visited y = true ∨ y ∈ res) ∧ (∀ z ∈ res, z ∈ stack ∨ z ∈ l)
        ∧ (∀ z ∈ stack, z ∈ res)
  | [], stack, res, h => by
    cases h
    exact ⟨by simp, fun z hz => Or.inl hz, fun z hz => hz⟩
  | y :: rest, stack, res, h => by
    simp only [pushAcyclic] at h
    obtain ⟨b, hb, h⟩ := bind_ok h
    have hbv := unvisitedAcyclic_ok mol hflags visited y b hb
    split_ifs at h with hpush
    · obtain ⟨h1, h2, h3⟩ := pushAcyclic_ok mol hflags visited rest (y :: stack) res h
      refine ⟨?_, ?_, ?_⟩
      · intro z hz
        rcases List.mem_cons.1 hz with rfl | hz
        · exact Or.inr (h3 _ (List.mem_cons_self _ _))
        · exact h1 z hz
      · intro z hz
        rcases h2 z hz with h | h
        · rcases List.mem_cons.1 h with rfl | h
          · exact Or.inr (List.mem_cons_self _ _)
          · exact Or.inl h
        · exact Or.inr (List.mem_cons_of_mem _ h)
      · intro z hz
        exact h3 z (List.mem_cons_of_mem _ hz)
    · obtain ⟨h1, h2, h3⟩ := pushAcyclic_ok mol hflags visited rest stack res h
      refine ⟨?_, ?_, h3⟩
      · intro z hz
        rcases List.mem_cons.1 hz with rfl | hz
        · left
          rw [hbv] at hpush
          simpa using hpush
        · exact h1 z hz
      · intro z hz
        rcases h2 z hz with h | h
        · exact Or.inl h
        · exact Or.inr (List.mem_cons_of_mem _ h)

/-- One neighbour more in front of a complete run of the neighbour loop. -/
theorem Linked.cons_step (visited : Nat → Bool) (y : Nat) (rest : List Nat) (st st1 st2 : TreeState)
    (hstack : st1.stack = if (!visited y) = true then y :: st.stack else st.stack)
    (hmono : ∀ z, st.obabel.atom_symbol_map z ≠ 0 → st1.obabel.atom_symbol_map z ≠ 0)
    (hfresh : ∀ z, st1.obabel.atom_symbol_map z ≠ 0 →
      st.obabel.atom_symbol_map z ≠ 0 ∨ z = y)
    (ih : Linked visited rest st1 st2) : Linked visited (y :: rest) st st2 := by
  obtain ⟨h1, h2, h3, h4, h5⟩ := ih
  refine ⟨?_, ?_, ?_, ?_, ?_⟩
  · intro z hz
    rcases List.mem_cons.1 hz with rfl | hz
    · by_cases hv : visited z = true
      · exact Or.inl hv
      · right
        apply h3
        rw [hstack]
        simp [hv]
    · exact h1 z hz
  · intro z hz
    rcases h2 z hz with h | h
    · rw [hstack] at h
      split_ifs at h
      · rcases List.mem_cons.1 h with rfl | h
        · exact Or.inr (List.mem_cons_self _ _)
        · exact Or.inl h
      · exact Or.inl h
    · exact Or.inr (List.mem_cons_of_mem _ h)
  · intro z hz
    apply h3
    rw [hstack]
    split_ifs
    · exact List.mem_cons_of_mem _ hz
    · exact hz
  · intro z hz
    exact h4 z (hmono z hz)
  · intro z hz
    rcases h5 z hz with h | h
    · rcases hfresh z h with h | rfl
      · exact Or.inl h
      · exact Or.inr (List.mem_cons_self _ _)
    · exact Or.inr (List.mem_cons_of_mem _ h)

/-- A run of the neighbour loop of `BuildWLNTree` that does not leave through `return 0`
leaves every neighbour visited or on the stack and gives symbols to neighbours only. -/
theorem linkNbors_ok (fuel : Nat) (mol : OBMol) (hflags : ∀ a ∈ mol.atoms, a.inRing = false)
    (atom node : Nat) (visited : Nat → Bool) :
    ∀ (l : List Nat) (st st2 : TreeState),
      linkNbors fuel mol atom node visited l st = .ok (st2, true) → Linked visited l st st2
  | [], st, st2, h => by
    simp only [linkNbors, Except.ok.injEq, Prod.mk.injEq, and_true] at h
    subst h
    exact ⟨by simp, fun z hz => Or.inl hz, fun z hz => hz, fun z hz => hz, fun z hz => Or.inl hz⟩
  | y :: rest, st, st2, h => by
    simp only [linkNbors] at h
    obtain ⟨fresh, hfresh, h⟩ := bind_ok h
    cases fresh with
    | true =>
      simp only [if_true] at h
      obtain ⟨⟨graph, child⟩, hcreate, h⟩ := bind_ok h
      simp only at h
      split_ifs at h with hchild
      · simp [pure, Except.pure] at h
      · split at h
        · simp [pure, Except.pure] at h
        · obtain ⟨⟨graph2, edge⟩, _, h⟩ := bind_ok h
          obtain ⟨⟨graph3, e3⟩, _, h⟩ := bind_ok h
          obtain ⟨push, hpush, h⟩ := bind_ok h
          have hp := unvisitedAcyclic_ok mol hflags visited y push hpush
          subst hp
          have ih := linkNbors_ok fuel mol hflags atom node visited rest _ st2 h
          refine Linked.cons_step visited y rest st _ st2 ?_ ?_ ?_ ih
          · rfl
          · intro z hz
            simp only [setAt]
            split_ifs
            · exact hchild
            · exact hz
          · intro z hz
            simp only [setAt] at hz
            split_ifs at hz with hzy
            · exact Or.inr hzy
            · exact Or.inl hz
    | false =>
      simp only [Bool.false_eq_true, if_false] at h
      obtain ⟨push, hpush, h⟩ := bind_ok h
      have hp := unvisitedAcyclic_ok mol hflags visited y push hpush
      subst hp
      have ih := linkNbors_ok fuel mol hflags atom node visited rest _ st2 h
      refine Linked.cons_step visited y rest st _ st2 ?_ ?_ ?_ ih
      · rfl
      · exact fun z hz => hz
      · exact fun z hz => Or.inl hz

/-- The invariant survives a round of the loop of `BuildWLNTree` that takes `x` from the
stack. -/
theorem TreeInv.pop_step (mol : OBMol) (a : Nat) (ob0 : BabelGraph) (visited : Nat → Bool)
    (root root' x : Nat) (rest : List Nat) (ax : OBAtom) (st st' : TreeState)
    (inv : TreeInv mol a ob0 visited root st) (hstack : st.stack = x :: rest)
    (hx : mol.atom x = .ok ax)
    (h1 : ∀ y ∈ mol.nbors x, setAt visited x true y = true ∨ y ∈ st'.stack)
    (h2 : ∀ z ∈ st'.stack, z ∈ rest ∨ z ∈ mol.nbors x)
    (h3 : ∀ z ∈ rest, z ∈ st'.stack)
    (h4 : ∀ z, st.obabel.atom_symbol_map z ≠ 0 → st'.obabel.atom_symbol_map z ≠ 0)
    (h5 : ∀ z, st'.obabel.atom_symbol_map z ≠ 0 →
      st.obabel.atom_symbol_map z ≠ 0 ∨ z = x ∨ z ∈ mol.nbors x)
    (h6 : ¬ IsAnion mol x → st'.obabel.atom_symbol_map x ≠ 0)
    (h7 : root' ≠ 0 → root ≠ 0 ∨ (st.obabel.atom_symbol_map x = 0 ∧ ¬ IsAnion mol x)) :
    TreeInv mol a ob0 (setAt visited x true) root' st' := by
  have hxs : x ∈ st.stack := by rw [hstack]; exact List.mem_cons_self _ _
  have hcx : Connected mol a x := inv.stack_conn x hxs
  have hnb : ∀ y ∈ mol.nbors x, Connected mol a y := fun y hy =>
    Relation.ReflTransGen.tail hcx hy
  have hvis : ∀ z, visited z = true → setAt visited x true z = true := by
    intro z hz
    simp only [setAt]
    split_ifs <;> simp [hz]
  have hvx : setAt visited x true x = true := by simp [setAt]
  have hcases : ∀ z, setAt visited x true z = true → z = x ∨ visited z = true := by
    intro z hz
    simp only [setAt] at hz
    split_ifs at hz with h
    · exact Or.inl h
    · exact Or.inr hz
  refine ⟨?_, ?_, ?_, ?_, ?_, ?_, ?_, ?_, ?_⟩
  · intro z hz
    rcases h2 z hz with h | h
    · exact inv.stack_conn z (by rw [hstack]; exact List.mem_cons_of_mem _ h)
    · exact hnb z h
  · intro z hz
    rcases hcases z hz with rfl | h
    · exact hcx
    · exact inv.visited_conn z h
  · intro z hz
    rcases hcases z hz with rfl | h
    · exact ⟨ax, hx⟩
    · exact inv.visited_valid z h
  · intro u hu v hv
    rcases hcases u hu with rfl | h
    · exact h1 v hv
    · rcases inv.closed u h v hv with h' | h'
      · exact Or.inl (hvis v h')
      · rw [hstack] at h'
        rcases List.mem_cons.1 h' with rfl | h'
        · exact Or.inl hvx
        · exact Or.inr (h3 v h')
  · intro u hu hna
    rcases hcases u hu with rfl | h
    · exact h6 hna
    · exact h4 u (inv.mapped u h hna)
  · intro z hz
    exact h4 z (inv.mono z hz)
  · intro z hz
    rcases h5 z hz with h | rfl | h
    · exact inv.fresh z h
    · exact Or.inr hcx
    · exact Or.inr (hnb z h)
  · intro hr
    rcases h7 hr with h | ⟨h, hna⟩
    · exact inv.root_new h
    · refine ⟨x, hcx, ?_, hna⟩
      by_contra hne
      exact inv.mono x hne h
  · rcases inv.start with h | h
    · exact Or.inl (hvis a h)
    · rw [hstack] at h
      rcases List.mem_cons.1 h with rfl | h
      · exact Or.inl hvx
      · exact Or.inr (h3 a h)

/-- An atom that fails the test of `BuildWLNTree` for an anionic oxygen is none. -/
theorem not_anion (mol : OBMol) (x : Nat) (ax : OBAtom) (hx : mol.atom x = .ok ax)
    (h : ¬ (ax.formalCharge = -1 ∧ ax.atomicNum = 8)) : ¬ IsAnion mol x := by
  rintro ⟨a', ha', hq⟩
  rw [hx] at ha'
  cases ha'
  exact h hq

/-- When the loop of `BuildWLNTree` returns a root, it has emptied its stack and kept the
invariant. -/
theorem BuildWLNTree_loop_inv (mol : OBMol) (hflags : ∀ a ∈ mol.atoms, a.inRing = false)
    (a : Nat) (ob0 : BabelGraph) :
    ∀ (fuel : Nat) (visited : Nat → Bool) (root : Nat) (st res : TreeState) (rootRes : Nat),
      TreeInv mol a ob0 visited root st →
      BuildWLNTree.loop mol fuel visited root st = .ok (res, rootRes) → rootRes ≠ 0 →
      ∃ visited', TreeInv mol a ob0 visited' rootRes res ∧ res.stack = []
  | 0, _, _, _, _, _, _, h, _ => by simp [BuildWLNTree.loop] at h
  | fuel + 1, visited, root, st, res, rootRes, inv, h, hroot => by
    unfold BuildWLNTree.loop at h
    cases hstack : st.stack with
    | nil =>
      rw [hstack] at h
      simp only [Except.ok.injEq, Prod.mk.injEq] at h
      obtain ⟨h1, h2⟩ := h
      subst h1 h2
      exact ⟨visited, inv, hstack⟩
    | cons x rest =>
      rw [hstack] at h
      simp only at h
      obtain ⟨ax, hx, h⟩ := bind_ok h
      by_cases hanion : ax.formalCharge = -1 ∧ ax.atomicNum = 8
      · rw [if_pos hanion] at h
        obtain ⟨stack', hpush, h⟩ := bind_ok h
        obtain ⟨p1, p2, p3⟩ := pushAcyclic_ok mol hflags _ _ _ _ hpush
        refine BuildWLNTree_loop_inv mol hflags a ob0 fuel _ root _ res rootRes ?_ h hroot
        refine TreeInv.pop_step mol a ob0 visited root root x rest ax st _ inv hstack hx p1 p2 p3
          (fun z hz => hz) (fun z hz => Or.inl hz) ?_ (fun hr => Or.inl hr)
        intro hna
        exact absurd ⟨ax, hx, hanion⟩ hna
      · rw [if_neg hanion] at h
        by_cases hunmapped : st.obabel.atom_symbol_map x = 0
        · rw [if_pos hunmapped] at h
          obtain ⟨⟨graph, node⟩, _, h⟩ := bind_ok h
          simp only at h
          by_cases hnode : node = 0
          · rw [if_pos hnode] at h
            simp only [pure, Except.pure, Except.ok.injEq, Prod.mk.injEq] at h
            exact absurd h.2.symm hroot
          · rw [if_neg hnode] at h
            obtain ⟨⟨st2, go⟩, hlink, h⟩ := bind_ok h
            cases go with
            | false =>
              simp only [Bool.not_false, if_true, pure, Except.pure, Except.ok.injEq,
                Prod.mk.injEq] at h
              exact absurd h.2.symm hroot
            | true =>
              simp only [Bool.not_true, Bool.false_eq_true, if_false] at h
              obtain ⟨l1, l2, l3, l4, l5⟩ :=
                linkNbors_ok (fuel + 1) mol hflags x node _ _ _ _ hlink
              refine BuildWLNTree_loop_inv mol hflags a ob0 fuel _ _ _ res rootRes ?_ h hroot
              refine TreeInv.pop_step mol a ob0 visited root _ x rest ax st st2 inv hstack hx l1 l2
                l3 ?_ ?_ ?_ ?_
              · intro z hz
                apply l4
                simp only [setAt]
                split_ifs
                · exact hnode
                · exact hz
              · intro z hz
                rcases l5 z hz with h' | h'
                · simp only [setAt] at h'
                  split_ifs at h' with hzx
                  · exact Or.inr (Or.inl hzx)
                  · exact Or.inl h'
                · exact Or.inr (Or.inr h')
              · intro _
                apply l4
                simp [setAt, hnode]
              · intro _
                exact Or.inr ⟨hunmapped, not_anion mol x ax hx hanion⟩
        · rw [if_neg hunmapped] at h
          obtain ⟨⟨st2, go⟩, hlink, h⟩ := bind_ok h
          cases go with
          | false =>
            simp only [Bool.not_false, if_true, pure, Except.pure, Except.ok.injEq,
              Prod.mk.injEq] at h
            exact absurd h.2.symm hroot
          | true =>
            simp only [Bool.not_true, Bool.false_eq_true, if_false] at h
            obtain ⟨l1, l2, l3, l4, l5⟩ := linkNbors_ok (fuel + 1) mol hflags x _ _ _ _ _ hlink
            refine BuildWLNTree_loop_inv mol hflags a ob0 fuel _ _ _ res rootRes ?_ h hroot
            refine TreeInv.pop_step mol a ob0 visited root root x rest ax st st2 inv hstack hx l1 l2
              l3 l4 ?_ ?_ (fun hr => Or.inl hr)
            · intro z hz
              rcases l5 z hz with h' | h'
              · exact Or.inl h'
              · exact Or.inr (Or.inr h')
            · intro _
              exact l4 x hunmapped

/-- When `BuildWLNTree` started at atom `a` returns a root, it has given symbols to atoms
of the component of `a` only, every atom of the component but the anionic oxygens has one,
all atoms of the component exist, and one of them had no symbol before. -/
theorem BuildWLNTree_ok (fuel a : Nat) (mol : OBMol)
    (hflags : ∀ x ∈ mol.atoms, x.inRing = false) (ob ob' : BabelGraph) (g g' : WLNGraph)
    (root : Nat) (h : BuildWLNTree fuel a mol ob g = .ok (ob', g', root)) (hroot : root ≠ 0) :
    (∀ x, ob.atom_symbol_map x ≠ 0 → ob'.atom_symbol_map x ≠ 0)
      ∧ (∀ x, ob'.atom_symbol_map x ≠ 0 → ob.atom_symbol_map x ≠ 0 ∨ Connected mol a x)
      ∧ (∀ x, Connected mol a x → ¬ IsAnion mol x → ob'.atom_symbol_map x ≠ 0)
      ∧ (∀ x, Connected mol a x → 1 ≤ x ∧ x ≤ mol.atoms.length)
      ∧ ∃ x, Connected mol a x ∧ ob.atom_symbol_map x = 0 ∧ ¬ IsAnion mol x := by
  unfold BuildWLNTree at h
  obtain ⟨⟨res, rootRes⟩, hloop, h⟩ := bind_ok h
  simp only [pure, Except.pure, Except.ok.injEq, Prod.mk.injEq] at h
  obtain ⟨h1, h2, h3⟩ := h
  subst h1 h2 h3
  have inv0 : TreeInv mol a ob (fun _ => false) 0 ⟨ob, g, [a]⟩ := by
    refine ⟨fun x hx => ?_, fun x hx => (by cases hx), fun x hx => (by cases hx),
      fun x hx => (by cases hx), fun x hx => (by cases hx), fun x hx => hx,
      fun x hx => Or.inl hx,
      fun hr => absurd rfl hr, Or.inr (List.mem_singleton.2 rfl)⟩
    rw [List.mem_singleton.1 hx]
    exact Relation.ReflTransGen.refl
  obtain ⟨visited, inv, hempty⟩ :=
    BuildWLNTree_loop_inv mol hflags a ob fuel _ 0 _ res rootRes inv0 hloop hroot
  have hall : ∀ x, Connected mol a x → visited x = true := by
    intro x hx
    induction hx with
    | refl =>
      rcases inv.start with h | h
      · exact h
      · rw [hempty] at h; cases h
    | tail _ hstep ih =>
      rcases inv.closed _ ih _ hstep with h | h
      · exact h
      · rw [hempty] at h; cases h
  refine ⟨inv.mono, inv.fresh, fun x hx hna => inv.mapped x (hall x hx) hna, ?_,
    inv.root_new hroot⟩
  intro x hx
  obtain ⟨ax, hax⟩ := inv.visited_valid x (hall x hx)
  exact (atom_mem mol x ax hax).2

/-- The same for a `ParseNonCyclic` call that returns true. -/
theorem ParseNonCyclic_ok (fuel a : Nat) (mol : OBMol)
    (hflags : ∀ x ∈ mol.atoms, x.inRing = false) (ob ob' : BabelGraph) (g g' : WLNGraph)
    (buf buf' : String)
    (h : ParseNonCyclic fuel a mol ob g buf = .ok (true, ob', g', buf')) :
    (∀ x, ob.atom_symbol_map x ≠ 0 → ob'.atom_symbol_map x ≠ 0)
      ∧ (∀ x, ob'.atom_symbol_map x ≠ 0 → ob.atom_symbol_map x ≠ 0 ∨ Connected mol a x)
      ∧ (∀ x, Connected mol a x → ¬ IsAnion mol x → ob'.atom_symbol_map x ≠ 0)
      ∧ (∀ x, Connected mol a x → 1 ≤ x ∧ x ≤ mol.atoms.length)
      ∧ ∃ x, Connected mol a x ∧ ob.atom_symbol_map x = 0 ∧ ¬ IsAnion mol x := by
  unfold ParseNonCyclic at h
  obtain ⟨⟨ob1, g1, root⟩, htree, h⟩ := bind_ok h
  simp only at h
  by_cases hroot : root = 0
  · rw [if_pos hroot] at h
    simp [pure, Except.pure] at h
  · rw [if_neg hroot] at h
    obtain ⟨⟨ok, g2, b2⟩, _, h⟩ := bind_ok h
    simp only [pure, Except.pure, Except.ok.injEq, Prod.mk.injEq] at h
    obtain ⟨_, h2, _, _⟩ := h
    subst h2
    exact BuildWLNTree_ok fuel a mol hflags ob ob1 g g1 root htree hroot

/-- Appending a character commutes with a text in front. -/
theorem append_push (p s : String) (c : Char) : (p ++ s).push c = p ++ s.push c := by
  apply String.ext
  simp [String.data_push, String.data_append]

/-- The unwinding of the branch stack does not look at the buffer it extends. -/
theorem unwindBranches_pre (graph : WLNGraph) (prev : Nat) (p : String) :
    ∀ (bs : List Nat) (b : String),
      unwindBranches graph prev bs (p ++ b)
        = ((unwindBranches graph prev bs b).1, p ++ (unwindBranches graph prev bs b).2)
  | [], b => by simp [unwindBranches]
  | x :: rest, b => by
    simp only [unwindBranches]
    split_ifs
    · rw [append_push, unwindBranches_pre graph prev p rest]
    · exact unwindBranches_pre graph prev p rest b
    · rfl

theorem afterTerminator_pre (p : String) (st : WriteState) :
    afterTerminator (st.pre p) = (afterTerminator st).pre p := by
  obtain ⟨graph, stack, bs, visited, prev, ft, buffer⟩ := st
  cases bs <;> rfl

theorem enterSymbol_pre (top order : Nat) (stack : List (Nat × Nat)) (p : String)
    (st : WriteState) :
    enterSymbol top order stack (st.pre p) = (enterSymbol top order stack st).pre p := by
  unfold enterSymbol
  simp only [WriteState.pre, unwindBranches_pre, append_push, String.append_assoc]
  split_ifs <;> simp [unwindBranches_pre, append_push, String.append_assoc]

theorem afterTerminator_buffer (p : String) (st : WriteState) (b : String) :
    afterTerminator { st with buffer := p ++ b }
      = (afterTerminator { st with buffer := b }).pre p :=
  afterTerminator_pre p { st with buffer := b }

theorem map_ite {α β : Type} (g : α → β) {c : Prop} [Decidable c] {a' b' : Except Fault β}
    {a b : Except Fault α} (h1 : a' = a.map g) (h2 : b' = b.map g) :
    (if c then a' else b') = (if c then a else b).map g := by
  split_ifs <;> assumption

theorem map_bind {α β γ : Type} (g : β → γ) (m : Except Fault α) {f' : α → Except Fault γ}
    {f : α → Except Fault β} (h : ∀ x, f' x = (f x).map g) :
    (m >>= f') = (m >>= f).map g := by
  cases m with
  | error e => rfl
  | ok x => exact h x

theorem ite_pre (c : Prop) [Decidable c] (p x y : String) :
    (if c then p ++ x else p ++ y) = p ++ if c then x else y := by
  split_ifs <;> rfl

/-- The `switch` of `WriteWLNFromNode` only appends to the buffer. -/
theorem writeSymbol_pre (fuel : Nat) (mol : OBMol) (obabel : BabelGraph) (top : Nat)
    (p : String) (st : WriteState) :
    writeSymbol fuel mol obabel top (st.pre p)
      = (writeSymbol fuel mol obabel top st).map
          (Option.map (fun r => (r.1.pre p, r.2))) := by
  unfold writeSymbol
  simp only [WriteCarbonChain, WriteState.pre, append_push, String.append_assoc, ite_pre,
    afterTerminator_buffer, bind_assoc, pure_bind]
  repeat' first
    | rfl
    | apply map_ite
    | apply map_bind
    | (rintro ⟨_, _⟩; dsimp only)
    | intro _

/-- The loop of `WriteWLNFromNode` only appends to the buffer. -/
theorem WriteWLNFromNode_loop_pre (mol : OBMol) (obabel : BabelGraph) (p : String) :
    ∀ (fuel : Nat) (st : WriteState),
      WriteWLNFromNode.loop mol obabel fuel (st.pre p)
        = (WriteWLNFromNode.loop mol obabel fuel st).map (fun r => (r.1, r.2.pre p))
  | 0, _ => rfl
  | fuel + 1, st => by
    obtain ⟨graph, stack, bs, visited, prev, ft, buffer⟩ := st
    cases stack with
    | nil => rfl
    | cons hd rest =>
      obtain ⟨top, order⟩ := hd
      simp only [WriteWLNFromNode.loop, WriteState.pre]
      refine map_ite _ rfl ?_
      have he := enterSymbol_pre top order rest p ⟨graph, (top, order) :: rest, bs, visited, prev, ft, buffer⟩
      simp only [WriteState.pre] at he
      rw [he]
      have hw := writeSymbol_pre (fuel + 1) mol obabel top p
        (enterSymbol top order rest ⟨graph, (top, order) :: rest, bs, visited, prev, ft, buffer⟩)
      simp only [WriteState.pre] at hw
      rw [hw]
      cases writeSymbol (fuel + 1) mol obabel top
          (enterSymbol top order rest ⟨graph, (top, order) :: rest, bs, visited, prev, ft, buffer⟩) with
      | error e => rfl
      | ok r =>
        cases r with
        | none => rfl
        | some r =>
          obtain ⟨st2, top2⟩ := r
          simp only [Except.map, Option.map, bind, Except.bind]
          cases edgesFrom st2.graph (fuel + 1) (st2.graph.SYMBOLS top2).bonds with
          | error e => rfl
          | ok edges =>
            simp only
            exact WriteWLNFromNode_loop_pre mol obabel p fuel
              { st2 with stack := pushChildren st2.graph st2.visited edges st2.stack }

/-- The method `ParseNonCyclic` appends to the buffer what it writes on an empty one, and
its result does not depend on the buffer otherwise. -/
theorem ParseNonCyclic_pre (fuel start_atom : Nat) (mol : OBMol) (obabel : BabelGraph)
    (graph : WLNGraph) (p : String) :
    ParseNonCyclic fuel start_atom mol obabel graph p
      = (ParseNonCyclic fuel start_atom mol obabel graph "").map
          (fun r => (r.1, r.2.1, r.2.2.1, p ++ r.2.2.2)) := by
  unfold ParseNonCyclic WriteWLNFromNode
  cases BuildWLNTree fuel start_atom mol obabel graph with
  | error e => rfl
  | ok r =>
    obtain ⟨ob, g, root⟩ := r
    simp only [bind, Except.bind, pure, Except.pure]
    split_ifs
    · simp [Except.map]
    · have h := WriteWLNFromNode_loop_pre mol ob p fuel
        ⟨g, [(root, 0)], [], fun _ => false, 0, false, ""⟩
      simp only [WriteState.pre, String.append_empty] at h
      rw [h]
      cases WriteWLNFromNode.loop mol ob fuel ⟨g, [(root, 0)], [], fun _ => false, 0, false, ""⟩ with
      | error e => rfl
      | ok r => rfl

/-- Being a neighbour is symmetric. -/
theorem mem_nbors_symm (mol : OBMol) (x y : Nat) (h : y ∈ mol.nbors x) : x ∈ mol.nbors y := by
  unfold OBMol.nbors OBMol.bondsOf at h ⊢
  simp only [List.mem_map, List.mem_filter, decide_eq_true_eq] at h ⊢
  obtain ⟨b, ⟨hb, hx⟩, hy⟩ := h
  refine ⟨b, ⟨hb, ?_⟩, ?_⟩
  · unfold OBMol.nbrAtom at hy
    split_ifs at hy with h1
    · exact Or.inr hy
    · exact Or.inl hy
  · unfold OBMol.nbrAtom at hy ⊢
    split_ifs at hy with h1
    · split_ifs with h2
      · rw [← h1, h2, ← hy]
      · exact h1
    · rcases hx with hx | hx
      · exact absurd hx h1
      · rw [if_pos hy, hx]

theorem Connected.symm (mol : OBMol) {x y : Nat} (h : Connected mol x y) : Connected mol y x :=
  Relation.ReflTransGen.symmetric (fun u v huv => mem_nbors_symm mol u v huv) h

theorem Connected.trans (mol : OBMol) {x y z : Nat} (h1 : Connected mol x y)
    (h2 : Connected mol y z) : Connected mol x z :=
  Relation.ReflTransGen.trans h1 h2

/-- Every component has a first atom. -/
theorem exists_first (mol : OBMol) (a : Nat) :
    ∃ s, Connected mol a s ∧ ∀ y, Connected mol a y → s ≤ y := by
  classical
  have hex : ∃ s, Connected mol a s := ⟨a, Relation.ReflTransGen.refl⟩
  exact ⟨Nat.find hex, Nat.find_spec hex, fun y hy => Nat.find_min' hex hy⟩

theorem joinFrom_intercalate_go (acc : String) :
    ∀ (ts : List String), String.intercalate.go acc " &" ts = acc ++ joinFrom true ts
  | [] => by simp [String.intercalate.go, joinFrom]
  | t :: rest => by
    simp only [String.intercalate.go, joinFrom, if_true]
    rw [joinFrom_intercalate_go _ rest]
    simp [String.append_assoc]

/-- The texts joined from an empty buffer are the texts with ` &` between them. -/
theorem joinFrom_intercalate (ts : List String) : joinFrom false ts = " &".intercalate ts := by
  cases ts with
  | nil => rfl
  | cons t rest =>
    simp only [String.intercalate, joinFrom, Bool.false_eq_true, if_false]
    rw [joinFrom_intercalate_go]

/-- An atom that has a symbol when the loop of `WriteWLN` reaches it starts no component. -/
theorem OuterInv.not_start (mol : OBMol) (ob : BabelGraph) (i : Nat) (inv : OuterInv mol ob i)
    (h : ob.atom_symbol_map i ≠ 0) : ¬ IsComponentStart mol i := by
  intro hs
  obtain ⟨s, hlt, _, hconn⟩ := inv.1 i h
  have := hs.2.2 s (Connected.symm mol hconn)
  omega

theorem OuterInv.skip (mol : OBMol) (ob : BabelGraph) (i : Nat) (inv : OuterInv mol ob i)
    (h : ob.atom_symbol_map i ≠ 0) : OuterInv mol ob (i + 1) := by
  refine ⟨fun x hx => ?_, fun s hs hstart => ?_⟩
  · obtain ⟨s, hlt, h1, h2⟩ := inv.1 x hx
    exact ⟨s, by omega, h1, h2⟩
  · rcases Nat.lt_succ_iff_lt_or_eq.1 hs with h' | h'
    · exact inv.2 s h' hstart
    · subst h'
      exact absurd hstart (OuterInv.not_start mol ob s inv h)

/-- An atom without a symbol on which `ParseNonCyclic` succeeds starts a component, and
the invariant holds for the next atom. -/
theorem OuterInv.call (mol : OBMol) (ob ob' : BabelGraph) (i : Nat) (inv : OuterInv mol ob i)
    (hi1 : 1 ≤ i) (hi2 : i ≤ mol.atoms.length)
    (h1 : ∀ x, ob.atom_symbol_map x ≠ 0 → ob'.atom_symbol_map x ≠ 0)
    (h2 : ∀ x, ob'.atom_symbol_map x ≠ 0 → ob.atom_symbol_map x ≠ 0 ∨ Connected mol i x)
    (h3 : ∀ x, Connected mol i x → ¬ IsAnion mol x → ob'.atom_symbol_map x ≠ 0)
    (h4 : ∀ x, Connected mol i x → 1 ≤ x ∧ x ≤ mol.atoms.length)
    (h5 : ∃ x, Connected mol i x ∧ ob.atom_symbol_map x = 0 ∧ ¬ IsAnion mol x) :
    IsComponentStart mol i ∧ OuterInv mol ob' (i + 1) := by
  have hstart : IsComponentStart mol i := by
    refine ⟨hi1, hi2, ?_⟩
    intro b hb
    by_contra hlt
    obtain ⟨s, hs, hmin⟩ := exists_first mol i
    have hsb : s ≤ b := hmin b hb
    have hss : IsComponentStart mol s :=
      ⟨(h4 s hs).1, (h4 s hs).2, fun y hy => hmin y (Connected.trans mol hs hy)⟩
    obtain ⟨x, hx, hx0, hxa⟩ := h5
    exact inv.2 s (by omega) hss x (Connected.trans mol (Connected.symm mol hs) hx) hxa hx0
  refine ⟨hstart, fun x hx => ?_, fun s hs hss => ?_⟩
  · rcases h2 x hx with h | h
    · obtain ⟨s, hlt, hs1, hs2⟩ := inv.1 x h
      exact ⟨s, by omega, hs1, hs2⟩
    · exact ⟨i, by omega, hstart, h⟩
  · rcases Nat.lt_succ_iff_lt_or_eq.1 hs with h' | h'
    · intro x hx hxa
      exact h1 x (inv.2 s h' hss x hx hxa)
    · subst h'
      exact h3

/-- The loop of `WriteWLN` over the atoms from `i` on, when it runs to its end: it calls
`ParseNonCyclic` on the first atoms of the components from `i` on and appends their
transcriptions, ` &` in front of each but the very first. -/
theorem componentLoop_ok (fuel : Nat) (mol : OBMol)
    (hflags : ∀ x ∈ mol.atoms, x.inRing = false) :
    ∀ (len i : Nat) (started : Bool) (ob : BabelGraph) (g : WLNGraph) (buf : String)
      (res : CyclicState),
      i + len = mol.atoms.length + 1 → 1 ≤ i → OuterInv mol ob i →
      componentLoop fuel mol (List.range' i len) started ⟨ob, g, buf⟩ = .ok (res, true) →
      ∃ starts ts, starts.Pairwise (· < ·) ∧ (∀ a, a ∈ starts ↔ (i ≤ a ∧ IsComponentStart mol a))
        ∧ transcribeFrom fuel mol starts ob g = .ok (some ts)
        ∧ res.buffer = buf ++ joinFrom started ts
  | 0, i, started, ob, g, buf, res, hlen, _, _, h => by
    simp only [List.range'_zero, componentLoop, Except.ok.injEq, Prod.mk.injEq, and_true] at h
    subst h
    refine ⟨[], [], List.Pairwise.nil, fun a => ?_, rfl, by simp [joinFrom]⟩
    constructor
    · intro ha; cases ha
    · rintro ⟨h1, h2⟩
      have := h2.2.1
      omega
  | len + 1, i, started, ob, g, buf, res, hlen, hi, inv, h => by
    rw [List.range'_succ] at h
    simp only [componentLoop] at h
    by_cases hmap : ob.atom_symbol_map i = 0
    · rw [if_pos hmap] at h
      obtain ⟨⟨ok, ob', g', b'⟩, hcall, h⟩ := bind_ok h
      simp only at h
      cases ok with
      | false => simp [pure, Except.pure] at h
      | true =>
        simp only [Bool.not_true, Bool.false_eq_true, if_false] at h
        rw [ParseNonCyclic_pre] at hcall
        obtain ⟨⟨ok2, ob2, g2, t⟩, hcall2, heq⟩ := map_ok hcall
        simp only [Prod.mk.injEq] at heq
        obtain ⟨e1, e2, e3, e4⟩ := heq
        subst e1 e2 e3
        obtain ⟨c1, c2, c3, c4, c5⟩ := ParseNonCyclic_ok fuel i mol hflags ob ob2 g g2 "" t hcall2
        obtain ⟨hstart, inv'⟩ := OuterInv.call mol ob ob2 i inv hi (by omega) c1 c2 c3 c4 c5
        obtain ⟨starts, ts, hp, hmem, htr, hbuf⟩ :=
          componentLoop_ok fuel mol hflags len (i + 1) true ob2 g2 b' res (by omega) (by omega)
            inv' h
        refine ⟨i :: starts, t :: ts, ?_, ?_, ?_, ?_⟩
        · refine List.Pairwise.cons (fun a ha => ?_) hp
          have := ((hmem a).1 ha).1
          omega
        · intro a
          rw [List.mem_cons, hmem]
          constructor
          · rintro (rfl | ⟨h1, h2⟩)
            · exact ⟨le_refl _, hstart⟩
            · exact ⟨by omega, h2⟩
          · rintro ⟨h1, h2⟩
            by_cases hai : a = i
            · exact Or.inl hai
            · exact Or.inr ⟨by omega, h2⟩
        · simp only [transcribeFrom, hcall2, htr]
          rfl
        · rw [hbuf, ← e4]
          cases started <;> simp [joinFrom, String.append_assoc]
    · rw [if_neg hmap] at h
      obtain ⟨starts, ts, hp, hmem, htr, hbuf⟩ :=
        componentLoop_ok fuel mol hflags len (i + 1) started ob g buf res (by omega) (by omega)
          (OuterInv.skip mol ob i inv hmap) h
      refine ⟨starts, ts, hp, fun a => ?_, htr, hbuf⟩
      rw [hmem]
      constructor
      · rintro ⟨h1, h2⟩
        exact ⟨by omega, h2⟩
      · rintro ⟨h1, h2⟩
        refine ⟨?_, h2⟩
        by_contra hlt
        have hai : a = i := by omega
        subst hai
        exact OuterInv.not_start mol ob a inv hmap h2

theorem transcribeFrom_length (fuel : Nat) (mol : OBMol) :
    ∀ (starts : List Nat) (ob : BabelGraph) (g : WLNGraph) (ts : List String),
      transcribeFrom fuel mol starts ob g = .ok (some ts) → ts.length = starts.length
  | [], _, _, ts, h => by
    simp only [transcribeFrom, Except.ok.injEq, Option.some.injEq] at h
    subst h
    rfl
  | a :: rest, ob, g, ts, h => by
    simp only [transcribeFrom] at h
    split at h
    · cases h
    · cases h
    · rename_i ob' g' t _
      obtain ⟨r, hr, h⟩ := map_ok h
      cases r with
      | none => cases h
      | some ts' =>
        simp only [Option.map, Option.some.injEq] at h
        rw [← h, List.length_cons, List.length_cons,
          transcribeFrom_length fuel mol rest ob' g' ts' hr]

/-- Claim C11: when `WriteWLN` returns success on a molecule without rings, the buffer is
the transcriptions of the connected components, one for each component and in the order of
the first atoms of the components, joined by ` &`: a transcription is what `ParseNonCyclic`
writes when started on the first atom of the component, and ` &` stands between two
transcriptions and nowhere else. -/
theorem components_joined (fuel : Nat) (mol : OBMol) (out : String) (hring : mol.sssr = [])
    (hflags : ∀ a ∈ mol.atoms, a.inRing = false)
    (h : WriteWLN fuel "" mol = .ok (true, out)) :
    ∃ starts ts, starts.Pairwise (· < ·) ∧ (∀ a, a ∈ starts ↔ IsComponentStart mol a)
      ∧ ts.length = starts.length
      ∧ transcribeFrom fuel mol starts BabelGraph.new WLNGraph.new = .ok (some ts)
      ∧ out = " &".intercalate ts := by
  unfold WriteWLN at h
  simp only [hring, List.length_nil, if_true] at h
  obtain ⟨⟨res, go⟩, hloop, heq⟩ := map_ok h
  simp only [Prod.mk.injEq] at heq
  obtain ⟨hgo, hout⟩ := heq
  subst hgo
  have inv0 : OuterInv mol BabelGraph.new 1 :=
    ⟨fun x hx => absurd rfl hx, fun s hs hstart => absurd hstart.1 (by omega)⟩
  obtain ⟨starts, ts, hp, hmem, htr, hbuf⟩ :=
    componentLoop_ok fuel mol hflags mol.atoms.length 1 false BabelGraph.new WLNGraph.new "" res
      (by omega) (le_refl _) inv0 hloop
  refine ⟨starts, ts, hp, fun a => ?_, transcribeFrom_length fuel mol starts _ _ ts htr, htr, ?_⟩
  · rw [hmem]
    exact ⟨fun h => h.2, fun h => ⟨h.1, h⟩⟩
  · rw [← hout, hbuf, String.empty_append, joinFrom_intercalate]

/-- Witness of `components_joined`: sodium chloride, two components. -/
theorem components_joined_witness :
    sodiumChloride.sssr = [] ∧ (∀ a ∈ sodiumChloride.atoms, a.inRing = false)
      ∧ WriteWLN 64 "" sodiumChloride = .ok (true, "-NA- &G")
      ∧ ∃ starts ts, starts.Pairwise (· < ·)
          ∧ (∀ a, a ∈ starts ↔ IsComponentStart sodiumChloride a)
          ∧ ts.length = starts.length
          ∧ transcribeFrom 64 sodiumChloride starts BabelGraph.new WLNGraph.new = .ok (some ts)
          ∧ "-NA- &G" = " &".intercalate ts :=
  ⟨rfl, by decide, by decide!,
   components_joined 64 sodiumChloride "-NA- &G" rfl (by decide) (by decide!)⟩

/-! ### The atom classifier -/

/-- In a list whose images under `f` differ, the first element with the image of `b` is
`b`. -/
theorem find_of_nodup_map {α β : Type} [DecidableEq β] (f : α → β) :
    ∀ (l : List α), (l.map f).Nodup → ∀ b ∈ l, l.find? (fun x => f x = f b) = some b
  | [], _, b, hb => by simp at hb
  | x :: xs, hnd, b, hb => by
    rw [List.map_cons, List.nodup_cons] at hnd
    rcases List.mem_cons.1 hb with rfl | hmem
    · simp
    · have hne : f x ≠ f b := by
        intro h
        exact hnd.1 (h ▸ List.mem_map_of_mem f hmem)
      rw [List.find?_cons]
      simp only [hne, decide_False]
      exact find_of_nodup_map f xs hnd.2 b hmem

theorem GetBond_of_nodup (mol : OBMol) (atom : Nat) (h : (mol.nbors atom).Nodup)
    (b : OBBond) (hb : b ∈ mol.bondsOf atom) :
    mol.GetBond atom (OBMol.nbrAtom b atom) = some b := by
  unfold OBMol.GetBond
  exact find_of_nodup_map (fun b => OBMol.nbrAtom b atom) _ h b hb

theorem carbonCounts_fold (mol : OBMol) (atom : Nat) :
    ∀ (l : List OBBond) (acc : Nat × Nat),
      (∀ b ∈ l, mol.GetBond atom (OBMol.nbrAtom b atom) = some b) →
      acc.1 + l.length < 4294967296 →
      acc.2 + (l.map (fun b => b.order)).sum < 4294967296 →
      (l.map (fun b => OBMol.nbrAtom b atom)).foldlM
        (fun (acc : Nat × Nat) neighbour =>
          match mol.GetBond atom neighbour with
          | none => (.error .nullDeref : Except Fault (Nat × Nat))
          | some bond => .ok (u32 (acc.1 + 1), u32 (acc.2 + bond.order)))
        acc = .ok (acc.1 + l.length, acc.2 + (l.map (fun b => b.order)).sum)
  | [], acc, _, _, _ => by simp [pure, Except.pure]
  | b :: rest, acc, hl, h1, h2 => by
    simp only [List.map_cons, List.foldlM_cons, List.length_cons, List.sum_cons] at h1 h2 ⊢
    rw [hl b (List.mem_cons_self _ _)]
    simp only [bind, Except.bind]
    have e1 : u32 (acc.1 + 1) = acc.1 + 1 := Nat.mod_eq_of_lt (by omega)
    have e2 : u32 (acc.2 + b.order) = acc.2 + b.order := Nat.mod_eq_of_lt (by omega)
    rw [e1, e2]
    rw [carbonCounts_fold mol atom rest (acc.1 + 1, acc.2 + b.order)
      (fun b' hb' => hl b' (List.mem_cons_of_mem _ hb')) (by simp only; omega) (by simp only; omega)]
    simp only [Except.ok.injEq, Prod.mk.injEq]
    omega

/-- The loop of the carbon case counts the bonds of the atom and sums their orders. -/
theorem carbonCounts_eq (mol : OBMol) (atom : Nat) (h : (mol.nbors atom).Nodup)
    (hd : (mol.bondsOf atom).length < 4294967296) (hS : orderSum mol atom < 4294967296) :
    carbonCounts mol atom = .ok ((mol.bondsOf atom).length, orderSum mol atom) := by
  unfold carbonCounts OBMol.nbors
  have := carbonCounts_fold mol atom (mol.bondsOf atom) (0, 0)
    (fun b hb => GetBond_of_nodup mol atom h b hb) (by simpa using hd) (by simpa [orderSum] using hS)
  simpa [orderSum] using this
/-- The allocation of a symbol with its edges either dereferences null or returns a symbol
with the tag and the edges asked for. -/
theorem allocWithEdges_cases (ch : Char) (e : Nat) (graph : WLNGraph) :
    (allocWithEdges ch e graph = .error .nullDeref) ∨
    ∃ g node, allocWithEdges ch e graph = .ok (g, node) ∧ node ≠ 0 ∧
      (g.SYMBOLS node).ch = ch ∧ (g.SYMBOLS node).allowed_edges = e := by
  unfold allocWithEdges AllocateWLNSymbol
  simp only
  split_ifs with h1 h2 h3 h4 h5
  all_goals first
    | exact Or.inl rfl
    | (refine Or.inr ⟨_, _, rfl, ?_, ?_, ?_⟩
       · assumption
       · simp [WLNGraph.setSym, setAt, WLNSymbol.set_edge_and_type]
       · simp [WLNGraph.setSym, setAt, WLNSymbol.set_edge_and_type])
    | simp_all

theorem allocWithEdges_room (ch : Char) (e : Nat) (graph : WLNGraph)
    (hch : ch ≠ Char.ofNat 0) (hroom : graph.symbol_count < 1024) :
    ∃ g node, allocWithEdges ch e graph = .ok (g, node) := by
  have hu : u32 (graph.symbol_count + 1) = graph.symbol_count + 1 :=
    Nat.mod_eq_of_lt (by omega)
  have hle : ¬ graph.symbol_count + 1 > 1024 := by omega
  simp [allocWithEdges, AllocateWLNSymbol, hu, REASONABLE, hle, hch]

/-- When the `switch` of `CreateWLNNode` allocates tag `ch` with `e` edges: every symbol
returned has that tag and `e` allowed edges, 8 for `e = 0`; and one is returned while the
pool has room. -/
theorem CreateWLNNode_alloc (mol : OBMol) (atom : Nat) (graph : WLNGraph) (a : OBAtom)
    (ch : Char) (e : Nat) (ha : mol.atom atom = .ok a)
    (hsw : createSwitch mol atom graph = (allocWithEdges ch e graph).map some) :
    (∀ g node, CreateWLNNode mol atom graph = .ok (g, node) →
        node ≠ 0 ∧ (g.SYMBOLS node).ch = ch ∧
          (g.SYMBOLS node).allowed_edges = if e = 0 then 8 else e) ∧
      (ch ≠ Char.ofNat 0 → graph.symbol_count < 1024 →
        ∃ g node, CreateWLNNode mol atom graph = .ok (g, node)) := by
  have hatom : atom ≠ 0 := by
    rintro rfl
    simp [OBMol.atom] at ha
  unfold CreateWLNNode
  rw [if_neg hatom, hsw]
  rcases allocWithEdges_cases ch e graph with herr | ⟨g1, node, hok, hnode, hch, hed⟩
  · rw [herr]
    constructor
    · intro g node h
      simp [Except.map, bind, Except.bind] at h
    · intro hc hroom
      obtain ⟨g, n, h⟩ := allocWithEdges_room ch e graph hc hroom
      rw [herr] at h
      cases h
  · rw [hok]
    constructor
    · intro g n h
      simp only [Except.map, bind, Except.bind, pure, Except.pure, Except.ok.injEq,
        Prod.mk.injEq] at h
      obtain ⟨hg, hn⟩ := h
      subst hn
      subst hg
      refine ⟨hnode, ?_, ?_⟩
      · split_ifs <;> simp [WLNGraph.setSym, setAt, WLNSymbol.set_edge_and_type, hch]
      · split_ifs <;> simp_all [WLNGraph.setSym, setAt, WLNSymbol.set_edge_and_type]
    · intro _ _
      simp [Except.map, bind, Except.bind, pure, Except.pure]
theorem createSwitch_carbon (mol : OBMol) (atom : Nat) (graph : WLNGraph) (a : OBAtom)
    (ha : mol.atom atom = .ok a) (hC : a.atomicNum = 6) (hsimple : (mol.nbors atom).Nodup)
    (hd : (mol.bondsOf atom).length < 4294967296) (hS : orderSum mol atom < 4294967296) :
    createSwitch mol atom graph =
      (if (mol.bondsOf atom).length ≤ 2 then (allocWithEdges '1' 4 graph).map some
       else if orderSum mol atom = 3 then (allocWithEdges 'Y' 3 graph).map some
       else (allocWithEdges 'X' 4 graph).map some) := by
  unfold createSwitch
  rw [ha]
  simp only [bind, Except.bind, hC, carbonCounts_eq mol atom hsimple hd hS]
  split_ifs <;> first | rfl | omega

/-- Claim C15: on a carbon atom with `d` bonds, to `d` different neighbours, of bond-order
sum `S`, every symbol that `CreateWLNNode` returns has tag `1` and 4 allowed edges when
`d ≤ 2`, tag `Y` and 3 allowed edges when `d > 2` and `S = 3`, tag `X` and 4 allowed edges
otherwise, and never the tag `C`; and it does return a symbol while fewer than 1023 symbols
have been made. -/
theorem carbon_classified (mol : OBMol) (atom : Nat) (graph : WLNGraph) (a : OBAtom)
    (ha : mol.atom atom = .ok a) (hC : a.atomicNum = 6) (hsimple : (mol.nbors atom).Nodup)
    (hd : (mol.bondsOf atom).length < 4294967296) (hS : orderSum mol atom < 4294967296) :
    (∀ g node, CreateWLNNode mol atom graph = .ok (g, node) →
        node ≠ 0 ∧ (g.SYMBOLS node).ch ≠ 'C' ∧
          ((g.SYMBOLS node).ch, (g.SYMBOLS node).allowed_edges) =
            (if (mol.bondsOf atom).length ≤ 2 then ('1', 4)
             else if orderSum mol atom = 3 then ('Y', 3) else ('X', 4))) ∧
      (graph.symbol_count < 1023 → ∃ g node, CreateWLNNode mol atom graph = .ok (g, node)) := by
  have hsw := createSwitch_carbon mol atom graph a ha hC hsimple hd hS
  by_cases h1 : (mol.bondsOf atom).length ≤ 2
  · rw [if_pos h1] at hsw
    obtain ⟨hp, hr⟩ := CreateWLNNode_alloc mol atom graph a '1' 4 ha hsw
    refine ⟨fun g node h => ?_, fun hroom => hr (by decide) (by omega)⟩
    obtain ⟨h0, hch, he⟩ := hp g node h
    simp [h1, hch, he, h0]
  · rw [if_neg h1] at hsw
    by_cases h2 : orderSum mol atom = 3
    · rw [if_pos h2] at hsw
      obtain ⟨hp, hr⟩ := CreateWLNNode_alloc mol atom graph a 'Y' 3 ha hsw
      refine ⟨fun g node h => ?_, fun hroom => hr (by decide) (by omega)⟩
      obtain ⟨h0, hch, he⟩ := hp g node h
      simp [h1, h2, hch, he, h0]
    · rw [if_neg h2] at hsw
      obtain ⟨hp, hr⟩ := CreateWLNNode_alloc mol atom graph a 'X' 4 ha hsw
      refine ⟨fun g node h => ?_, fun hroom => hr (by decide) (by omega)⟩
      obtain ⟨h0, hch, he⟩ := hp g node h
      simp [h1, h2, hch, he, h0]

/-- Witness of `carbon_classified`: the central carbon of isopropanol. -/
theorem carbon_classified_witness :
    isopropanol.atom 2 = .ok (carbon 3 false) ∧ (carbon 3 false).atomicNum = 6 ∧
      (isopropanol.nbors 2).Nodup ∧ (isopropanol.bondsOf 2).length < 4294967296 ∧
      orderSum isopropanol 2 < 4294967296 ∧
      ((∀ g node, CreateWLNNode isopropanol 2 WLNGraph.new = .ok (g, node) →
        node ≠ 0 ∧ (g.SYMBOLS node).ch ≠ 'C' ∧
          ((g.SYMBOLS node).ch, (g.SYMBOLS node).allowed_edges) =
            (if (isopropanol.bondsOf 2).length ≤ 2 then ('1', 4)
             else if orderSum isopropanol 2 = 3 then ('Y', 3) else ('X', 4))) ∧
      ((WLNGraph.new).symbol_count < 1023 →
        ∃ g node, CreateWLNNode isopropanol 2 WLNGraph.new = .ok (g, node))) :=
  ⟨by decide, by decide, by decide, by decide, by decide,
   carbon_classified isopropanol 2 WLNGraph.new (carbon 3 false) (by decide) (by decide)
     (by decide) (by decide) (by decide)⟩
theorem createSwitch_valence (mol : OBMol) (atom : Nat) (graph : WLNGraph) (a : OBAtom)
    (ha : mol.atom atom = .ok a)
    (hZ : a.atomicNum = 7 ∨ a.atomicNum = 9 ∨ a.atomicNum = 17 ∨ a.atomicNum = 35
      ∨ a.atomicNum = 53) :
    createSwitch mol atom graph
      = (allocWithEdges (valenceTag a.atomicNum) a.explicitValence graph).map some := by
  unfold createSwitch
  rw [ha]
  rcases hZ with h | h | h | h | h <;> simp [bind, Except.bind, h, valenceTag]

/-- Claim C16 refuted as stated: on the nitrogen of ammonia, whose explicit valence is 0,
`CreateWLNNode` returns a symbol whose allowed edges are not that valence. -/
theorem ammonia_edges_not_valence :
    ¬ ∀ g node, CreateWLNNode ammonia 1 WLNGraph.new = .ok (g, node) →
        ammonia.GetExplicitValence 1 = .ok (g.SYMBOLS node).allowed_edges := by
  intro h
  have hsw := createSwitch_valence ammonia 1 WLNGraph.new ⟨7, 0, 0, false⟩ (by decide)
    (Or.inl rfl)
  obtain ⟨hp, hr⟩ := CreateWLNNode_alloc ammonia 1 WLNGraph.new ⟨7, 0, 0, false⟩ _ _ (by decide) hsw
  obtain ⟨g, node, hok⟩ := hr (by decide) (by decide)
  have h1 := h g node hok
  have h2 := (hp g node hok).2.2
  rw [h2] at h1
  revert h1
  decide

/-- Claim C16, amended: on a nitrogen, fluorine, chlorine, bromine or iodine atom every
symbol that `CreateWLNNode` returns has allowed edges equal to the explicit valence of the
atom when that is at least 1, and equal to 8 when it is 0; and it does return a symbol
while fewer than 1023 symbols have been made. -/
theorem valence_edges (mol : OBMol) (atom : Nat) (graph : WLNGraph) (a : OBAtom)
    (ha : mol.atom atom = .ok a)
    (hZ : a.atomicNum = 7 ∨ a.atomicNum = 9 ∨ a.atomicNum = 17 ∨ a.atomicNum = 35
      ∨ a.atomicNum = 53) :
    (∀ g node, CreateWLNNode mol atom graph = .ok (g, node) →
        node ≠ 0 ∧ (g.SYMBOLS node).allowed_edges
          = if a.explicitValence = 0 then 8 else a.explicitValence) ∧
      (graph.symbol_count < 1023 → ∃ g node, CreateWLNNode mol atom graph = .ok (g, node)) := by
  obtain ⟨hp, hr⟩ := CreateWLNNode_alloc mol atom graph a _ _ ha
    (createSwitch_valence mol atom graph a ha hZ)
  refine ⟨fun g node h => ⟨(hp g node h).1, (hp g node h).2.2⟩,
    fun hroom => hr ?_ (by omega)⟩
  rcases hZ with h | h | h | h | h <;> rw [h] <;> decide

/-- Witness of `valence_edges`: the chlorine of chloromethane. -/
theorem valence_edges_witness :
    chloromethane.atom 2 = .ok ⟨17, 0, 1, false⟩ ∧
      ((17 : Nat) = 7 ∨ (17 : Nat) = 9 ∨ (17 : Nat) = 17 ∨ (17 : Nat) = 35 ∨ (17 : Nat) = 53) ∧
      ((∀ g node, CreateWLNNode chloromethane 2 WLNGraph.new = .ok (g, node) →
        node ≠ 0 ∧ (g.SYMBOLS node).allowed_edges = if (1 : Nat) = 0 then 8 else 1) ∧
      ((WLNGraph.new).symbol_count < 1023 →
        ∃ g node, CreateWLNNode chloromethane 2 WLNGraph.new = .ok (g, node))) :=
  ⟨by decide, by decide,
   valence_edges chloromethane 2 WLNGraph.new ⟨17, 0, 1, false⟩ (by decide) (by decide)⟩

theorem createSwitch_oxygen (mol : OBMol) (atom : Nat) (graph : WLNGraph) (a : OBAtom)
    (ha : mol.atom atom = .ok a) (hO : a.atomicNum = 8) :
    createSwitch mol atom graph =
      (if a.explicitValence < 2 ∧ a.formalCharge ≠ -1 then (allocWithEdges 'Q' 1 graph).map some
       else (allocWithEdges 'O' 2 graph).map some) := by
  unfold createSwitch
  rw [ha]
  simp [bind, Except.bind, hO]

/-- Claim C17: on an oxygen atom every symbol that `CreateWLNNode` returns has tag `Q` and
1 allowed edge when the explicit valence is below 2 and the formal charge is not -1, and
tag `O` and 2 allowed edges in every other case; and it does return a symbol while fewer
than 1023 symbols have been made. -/
theorem oxygen_classified (mol : OBMol) (atom : Nat) (graph : WLNGraph) (a : OBAtom)
    (ha : mol.atom atom = .ok a) (hO : a.atomicNum = 8) :
    (∀ g node, CreateWLNNode mol atom graph = .ok (g, node) →
        node ≠ 0 ∧ ((g.SYMBOLS node).ch, (g.SYMBOLS node).allowed_edges) =
          (if a.explicitValence < 2 ∧ a.formalCharge ≠ -1 then ('Q', 1) else ('O', 2))) ∧
      (graph.symbol_count < 1023 → ∃ g node, CreateWLNNode mol atom graph = .ok (g, node)) := by
  have hsw := createSwitch_oxygen mol atom graph a ha hO
  by_cases h1 : a.explicitValence < 2 ∧ a.formalCharge ≠ -1
  · rw [if_pos h1] at hsw
    obtain ⟨hp, hr⟩ := CreateWLNNode_alloc mol atom graph a 'Q' 1 ha hsw
    refine ⟨fun g node h => ?_, fun hroom => hr (by decide) (by omega)⟩
    obtain ⟨h0, hch, he⟩ := hp g node h
    rw [if_pos h1, hch, he]
    exact ⟨h0, rfl⟩
  · rw [if_neg h1] at hsw
    obtain ⟨hp, hr⟩ := CreateWLNNode_alloc mol atom graph a 'O' 2 ha hsw
    refine ⟨fun g node h => ?_, fun hroom => hr (by decide) (by omega)⟩
    obtain ⟨h0, hch, he⟩ := hp g node h
    rw [if_neg h1, hch, he]
    exact ⟨h0, rfl⟩

/-- Witness of `oxygen_classified`: the oxygen of ethanol. -/
theorem oxygen_classified_witness :
    ethanol.atom 3 = .ok ⟨8, 0, 1, false⟩ ∧ (8 : Nat) = 8 ∧
      ((∀ g node, CreateWLNNode ethanol 3 WLNGraph.new = .ok (g, node) →
        node ≠ 0 ∧ ((g.SYMBOLS node).ch, (g.SYMBOLS node).allowed_edges) =
          (if (1 : Nat) < 2 ∧ (0 : Int) ≠ -1 then ('Q', 1) else ('O', 2))) ∧
      ((WLNGraph.new).symbol_count < 1023 →
        ∃ g node, CreateWLNNode ethanol 3 WLNGraph.new = .ok (g, node))) :=
  ⟨by decide, rfl, oxygen_classified ethanol 3 WLNGraph.new ⟨8, 0, 1, false⟩ (by decide) rfl⟩

/-- Claim C18, failing input: tungsten (atomic number 74) has no `case` in `CreateWLNNode`,
which returns null on it, so `WriteWLN` fails on a lone tungsten atom; it is the only
element of 1..118 outside the one-letter elements for which no symbol `*` with a payload of
two uppercase letters and 8 allowed edges is made. -/
theorem tungsten_unhandled :
    (CreateWLNNode (singleAtom 74) 1 WLNGraph.new).map Prod.snd = .ok 0
      ∧ (∀ fuel, WriteWLN (fuel + 64) "" (singleAtom 74) = .ok (false, ""))
      ∧ (List.range' 1 118).filter
          (fun z => !standardElements.contains z && !specialCreated z) = [74] :=
  ⟨by decide!, fun fuel => WriteWLN_fuel 64 (fuel + 64) (by omega) "" _ _ (by decide!),
   by decide!⟩

/-! ### Edges of the WLN graph -/

/-- The traversal of an edge list returns `l` only if the list is `l`. -/
theorem edgesFrom_listAt (graph : WLNGraph) :
    ∀ (fuel p : Nat) (l : List Nat), edgesFrom graph fuel p = .ok l →
      listAt graph.EDGES p l ∧ l.length < fuel
  | 0, _, _, h => by simp [edgesFrom] at h
  | fuel + 1, p, l, h => by
    unfold edgesFrom at h
    by_cases hp : p = 0
    · rw [if_pos hp] at h
      cases h
      exact ⟨hp, by simp⟩
    · rw [if_neg hp] at h
      cases hrec : edgesFrom graph fuel (graph.EDGES p).nxt with
      | error e => rw [hrec] at h; cases h
      | ok l' =>
        rw [hrec] at h
        cases h
        obtain ⟨h1, h2⟩ := edgesFrom_listAt graph fuel _ l' hrec
        exact ⟨⟨rfl, hp, h1⟩, by simp; omega⟩

/-- The traversal of the edge list `l` returns `l`, given fuel for it. -/
theorem listAt_edgesFrom (graph : WLNGraph) :
    ∀ (l : List Nat) (p fuel : Nat), listAt graph.EDGES p l → l.length < fuel →
      edgesFrom graph fuel p = .ok l
  | [], p, fuel, h, hf => by
    cases fuel with
    | zero => simp at hf
    | succ f => simp only [listAt] at h; simp [edgesFrom, h]
  | e :: rest, p, fuel, h, hf => by
    cases fuel with
    | zero => simp at hf
    | succ f =>
      obtain ⟨rfl, he, hrest⟩ := h
      unfold edgesFrom
      rw [if_neg he, listAt_edgesFrom graph rest _ f hrest (by simpa using hf)]
      rfl

theorem listAt_congr (E E' : Nat → WLNEdge) :
    ∀ (l : List Nat) (p : Nat), (∀ e ∈ l, E' e = E e) → listAt E p l → listAt E' p l
  | [], _, _, h => h
  | e :: rest, p, hE, h => by
    obtain ⟨rfl, he, hrest⟩ := h
    refine ⟨rfl, he, ?_⟩
    rw [hE p (List.mem_cons_self _ _)]
    exact listAt_congr E E' rest _ (fun x hx => hE x (List.mem_cons_of_mem _ hx)) hrest

theorem listAt_last_nxt (E : Nat → WLNEdge) (last : Nat) :
    ∀ (l : List Nat) (p : Nat), listAt E p l → l.getLast? = some last → (E last).nxt = 0
  | [], _, _, h => by simp at h
  | [e], p, h, hl => by
    simp only [List.getLast?_singleton, Option.some.injEq] at hl
    subst hl
    exact h.2.2
  | e :: e' :: rest, p, h, hl => by
    rw [List.getLast?_cons_cons] at hl
    exact listAt_last_nxt E last (e' :: rest) _ h.2.2 hl

/-- Hanging a new edge behind the last edge of a list appends it to the list. -/
theorem listAt_snoc (E E' : Nat → WLNEdge) (last edge : Nat) (hedge : edge ≠ 0)
    (hlast : (E' last).nxt = edge) (hnew : (E' edge).nxt = 0) :
    ∀ (l : List Nat) (p : Nat), listAt E p l → l.getLast? = some last →
      (∀ j ∈ l, j ≠ last → E' j = E j) → listAt E' p (l ++ [edge])
  | [], _, _, h, _ => by simp at h
  | [e], p, h, hl, _ => by
    simp only [List.getLast?_singleton, Option.some.injEq] at hl
    subst hl
    exact ⟨h.1, h.2.1, hlast, hedge, hnew⟩
  | e :: e' :: rest, p, h, hl, hE => by
    rw [List.getLast?_cons_cons] at hl
    obtain ⟨rfl, he, hrest⟩ := h
    have hne : p ≠ last := by
      intro heq
      have h0 := listAt_last_nxt E last (e' :: rest) _ hrest hl
      have h1 : (E p).nxt = e' := hrest.1
      rw [heq, h0] at h1
      exact hrest.2.1 h1.symm
    refine ⟨rfl, he, ?_⟩
    rw [hE p (List.mem_cons_self _ _) hne]
    exact listAt_snoc E E' last edge hedge hlast hnew (e' :: rest) _ hrest hl
      (fun j hj => hE j (List.mem_cons_of_mem _ hj))

/-- The loop `while(curr->nxt)` over the list `l`: null when an edge before the last leads
to the child, else the last edge. -/
theorem lastEdge_listAt (graph : WLNGraph) (child : Nat) :
    ∀ (l : List Nat) (p fuel : Nat), listAt graph.EDGES p l → p ≠ 0 → l.length ≤ fuel →
      lastEdge graph child fuel p
        = if l.dropLast.any (fun e => (graph.EDGES e).child = child) then .ok none
          else .ok l.getLast?
  | [], p, _, h, hp, _ => absurd h hp
  | [e], p, fuel, h, _, hf => by
    cases fuel with
    | zero => simp at hf
    | succ f =>
      obtain ⟨rfl, _, hnxt⟩ := h
      simp only [listAt] at hnxt
      simp [lastEdge, hnxt]
  | e :: e' :: rest, p, fuel, h, _, hf => by
    cases fuel with
    | zero => simp at hf
    | succ f =>
      obtain ⟨rfl, _, hrest⟩ := h
      have hnxt : (graph.EDGES p).nxt = e' := hrest.1
      have hf' : (e' :: rest).length ≤ f := by simpa using hf
      unfold lastEdge
      simp only [hnxt, ne_eq, hrest.2.1, not_false_eq_true, if_true]
      by_cases hc : (graph.EDGES p).child = child
      · simp [hc]
      · rw [if_neg hc, lastEdge_listAt graph child (e' :: rest) e' f (hnxt ▸ hrest) hrest.2.1 hf']
        simp [List.dropLast, hc, List.getLast?_cons_cons]
/-- A call that would exceed a cap returns null. -/
theorem AllocateWLNEdge_cap (fuel child parent : Nat) (graph : WLNGraph)
    (hc : (graph.SYMBOLS child).num_edges < 4294967295)
    (hp : (graph.SYMBOLS parent).num_edges < 4294967295)
    (h : (graph.SYMBOLS child).num_edges + 1 > (graph.SYMBOLS child).allowed_edges
      ∨ (graph.SYMBOLS parent).num_edges + 1 > (graph.SYMBOLS parent).allowed_edges) :
    (AllocateWLNEdge fuel child parent graph).map Prod.snd = .ok 0 := by
  have e1 : u32 ((graph.SYMBOLS child).num_edges + 1) = (graph.SYMBOLS child).num_edges + 1 :=
    Nat.mod_eq_of_lt (by omega)
  have e2 : u32 ((graph.SYMBOLS parent).num_edges + 1) = (graph.SYMBOLS parent).num_edges + 1 :=
    Nat.mod_eq_of_lt (by omega)
  unfold AllocateWLNEdge
  simp only [e1, e2]
  split_ifs <;> first | rfl | (exfalso; omega)

/-- A call that returns an edge has passed the caps and has hung the edge either as the
first of the parent or behind the last edge of the parent's list. -/
theorem AllocateWLNEdge_inv (fuel child parent : Nat) (graph g : WLNGraph) (edge : Nat)
    (h : AllocateWLNEdge fuel child parent graph = .ok (g, edge)) (hedge : edge ≠ 0) :
    edge = u32 (graph.edge_count + 1) ∧
      u32 ((graph.SYMBOLS child).num_edges + 1) ≤ (graph.SYMBOLS child).allowed_edges ∧
      u32 ((graph.SYMBOLS parent).num_edges + 1) ≤ (graph.SYMBOLS parent).allowed_edges ∧
      (((graph.SYMBOLS parent).bonds = 0 ∧
          g = linkEdge child parent edge
            (({ graph with edge_count := edge }.setEdge edge WLNEdge.new).setSym parent
              { graph.SYMBOLS parent with bonds := edge })) ∨
        ((graph.SYMBOLS parent).bonds ≠ 0 ∧ ∃ last,
          lastEdge ({ graph with edge_count := edge }.setEdge edge WLNEdge.new) child fuel
            (graph.SYMBOLS parent).bonds = .ok (some last) ∧
          g = linkEdge child parent edge
            (({ graph with edge_count := edge }.setEdge edge WLNEdge.new).setEdge last
              { (setAt graph.EDGES edge WLNEdge.new) last with nxt := edge }))) := by
  unfold AllocateWLNEdge at h
  simp only at h
  split_ifs at h with h1 h2 h3 h4 h5
  · cases h; exact absurd rfl hedge
  · cases h; exact absurd rfl hedge
  · cases h; exact absurd rfl hedge
  · cases h; exact absurd rfl hedge
  · simp only [WLNGraph.setEdge, bind, Except.bind] at h
    split at h
    · cases h
    · rename_i r hr
      cases r with
      | none => simp [pure, Except.pure] at h; exact absurd h.2.symm hedge
      | some last =>
        simp only [pure, Except.pure, Except.ok.injEq, Prod.mk.injEq] at h
        obtain ⟨hg, he⟩ := h
        subst he
        refine ⟨rfl, by omega, by omega, Or.inr ⟨h5, last, ?_, ?_⟩⟩
        · simpa [WLNGraph.setEdge] using hr
        · rw [← hg]; rfl
  · simp only [Except.ok.injEq, Prod.mk.injEq] at h
    obtain ⟨hg, he⟩ := h
    subst he
    refine ⟨rfl, by omega, by omega, Or.inl ⟨by simpa using h5, ?_⟩⟩
    rw [← hg]; rfl
theorem lastEdge_some (graph : WLNGraph) (child last : Nat) (l : List Nat) (p fuel : Nat)
    (hl : listAt graph.EDGES p l) (hp : p ≠ 0)
    (h : lastEdge graph child fuel p = .ok (some last)) : l.getLast? = some last := by
  have hmono := lastEdge_mono graph child fuel (max fuel l.length) p (Nat.le_max_left _ _)
  have hbig := FuelLe.of_ok hmono h
  rw [lastEdge_listAt graph child l p _ hl hp (Nat.le_max_right _ _)] at hbig
  split_ifs at hbig
  · cases hbig
  · exact Except.ok.inj hbig

theorem listAt_zero (E : Nat → WLNEdge) (l : List Nat) (h : listAt E 0 l) : l = [] := by
  cases l with
  | nil => rfl
  | cons e rest => exact absurd h.1.symm h.2.1

/-- State of the graph after a call that returns an edge. -/
theorem AllocateWLNEdge_post (fuel child parent : Nat) (graph g : WLNGraph) (edge n : Nat)
    (l : List Nat)
    (hc : (graph.SYMBOLS child).num_edges < 4294967295)
    (hp : (graph.SYMBOLS parent).num_edges < 4294967295)
    (hn : (graph.SYMBOLS parent).num_children < 4294967295)
    (hne : child ≠ parent)
    (hl : edgesFrom graph n (graph.SYMBOLS parent).bonds = .ok l)
    (hfresh : u32 (graph.edge_count + 1) ∉ l)
    (h : AllocateWLNEdge fuel child parent graph = .ok (g, edge)) (hedge : edge ≠ 0) :
    edgesFrom g (n + 1) (g.SYMBOLS parent).bonds = .ok (l ++ [edge])
      ∧ g.EDGES edge = ⟨parent, child, 0, false, 1⟩
      ∧ (g.SYMBOLS child).num_edges = (graph.SYMBOLS child).num_edges + 1
      ∧ (g.SYMBOLS parent).num_edges = (graph.SYMBOLS parent).num_edges + 1
      ∧ (g.SYMBOLS parent).num_children = (graph.SYMBOLS parent).num_children + 1
      ∧ (g.SYMBOLS child).previous = parent := by
  have e1 : u32 ((graph.SYMBOLS child).num_edges + 1) = (graph.SYMBOLS child).num_edges + 1 :=
    Nat.mod_eq_of_lt (by omega)
  have e2 : u32 ((graph.SYMBOLS parent).num_edges + 1) = (graph.SYMBOLS parent).num_edges + 1 :=
    Nat.mod_eq_of_lt (by omega)
  have e3 : u32 ((graph.SYMBOLS parent).num_children + 1)
      = (graph.SYMBOLS parent).num_children + 1 := Nat.mod_eq_of_lt (by omega)
  have hne' : parent ≠ child := fun h => hne h.symm
  obtain ⟨hlist, hlen⟩ := edgesFrom_listAt graph n _ l hl
  obtain ⟨he, _, _, hcase⟩ := AllocateWLNEdge_inv fuel child parent graph g edge h hedge
  rw [← he] at hfresh
  rcases hcase with ⟨hb, hg⟩ | ⟨hb, last, hlast, hg⟩
  · rw [hb] at hlist
    have hnil := listAt_zero _ l hlist
    subst hnil
    subst hg
    refine ⟨?_, ?_, ?_, ?_, ?_, ?_⟩
    · apply listAt_edgesFrom _ _ _ _ _ (by simpa using hlen)
      simp [linkEdge, WLNGraph.setSym, WLNGraph.setEdge, setAt, hne, hne', listAt, hedge,
        WLNEdge.new]
    · simp [linkEdge, WLNGraph.setSym, WLNGraph.setEdge, setAt, WLNEdge.new]
    · simp [linkEdge, WLNGraph.setSym, WLNGraph.setEdge, setAt, hne, hne', e1]
    · simp [linkEdge, WLNGraph.setSym, WLNGraph.setEdge, setAt, hne, hne', e2]
    · simp [linkEdge, WLNGraph.setSym, WLNGraph.setEdge, setAt, hne, hne', e3]
    · simp [linkEdge, WLNGraph.setSym, WLNGraph.setEdge, setAt, hne, hne']
  · have hlist2 : listAt (setAt graph.EDGES edge WLNEdge.new) (graph.SYMBOLS parent).bonds l :=
      listAt_congr graph.EDGES _ l _
        (fun e hel => by
          have : e ≠ edge := fun heq => hfresh (heq ▸ hel)
          simp [setAt, this]) hlist
    have hgl : l.getLast? = some last :=
      lastEdge_some ({ graph with edge_count := edge }.setEdge edge WLNEdge.new) child last l _ fuel
        hlist2 hb hlast
    have hlastl : last ∈ l := List.mem_of_mem_getLast? hgl
    have hle : last ≠ edge := fun heq => hfresh (heq ▸ hlastl)
    subst hg
    refine ⟨?_, ?_, ?_, ?_, ?_, ?_⟩
    · apply listAt_edgesFrom _ _ _ _ _ (by simpa using hlen)
      have hbonds : ((linkEdge child parent edge
          (({ graph with edge_count := edge }.setEdge edge WLNEdge.new).setEdge last
            { (setAt graph.EDGES edge WLNEdge.new) last with nxt := edge })).SYMBOLS parent).bonds
          = (graph.SYMBOLS parent).bonds := by
        simp [linkEdge, WLNGraph.setSym, WLNGraph.setEdge, setAt, hne, hne']
      rw [hbonds]
      refine listAt_snoc (setAt graph.EDGES edge WLNEdge.new) _ last edge hedge ?_ ?_ l _ hlist2 hgl ?_
      · simp [linkEdge, WLNGraph.setSym, WLNGraph.setEdge, setAt, hle]
      · simp [linkEdge, WLNGraph.setSym, WLNGraph.setEdge, setAt, hle, WLNEdge.new, hle.symm]
      · intro j hj hjl
        have : j ≠ edge := fun heq => hfresh (heq ▸ hj)
        simp [linkEdge, WLNGraph.setSym, WLNGraph.setEdge, setAt, this, hjl]
    · simp [linkEdge, WLNGraph.setSym, WLNGraph.setEdge, setAt, WLNEdge.new, hle.symm]
    · simp [linkEdge, WLNGraph.setSym, WLNGraph.setEdge, setAt, hne, hne', e1]
    · simp [linkEdge, WLNGraph.setSym, WLNGraph.setEdge, setAt, hne, hne', e2]
    · simp [linkEdge, WLNGraph.setSym, WLNGraph.setEdge, setAt, hne, hne', e3]
    · simp [linkEdge, WLNGraph.setSym, WLNGraph.setEdge, setAt, hne, hne']
/-- A call within the caps and the pool, without an edge to the child before the last of
the list, returns an edge. -/
theorem AllocateWLNEdge_succeeds (fuel child parent : Nat) (graph : WLNGraph) (n : Nat)
    (l : List Nat)
    (hc : (graph.SYMBOLS child).num_edges < 4294967295)
    (hp : (graph.SYMBOLS parent).num_edges < 4294967295)
    (hl : edgesFrom graph n (graph.SYMBOLS parent).bonds = .ok l)
    (hfresh : u32 (graph.edge_count + 1) ∉ l)
    (hchild : child ≠ 0) (hparent : parent ≠ 0) (hroom : graph.edge_count < 1024)
    (hcc : (graph.SYMBOLS child).num_edges + 1 ≤ (graph.SYMBOLS child).allowed_edges)
    (hcp : (graph.SYMBOLS parent).num_edges + 1 ≤ (graph.SYMBOLS parent).allowed_edges)
    (hdup : ∀ e ∈ l.dropLast, (graph.EDGES e).child ≠ child) (hfuel : l.length ≤ fuel) :
    ∃ g edge, AllocateWLNEdge fuel child parent graph = .ok (g, edge) ∧ edge ≠ 0 := by
  have e0 : u32 (graph.edge_count + 1) = graph.edge_count + 1 := Nat.mod_eq_of_lt (by omega)
  have e1 : u32 ((graph.SYMBOLS child).num_edges + 1) = (graph.SYMBOLS child).num_edges + 1 :=
    Nat.mod_eq_of_lt (by omega)
  have e2 : u32 ((graph.SYMBOLS parent).num_edges + 1) = (graph.SYMBOLS parent).num_edges + 1 :=
    Nat.mod_eq_of_lt (by omega)
  obtain ⟨hlist, _⟩ := edgesFrom_listAt graph n _ l hl
  rw [e0] at hfresh
  unfold AllocateWLNEdge
  simp only [e0, e1, e2, REASONABLE]
  rw [if_neg (by simp [hchild, hparent]), if_neg (by omega), if_neg (by omega),
    if_neg (by omega)]
  by_cases hb : (graph.SYMBOLS parent).bonds = 0
  · rw [if_neg (by simpa [WLNGraph.setEdge] using hb)]
    exact ⟨_, _, rfl, by omega⟩
  · rw [if_pos (by simpa [WLNGraph.setEdge] using hb)]
    have hlist2 : listAt (({ graph with edge_count := graph.edge_count + 1 }.setEdge
        (graph.edge_count + 1) WLNEdge.new).EDGES) (graph.SYMBOLS parent).bonds l :=
      listAt_congr graph.EDGES _ l _
        (fun e hel => by
          have : e ≠ graph.edge_count + 1 := fun heq => hfresh (heq ▸ hel)
          simp [WLNGraph.setEdge, setAt, this]) hlist
    have hlast := lastEdge_listAt ({ graph with edge_count := graph.edge_count + 1 }.setEdge
        (graph.edge_count + 1) WLNEdge.new) child l _ fuel hlist2 hb hfuel
    have hany : (l.dropLast.any (fun e =>
        decide ((({ graph with edge_count := graph.edge_count + 1 }.setEdge
          (graph.edge_count + 1) WLNEdge.new).EDGES e).child = child))) = false := by
      rw [List.any_eq_false]
      intro e he
      have hel : e ∈ l := List.mem_of_mem_dropLast he
      have : e ≠ graph.edge_count + 1 := fun heq => hfresh (heq ▸ hel)
      simpa [WLNGraph.setEdge, setAt, this] using hdup e he
    rw [hany] at hlast
    simp only [Bool.false_eq_true, if_false] at hlast
    have hne : l ≠ [] := by
      rintro rfl
      exact hb hlist
    obtain ⟨last, hgl⟩ : ∃ last, l.getLast? = some last := by
      cases hgl : l.getLast? with
      | none => exact absurd (List.getLast?_eq_none_iff.1 hgl) hne
      | some x => exact ⟨x, rfl⟩
    rw [hgl] at hlast
    have hb' : (({ graph with edge_count := graph.edge_count + 1 }.setEdge
        (graph.edge_count + 1) WLNEdge.new).SYMBOLS parent).bonds = (graph.SYMBOLS parent).bonds := rfl
    simp only [hb', hlast, bind, Except.bind, pure, Except.pure]
    exact ⟨_, _, rfl, by omega⟩

/-- Claim C19: a call `AllocateWLNEdge(child, parent)` on symbols whose counters are below
`UINT_MAX`.  The call returns null whenever one more edge exceeds the cap of the child or
of the parent.  Whenever it returns an edge, on two distinct symbols and a parent whose
edge list is `l` and does not hold the slot of the new edge, the parent's list is `l` with
that edge appended, the edge is `parent -> child` of order 1, `num_edges` of both symbols
and `num_children` of the parent have grown by one, and `child.previous` is the parent.
And it does return an edge when both caps hold, fewer than 1023 edges have been made, no
edge of `l` before the last leads to the child, and the fuel covers the list. -/
theorem AllocateWLNEdge_contract (fuel child parent : Nat) (graph : WLNGraph)
    (hc : (graph.SYMBOLS child).num_edges < 4294967295)
    (hp : (graph.SYMBOLS parent).num_edges < 4294967295)
    (hn : (graph.SYMBOLS parent).num_children < 4294967295) :
    (((graph.SYMBOLS child).num_edges + 1 > (graph.SYMBOLS child).allowed_edges
        ∨ (graph.SYMBOLS parent).num_edges + 1 > (graph.SYMBOLS parent).allowed_edges) →
      (AllocateWLNEdge fuel child parent graph).map Prod.snd = .ok 0)
    ∧ (∀ n l g edge, child ≠ parent →
        edgesFrom graph n (graph.SYMBOLS parent).bonds = .ok l →
        u32 (graph.edge_count + 1) ∉ l →
        AllocateWLNEdge fuel child parent graph = .ok (g, edge) → edge ≠ 0 →
        edgesFrom g (n + 1) (g.SYMBOLS parent).bonds = .ok (l ++ [edge])
          ∧ g.EDGES edge = ⟨parent, child, 0, false, 1⟩
          ∧ (g.SYMBOLS child).num_edges = (graph.SYMBOLS child).num_edges + 1
          ∧ (g.SYMBOLS parent).num_edges = (graph.SYMBOLS parent).num_edges + 1
          ∧ (g.SYMBOLS parent).num_children = (graph.SYMBOLS parent).num_children + 1
          ∧ (g.SYMBOLS child).previous = parent)
    ∧ (∀ n l, child ≠ 0 → parent ≠ 0 →
        edgesFrom graph n (graph.SYMBOLS parent).bonds = .ok l →
        u32 (graph.edge_count + 1) ∉ l → graph.edge_count < 1023 →
        (graph.SYMBOLS child).num_edges + 1 ≤ (graph.SYMBOLS child).allowed_edges →
        (graph.SYMBOLS parent).num_edges + 1 ≤ (graph.SYMBOLS parent).allowed_edges →
        (∀ e ∈ l.dropLast, (graph.EDGES e).child ≠ child) → l.length ≤ fuel →
        ∃ g edge, AllocateWLNEdge fuel child parent graph = .ok (g, edge) ∧ edge ≠ 0) :=
  ⟨AllocateWLNEdge_cap fuel child parent graph hc hp,
   fun n l g edge hne hl hfresh h hedge =>
     AllocateWLNEdge_post fuel child parent graph g edge n l hc hp hn hne hl hfresh h hedge,
   fun n l hchild hparent hl hfresh hroom hcc hcp hdup hfuel =>
     AllocateWLNEdge_succeeds fuel child parent graph n l hc hp hl hfresh hchild hparent
       (by omega) hcc hcp hdup hfuel⟩

/-- Witness of `AllocateWLNEdge_contract`: the first edge between the two symbols of
`twoSymbols`. -/
theorem AllocateWLNEdge_contract_witness :
    (twoSymbols.SYMBOLS 2).num_edges < 4294967295
      ∧ (twoSymbols.SYMBOLS 1).num_edges < 4294967295
      ∧ (twoSymbols.SYMBOLS 1).num_children < 4294967295
      ∧ ∃ g edge, AllocateWLNEdge 8 2 1 twoSymbols = .ok (g, edge) ∧ edge ≠ 0
          ∧ edgesFrom g 2 (g.SYMBOLS 1).bonds = .ok [edge]
          ∧ g.EDGES edge = ⟨1, 2, 0, false, 1⟩
          ∧ (g.SYMBOLS 2).num_edges = 1 ∧ (g.SYMBOLS 1).num_edges = 1
          ∧ (g.SYMBOLS 1).num_children = 1 ∧ (g.SYMBOLS 2).previous = 1 := by
  have h := AllocateWLNEdge_contract 8 2 1 twoSymbols (by decide) (by decide) (by decide)
  have hl : edgesFrom twoSymbols 1 (twoSymbols.SYMBOLS 1).bonds = .ok [] := by decide
  obtain ⟨g, edge, hok, hedge⟩ := h.2.2 1 [] (by decide) (by decide) hl (by simp) (by decide)
    (by decide) (by decide) (by simp) (by simp)
  obtain ⟨h1, h2, h3, h4, h5, h6⟩ := h.2.1 1 [] g edge (by decide) hl (by simp) hok hedge
  exact ⟨by decide, by decide, by decide, g, edge, hok, hedge, by simpa using h1, h2,
    by rw [h3]; decide, by rw [h4]; decide, by rw [h5]; decide, h6⟩

/-- Claim C20, failing input: on a parent whose list holds one edge to the child, a second
`AllocateWLNEdge(child, parent)` returns a new edge, and the parent then holds two edges to
the one child; the loop that looks for the child stops before the last edge of the list.
Only a third call, which finds the first of the two, returns null. -/
theorem duplicate_edge_allocated :
    allocateRepeatedly 8 2 1 [(), ()] twoSymbols
        = .ok ([1, 2], [⟨1, 2, 2, false, 1⟩, ⟨1, 2, 0, false, 1⟩])
      ∧ allocateRepeatedly 8 2 1 [(), (), ()] twoSymbols
        = .ok ([1, 2, 0], [⟨1, 2, 2, false, 1⟩, ⟨1, 2, 0, false, 1⟩]) :=
  ⟨by decide!, by decide!⟩

/-- Claim C12, failing input: on carbon monoxide `unsaturate_edge` raises the edge count
of the oxygen to 3 against 2 allowed edges and only then returns null; `BuildWLNTree`
goes on with the graph in that state and `WriteWLN` returns success. -/
theorem carbon_monoxide_exceeds_cap :
    unsaturateFirstBond 8 2 carbonMonoxide = .ok (0, ⟨'O', "", 0, 2, 3, 0, 0, 1, 0⟩)
      ∧ treeSymbols 64 1 carbonMonoxide
        = .ok (1, [⟨'1', "", 0, 4, 3, 1, 0, 0, 1⟩, ⟨'O', "", 0, 2, 3, 0, 0, 1, 0⟩])
      ∧ (treeSymbols 64 1 carbonMonoxide).map (fun r => exceedsCap r.2) = .ok true
      ∧ ∀ fuel, WriteWLN (fuel + 64) "" carbonMonoxide = .ok (true, "1UUO") :=
  ⟨by decide!, by decide!, by decide!,
   fun fuel => WriteWLN_fuel 64 (fuel + 64) (by omega) "" carbonMonoxide _ (by decide!)⟩

/-! ### Locant paths and ring notation -/

/-- Claim C13, failing input: on 2-phenylnaphthalene the ring analyzer finds all 16 ring
atoms and three rings, and for the first seed `CreateLocantPath` returns a path whose last
six entries are empty: the phenyl ring holds no atom of ring share 2, the search for a
hinge finds nothing and the ring placed before is placed again.  `WriteWLN` then
dereferences an empty entry. -/
theorem phenylnaphthalene_path_incomplete :
    ringSystem 64 1 phenylnaphthalene
        = .ok (2, [1, 2, 3, 4, 5, 6, 7, 8, 9, 10, 11, 12, 13, 14, 15, 16], [0, 1, 2], [4, 9])
      ∧ seedCandidate 64 1 phenylnaphthalene 4
        = .ok (some ([4, 5, 6, 7, 8, 9, 10, 1, 2, 3, 0, 0, 0, 0, 0, 0],
            [(4, 9), (4, 3), (4, 3)], [6, 6, 6]))
      ∧ ∀ fuel, WriteWLN (fuel + 64) "" phenylnaphthalene = .error .nullDeref := by
  refine ⟨by decide!, by decide!, fun fuel => ?_⟩
  have h64 : WriteWLN 64 "" phenylnaphthalene = .error .nullDeref := by decide!
  rcases WriteWLN_mono 64 (fuel + 64) (by omega) "" phenylnaphthalene with h | h
  · rw [h64] at h; cases h
  · rw [← h, h64]

/-- Claim C14, failing input: on benzonorbornene the candidate of the first seed has three
pairs, one for each of the three rings, and `ReadLocantPath` returns `L B56`, which holds
two ring sizes: the loop writes the pair `(10, 11)`, finds the other two interrupted until
`safety` runs out, and the closing test then writes the first pair and clears the vector
with the pair `(1, 6)` still in it. -/
theorem benzonorbornene_ring_size_dropped :
    ringSystem 64 10 benzonorbornene
        = .ok (2, [1, 2, 3, 4, 5, 6, 7, 8, 9, 10, 11], [0, 1, 2], [1, 6, 7, 10, 11])
      ∧ seedCandidate 64 10 benzonorbornene 1
        = .ok (some ([1, 10, 9, 8, 11, 7, 6, 5, 4, 3, 2], [(1, 2), (1, 6), (10, 11)], [6, 5, 5]))
      ∧ seedNotation 64 10 benzonorbornene 1 = .ok (some "L B56") :=
  ⟨by decide!, by decide!, by decide!⟩

/-! ### Atom pointers -/

/-- An atom pointer that `GetAtom` does not turn into null can be dereferenced. -/
theorem atom_of_GetAtom (mol : OBMol) (x : Nat) (h : mol.GetAtom x ≠ 0) :
    ∃ a, mol.atom x = .ok a := by
  unfold OBMol.GetAtom at h
  split_ifs at h with hx
  · cases x with
    | zero => omega
    | succ k =>
      have hk : k < mol.atoms.length := by omega
      refine ⟨mol.atoms[k], ?_⟩
      simp [OBMol.atom, List.get?_eq_getElem?, List.getElem?_eq_getElem hk]
  · exact absurd rfl h

/-- The neighbours of an atom are atoms of the molecule when the bonds join atoms of the
molecule. -/
theorem nbors_valid (mol : OBMol)
    (hb : ∀ b ∈ mol.bonds, mol.GetAtom b.beginAtom ≠ 0 ∧ mol.GetAtom b.endAtom ≠ 0) (a : Nat) :
    ∀ n ∈ mol.nbors a, ∃ x, mol.atom n = .ok x := by
  intro n hn
  simp only [OBMol.nbors, OBMol.bondsOf, List.mem_map, List.mem_filter] at hn
  obtain ⟨b, ⟨hbm, -⟩, rfl⟩ := hn
  unfold OBMol.nbrAtom
  split_ifs
  · exact atom_of_GetAtom mol _ (hb b hbm).2
  · exact atom_of_GetAtom mol _ (hb b hbm).1

/-! ### The pools of the graph and the removal of an edge -/

/-- Every edge of a linked list is a non-null pointer. -/
theorem listAt_ne_zero (E : Nat → WLNEdge) :
    ∀ (l : List Nat) (p : Nat), listAt E p l → ∀ e ∈ l, e ≠ 0
  | [], _, _, _, h => by cases h
  | a :: rest, p, hl, e, h => by
    rcases List.mem_cons.1 h with h | h
    · subst h; exact hl.2.1
    · exact listAt_ne_zero E rest _ hl.2.2 e h

/-- The loop `while(search)` of `remove_edge` on a list that holds `edge` behind the edges
`pre`: it finds the edge, and `prev` is the last edge of `pre`. -/
theorem findPrev_listAt (graph : WLNGraph) (edge : Nat) :
    ∀ (pre post : List Nat) (p prev fuel : Nat),
      listAt graph.EDGES p (pre ++ edge :: post) → edge ∉ pre → pre.length < fuel →
      findPrev graph edge fuel p prev = .ok (true, (pre.getLast?).getD prev)
  | [], post, p, prev, fuel, hl, _, hf => by
    cases fuel with
    | zero => simp at hf
    | succ f =>
      obtain ⟨rfl, he, -⟩ := hl
      simp [findPrev, he]
  | a :: pre, post, p, prev, fuel, hl, hn, hf => by
    cases fuel with
    | zero => simp at hf
    | succ f =>
      obtain ⟨rfl, ha, hrest⟩ := hl
      have hne : p ≠ edge := fun h => hn (by simp [h])
      have := findPrev_listAt graph edge pre post _ p f hrest
        (fun h => hn (List.mem_cons_of_mem _ h)) (by simpa using hf)
      unfold findPrev
      rw [if_neg ha, if_neg hne, this]
      cases pre with
      | nil => rfl
      | cons b pre =>
        rw [List.getLast?_cons_cons]
        cases hg : (b :: pre).getLast? with
        | none => simp at hg
        | some x => rfl

/-- Linking the edge in front of `edge` to the edge behind it takes `edge` out of the
list. -/
theorem listAt_unlink (E : Nat → WLNEdge) (edge : Nat) :
    ∀ (pre post : List Nat) (p : Nat), pre ≠ [] → listAt E p (pre ++ edge :: post) →
      (pre ++ edge :: post).Nodup →
      listAt (setAt E ((pre.getLast?).getD 0)
        { E ((pre.getLast?).getD 0) with nxt := (E edge).nxt }) p (pre ++ post)
  | [], _, _, h, _, _ => absurd rfl h
  | [a], post, p, _, hl, hnd => by
    obtain ⟨rfl, ha, -, he, hpost⟩ := hl
    simp only [List.getLast?_singleton, Option.getD_some, List.singleton_append]
    refine ⟨rfl, ha, ?_⟩
    have hap : p ∉ post := by
      intro h
      simp only [List.singleton_append, List.nodup_cons, List.mem_cons] at hnd
      exact hnd.1 (Or.inr h)
    rw [setAt_same]
    refine listAt_congr E _ post _ (fun x hx => ?_) hpost
    have : x ≠ p := fun h => hap (h ▸ hx)
    simp [setAt, this]
  | a :: b :: pre, post, p, _, hl, hnd => by
    obtain ⟨rfl, ha, hrest⟩ := hl
    have hnd' : ((b :: pre) ++ edge :: post).Nodup := (List.nodup_cons.1 hnd).2
    have hlast : ((b :: pre).getLast?).getD 0 ∈ (b :: pre) ++ edge :: post := by
      cases hg : (b :: pre).getLast? with
      | none => simp at hg
      | some x =>
        simp only [Option.getD_some]
        exact List.mem_append_left _ (List.mem_of_mem_getLast? (by rw [hg]; rfl))
    have hne : p ≠ ((b :: pre).getLast?).getD 0 := by
      intro h
      exact (List.nodup_cons.1 hnd).1 (h ▸ hlast)
    have ih := listAt_unlink E edge (b :: pre) post (E p).nxt (by simp) hrest hnd'
    rw [List.getLast?_cons_cons]
    refine ⟨rfl, ha, ?_⟩
    simp only [setAt, hne, if_false]
    exact ih

/-- Function `remove_edge` past its null test, written with `decrementBoth`. -/
theorem remove_edge_eq (fuel head edge : Nat) (graph : WLNGraph) (hh : head ≠ 0)
    (he : edge ≠ 0) (hc : (graph.EDGES edge).child ≠ 0) :
    remove_edge fuel head edge graph
      = (if ((decrementBoth graph head edge).SYMBOLS head).bonds = edge then
          .ok ((decrementBoth graph head edge).setSym head
            { (decrementBoth graph head edge).SYMBOLS head with bonds := 0 }, true)
        else
          findPrev (decrementBoth graph head edge) edge fuel
            ((decrementBoth graph head edge).SYMBOLS head).bonds 0 >>= fun r =>
            if !r.1 then pure (decrementBoth graph head edge, false)
            else if r.2 = 0 then throw .nullDeref
            else pure ((decrementBoth graph head edge).setEdge r.2
              { (decrementBoth graph head edge).EDGES r.2 with
                nxt := ((decrementBoth graph head edge).EDGES edge).nxt }, true)) := by
  unfold remove_edge
  rw [if_neg (by simp [hh, he])]
  have hc1 : ((graph.setSym head
      { graph.SYMBOLS head with num_edges := u32dec (graph.SYMBOLS head).num_edges }).EDGES
        edge).child ≠ 0 := hc
  simp only [hc1, if_false]
  rfl

/-- The decrements of `remove_edge` leave the edges and the list head of `head` alone. -/
theorem decrementBoth_frame (graph : WLNGraph) (head edge : Nat) :
    (decrementBoth graph head edge).EDGES = graph.EDGES
      ∧ ((decrementBoth graph head edge).SYMBOLS head).bonds = (graph.SYMBOLS head).bonds := by
  refine ⟨rfl, ?_⟩
  simp only [decrementBoth, WLNGraph.setSym, setAt]
  split_ifs <;> simp_all

/-- Function `remove_edge` on an edge of the list `l` of `head`: it returns true; the
first edge of the list takes the whole list with it, any other edge is taken out alone. -/
theorem remove_edge_list (fuel head edge : Nat) (graph : WLNGraph) (l : List Nat)
    (hh : head ≠ 0) (hl : listAt graph.EDGES (graph.SYMBOLS head).bonds l) (hnd : l.Nodup)
    (he : edge ∈ l) (hc : (graph.EDGES edge).child ≠ 0) (hf : l.length ≤ fuel) :
    ∃ g, remove_edge fuel head edge graph = .ok (g, true)
      ∧ listAt g.EDGES (g.SYMBOLS head).bonds
          (if l.head? = some edge then [] else l.erase edge) := by
  have he0 : edge ≠ 0 := listAt_ne_zero _ l _ hl edge he
  obtain ⟨hE, hB⟩ := decrementBoth_frame graph head edge
  rw [remove_edge_eq fuel head edge graph hh he0 hc, hB]
  obtain ⟨pre, post, hsplit, hpre⟩ := List.eq_append_cons_of_mem he
  subst hsplit
  cases pre with
  | nil =>
    obtain ⟨hb, -, -⟩ := hl
    rw [if_pos hb]
    refine ⟨_, rfl, ?_⟩
    simp [listAt, WLNGraph.setSym, setAt]
  | cons a pre =>
    have hne : (graph.SYMBOLS head).bonds ≠ edge := by
      intro h
      rw [hl.1] at h
      exact hpre (by simp [h])
    have hl2 : listAt (decrementBoth graph head edge).EDGES (graph.SYMBOLS head).bonds
        ((a :: pre) ++ edge :: post) := by rw [hE]; exact hl
    have hfind := findPrev_listAt (decrementBoth graph head edge) edge (a :: pre) post
      (graph.SYMBOLS head).bonds 0 fuel hl2 hpre (by simp at hf ⊢; omega)
    have hprev : ((a :: pre).getLast?).getD 0 ≠ 0 := by
      cases hg : (a :: pre).getLast? with
      | none => simp at hg
      | some x =>
        simp only [Option.getD_some]
        exact listAt_ne_zero _ _ _ hl x
          (List.mem_append_left _ (List.mem_of_mem_getLast? (by rw [hg]; rfl)))
    rw [if_neg hne, hfind]
    simp only [bind, Except.bind, Bool.not_true, Bool.false_eq_true, if_false, hprev, pure,
      Except.pure]
    refine ⟨_, rfl, ?_⟩
    have hhead : ((a :: pre) ++ edge :: post).head? ≠ some edge := by
      simp only [List.cons_append, List.head?_cons, ne_eq, Option.some.injEq]
      intro h
      exact hpre (by simp [h])
    rw [if_neg hhead, List.erase_append_right _ hpre, List.erase_cons_head]
    have := listAt_unlink graph.EDGES edge (a :: pre) post _ (by simp) hl hnd
    simpa [WLNGraph.setEdge, hE, hB] using this

/-- Claim C21, failing input: symbol 1 has the edges 1 (to symbol 2) and 2 (to symbol 3).
`remove_edge(1, edge 1)` returns true and leaves symbol 1 with an empty edge list, edge 2
being dropped with it; the counters of symbol 1 and of symbol 2 go down by one.  Removing
edge 2, which is not the first of the list, leaves exactly edge 1. -/
theorem remove_first_edge_drops_list :
    removeFromTwoChildren 8 1 1 = .ok ([1, 2], true, [], 1, 0, 1)
      ∧ removeFromTwoChildren 8 1 2 = .ok ([1, 2], true, [1], 1, 1, 0) := by
  constructor <;> decide!

/-- One more call of `AllocateWLNSymbol`. -/
theorem allocateSymbols_succ (n : Nat) (graph : WLNGraph) :
    allocateSymbols (n + 1) graph = AllocateWLNSymbol 'X' (allocateSymbols n graph).1 := rfl

/-- After `n ≤ 1024` calls on a fresh graph the symbol counter is `n`. -/
theorem allocateSymbols_count (n : Nat) (h : n ≤ 1024) :
    (allocateSymbols n WLNGraph.new).1.symbol_count = n := by
  induction n with
  | zero => rfl
  | succ n ih =>
    have ih := ih (by omega)
    rw [allocateSymbols_succ, AllocateWLNSymbol_ok 'X' _ (by decide) (by omega), ih]

/-- Claim C22, failing input: the 1024th call of `AllocateWLNSymbol` on a fresh graph
succeeds and stores the symbol in slot 1024, one past the 1024 entries of `SYMBOLS`; only
the 1025th call fails.  Likewise `AllocateWLNEdge` on a graph whose edge counter is 1023
succeeds and stores the edge in slot 1024 of `EDGES`. -/
theorem pool_overrun :
    (allocateSymbols 1024 WLNGraph.new).2 = 1024
      ∧ ((allocateSymbols 1024 WLNGraph.new).1.SYMBOLS 1024).ch = 'X'
      ∧ inPool (allocateSymbols 1024 WLNGraph.new).2 = false
      ∧ (allocateSymbols 1025 WLNGraph.new).2 = 0
      ∧ (AllocateWLNEdge 8 2 1 edgesNearlyFull).map
          (fun r => (r.2, r.1.EDGES 1024, inPool r.2)) = .ok (1024, ⟨1, 2, 0, false, 1⟩, false) := by
  have h := allocateSymbols_count 1023 (by decide)
  have h4 := allocateSymbols_count 1024 (by decide)
  have e4 : allocateSymbols 1024 WLNGraph.new
      = AllocateWLNSymbol 'X' (allocateSymbols 1023 WLNGraph.new).1 :=
    allocateSymbols_succ 1023 _
  have e5 : allocateSymbols 1025 WLNGraph.new
      = AllocateWLNSymbol 'X' (allocateSymbols 1024 WLNGraph.new).1 :=
    allocateSymbols_succ 1024 _
  have r := AllocateWLNSymbol_ok 'X' (allocateSymbols 1023 WLNGraph.new).1 (by decide)
    (by omega)
  rw [← e4, h] at r
  simp only [Nat.reduceAdd] at r
  refine ⟨?_, ?_, ?_, ?_, by decide!⟩
  · rw [r]
  · rw [r]; simp [setAt]
  · rw [r]; rfl
  · rw [e5]
    exact AllocateWLNSymbol_full 'X' _ h4

/-! ### The ring type of a ring system -/

/-- One round of the loop of `ConstructLocalSSSR`, written with `sssrStep`. -/
theorem ConstructLocalSSSR_loop_succ (mol : OBMol) (fuel atom : Nat) (stack : List Nat)
    (visited : Nat → Bool) (st : LocalSSSR) :
    ConstructLocalSSSR.loop mol (fuel + 1) (atom :: stack) visited st
      = (mol.atom atom >>= fun _ =>
          pushRingNbors mol (mol.nbors atom) stack (setAt visited atom true) >>= fun r =>
            ConstructLocalSSSR.loop mol fuel r.1 r.2 (sssrStep mol atom st)) := by
  simp only [ConstructLocalSSSR.loop, sssrStep]

/-- `setInsert` adds the element when it is missing. -/
theorem mem_setInsert (x a : Nat) (l : List Nat) : x ∈ setInsert a l ↔ x = a ∨ x ∈ l := by
  induction l with
  | nil => simp [setInsert]
  | cons y ys ih =>
    unfold setInsert
    split_ifs with h1 h2
    · simp
    · subst h2; simp
    · simp only [List.mem_cons, ih]
      tauto

/-- `setInsert` of a missing element is a permutation of the list with that element. -/
theorem setInsert_perm (a : Nat) (l : List Nat) (h : a ∉ l) : (setInsert a l).Perm (a :: l) := by
  induction l with
  | nil => simp [setInsert]
  | cons y ys ih =>
    unfold setInsert
    have hy : a ≠ y := fun e => h (by simp [e])
    have hys : a ∉ ys := fun e => h (by simp [e])
    split_ifs with h1
    · exact List.Perm.refl _
    · exact ((ih hys).cons y).trans (List.Perm.swap a y ys)

/-- The share count of `ConstructLocalSSSR` for one atom is the number of SSSR rings the
atom belongs to. -/
theorem ringsOfAtom_fst (mol : OBMol) (atom : Nat) (local_SSSR : List Nat)
    (hr : mol.sssr.length < 4294967296) :
    (ringsOfAtom mol atom local_SSSR).1 = ringShare mol atom := by
  have key : ∀ k, k ≤ mol.sssr.length →
      ((List.range k).foldl
        (fun (acc : Nat × List Nat) r =>
          if OBMol.ringHas (mol.ring r) atom then (u32 (acc.1 + 1), setInsert r acc.2) else acc)
        (0, local_SSSR)).1
        = ((mol.sssr.take k).filter (fun r => OBMol.ringHas r atom)).length := by
    intro k
    induction k with
    | zero => intro _; simp
    | succ k ih =>
      intro hk
      have hlt : k < mol.sssr.length := by omega
      rw [List.range_succ, List.foldl_append, List.take_succ, List.filter_append,
        List.length_append, ← ih (by omega)]
      have hring : mol.ring k = mol.sssr[k] := by
        simp [OBMol.ring, List.get?_eq_getElem?, List.getElem?_eq_getElem hlt]
      have hget : mol.sssr[k]?.toList = [mol.sssr[k]] := by
        simp [List.getElem?_eq_getElem hlt]
      simp only [List.foldl_cons, List.foldl_nil, hring, hget]
      have hb := ih (by omega)
      have hle : ((mol.sssr.take k).filter (fun r => OBMol.ringHas r atom)).length ≤ k := by
        calc _ ≤ (mol.sssr.take k).length := List.length_filter_le _ _
          _ ≤ k := by simp
      by_cases hm : OBMol.ringHas mol.sssr[k] atom = true
      · simp only [hm, if_true, List.filter_cons_of_pos, List.filter_nil, List.length_cons,
          List.length_nil]
        rw [hb]
        unfold u32
        omega
      · simp [hm]
  have := key mol.sssr.length (le_refl _)
  rw [List.take_length] at this
  exact this

/-- What the neighbour loop of `ConstructLocalSSSR` does to a stack whose atoms are all
marked visited: it pushes the ring atoms of the list that are not marked, once each, and
marks them. -/
theorem pushRingNbors_ok (mol : OBMol) :
    ∀ (l stack : List Nat) (visited : Nat → Bool) (stack2 : List Nat) (visited2 : Nat → Bool),
      stack.Nodup → (∀ x ∈ stack, visited x = true) →
      pushRingNbors mol l stack visited = .ok (stack2, visited2) →
      stack2.Nodup ∧ (∀ x ∈ stack2, visited2 x = true)
        ∧ (∀ x ∈ stack, x ∈ stack2)
        ∧ (∀ x, visited x = true → visited2 x = true)
        ∧ (∀ x, visited2 x = true → visited x = true ∨ x ∈ stack2)
        ∧ (∀ x ∈ stack2, x ∈ stack ∨ (x ∈ l ∧ mol.IsInRing x = .ok true ∧ visited x = false))
        ∧ (∀ n ∈ l, mol.IsInRing n = .ok true → visited2 n = true) := by
  intro l
  induction l with
  | nil =>
    intro stack visited stack2 visited2 hnd hv h
    simp only [pushRingNbors, Except.ok.injEq, Prod.mk.injEq] at h
    obtain ⟨rfl, rfl⟩ := h
    exact ⟨hnd, hv, fun _ h => h, fun _ h => h, fun _ h => Or.inl h, fun _ h => Or.inl h,
      fun _ h => by cases h⟩
  | cons n l ih =>
    intro stack visited stack2 visited2 hnd hv h
    unfold pushRingNbors at h
    obtain ⟨b, hb, h⟩ := bind_ok h
    by_cases hc : (b && !visited n) = true
    · rw [if_pos hc] at h
      simp only [Bool.and_eq_true, Bool.not_eq_true'] at hc
      obtain ⟨hb1, hvn⟩ := hc
      subst hb1
      have hn : n ∉ stack := fun hm => by rw [hv n hm] at hvn; cases hvn
      obtain ⟨h1, h2, h3, h4, h5, h6, h7⟩ := ih (n :: stack) (setAt visited n true) stack2 visited2
        (List.nodup_cons.2 ⟨hn, hnd⟩)
        (by
          intro x hx
          simp only [setAt]
          split_ifs with e
          · rfl
          · rcases List.mem_cons.1 hx with hx | hx
            · exact absurd hx e
            · exact hv x hx) h
      refine ⟨h1, h2, fun x hx => h3 x (List.mem_cons_of_mem _ hx), ?_, ?_, ?_, ?_⟩
      · intro x hx
        apply h4
        simp only [setAt]
        split_ifs
        · rfl
        · exact hx
      · intro x hx
        rcases h5 x hx with h | h
        · simp only [setAt] at h
          split_ifs at h with e
          · right; subst e; exact h3 _ (List.mem_cons_self _ _)
          · left; exact h
        · right; exact h
      · intro x hx
        rcases h6 x hx with h | ⟨h, hr, hvx⟩
        · rcases List.mem_cons.1 h with h | h
          · subst h; right; exact ⟨List.mem_cons_self _ _, hb, hvn⟩
          · left; exact h
        · right
          refine ⟨List.mem_cons_of_mem _ h, hr, ?_⟩
          simp only [setAt] at hvx
          split_ifs at hvx
          exact hvx
      · intro m hm hr
        rcases List.mem_cons.1 hm with hm | hm
        · subst hm
          exact h2 _ (h3 _ (List.mem_cons_self _ _))
        · exact h7 m hm hr
    · rw [if_neg hc] at h
      obtain ⟨h1, h2, h3, h4, h5, h6, h7⟩ := ih stack visited stack2 visited2 hnd hv h
      refine ⟨h1, h2, h3, h4, h5, ?_, ?_⟩
      · intro x hx
        rcases h6 x hx with h | ⟨h, hr, hvx⟩
        · left; exact h
        · right; exact ⟨List.mem_cons_of_mem _ h, hr, hvx⟩
      · intro m hm hr
        rcases List.mem_cons.1 hm with hm | hm
        · subst hm
          rw [hr] at hb
          cases hb
          simp only [Bool.true_and, Bool.not_eq_true', Bool.not_eq_false] at hc
          exact h4 _ hc
        · exact h7 m hm hr

/-- The neighbour loop of `ConstructLocalSSSR` returns when every neighbour is an atom of
the molecule. -/
theorem pushRingNbors_returns (mol : OBMol) :
    ∀ (l stack : List Nat) (visited : Nat → Bool),
      (∀ n ∈ l, ∃ x, mol.atom n = .ok x) →
      ∃ r, pushRingNbors mol l stack visited = .ok r := by
  intro l
  induction l with
  | nil => intro stack visited _; exact ⟨_, rfl⟩
  | cons n l ih =>
    intro stack visited h
    obtain ⟨x, hx⟩ := h n (List.mem_cons_self _ _)
    have hl : ∀ m ∈ l, ∃ x, mol.atom m = .ok x := fun m hm => h m (List.mem_cons_of_mem _ hm)
    unfold pushRingNbors
    simp only [OBMol.IsInRing, hx, Except.map, bind, Except.bind]
    split_ifs
    · exact ih _ _ hl
    · exact ih _ _ hl

/-- A list of different atoms of the molecule is no longer than the atom list. -/
theorem nodup_atoms_length (mol : OBMol) (l : List Nat) (hnd : l.Nodup)
    (hv : ∀ a ∈ l, ∃ x, mol.atom a = .ok x) : l.length ≤ mol.atoms.length := by
  have hsub : l.toFinset ⊆ Finset.Icc 1 mol.atoms.length := by
    intro a ha
    obtain ⟨x, hx⟩ := hv a (List.mem_toFinset.1 ha)
    obtain ⟨-, h1, h2⟩ := atom_mem mol a x hx
    exact Finset.mem_Icc.2 ⟨h1, h2⟩
  have := Finset.card_le_card hsub
  rw [List.toFinset_card_of_nodup hnd, Nat.card_Icc] at this
  omega

/-- The fields of `sssrStep` in terms of the share of the atom. -/
theorem sssrStep_fields (mol : OBMol) (atom : Nat) (st : LocalSSSR)
    (hr : mol.sssr.length < 4294967296) :
    (sssrStep mol atom st).ring_atoms = setInsert atom st.ring_atoms
      ∧ (sssrStep mol atom st).ring_shares = setAt st.ring_shares atom (ringShare mol atom)
      ∧ (sssrStep mol atom st).branching
          = (if 3 < ringShare mol atom then u32 (st.branching + 1) else st.branching)
      ∧ (sssrStep mol atom st).multicyclic
          = (if ringShare mol atom = 3 then u32 (st.multicyclic + 1) else st.multicyclic) := by
  unfold sssrStep
  simp only [ringsOfAtom_fst mol atom st.local_SSSR hr]
  split_ifs <;> simp_all

/-- One round of the loop of `ConstructLocalSSSR` keeps the invariant. -/
theorem SSSRInv.round (mol : OBMol) (root atom : Nat) (stack : List Nat)
    (visited : Nat → Bool) (st : LocalSSSR) (stack2 : List Nat) (visited2 : Nat → Bool)
    (ha : mol.atoms.length < 4294967296) (hr : mol.sssr.length < 4294967296)
    (inv : SSSRInv mol root (atom :: stack) visited st)
    (hp : pushRingNbors mol (mol.nbors atom) stack (setAt visited atom true)
      = .ok (stack2, visited2)) :
    SSSRInv mol root stack2 visited2 (sssrStep mol atom st) := by
  obtain ⟨f1, f2, f3, f4⟩ := sssrStep_fields mol atom st hr
  have hfresh : atom ∉ st.ring_atoms := inv.stack_fresh atom (List.mem_cons_self _ _)
  have hnd := List.nodup_cons.1 inv.stack_nodup
  have hv1 : ∀ x ∈ stack, setAt visited atom true x = true := by
    intro x hx
    simp only [setAt]
    split_ifs
    · rfl
    · exact inv.stack_vis x hx
  obtain ⟨h1, h2, h3, h4, h5, h6, h7⟩ :=
    pushRingNbors_ok mol _ stack _ stack2 visited2 hnd.2 hv1 hp
  have hat : setAt visited atom true atom = true := by simp [setAt]
  have hmono : ∀ x, visited x = true → visited2 x = true := by
    intro x hx
    apply h4
    simp only [setAt]
    split_ifs
    · rfl
    · exact hx
  have hperm := setInsert_perm atom st.ring_atoms hfresh
  have hvis : ∀ a, visited2 a = true → a ∈ setInsert atom st.ring_atoms ∨ a ∈ stack2 := by
    intro a hv
    rcases h5 a hv with h | h
    · simp only [setAt] at h
      split_ifs at h with e
      · left; exact (mem_setInsert _ _ _).2 (Or.inl e)
      · rcases inv.vis a h with h | h
        · left; exact (mem_setInsert _ _ _).2 (Or.inr h)
        · rcases List.mem_cons.1 h with h | h
          · exact absurd h e
          · right; exact h3 a h
    · right; exact h
  have hvalid : ∀ a ∈ setInsert atom st.ring_atoms, ∃ x, mol.atom a = .ok x := by
    intro a hm
    rcases (mem_setInsert _ _ _).1 hm with h | h
    · subst h; exact inv.stack_valid a (List.mem_cons_self _ _)
    · exact inv.valid a h
  have hnodup : (setInsert atom st.ring_atoms).Nodup :=
    hperm.nodup_iff.2 (List.nodup_cons.2 ⟨hfresh, inv.nodup⟩)
  have hlen : st.ring_atoms.length + 1 ≤ mol.atoms.length := by
    have := nodup_atoms_length mol _ hnodup hvalid
    rwa [hperm.length_eq, List.length_cons] at this
  have hcount : ∀ p : Nat → Bool, ((setInsert atom st.ring_atoms).filter p).length
      = (if p atom = true then 1 else 0) + (st.ring_atoms.filter p).length := by
    intro p
    rw [(hperm.filter p).length_eq]
    by_cases hpa : p atom = true
    · rw [List.filter_cons_of_pos hpa, if_pos hpa, List.length_cons]; omega
    · rw [List.filter_cons_of_neg hpa, if_neg hpa]; omega
  have hfl : ∀ p : Nat → Bool, (st.ring_atoms.filter p).length ≤ st.ring_atoms.length :=
    fun p => List.length_filter_le _ _
  constructor
  · rw [f1]; exact hvalid
  · rw [f1]; exact hnodup
  · rw [f1]
    intro a hm
    rcases (mem_setInsert _ _ _).1 hm with h | h
    · subst h; exact h4 _ hat
    · exact hmono a (inv.ring_vis a h)
  · rw [f1]; exact hvis
  · intro a hm
    exact h2 a (List.mem_of_mem_tail hm)
  · exact h1
  · rw [f1]
    intro x hx hm
    rcases h6 x hx with h | ⟨-, -, hvx⟩
    · rcases (mem_setInsert _ _ _).1 hm with e | e
      · subst e; exact hnd.1 h
      · exact inv.stack_fresh x (List.mem_cons_of_mem _ h) e
    · rcases (mem_setInsert _ _ _).1 hm with e | e
      · subst e; rw [hat] at hvx; cases hvx
      · have := inv.ring_vis x e
        simp only [setAt] at hvx
        split_ifs at hvx
        rw [this] at hvx; cases hvx
  · intro x hx
    rcases h6 x hx with h | ⟨-, hring, -⟩
    · exact inv.stack_valid x (List.mem_cons_of_mem _ h)
    · obtain ⟨y, hy, -⟩ := map_ok hring
      exact ⟨y, hy⟩
  · rw [f1]
    intro a hm
    rcases hm with hm | hm
    · rcases (mem_setInsert _ _ _).1 hm with e | e
      · subst e; exact inv.reach a (Or.inr (List.mem_cons_self _ _))
      · exact inv.reach a (Or.inl e)
    · rcases h6 a hm with h | ⟨hl, hring, -⟩
      · exact inv.reach a (Or.inr (List.mem_cons_of_mem _ h))
      · exact Relation.ReflTransGen.tail (inv.reach atom (Or.inr (List.mem_cons_self _ _)))
          ⟨hl, hring⟩
  · rw [f1]
    intro a hm n hn hring
    rcases (mem_setInsert _ _ _).1 hm with e | e
    · subst e
      exact hvis n (h7 n hn hring)
    · rcases inv.closed a e n hn hring with h | h
      · left; exact (mem_setInsert _ _ _).2 (Or.inr h)
      · rcases List.mem_cons.1 h with h | h
        · left; exact (mem_setInsert _ _ _).2 (Or.inl h)
        · right; exact h3 n h
  · rw [f1, f2]
    intro a hm
    simp only [setAt]
    split_ifs with e
    · rw [e]
    · rcases (mem_setInsert _ _ _).1 hm with h | h
      · exact absurd h e
      · exact inv.shares a h
  · rw [f1, f3, hcount, inv.branching]
    have := hfl (fun a => decide (3 < ringShare mol a))
    by_cases h3 : 3 < ringShare mol atom
    · simp only [h3, if_true, decide_True]
      unfold u32
      omega
    · simp [h3]
  · rw [f1, f4, hcount, inv.multicyclic]
    have := hfl (fun a => decide (ringShare mol a = 3))
    by_cases h3 : ringShare mol atom = 3
    · simp only [h3, if_true, decide_True]
      unfold u32
      omega
    · simp [h3]
  · rw [f1]
    rcases inv.start with h | h
    · left; exact (mem_setInsert _ _ _).2 (Or.inr h)
    · rcases List.mem_cons.1 h with h | h
      · left; exact (mem_setInsert _ _ _).2 (Or.inl h)
      · right; exact h3 root h

/-- The loop of `ConstructLocalSSSR` keeps the invariant up to its return. -/
theorem ConstructLocalSSSR_loop_inv (mol : OBMol) (root : Nat)
    (ha : mol.atoms.length < 4294967296) (hr : mol.sssr.length < 4294967296) :
    ∀ (fuel : Nat) (stack : List Nat) (visited : Nat → Bool) (st res : LocalSSSR),
      SSSRInv mol root stack visited st →
      ConstructLocalSSSR.loop mol fuel stack visited st = .ok res →
      ∃ visited2, SSSRInv mol root [] visited2 res := by
  intro fuel
  induction fuel with
  | zero => intro stack visited st res _ h; cases h
  | succ fuel ih =>
    intro stack visited st res inv h
    cases stack with
    | nil =>
      simp only [ConstructLocalSSSR.loop, Except.ok.injEq] at h
      subst h
      exact ⟨visited, inv⟩
    | cons atom stack =>
      rw [ConstructLocalSSSR_loop_succ] at h
      obtain ⟨x, -, h⟩ := bind_ok h
      obtain ⟨⟨stack2, visited2⟩, hp, h⟩ := bind_ok h
      exact ih stack2 visited2 _ res (inv.round mol root atom stack visited st stack2 visited2
        ha hr hp) h

/-- The loop of `ConstructLocalSSSR` returns when the bonds of the molecule join atoms of
the molecule and the fuel covers the atoms not yet taken from the stack. -/
theorem ConstructLocalSSSR_loop_returns (mol : OBMol) (root : Nat)
    (ha : mol.atoms.length < 4294967296) (hr : mol.sssr.length < 4294967296)
    (hb : ∀ a, ∀ n ∈ mol.nbors a, ∃ x, mol.atom n = .ok x) :
    ∀ (fuel : Nat) (stack : List Nat) (visited : Nat → Bool) (st : LocalSSSR),
      SSSRInv mol root stack visited st →
      mol.atoms.length + 1 ≤ fuel + st.ring_atoms.length →
      ∃ res, ConstructLocalSSSR.loop mol fuel stack visited st = .ok res := by
  intro fuel
  induction fuel with
  | zero =>
    intro stack visited st inv hf
    have := nodup_atoms_length mol _ inv.nodup inv.valid
    omega
  | succ fuel ih =>
    intro stack visited st inv hf
    cases stack with
    | nil => exact ⟨st, rfl⟩
    | cons atom stack =>
      rw [ConstructLocalSSSR_loop_succ]
      obtain ⟨x, hx⟩ := inv.stack_valid atom (List.mem_cons_self _ _)
      obtain ⟨⟨stack2, visited2⟩, hp⟩ :=
        pushRingNbors_returns mol (mol.nbors atom) stack (setAt visited atom true) (hb atom)
      have inv2 := inv.round mol root atom stack visited st stack2 visited2 ha hr hp
      have hlen : (sssrStep mol atom st).ring_atoms.length = st.ring_atoms.length + 1 := by
        rw [(sssrStep_fields mol atom st hr).1,
          (setInsert_perm atom st.ring_atoms
            (inv.stack_fresh atom (List.mem_cons_self _ _))).length_eq, List.length_cons]
      obtain ⟨res, hres⟩ := ih stack2 visited2 _ inv2 (by omega)
      exact ⟨res, by simp only [hx, hp, bind, Except.bind, hres]⟩

/-- Claim C23: started from a ring atom, `ConstructLocalSSSR` traverses the atoms reached
from it along bonds to ring atoms, records for each the number of SSSR rings it belongs
to, and returns 0 exactly when one of them belongs to four or more rings, else 3 when one
belongs to exactly three, and 2 when none belongs to more than two.  It does return when
the bonds join atoms of the molecule and the fuel exceeds the number of atoms. -/
theorem ConstructLocalSSSR_ring_type (fuel ring_root : Nat) (mol : OBMol)
    (hroot : mol.IsInRing ring_root = .ok true)
    (ha : mol.atoms.length < 4294967296) (hr : mol.sssr.length < 4294967296) :
    (∀ code st, ConstructLocalSSSR fuel ring_root mol = .ok (code, st) →
        (∀ a, a ∈ st.ring_atoms ↔ RingReach mol ring_root a)
          ∧ (∀ a ∈ st.ring_atoms, st.ring_shares a = ringShare mol a)
          ∧ (code = 0 ↔ ∃ a ∈ st.ring_atoms, 4 ≤ ringShare mol a)
          ∧ ((∀ a ∈ st.ring_atoms, ringShare mol a < 4) →
              (∃ a ∈ st.ring_atoms, ringShare mol a = 3) → code = 3)
          ∧ ((∀ a ∈ st.ring_atoms, ringShare mol a ≤ 2) → code = 2))
      ∧ ((∀ b ∈ mol.bonds, mol.GetAtom b.beginAtom ≠ 0 ∧ mol.GetAtom b.endAtom ≠ 0) →
          mol.atoms.length + 1 ≤ fuel →
          ∃ code st, ConstructLocalSSSR fuel ring_root mol = .ok (code, st)) := by
  obtain ⟨x, hx, -⟩ := map_ok hroot
  have h0 : ring_root ≠ 0 := by
    rintro rfl
    cases hx
  have inv0 : SSSRInv mol ring_root [ring_root] (fun _ => false) ⟨[], fun _ => 0, [], 0, 0, 0⟩ :=
    { valid := fun a h => by cases h
      nodup := List.nodup_nil
      ring_vis := fun a h => by cases h
      vis := fun a h => by cases h
      stack_vis := fun a h => by cases h
      stack_nodup := List.nodup_singleton _
      stack_fresh := fun a _ h => by cases h
      stack_valid := fun a h => by
        rw [List.mem_singleton] at h
        subst h
        exact ⟨x, hx⟩
      reach := fun a h => by
        rcases h with h | h
        · cases h
        · rw [List.mem_singleton] at h
          subst h
          exact Relation.ReflTransGen.refl
      closed := fun a h => by cases h
      shares := fun a h => by cases h
      branching := rfl
      multicyclic := rfl
      start := Or.inr (List.mem_singleton_self _) }
  constructor
  · intro code st h
    unfold ConstructLocalSSSR at h
    simp only [h0, if_false, pure, Except.pure] at h
    obtain ⟨res, hloop, h⟩ := bind_ok h
    obtain ⟨visited2, inv⟩ := ConstructLocalSSSR_loop_inv mol ring_root ha hr fuel _ _ _ res
      inv0 hloop
    have hroot_in : ring_root ∈ res.ring_atoms := by
      rcases inv.start with h | h
      · exact h
      · cases h
    have hreach : ∀ a, a ∈ res.ring_atoms ↔ RingReach mol ring_root a := by
      intro a
      constructor
      · exact fun h => inv.reach a (Or.inl h)
      · intro h
        induction h with
        | refl => exact hroot_in
        | tail _ hstep ih =>
          rcases inv.closed _ ih _ hstep.1 hstep.2 with h | h
          · exact h
          · cases h
    have hbr : res.branching ≠ 0 ↔ ∃ a ∈ res.ring_atoms, 4 ≤ ringShare mol a := by
      rw [inv.branching, Ne, List.length_eq_zero, List.filter_eq_nil_iff]
      simp only [decide_eq_true_eq, not_forall, not_not, exists_prop]
      constructor
      · rintro ⟨a, h1, h2⟩; exact ⟨a, h1, h2⟩
      · rintro ⟨a, h1, h2⟩; exact ⟨a, h1, h2⟩
    have hmu : res.multicyclic ≠ 0 ↔ ∃ a ∈ res.ring_atoms, ringShare mol a = 3 := by
      rw [inv.multicyclic, Ne, List.length_eq_zero, List.filter_eq_nil_iff]
      simp only [decide_eq_true_eq, not_forall, not_not, exists_prop]
    by_cases hb : res.branching ≠ 0
    · rw [if_pos hb] at h
      cases h
      refine ⟨hreach, inv.shares, ⟨fun _ => hbr.1 hb, fun _ => rfl⟩, ?_, ?_⟩
      · intro hlt
        obtain ⟨a, h1, h2⟩ := hbr.1 hb
        have := hlt a h1
        omega
      · intro hle
        obtain ⟨a, h1, h2⟩ := hbr.1 hb
        have := hle a h1
        omega
    · rw [if_neg hb] at h
      by_cases hm : res.multicyclic ≠ 0
      · rw [if_pos hm] at h
        cases h
        refine ⟨hreach, inv.shares, ⟨fun h => (by omega), fun h => absurd (hbr.2 h) hb⟩,
          fun _ _ => rfl, ?_⟩
        intro hle
        obtain ⟨a, h1, h2⟩ := hmu.1 hm
        have := hle a h1
        omega
      · rw [if_neg hm] at h
        cases h
        refine ⟨hreach, inv.shares, ⟨fun h => (by omega), fun h => absurd (hbr.2 h) hb⟩,
          fun _ h => absurd (hmu.2 h) hm, fun _ => rfl⟩
  · intro hb hf
    obtain ⟨res, hres⟩ := ConstructLocalSSSR_loop_returns mol ring_root ha hr
      (nbors_valid mol hb) fuel _ _ _ inv0 (by simpa using hf)
    unfold ConstructLocalSSSR
    simp only [h0, if_false, hres, bind, Except.bind, pure, Except.pure]
    split_ifs
    · exact ⟨_, _, rfl⟩
    · exact ⟨_, _, rfl⟩
    · exact ⟨_, _, rfl⟩

/-- Witness of `ConstructLocalSSSR_ring_type` on naphthalene, where the two fusion atoms
belong to two rings and the code is 2. -/
theorem ConstructLocalSSSR_ring_type_witness :
    naphthalene.IsInRing 1 = .ok true ∧ naphthalene.atoms.length < 4294967296
      ∧ naphthalene.sssr.length < 4294967296
      ∧ (ConstructLocalSSSR 64 1 naphthalene).map Prod.fst = .ok 2
      ∧ (∀ code st, ConstructLocalSSSR 64 1 naphthalene = .ok (code, st) →
          (∀ a, a ∈ st.ring_atoms ↔ RingReach naphthalene 1 a)
            ∧ (∀ a ∈ st.ring_atoms, st.ring_shares a = ringShare naphthalene a)
            ∧ (code = 0 ↔ ∃ a ∈ st.ring_atoms, 4 ≤ ringShare naphthalene a)
            ∧ ((∀ a ∈ st.ring_atoms, ringShare naphthalene a < 4) →
                (∃ a ∈ st.ring_atoms, ringShare naphthalene a = 3) → code = 3)
            ∧ ((∀ a ∈ st.ring_atoms, ringShare naphthalene a ≤ 2) → code = 2))
      ∧ ((∀ b ∈ naphthalene.bonds,
            naphthalene.GetAtom b.beginAtom ≠ 0 ∧ naphthalene.GetAtom b.endAtom ≠ 0) →
          naphthalene.atoms.length + 1 ≤ 64 →
          ∃ code st, ConstructLocalSSSR 64 1 naphthalene = .ok (code, st)) :=
  ⟨by decide, by decide, by decide, by decide!,
   ConstructLocalSSSR_ring_type 64 1 naphthalene (by decide) (by decide) (by decide)⟩

/-! ### The choice among the candidate ring notations -/

/-- The fold of `highest_unbroken_numerical_chain` from the state `(h, c)`: the result is
the largest of `h`, of the current run carried on into the list, and of the runs of the
list. -/
theorem chain_fold (l : List Char) : ∀ h c : Nat,
    (let r := l.foldl
        (fun (acc : Nat × Nat) ch =>
          if isDigitCh ch then (acc.1, acc.2 + 1)
          else ((if acc.2 > acc.1 then acc.2 else acc.1), 0))
        (h, c)
     if r.2 > r.1 then r.2 else r.1)
      = max h (max (c + (l.takeWhile isDigitCh).length)
          ((l.tails.map (fun t => (t.takeWhile isDigitCh).length)).foldr max 0)) := by
  induction l with
  | nil =>
    intro h c
    simp only [List.foldl_nil, List.takeWhile_nil, List.length_nil, List.tails, List.map_cons,
      List.map_nil, List.foldr_cons, List.foldr_nil]
    split_ifs <;> omega
  | cons d l ih =>
    intro h c
    simp only [List.foldl_cons, List.tails, List.map_cons, List.foldr_cons]
    by_cases hd : isDigitCh d = true
    · simp only [hd, if_true, List.takeWhile_cons_of_pos, List.length_cons]
      have := ih h (c + 1)
      simp only at this
      rw [this]
      omega
    · have hd' : isDigitCh d = false := by simpa using hd
      simp only [hd', Bool.false_eq_true, if_false, List.takeWhile_cons_of_neg,
        not_false_eq_true, List.length_nil]
      have := ih (if c > h then c else h) 0
      simp only at this
      rw [this]
      have hle : (l.takeWhile isDigitCh).length
          ≤ (l.tails.map (fun t => (t.takeWhile isDigitCh).length)).foldr max 0 := by
        cases l with
        | nil => simp
        | cons e l => simp [List.tails]
      split_ifs <;> omega

/-- Function `highest_unbroken_numerical_chain` computes the longest unbroken run of digit
characters. -/
theorem highest_unbroken_numerical_chain_eq (str : String) :
    highest_unbroken_numerical_chain str = longestDigitRun str := by
  have h := chain_fold str.toList 0 0
  simp only [Nat.zero_add] at h
  unfold highest_unbroken_numerical_chain longestDigitRun
  rw [h]
  have hle : (str.toList.takeWhile isDigitCh).length
      ≤ (str.toList.tails.map (fun t => (t.takeWhile isDigitCh).length)).foldr max 0 := by
    cases str.toList with
    | nil => simp
    | cons e l => simp [List.tails]
  omega

/-- A list of characters that holds a digit has a digit run of length at least 1. -/
theorem digit_run_pos (l : List Char) (h : l.any isDigitCh = true) :
    0 < (l.tails.map (fun t => (t.takeWhile isDigitCh).length)).foldr max 0 := by
  induction l with
  | nil => simp at h
  | cons d l ih =>
    simp only [List.tails, List.map_cons, List.foldr_cons]
    by_cases hd : isDigitCh d = true
    · simp only [List.takeWhile_cons_of_pos hd, List.length_cons]
      omega
    · have hl : l.any isDigitCh = true := by
        simp only [List.any_cons, Bool.or_eq_true] at h
        rcases h with h | h
        · exact absurd h hd
        · exact h
      have := ih hl
      omega

/-- A string that contains a digit has a digit run of length at least 1. -/
theorem longestDigitRun_pos (str : String) (h : hasDigit str = true) :
    0 < longestDigitRun str :=
  digit_run_pos str.toList h

/-- The first character of a list that is neither a space nor a digit is the character
behind its leading spaces and digits. -/
theorem find_behind_sizes : ∀ l : List Char,
    l.find? (fun c => c ≠ ' ' && !isDigitCh c)
      = l.get? (l.takeWhile (fun c => c = ' ' || isDigitCh c)).length
  | [] => rfl
  | d :: l => by
    have ih := find_behind_sizes l
    by_cases h1 : d = ' '
    · simpa [List.find?, List.takeWhile, h1] using ih
    · by_cases h2 : isDigitCh d = true
      · simpa [List.find?, List.takeWhile, h1, h2] using ih
      · simp [List.find?, List.takeWhile, h1, h2]

/-- Function `first_locant_seen` computes the first locant, and 0 when there is none. -/
theorem first_locant_seen_eq (str : String) : first_locant_seen str = firstLocant str := by
  unfold first_locant_seen firstLocant
  rw [List.drop_one, find_behind_sizes]

/-- The candidate appended at the end is the first best one when it beats the best key so
far: a longer run, or the same run with a smaller first locant. -/
theorem IsFirstBest.snoc_new (pre : List String) (str : String)
    (hpos : 0 < longestDigitRun str)
    (hbeat : ∀ s ∈ pre, longestDigitRun s < longestDigitRun str
      ∨ (longestDigitRun s = longestDigitRun str ∧ firstLocant str < firstLocant s)) :
    IsFirstBest (pre ++ [str]) pre.length := by
  refine ⟨str, by simp, hpos, ⟨?_, ?_⟩, ?_⟩
  · intro s hs
    rcases List.mem_append.1 hs with hs | hs
    · rcases hbeat s hs with h | h <;> omega
    · simp at hs; subst hs; exact le_refl _
  · intro s hs hrun
    rcases List.mem_append.1 hs with hs | hs
    · rcases hbeat s hs with h | h <;> omega
    · simp at hs; subst hs; exact le_refl _
  · intro j s hj hrun hloc
    by_contra hlt
    have hlt : j < pre.length := by omega
    rw [List.get?_eq_getElem?, List.getElem?_append_left hlt] at hj
    have hs : s ∈ pre := List.getElem?_mem hj
    rcases hbeat s hs with h | h <;> omega

/-- The candidate at the index of the first best one has the properties that make it so. -/
theorem IsFirstBest.of_get {l : List String} {r : Nat} {b : String} (h : IsFirstBest l r)
    (hb : l.get? r = some b) :
    0 < longestDigitRun b ∧ HasBestKey l b
      ∧ ∀ j s, l.get? j = some s → longestDigitRun s = longestDigitRun b →
          firstLocant s = firstLocant b → r ≤ j := by
  obtain ⟨b', hb', h⟩ := h
  rw [hb] at hb'
  cases hb'
  exact h

/-- The first best candidate stays the first best one when the candidate appended at the
end does not beat its key. -/
theorem IsFirstBest.snoc_keep (pre : List String) (str : String) (r : Nat) (b : String)
    (hb : pre.get? r = some b) (h : IsFirstBest pre r)
    (hrun : longestDigitRun str ≤ longestDigitRun b)
    (hloc : longestDigitRun str = longestDigitRun b →
      firstLocant b ≤ firstLocant str) :
    IsFirstBest (pre ++ [str]) r := by
  obtain ⟨b', hb', hpos, ⟨hmax, hmin⟩, hfirst⟩ := h
  rw [hb] at hb'
  cases hb'
  have hr : r < pre.length := by
    rw [List.get?_eq_getElem?] at hb
    exact (List.getElem?_eq_some_iff.1 hb).1
  refine ⟨b, ?_, hpos, ⟨?_, ?_⟩, ?_⟩
  · rw [List.get?_eq_getElem?, List.getElem?_append_left hr, ← List.get?_eq_getElem?, hb]
  · intro s hs
    rcases List.mem_append.1 hs with hs | hs
    · exact hmax s hs
    · simp at hs; subst hs; exact hrun
  · intro s hs he
    rcases List.mem_append.1 hs with hs | hs
    · exact hmin s hs he
    · simp at hs; subst hs; exact hloc he
  · intro j s hj he hl
    by_cases hlt : j < pre.length
    · rw [List.get?_eq_getElem?, List.getElem?_append_left hlt, ← List.get?_eq_getElem?] at hj
      exact hfirst j s hj he hl
    · omega

/-- Invariant of the loop of `MinimalWLNRingNotation`: either no candidate so far has a
digit and the state is the initial one, or the state holds the key and the index of the
first best candidate so far. -/
theorem minimalLoop_inv : ∀ (rest pre : List String) (hc ll ri : Nat),
    ((hc = 0 ∧ ll = 0 ∧ ri = 0 ∧ ∀ s ∈ pre, longestDigitRun s = 0)
      ∨ ∃ b, pre.get? ri = some b ∧ longestDigitRun b = hc ∧ firstLocant b = ll
          ∧ IsFirstBest pre ri) →
    (minimalLoop rest pre.length (hc, ll, ri) = 0 ∧ ∀ s ∈ pre ++ rest, longestDigitRun s = 0)
      ∨ IsFirstBest (pre ++ rest) (minimalLoop rest pre.length (hc, ll, ri)) := by
  intro rest
  induction rest with
  | nil =>
    intro pre hc ll ri h
    simp only [minimalLoop, List.append_nil]
    rcases h with ⟨-, -, h3, h4⟩ | ⟨b, -, -, -, h⟩
    · exact Or.inl ⟨h3, h4⟩
    · exact Or.inr h
  | cons str rest ih =>
    intro pre hc ll ri h
    have hlen : (pre ++ [str]).length = pre.length + 1 := by simp
    have happ : pre ++ str :: rest = (pre ++ [str]) ++ rest := by simp
    rw [happ]
    simp only [minimalLoop, highest_unbroken_numerical_chain_eq, first_locant_seen_eq]
    rw [← hlen]
    by_cases h1 : longestDigitRun str > hc
    · rw [if_pos h1]
      apply ih
      right
      refine ⟨str, by simp, rfl, rfl, ?_⟩
      apply IsFirstBest.snoc_new
      · omega
      · intro s hs
        rcases h with ⟨h0, -, -, h4⟩ | ⟨b, hb, hbc, -, hbest⟩
        · left; rw [h4 s hs]; omega
        · obtain ⟨-, ⟨hmax, -⟩, -⟩ := hbest.of_get hb
          left; have := hmax s hs; omega
    · rw [if_neg h1]
      by_cases h2 : longestDigitRun str = hc ∧ ll > firstLocant str
      · rw [if_pos h2]
        apply ih
        right
        refine ⟨str, by simp, h2.1, rfl, ?_⟩
        rcases h with ⟨-, h0, -, -⟩ | ⟨b, hb, hbc, hbl, hbest⟩
        · omega
        · obtain ⟨hpos, ⟨hmax, hmin⟩, -⟩ := hbest.of_get hb
          apply IsFirstBest.snoc_new
          · omega
          · intro s hs
            have hle := hmax s hs
            by_cases he : longestDigitRun s = longestDigitRun b
            · right
              have := hmin s hs he
              exact ⟨by omega, by omega⟩
            · left; omega
      · rw [if_neg h2]
        apply ih
        rcases h with ⟨h0, hl0, hr0, h4⟩ | ⟨b, hb, hbc, hbl, hbest⟩
        · left
          refine ⟨h0, hl0, hr0, ?_⟩
          intro s hs
          rcases List.mem_append.1 hs with hs | hs
          · exact h4 s hs
          · simp at hs; subst hs; omega
        · right
          have hr : ri < pre.length := by
            rw [List.get?_eq_getElem?] at hb
            exact (List.getElem?_eq_some_iff.1 hb).1
          refine ⟨b, ?_, hbc, hbl, ?_⟩
          · rw [List.get?_eq_getElem?, List.getElem?_append_left hr, ← List.get?_eq_getElem?, hb]
          · apply IsFirstBest.snoc_keep pre str ri b hb hbest
            · omega
            · intro he
              by_contra hlt
              exact h2 ⟨by omega, by omega⟩

/-- What `MinimalWLNRingNotation` returns: index 0 when no candidate has a digit, and
otherwise the index of the first candidate with the best key. -/
theorem MinimalWLNRingNotation_spec (ring_strings : List String) :
    (MinimalWLNRingNotation ring_strings = 0 ∧ ∀ s ∈ ring_strings, longestDigitRun s = 0)
      ∨ IsFirstBest ring_strings (MinimalWLNRingNotation ring_strings) := by
  have := minimalLoop_inv ring_strings [] 0 0 0 (Or.inl ⟨rfl, rfl, rfl, by simp⟩)
  simpa [MinimalWLNRingNotation] using this

/-- On a list of candidates one of which has a digit, `MinimalWLNRingNotation` returns the
index of the first candidate with the best key. -/
theorem MinimalWLNRingNotation_first_best (ring_strings : List String)
    (h : ∃ s ∈ ring_strings, hasDigit s = true) :
    IsFirstBest ring_strings (MinimalWLNRingNotation ring_strings) := by
  rcases MinimalWLNRingNotation_spec ring_strings with ⟨-, h0⟩ | hb
  · obtain ⟨s, hs, hd⟩ := h
    have := longestDigitRun_pos s hd
    have := h0 s hs
    omega
  · exact hb

/-- The digits that `Nat.toDigitsCore` writes end with the digit of the units, in front
of what was there. -/
theorem toDigitsCore_last (fuel : Nat) : ∀ (n : Nat) (ds : List Char), 0 < fuel →
    ∃ pre, Nat.toDigitsCore 10 fuel n ds = pre ++ Nat.digitChar (n % 10) :: ds := by
  induction fuel with
  | zero => intro n ds h; omega
  | succ fuel ih =>
    intro n ds _
    unfold Nat.toDigitsCore
    by_cases h0 : n / 10 = 0
    · exact ⟨[], by simp [h0]⟩
    · simp only [h0, if_false]
      cases fuel with
      | zero => exact ⟨[], by simp [Nat.toDigitsCore]⟩
      | succ f =>
        obtain ⟨pre, hpre⟩ := ih (n / 10) (Nat.digitChar (n % 10) :: ds) (by omega)
        exact ⟨pre ++ [Nat.digitChar (n / 10 % 10)], by rw [hpre]; simp⟩

/-- The decimal numeral of a number contains a digit. -/
theorem hasDigit_toString (pre : String) (n : Nat) : hasDigit (pre ++ toString n) = true := by
  obtain ⟨p, hp⟩ := toDigitsCore_last (n + 1) n [] (by omega)
  have hd : isDigitCh (Nat.digitChar (n % 10)) = true := by
    have : n % 10 < 10 := Nat.mod_lt _ (by decide)
    interval_cases (n % 10) <;> decide
  have : (toString n).data = p ++ [Nat.digitChar (n % 10)] := by
    show (Nat.repr n).data = _
    simp only [Nat.repr, Nat.toDigits, hp, List.asString]
  show ((pre ++ toString n).data).any isDigitCh = true
  simp only [String.data_append, this, List.any_append, List.any_cons, hd,
    Bool.true_or, Bool.or_true]

/-- A ring string that `ReadLocantPath` returns is empty or contains a digit: it ends
with the size of the last ring. -/
theorem ReadLocantPath_digit (mol : OBMol) (locant_path : List Nat) (path_size : Nat)
    (ring_shares : Nat → Nat) (nt_pairs : List (Nat × Nat)) (nt_sizes : List Nat)
    (expected_rings : Nat) (r : String × List (Nat × Nat) × List Nat)
    (h : ReadLocantPath mol locant_path path_size ring_shares nt_pairs nt_sizes expected_rings
      = .ok r) :
    r.1 = "" ∨ hasDigit r.1 = true := by
  unfold ReadLocantPath at h
  obtain ⟨b, -, h⟩ := bind_ok h
  obtain ⟨st, -, h⟩ := bind_ok h
  cases hp : st.nt_pairs with
  | nil => rw [hp] at h; cases h
  | cons p rest =>
    obtain ⟨first, second⟩ := p
    rw [hp] at h
    simp only at h
    obtain ⟨head, -, h⟩ := bind_ok h
    obtain ⟨last, -, h⟩ := bind_ok h
    by_cases hc : first = head ∧ second = last
    · rw [if_pos hc] at h
      obtain ⟨size, -, h⟩ := bind_ok h
      cases h
      exact Or.inr (hasDigit_toString _ _)
    · rw [if_neg hc] at h
      cases h
      exact Or.inl rfl

/-- Every ring string that the loop over the seeds collects contains a digit. -/
theorem seedLoop_digits (fuel : Nat) (mol : OBMol) (sssr : LocalSSSR)
    (path_size expected_rings : Nat) :
    ∀ (seeds : List Nat) (st st2 : SeedState),
      (∀ s ∈ st.cyclic_strings, hasDigit s = true) →
      seedLoop fuel mol sssr path_size expected_rings seeds st = .ok (some st2) →
      ∀ s ∈ st2.cyclic_strings, hasDigit s = true := by
  intro seeds
  induction seeds with
  | nil =>
    intro st st2 hst h
    simp only [seedLoop, Except.ok.injEq, Option.some.injEq] at h
    subst h
    exact hst
  | cons seed rest ih =>
    intro st st2 hst h
    unfold seedLoop at h
    obtain ⟨ps, -, h⟩ := bind_ok h
    cases ps with
    | none => cases h
    | some ps =>
      simp only at h
      obtain ⟨⟨cyclic_str, nt_pairs, nt_sizes⟩, hr, h⟩ := bind_ok h
      simp only at h
      by_cases he : cyclic_str = ""
      · rw [if_pos he] at h; cases h
      · rw [if_neg he] at h
        refine ih _ st2 ?_ h
        intro s hs
        rcases List.mem_append.1 hs with hs | hs
        · exact hst s hs
        · rw [List.mem_singleton] at hs
          subst hs
          rcases ReadLocantPath_digit _ _ _ _ _ _ _ _ hr with h | h
          · exact absurd h he
          · exact h

/-- The candidates that `ParseCyclic` hands to `MinimalWLNRingNotation` each contain a
digit. -/
theorem candidateStrings_digits (fuel ring_root : Nat) (mol : OBMol) (l : List String)
    (h : candidateStrings fuel ring_root mol = .ok (some l)) :
    ∀ s ∈ l, hasDigit s = true := by
  unfold candidateStrings at h
  obtain ⟨⟨ring_type, sssr⟩, -, h⟩ := bind_ok h
  obtain ⟨st, hs, h⟩ := bind_ok h
  cases st with
  | none => cases h
  | some st =>
    cases h
    exact seedLoop_digits fuel mol sssr _ _ _ _ st (by intro s hs; cases hs) hs

/-- Claim C24: on a non-empty list of candidates that each contain a digit, the index that
`MinimalWLNRingNotation` returns holds a candidate whose longest unbroken run of digits is
maximal over the list and whose first locant (0 when there is none) is smallest among the
candidates with that run; the run is what `highest_unbroken_numerical_chain` computes and
the first locant what `first_locant_seen` computes. -/
theorem MinimalWLNRingNotation_best (ring_strings : List String) (hne : ring_strings ≠ [])
    (hdig : ∀ s ∈ ring_strings, hasDigit s = true) :
    (∃ best, ring_strings.get? (MinimalWLNRingNotation ring_strings) = some best
      ∧ (∀ s ∈ ring_strings, longestDigitRun s ≤ longestDigitRun best)
      ∧ ∀ s ∈ ring_strings, longestDigitRun s = longestDigitRun best →
          firstLocant best ≤ firstLocant s)
      ∧ (∀ s, highest_unbroken_numerical_chain s = longestDigitRun s)
      ∧ ∀ s, first_locant_seen s = firstLocant s := by
  obtain ⟨s0, hs0⟩ := List.exists_mem_of_ne_nil ring_strings hne
  obtain ⟨b, hb, -, ⟨hmax, hmin⟩, -⟩ :=
    MinimalWLNRingNotation_first_best ring_strings ⟨s0, hs0, hdig s0 hs0⟩
  exact ⟨⟨b, hb, hmax, hmin⟩, highest_unbroken_numerical_chain_eq, first_locant_seen_eq⟩

/-- Witness of `MinimalWLNRingNotation_best` on the four candidates of phenanthrene: their
digit runs are 2, 3, 3, 2 and their first locants `I`, `D`, `B`, `I`, and the third is
selected. -/
theorem MinimalWLNRingNotation_best_witness :
    ["L6 I66", "L D666", "L B666", "L6 I66"] ≠ []
      ∧ (∀ s ∈ ["L6 I66", "L D666", "L B666", "L6 I66"], hasDigit s = true)
      ∧ ["L6 I66", "L D666", "L B666", "L6 I66"].map longestDigitRun = [2, 3, 3, 2]
      ∧ ["L6 I66", "L D666", "L B666", "L6 I66"].map firstLocant = [73, 68, 66, 73]
      ∧ MinimalWLNRingNotation ["L6 I66", "L D666", "L B666", "L6 I66"] = 2
      ∧ (∃ best, ["L6 I66", "L D666", "L B666", "L6 I66"].get?
            (MinimalWLNRingNotation ["L6 I66", "L D666", "L B666", "L6 I66"]) = some best
          ∧ (∀ s ∈ ["L6 I66", "L D666", "L B666", "L6 I66"],
              longestDigitRun s ≤ longestDigitRun best)
          ∧ ∀ s ∈ ["L6 I66", "L D666", "L B666", "L6 I66"],
              longestDigitRun s = longestDigitRun best →
                firstLocant best ≤ firstLocant s)
      ∧ (∀ s, highest_unbroken_numerical_chain s = longestDigitRun s)
      ∧ ∀ s, first_locant_seen s = firstLocant s :=
  ⟨by decide, by decide, by decide, by decide, by decide,
   MinimalWLNRingNotation_best ["L6 I66", "L D666", "L B666", "L6 I66"] (by decide) (by decide)⟩

/-- Claim C25: on a non-empty list of candidates that each contain a digit, the index that
`MinimalWLNRingNotation` returns holds a candidate with the best key, and it is the
smallest index of the candidates with the best key: of several that share it the earliest
is kept. -/
theorem MinimalWLNRingNotation_earliest (ring_strings : List String) (hne : ring_strings ≠ [])
    (hdig : ∀ s ∈ ring_strings, hasDigit s = true) :
    ∃ best, ring_strings.get? (MinimalWLNRingNotation ring_strings) = some best
      ∧ HasBestKey ring_strings best
      ∧ ∀ j s, ring_strings.get? j = some s → HasBestKey ring_strings s →
          MinimalWLNRingNotation ring_strings ≤ j := by
  obtain ⟨s0, hs0⟩ := List.exists_mem_of_ne_nil ring_strings hne
  obtain ⟨b, hb, -, ⟨hmax, hmin⟩, hfirst⟩ :=
    MinimalWLNRingNotation_first_best ring_strings ⟨s0, hs0, hdig s0 hs0⟩
  refine ⟨b, hb, ⟨hmax, hmin⟩, ?_⟩
  intro j s hj ⟨smax, smin⟩
  have hs : s ∈ ring_strings := by
    rw [List.get?_eq_getElem?] at hj
    exact List.getElem?_mem hj
  have hbm : b ∈ ring_strings := by
    rw [List.get?_eq_getElem?] at hb
    exact List.getElem?_mem hb
  have hrun : longestDigitRun s = longestDigitRun b :=
    le_antisymm (hmax s hs) (smax b hbm)
  have hloc : firstLocant s = firstLocant b :=
    le_antisymm (smin b hbm hrun.symm) (hmin s hs hrun)
  exact hfirst j s hj hrun hloc

/-- Witness of `MinimalWLNRingNotation_earliest` on the four candidates of anthracene, of
which the second and the third share the best key. -/
theorem MinimalWLNRingNotation_earliest_witness :
    ["L6 H66", "L C666", "L C666", "L6 H66"] ≠ []
      ∧ (∀ s ∈ ["L6 H66", "L C666", "L C666", "L6 H66"], hasDigit s = true)
      ∧ MinimalWLNRingNotation ["L6 H66", "L C666", "L C666", "L6 H66"] = 1
      ∧ ∃ best, ["L6 H66", "L C666", "L C666", "L6 H66"].get?
            (MinimalWLNRingNotation ["L6 H66", "L C666", "L C666", "L6 H66"]) = some best
          ∧ HasBestKey ["L6 H66", "L C666", "L C666", "L6 H66"] best
          ∧ ∀ j s, ["L6 H66", "L C666", "L C666", "L6 H66"].get? j = some s →
              HasBestKey ["L6 H66", "L C666", "L C666", "L6 H66"] s →
              MinimalWLNRingNotation ["L6 H66", "L C666", "L C666", "L6 H66"] ≤ j :=
  ⟨by decide, by decide, by decide,
   MinimalWLNRingNotation_earliest ["L6 H66", "L C666", "L C666", "L6 H66"] (by decide)
     (by decide)⟩

/-- Claim C26 refuted as stated: the two seeds of indane produce the candidates `L65` and
`L56`, which have the same key; listed in this order (six-membered ring first in the SSSR)
the ring is written `L65J`, listed in the other order `L56J`.  So the selected string is
not the same for every permutation of a list of candidates. -/
theorem ring_choice_depends_on_order :
    candidateStrings 64 1 indane = .ok (some ["L65", "L56"])
      ∧ candidateStrings 64 1 indaneFiveFirst = .ok (some ["L56", "L65"])
      ∧ cyclicResult (ParseCyclic 64 1 indane WLNGraph.new "")
          = .ok ((some [5, 1, 2, 3, 4, 6, 7, 8, 9], 9), "L65J")
      ∧ cyclicResult (ParseCyclic 64 1 indaneFiveFirst WLNGraph.new "")
          = .ok ((some [5, 7, 8, 9, 6, 1, 2, 3, 4], 9), "L56J")
      ∧ ¬ ∀ l₁ l₂ : List String, l₁.Perm l₂ →
          l₁.get? (MinimalWLNRingNotation l₁) = l₂.get? (MinimalWLNRingNotation l₂) := by
  refine ⟨by decide!, by decide!, by decide!, by decide!, ?_⟩
  intro h
  have := h ["L65", "L56"] ["L56", "L65"] (List.Perm.swap _ _ _)
  revert this
  decide

/-- Claim C26, amended: on a non-empty list of candidates that each contain a digit, the
key of the selected candidate does not depend on the order of the list: for every
permutation the selected strings have the same longest digit run and the same first
locant, and they are the same string when no other candidate string has that key. -/
theorem MinimalWLNRingNotation_perm (l₁ l₂ : List String) (hp : l₁.Perm l₂) (hne : l₁ ≠ [])
    (hdig : ∀ s ∈ l₁, hasDigit s = true) :
    ∃ b₁ b₂, l₁.get? (MinimalWLNRingNotation l₁) = some b₁
      ∧ l₂.get? (MinimalWLNRingNotation l₂) = some b₂
      ∧ longestDigitRun b₁ = longestDigitRun b₂
      ∧ firstLocant b₁ = firstLocant b₂
      ∧ ((∀ s ∈ l₁, longestDigitRun s = longestDigitRun b₁ →
            firstLocant s = firstLocant b₁ → s = b₁) → b₁ = b₂) := by
  obtain ⟨s0, hs0⟩ := List.exists_mem_of_ne_nil l₁ hne
  obtain ⟨b₁, hb₁, -, ⟨hmax₁, hmin₁⟩, -⟩ :=
    MinimalWLNRingNotation_first_best l₁ ⟨s0, hs0, hdig s0 hs0⟩
  obtain ⟨b₂, hb₂, -, ⟨hmax₂, hmin₂⟩, -⟩ :=
    MinimalWLNRingNotation_first_best l₂ ⟨s0, hp.mem_iff.1 hs0, hdig s0 hs0⟩
  have hm₁ : b₁ ∈ l₁ := by
    rw [List.get?_eq_getElem?] at hb₁
    exact List.getElem?_mem hb₁
  have hm₂ : b₂ ∈ l₂ := by
    rw [List.get?_eq_getElem?] at hb₂
    exact List.getElem?_mem hb₂
  have hrun : longestDigitRun b₁ = longestDigitRun b₂ :=
    le_antisymm (hmax₂ b₁ (hp.mem_iff.1 hm₁)) (hmax₁ b₂ (hp.mem_iff.2 hm₂))
  have hloc : firstLocant b₁ = firstLocant b₂ :=
    le_antisymm (hmin₁ b₂ (hp.mem_iff.2 hm₂) hrun.symm) (hmin₂ b₁ (hp.mem_iff.1 hm₁) hrun)
  exact ⟨b₁, b₂, hb₁, hb₂, hrun, hloc,
    fun huniq => (huniq b₂ (hp.mem_iff.2 hm₂) hrun.symm hloc.symm).symm⟩

/-- Witness of `MinimalWLNRingNotation_perm` on the candidates of phenanthrene and the same
candidates with the second and the third exchanged. -/
theorem MinimalWLNRingNotation_perm_witness :
    ["L6 I66", "L D666", "L B666", "L6 I66"].Perm ["L6 I66", "L B666", "L D666", "L6 I66"]
      ∧ ["L6 I66", "L D666", "L B666", "L6 I66"] ≠ []
      ∧ (∀ s ∈ ["L6 I66", "L D666", "L B666", "L6 I66"], hasDigit s = true)
      ∧ ∃ b₁ b₂, ["L6 I66", "L D666", "L B666", "L6 I66"].get?
            (MinimalWLNRingNotation ["L6 I66", "L D666", "L B666", "L6 I66"]) = some b₁
          ∧ ["L6 I66", "L B666", "L D666", "L6 I66"].get?
            (MinimalWLNRingNotation ["L6 I66", "L B666", "L D666", "L6 I66"]) = some b₂
          ∧ longestDigitRun b₁ = longestDigitRun b₂
          ∧ firstLocant b₁ = firstLocant b₂
          ∧ ((∀ s ∈ ["L6 I66", "L D666", "L B666", "L6 I66"],
                longestDigitRun s = longestDigitRun b₁ →
                firstLocant s = firstLocant b₁ → s = b₁) → b₁ = b₂) :=
  ⟨by decide, by decide, by decide,
   MinimalWLNRingNotation_perm ["L6 I66", "L D666", "L B666", "L6 I66"]
     ["L6 I66", "L B666", "L D666", "L6 I66"] (by decide) (by decide) (by decide)⟩

/-! ### Heteroatoms of a ring system -/

/-- From a position `i ≥ 1` on, with `last_hetero_index` below `i` and equal to `i - 1`
exactly when the position before holds a non-carbon atom, `ReadHeteroAtoms` follows the
rule of the statement. -/
theorem ReadHeteroAtoms_from (mol : OBMol) :
    ∀ (path : List Nat) (i last : Nat) (prev : Bool) (buffer : String) (graph : WLNGraph),
      1 ≤ i → last < i → (last = i - 1 ↔ prev = true) →
      ReadHeteroAtoms mol path i last buffer graph
        = ReadHeteroAtomsAsStated mol path i prev buffer graph := by
  intro path
  induction path with
  | nil => intro i last prev buffer graph _ _ _; rfl
  | cons a rest ih =>
    intro i last prev buffer graph h1 h2 h3
    unfold ReadHeteroAtoms ReadHeteroAtomsAsStated
    have hc : (i > 0 ∧ last ≠ i - 1) ↔ (i > 0 ∧ prev = false) := by
      constructor
      · rintro ⟨h, hne⟩
        refine ⟨h, ?_⟩
        cases prev with
        | false => rfl
        | true => exact absurd (h3.2 rfl) hne
      · rintro ⟨h, hp⟩
        refine ⟨h, fun he => ?_⟩
        rw [h3.1 he] at hp
        cases hp
    have e1 : ∀ b g, ReadHeteroAtoms mol rest (i + 1) i b g
        = ReadHeteroAtomsAsStated mol rest (i + 1) true b g :=
      fun b g => ih (i + 1) i true b g (by omega) (by omega) (by simp)
    have e2 : ∀ b g, ReadHeteroAtoms mol rest (i + 1) last b g
        = ReadHeteroAtomsAsStated mol rest (i + 1) false b g :=
      fun b g => ih (i + 1) last false b g (by omega) (by omega) (by simp; omega)
    simp only [e1, e2, hc]

/-- Function `ReadHeteroAtoms` follows the rule of the statement on every locant path
that does not start with a carbon followed by a non-carbon atom. -/
theorem ReadHeteroAtoms_as_stated (mol : OBMol) (path : List Nat) (buffer : String)
    (graph : WLNGraph)
    (h : ∀ a0 a1 rest, path = a0 :: a1 :: rest → mol.GetAtomicNum a0 = .ok 6 →
      mol.GetAtomicNum a1 = .ok 6) :
    ReadHeteroAtoms mol path 0 0 buffer graph
      = ReadHeteroAtomsAsStated mol path 0 false buffer graph := by
  cases path with
  | nil => rfl
  | cons a0 rest =>
    unfold ReadHeteroAtoms ReadHeteroAtomsAsStated
    have e1 : ∀ b g, ReadHeteroAtoms mol rest (0 + 1) 0 b g
        = ReadHeteroAtomsAsStated mol rest (0 + 1) true b g :=
      fun b g => ReadHeteroAtoms_from mol rest 1 0 true b g (by omega) (by omega) (by simp)
    cases hz : mol.GetAtomicNum a0 with
    | error e => rfl
    | ok z =>
      by_cases h6 : z = 6
      · subst h6
        simp only [bind, Except.bind, ne_eq, not_true_eq_false, if_false]
        cases rest with
        | nil => rfl
        | cons a1 rest =>
          have h1 := h a0 a1 rest rfl hz
          unfold ReadHeteroAtoms ReadHeteroAtomsAsStated
          have e2 : ∀ b g, ReadHeteroAtoms mol rest (0 + 1 + 1) 0 b g
              = ReadHeteroAtomsAsStated mol rest (0 + 1 + 1) false b g :=
            fun b g => ReadHeteroAtoms_from mol rest 2 0 false b g (by omega) (by omega)
              (by simp)
          simp only [h1, bind, Except.bind, ne_eq, not_true_eq_false, if_false, e2]
      · simp only [bind, Except.bind, ne_eq, h6, not_false_eq_true, if_true, e1]
        simp

/-- Claim C27, failing input: in quinoline the locant path of the ring system is
4, 5, 6, ..., with the carbon 4 at position 0 and the nitrogen 5 at position 1.
`ReadHeteroAtoms` appends `N` without the locant ` B`, where the rule of the statement
gives ` BN`, and `ParseCyclic` writes `T66NJ`.  In isoquinoline, where the nitrogen is at
position 2, it appends ` CN`. -/
theorem hetero_locant_B_missing :
    heteroText quinoline [4, 5, 6, 7, 8, 9, 10, 1, 2, 3] = .ok "N"
      ∧ heteroTextAsStated quinoline [4, 5, 6, 7, 8, 9, 10, 1, 2, 3] = .ok " BN"
      ∧ (∀ fuel, cyclicResult (ParseCyclic (fuel + 64) 1 quinoline WLNGraph.new "")
          = .ok ((some [4, 5, 6, 7, 8, 9, 10, 1, 2, 3], 10), "T66NJ"))
      ∧ heteroText isoquinoline [4, 5, 6, 7, 8, 9, 10, 1, 2, 3] = .ok " CN"
      ∧ cyclicResult (ParseCyclic 64 1 isoquinoline WLNGraph.new "")
          = .ok ((some [4, 5, 6, 7, 8, 9, 10, 1, 2, 3], 10), "T66 CNJ") := by
  refine ⟨by decide!, by decide!, fun fuel => ?_, by decide!, by decide!⟩
  have h64 : cyclicResult (ParseCyclic 64 1 quinoline WLNGraph.new "")
      = .ok ((some [4, 5, 6, 7, 8, 9, 10, 1, 2, 3], 10), "T66NJ") := by decide!
  rcases ParseCyclic_mono 64 (fuel + 64) (by omega) 1 quinoline WLNGraph.new "" with h | h
  · rw [h] at h64; cases h64
  · rw [← h, h64]

/-! ### Dioxo groups -/

/-- The deque of `CheckDIOXO` after the loop over the edges `l`: the children of the
double-bonded oxygen edges, the last edge first, in front of what the deque held, and
behind it the children of the anionic oxygen edges in the order of the list. -/
theorem dioxoDeque_eq (mol : OBMol) (obabel : BabelGraph) (graph : WLNGraph) :
    ∀ (l : List Nat) (oxygens : List Nat),
      (∀ e ∈ l, (graph.SYMBOLS (graph.EDGES e).child).ch = 'O' →
        mol.GetAtom (obabel.symbol_atom_map (graph.EDGES e).child) ≠ 0) →
      dioxoDeque mol obabel graph l oxygens
        = .ok (((l.filter (isDoubleO graph)).reverse.map (fun e => (graph.EDGES e).child))
            ++ oxygens
            ++ (l.filter (isAnionicO mol obabel graph)).map (fun e => (graph.EDGES e).child)) := by
  intro l
  induction l with
  | nil => intro oxygens _; simp [dioxoDeque]
  | cons e l ih =>
    intro oxygens hq
    have hq' : ∀ e ∈ l, (graph.SYMBOLS (graph.EDGES e).child).ch = 'O' →
        mol.GetAtom (obabel.symbol_atom_map (graph.EDGES e).child) ≠ 0 :=
      fun x hx => hq x (List.mem_cons_of_mem _ hx)
    unfold dioxoDeque
    by_cases hd : (graph.SYMBOLS (graph.EDGES e).child).ch = 'O' ∧ (graph.EDGES e).order = 2
    · have hf : isDoubleO graph e = true := by simp [isDoubleO, hd.1, hd.2]
      have hg : isAnionicO mol obabel graph e = false := by simp [isAnionicO, hd.2]
      simp only [hd, and_self, if_true]
      rw [ih _ hq', List.filter_cons_of_pos hf, List.filter_cons_of_neg (by simp [hg])]
      simp
    · have hf : isDoubleO graph e = false := by
        simp only [isDoubleO, Bool.and_eq_false_imp, decide_eq_true_eq, decide_eq_false_iff_not]
        exact fun h1 h2 => hd ⟨h1, h2⟩
      simp only [hd, if_false]
      rw [List.filter_cons_of_neg (by simp [hf])]
      by_cases ho : (graph.SYMBOLS (graph.EDGES e).child).ch = 'O'
      · have h2 : (graph.EDGES e).order ≠ 2 := fun h => hd ⟨ho, h⟩
        obtain ⟨a, ha⟩ := atom_of_GetAtom mol _ (hq e (List.mem_cons_self _ _) ho)
        simp only [ho, if_true, OBMol.GetFormalCharge, ha, Except.map, bind, Except.bind]
        by_cases hq1 : a.formalCharge = -1
        · have hg : isAnionicO mol obabel graph e = true := by
            simp [isAnionicO, ho, h2, OBMol.GetFormalCharge, ha, Except.map, hq1]
          simp only [hq1, if_true]
          rw [ih _ hq', List.filter_cons_of_pos hg]
          simp
        · have hg : isAnionicO mol obabel graph e = false := by
            simp [isAnionicO, ho, h2, OBMol.GetFormalCharge, ha, Except.map, hq1]
          simp only [hq1, if_false]
          rw [ih _ hq', List.filter_cons_of_neg (by simp [hg])]
      · have hg : isAnionicO mol obabel graph e = false := by simp [isAnionicO, ho]
        simp only [ho, if_false]
        rw [ih _ hq', List.filter_cons_of_neg (by simp [hg])]

/-- When `CheckDIOXO` returns true: the edge list holds at least two edges that lead to a
double-bonded or to an anionic oxygen; nothing asks for a double bond among them. -/
theorem CheckDIOXO_flag (fuel : Nat) (mol : OBMol) (obabel : BabelGraph) (graph : WLNGraph)
    (sym : Nat) (visited : Nat → Bool) (l : List Nat)
    (hl : edgesFrom graph fuel (graph.SYMBOLS sym).bonds = .ok l)
    (hq : ∀ e ∈ l, (graph.SYMBOLS (graph.EDGES e).child).ch = 'O' →
      mol.GetAtom (obabel.symbol_atom_map (graph.EDGES e).child) ≠ 0) :
    (CheckDIOXO fuel mol obabel graph sym visited).map Prod.fst
      = .ok (decide (2 ≤ (l.filter (isDoubleO graph)).length
          + (l.filter (isAnionicO mol obabel graph)).length)) := by
  have hb := dioxoDeque_eq mol obabel graph l [] hq
  have hlen : ∀ o : List Nat, (match o with
      | o0 :: o1 :: _ => (pure (true, setAt (setAt visited o0 true) o1 true) :
          Except Fault (Bool × (Nat → Bool)))
      | _ => pure (false, visited)).map Prod.fst = .ok (decide (2 ≤ o.length)) := by
    intro o
    match o with
    | [] => rfl
    | [_] => rfl
    | _ :: _ :: rest => simp [pure, Except.pure, Except.map]
  have := hlen (((l.filter (isDoubleO graph)).reverse.map (fun e => (graph.EDGES e).child))
    ++ [] ++ (l.filter (isAnionicO mol obabel graph)).map (fun e => (graph.EDGES e).child))
  simp only [List.length_append, List.length_map, List.length_reverse, List.length_nil,
    Nat.add_zero] at this
  simp only [CheckDIOXO, hl, hb, bind, Except.bind]
  exact this

/-- Claim C29: when the edge list `l` of a symbol holds at least two double-bonded `O`
children, `CheckDIOXO` returns true, and the two oxygens that it marks visited are the
children of the last two double-bonded `O` edges of the list, wherever the single-bonded
anionic oxygens stand in the list. -/
theorem CheckDIOXO_prefers_double (fuel : Nat) (mol : OBMol) (obabel : BabelGraph)
    (graph : WLNGraph) (sym : Nat) (visited : Nat → Bool) (l : List Nat)
    (hl : edgesFrom graph fuel (graph.SYMBOLS sym).bonds = .ok l)
    (hq : ∀ e ∈ l, (graph.SYMBOLS (graph.EDGES e).child).ch = 'O' →
      mol.GetAtom (obabel.symbol_atom_map (graph.EDGES e).child) ≠ 0)
    (h2 : 2 ≤ (l.filter (isDoubleO graph)).length) :
    ∃ e0 e1 rest, (l.filter (isDoubleO graph)).reverse = e0 :: e1 :: rest
      ∧ isDoubleO graph e0 = true ∧ isDoubleO graph e1 = true
      ∧ CheckDIOXO fuel mol obabel graph sym visited
          = .ok (true, setAt (setAt visited (graph.EDGES e0).child true)
              (graph.EDGES e1).child true) := by
  have hb := dioxoDeque_eq mol obabel graph l [] hq
  have hlen : 2 ≤ (l.filter (isDoubleO graph)).reverse.length := by simpa using h2
  have hmem : ∀ e ∈ (l.filter (isDoubleO graph)).reverse, isDoubleO graph e = true := by
    intro e he
    exact (List.mem_filter.1 (List.mem_reverse.1 he)).2
  match hr : (l.filter (isDoubleO graph)).reverse, hlen, hmem with
  | e0 :: e1 :: rest, _, hmem =>
    refine ⟨e0, e1, rest, rfl, hmem e0 (by simp), hmem e1 (by simp), ?_⟩
    rw [hr] at hb
    simp only [CheckDIOXO, hl, hb, bind, Except.bind, List.map_cons, List.cons_append, pure,
      Except.pure]

/-- Witness of `CheckDIOXO_prefers_double` on the tree of the sulfate dianion: the edge
list of the sulfur is anionic, double, double, anionic; the symbols 3 and 4 of the
double-bonded oxygens are marked and the anionic oxygens 2 and 5 are not. -/
theorem CheckDIOXO_prefers_double_witness :
    edgesFrom (treeOf 64 sulfate).2.1 64
        (((treeOf 64 sulfate).2.1).SYMBOLS (treeOf 64 sulfate).2.2).bonds = .ok [1, 2, 3, 4]
      ∧ (∀ e ∈ [1, 2, 3, 4],
          (((treeOf 64 sulfate).2.1).SYMBOLS (((treeOf 64 sulfate).2.1).EDGES e).child).ch = 'O' →
          sulfate.GetAtom ((treeOf 64 sulfate).1.symbol_atom_map
            (((treeOf 64 sulfate).2.1).EDGES e).child) ≠ 0)
      ∧ 2 ≤ ([1, 2, 3, 4].filter (isDoubleO (treeOf 64 sulfate).2.1)).length
      ∧ rootChildren 64 sulfate = .ok [('O', 1, -1), ('O', 2, 0), ('O', 2, 0), ('O', 1, -1)]
      ∧ rootDioxo 64 sulfate = .ok (true, [3, 4])
      ∧ ∃ e0 e1 rest,
          ([1, 2, 3, 4].filter (isDoubleO (treeOf 64 sulfate).2.1)).reverse = e0 :: e1 :: rest
          ∧ isDoubleO (treeOf 64 sulfate).2.1 e0 = true
          ∧ isDoubleO (treeOf 64 sulfate).2.1 e1 = true
          ∧ CheckDIOXO 64 sulfate (treeOf 64 sulfate).1 (treeOf 64 sulfate).2.1
              (treeOf 64 sulfate).2.2 (fun _ => false)
            = .ok (true, setAt (setAt (fun _ => false)
                (((treeOf 64 sulfate).2.1).EDGES e0).child true)
                (((treeOf 64 sulfate).2.1).EDGES e1).child true) :=
  ⟨by decide!, by decide!, by decide!, by decide!, by decide!,
   CheckDIOXO_prefers_double 64 sulfate (treeOf 64 sulfate).1 (treeOf 64 sulfate).2.1
     (treeOf 64 sulfate).2.2 (fun _ => false) [1, 2, 3, 4] (by decide!) (by decide!)
     (by decide!)⟩

/-- Claim C28, failing input: in the sulfoxylate dianion the sulfur has two `O` children,
both on single bonds and both anionic, and no double bond; `CheckDIOXO` returns true and
marks both, and `WriteWLN` writes the sulfur with the dioxo mark, `SW`. -/
theorem two_anionic_oxygens_dioxo :
    rootChildren 64 sulfoxylate = .ok [('O', 1, -1), ('O', 1, -1)]
      ∧ rootDioxo 64 sulfoxylate = .ok (true, [2, 3])
      ∧ ∀ fuel, WriteWLN (fuel + 64) "" sulfoxylate = .ok (true, "SW") :=
  ⟨by decide!, by decide!,
   fun fuel => WriteWLN_fuel 64 (fuel + 64) (by omega) "" sulfoxylate _ (by decide!)⟩

/-! ### The loop over the locant stack -/

/-- Claim C30, failing input: on 2-methylnaphthalene `ParseCyclic` succeeds and the first
round of the loop of `ParseAllCyclic` writes the methyl branch, the buffer being
`L66J H1`.  Nothing pops the locant stack, so the loop goes into a second round on the
locant path it has freed; and on no molecule does `ParseAllCyclic` return true. -/
theorem locant_stack_never_popped :
    firstRound 64 methylnaphthalene = .ok ("L66J H1", true)
      ∧ (∀ fuel, (ParseAllCyclic (fuel + 64) methylnaphthalene BabelGraph.new WLNGraph.new "").map
          (fun r => (r.1, r.2.buffer)) = .error .useAfterFree)
      ∧ ∀ fuel mol obabel graph buffer r,
          ParseAllCyclic fuel mol obabel graph buffer = .ok r → r.1 = false := by
  refine ⟨by decide!, fun fuel => ?_, ?_⟩
  · have h64 : (ParseAllCyclic 64 methylnaphthalene BabelGraph.new WLNGraph.new "").map
        (fun r => (r.1, r.2.buffer)) = .error .useAfterFree := by decide!
    rcases ParseAllCyclic_mono 64 (fuel + 64) (by omega) methylnaphthalene BabelGraph.new
      WLNGraph.new "" with h | h
    · rw [h] at h64; cases h64
    · rw [← h, h64]
  · intro fuel mol obabel graph buffer r h
    unfold ParseAllCyclic at h
    obtain ⟨first, -, h⟩ := bind_ok h
    obtain ⟨⟨path_pair, graph2, buffer2⟩, -, h⟩ := bind_ok h
    exact ParseAllCyclic_loop_not_true mol fuel _ _ _ (by simp) h

/-! ### Failures inside the tree builder -/

/-- Claim C31, failing input: on trimethyloxonium the third call of `AllocateWLNEdge` that
`BuildWLNTree` makes, for the bond from the oxygen to atom 4, returns null, the oxygen
having its two allowed edges.  `BuildWLNTree` goes on and returns the root: the tree holds
the symbol of atom 4 without an edge, and `WriteWLN` returns true with the buffer `1O1`,
which lacks a carbon. -/
theorem failed_edge_ignored :
    (oxoniumEdges 8).map Prod.fst = .ok [1, 2, 0]
      ∧ (oxoniumEdges 8).map Prod.snd = (treeSymbols 64 1 trimethyloxonium).map Prod.snd
      ∧ (treeSymbols 64 1 trimethyloxonium).map
          (fun r => (r.1, r.2.map (fun s => (s.ch, s.allowed_edges, s.num_edges, s.previous))))
        = .ok (1, [('1', 4, 1, 0), ('O', 2, 2, 1), ('1', 4, 1, 2), ('1', 4, 0, 0)])
      ∧ ∀ fuel, WriteWLN (fuel + 64) "" trimethyloxonium = .ok (true, "1O1") :=
  ⟨by decide!, by decide!, by decide!,
   fun fuel => WriteWLN_fuel 64 (fuel + 64) (by omega) "" trimethyloxonium _ (by decide!)⟩

/-! ### External branches of a ring system -/

/-- Claim C32, failing input: in 2-methylnaphthalene read with the methyl carbon first,
the bond between the methyl carbon and the ring atom 2 has the ring atom as its end atom.
The ring atom 2 is on the locant path, yet the first round of the loop of
`ParseAllCyclic` writes no branch: the buffer stays `L66J`.  Read with the ring first, so
that the ring atom is the begin atom of the bond, the same molecule gets the branch
` H1`. -/
theorem branch_lost_at_end_atom :
    methylnaphthaleneMethylFirst.bondsOf 2 = [⟨1, 2, 1⟩, ⟨2, 3, 2⟩, ⟨2, 11, 1⟩]
      ∧ methylnaphthaleneMethylFirst.IsInRing 1 = .ok false
      ∧ cyclicResult (ParseCyclic 64 2 methylnaphthaleneMethylFirst WLNGraph.new "")
          = .ok ((some [5, 6, 7, 8, 9, 10, 11, 2, 3, 4], 10), "L66J")
      ∧ firstRound 64 methylnaphthaleneMethylFirst = .ok ("L66J", true)
      ∧ firstRound 64 methylnaphthalene = .ok ("L66J H1", true) :=
  ⟨by decide, by decide, by decide!, by decide!, by decide!⟩

/-! ### The locant path of a ring system -/

/-- Claim C33, failing input: for the seed 5 of indane, whose six-membered ring is listed
as 1, 2, 3, 4, 5, 6, `CreateLocantPath` returns the path 5, 1, 2, 3, 4, 6, 7, 8, 9 with
the pairs (5, 9) and (5, 6): the atoms 5 and 1 at the positions 0 and 1 are neither bonded
nor a pair, and so are the atoms 4 and 6.  With the rings listed in the opposite direction
the path of the same seed is linked throughout. -/
theorem locant_path_not_linked :
    seedCandidate 64 1 indane 5
        = .ok (some ([5, 1, 2, 3, 4, 6, 7, 8, 9], [(5, 9), (5, 6)], [5, 6]))
      ∧ indane.GetBond 5 1 = none ∧ indane.GetBond 4 6 = none
      ∧ pathLinked indane [(5, 9), (5, 6)] [5, 1, 2, 3, 4, 6, 7, 8, 9] = false
      ∧ seedCandidate 64 1 indaneReversed 5
        = .ok (some ([5, 9, 8, 7, 6, 1, 2, 3, 4], [(5, 6), (5, 4)], [5, 6]))
      ∧ pathLinked indaneReversed [(5, 6), (5, 4)] [5, 9, 8, 7, 6, 1, 2, 3, 4] = true :=
  ⟨by decide!, by decide, by decide, by decide!, by decide!, by decide!⟩

/-- Claim C34, failing input: in biphenyl every ring atom has ring share 1, so that no
hinge exists once the first ring is placed and the second is not.  `CreateLocantPath`
does not fail: it returns a path, on which the six atoms of the second ring are missing
and for which the ring placed first is recorded a second time.  The same happens on
2-phenylnaphthalene for the seed 9, which `ParseCyclic` does pass to `CreateLocantPath`:
the phenyl ring holds no atom of ring share 2. -/
theorem no_hinge_not_rejected :
    ringSystem 64 1 biphenyl = .ok (2, [1, 2, 3, 4, 5, 6, 7, 8, 9, 10, 11, 12], [0, 1], [])
      ∧ ringSharesOf 64 1 biphenyl = .ok [1, 1, 1, 1, 1, 1, 1, 1, 1, 1, 1, 1]
      ∧ seedCandidate 64 1 biphenyl 1
        = .ok (some ([1, 2, 3, 4, 5, 6, 0, 0, 0, 0, 0, 0], [(1, 6), (1, 2)], [6, 6]))
      ∧ ringSharesOf 64 1 phenylnaphthalene
        = .ok [1, 1, 1, 2, 1, 1, 1, 1, 2, 1, 1, 1, 1, 1, 1, 1]
      ∧ seedCandidate 64 1 phenylnaphthalene 9
        = .ok (some ([9, 10, 1, 2, 3, 4, 5, 6, 7, 8, 0, 0, 0, 0, 0, 0],
            [(9, 8), (9, 4), (9, 10)], [6, 6, 6])) :=
  ⟨by decide!, by decide!, by decide!, by decide!, by decide!⟩

/-! ### Symbols of the acyclic transcriber -/

/-- A sequence takes the `default:` label only in its continuation. -/
theorem notNone_bind {α β : Type} (m : Except Fault α) {f : α → Except Fault (Option β)}
    (h : ∀ x, f x ≠ .ok none) : (m >>= f) ≠ .ok none := by
  cases m with
  | error e => intro h2; cases h2
  | ok x => exact h x

/-- A conditional takes the `default:` label only in one of its branches. -/
theorem notNone_ite {β : Type} {c : Prop} [Decidable c] {a b : Except Fault (Option β)}
    (h1 : a ≠ .ok none) (h2 : b ≠ .ok none) : (if c then a else b) ≠ .ok none := by
  split_ifs <;> assumption

/-- A `break` with a state is not the `default:` label. -/
theorem notNone_some {β : Type} (x : β) :
    (pure (some x) : Except Fault (Option β)) ≠ .ok none := by
  intro h
  cases h

/-- The `switch` of `WriteWLNFromNode` reaches its `default:` label on no tag of
`handledTags`. -/
theorem writeSymbol_handled (fuel : Nat) (mol : OBMol) (obabel : BabelGraph) (top : Nat)
    (st : WriteState) (h : (st.graph.SYMBOLS top).ch ∈ handledTags) :
    writeSymbol fuel mol obabel top st ≠ .ok none := by
  unfold writeSymbol
  simp only [handledTags, List.mem_cons, List.mem_singleton, List.not_mem_nil, or_false] at h
  dsimp only
  by_cases h1 : (st.graph.SYMBOLS top).ch = 'O'
  · rw [if_pos h1]; exact notNone_some _
  rw [if_neg h1]
  by_cases h2 : (st.graph.SYMBOLS top).ch = 'Q'
  · rw [if_pos h2]; exact notNone_some _
  rw [if_neg h2]
  by_cases h3 : (st.graph.SYMBOLS top).ch = '1'
  · rw [if_pos h3]
    exact notNone_bind _ (fun _ => notNone_some _)
  rw [if_neg h3]
  by_cases h4 : (st.graph.SYMBOLS top).ch = 'Y' ∨ (st.graph.SYMBOLS top).ch = 'X'
  · rw [if_pos h4]
    repeat' first
      | exact notNone_some _
      | apply notNone_ite
      | apply notNone_bind
      | intro _
  rw [if_neg h4]
  by_cases h5 : (st.graph.SYMBOLS top).ch = 'N'
  · rw [if_pos h5]
    repeat' first
      | exact notNone_some _
      | apply notNone_ite
      | apply notNone_bind
      | intro _
  rw [if_neg h5]
  by_cases h6 : (st.graph.SYMBOLS top).ch = 'E' ∨ (st.graph.SYMBOLS top).ch = 'F'
      ∨ (st.graph.SYMBOLS top).ch = 'G' ∨ (st.graph.SYMBOLS top).ch = 'I'
  · rw [if_pos h6]
    repeat' first
      | exact notNone_some _
      | apply notNone_ite
      | apply notNone_bind
      | intro _
  rw [if_neg h6]
  by_cases h7 : (st.graph.SYMBOLS top).ch = 'B' ∨ (st.graph.SYMBOLS top).ch = 'S'
      ∨ (st.graph.SYMBOLS top).ch = 'P'
  · rw [if_pos h7]
    repeat' first
      | exact notNone_some _
      | apply notNone_ite
      | apply notNone_bind
      | intro _
  rw [if_neg h7]
  by_cases h8 : (st.graph.SYMBOLS top).ch = '*'
  · rw [if_pos h8]
    repeat' first
      | exact notNone_some _
      | apply notNone_ite
      | apply notNone_bind
      | intro _
  exfalso
  tauto

/-- Claim C35, failing input: hydrogen is classified with the tag `H`, for which the
`switch` of `WriteWLNFromNode` has no `case`: on every symbol with the tag `H` it takes
the `default:` label, the unhandled character, and on molecular hydrogen `WriteWLN`
returns false with an empty buffer.  On none of the other tags of the classifier does the
`switch` take the `default:` label. -/
theorem hydrogen_tag_unhandled :
    (CreateWLNNode hydrogenMolecule 1 WLNGraph.new).map
        (fun r => ((r.1.SYMBOLS r.2).ch, (r.1.SYMBOLS r.2).allowed_edges)) = .ok ('H', 1)
      ∧ (∀ fuel mol obabel top st, (st.graph.SYMBOLS top).ch = 'H' →
          writeSymbol fuel mol obabel top st = .ok none)
      ∧ (∀ fuel mol obabel top st, (st.graph.SYMBOLS top).ch ∈ handledTags →
          writeSymbol fuel mol obabel top st ≠ .ok none)
      ∧ (∀ fuel, WriteWLN (fuel + 64) "" hydrogenMolecule = .ok (false, ""))
      ∧ ∀ fuel, WriteWLN (fuel + 64) "" (singleAtom 1) = .ok (false, "") := by
  refine ⟨by decide!, ?_,
    fun fuel mol obabel top st h => writeSymbol_handled fuel mol obabel top st h,
    fun fuel => WriteWLN_fuel 64 (fuel + 64) (by omega) "" hydrogenMolecule _ (by decide!),
    fun fuel => WriteWLN_fuel 64 (fuel + 64) (by omega) "" (singleAtom 1) _ (by decide!)⟩
  intro fuel mol obabel top st h
  unfold writeSymbol
  simp only [h]
  rw [if_neg (by decide), if_neg (by decide), if_neg (by decide), if_neg (by decide),
    if_neg (by decide), if_neg (by decide), if_neg (by decide), if_neg (by decide)]
  rfl

/-- Claim C36, failing input: the tree of propane entered at its middle carbon has three
symbols `1`, the root with the two others as its children.  `WriteCarbonChain` follows
the first edge of the root only, and the loop then pushes the children of the last carbon
of the run: the second child of the root is never written, and `WriteWLN` returns true
with the buffer `2`. -/
theorem propane_carbon_dropped :
    (treeSymbols 64 1 propaneFromMiddle).map
        (fun r => (r.1, r.2.map (fun s => (s.ch, s.num_children, s.previous))))
        = .ok (1, [('1', 2, 0), ('1', 0, 1), ('1', 0, 1)])
      ∧ rootChildren 64 propaneFromMiddle = .ok [('1', 1, 0), ('1', 1, 0)]
      ∧ (WriteCarbonChain 64 (treeOf 64 propaneFromMiddle).2.1 1 "") = .ok (2, "2")
      ∧ ∀ fuel, WriteWLN (fuel + 64) "" propaneFromMiddle = .ok (true, "2") :=
  ⟨by decide!, by decide!, by decide!,
   fun fuel => WriteWLN_fuel 64 (fuel + 64) (by omega) "" propaneFromMiddle _ (by decide!)⟩

/-- Appending a character is appending the string made of it. -/
theorem push_eq_append (s : String) (c : Char) : s.push c = s ++ String.singleton c := by
  apply String.ext
  simp [String.data_push, String.data_append, String.singleton]

/-- A symbol whose parent is the previous symbol is entered without a branching return:
only the marks of its bond order are written, and the branch stack stays. -/
theorem enterSymbol_same_parent (next order : Nat) (stack : List (Nat × Nat)) (st : WriteState)
    (h : (st.graph.SYMBOLS next).previous = st.prev) :
    (enterSymbol next order stack st).buffer = st.buffer ++ bondMarks order
      ∧ (enterSymbol next order stack st).branch_stack = st.branch_stack := by
  unfold enterSymbol bondMarks
  have hc : ¬ (((st.graph.SYMBOLS next).previous ≠ 0 ∧ st.prev ≠ 0)
      ∧ (st.graph.SYMBOLS next).previous ≠ st.prev ∧ st.branch_stack ≠ []) :=
    fun hc => hc.2.1 h
  simp only [if_neg hc]
  by_cases h2 : order = 2
  · have h3 : order ≠ 3 := by omega
    simp only [if_pos h2, if_neg h3]
    split_ifs <;> exact ⟨push_eq_append _ _, rfl⟩
  · by_cases h3 : order = 3
    · simp only [if_neg h2, if_pos h3]
      split_ifs <;> exact ⟨rfl, rfl⟩
    · simp only [if_neg h2, if_neg h3]
      split_ifs <;> exact ⟨(String.append_empty _).symm, rfl⟩

/-- The text of a terminal symbol, with the `H` that follows it when it has no edge. -/
theorem terminal_text (s : String) (x : Char) (c : Prop) [Decidable c] :
    (if c then (s.push x).push 'H' else s.push x)
      = s ++ (if c then (String.singleton x).push 'H' else String.singleton x) := by
  split_ifs <;> apply String.ext <;>
    simp [String.data_push, String.data_append, String.singleton]

/-- The statements shared by the terminators, when a branch is open. -/
theorem afterTerminator_open (st : WriteState) (b : Nat) (bs : List Nat)
    (hb : st.branch_stack = b :: bs) :
    afterTerminator st = { st with prev := b, following_terminator := true } := by
  unfold afterTerminator
  rw [hb]

/-- Claim C37: after a terminal symbol written while a branch is open, the symbol on top
of the branch stack is the previous symbol again, and a next symbol that is a child of it
is entered without any `&`: between the text of the terminal symbol and the next symbol
only the marks of the bond order are written, and the branch stays open.  The terminal
symbol is written whenever it has an edge. -/
theorem terminator_then_sibling (fuel : Nat) (mol : OBMol) (obabel : BabelGraph)
    (top b : Nat) (bs : List Nat) (st : WriteState)
    (hb : st.branch_stack = b :: bs)
    (hterm : isTerminator (st.graph.SYMBOLS top) = true) :
    (∀ st1 top1, writeSymbol fuel mol obabel top st = .ok (some (st1, top1)) →
        top1 = top ∧ st1.branch_stack = b :: bs
          ∧ (∃ text, st1.buffer = st.buffer ++ text ∧ '&' ∉ text.toList)
          ∧ ∀ next order stack stack2, (st1.graph.SYMBOLS next).previous = b →
              (enterSymbol next order stack { st1 with stack := stack2 }).buffer
                  = st1.buffer ++ bondMarks order
                ∧ (enterSymbol next order stack { st1 with stack := stack2 }).branch_stack
                  = b :: bs)
      ∧ ((st.graph.SYMBOLS top).num_edges ≠ 0 →
          ∃ st1, writeSymbol fuel mol obabel top st = .ok (some (st1, top))) := by
  have hfin : ∀ (st1 : WriteState) (text : String), '&' ∉ text.toList →
      st1 = afterTerminator { st with buffer := st.buffer ++ text } →
      top = top ∧ st1.branch_stack = b :: bs
          ∧ (∃ text, st1.buffer = st.buffer ++ text ∧ '&' ∉ text.toList)
          ∧ ∀ next order stack stack2, (st1.graph.SYMBOLS next).previous = b →
              (enterSymbol next order stack { st1 with stack := stack2 }).buffer
                  = st1.buffer ++ bondMarks order
                ∧ (enterSymbol next order stack { st1 with stack := stack2 }).branch_stack
                  = b :: bs := by
    intro st1 text htext hst1
    rw [afterTerminator_open { st with buffer := st.buffer ++ text } b bs hb] at hst1
    subst hst1
    refine ⟨rfl, hb, ⟨text, rfl, htext⟩, ?_⟩
    intro next order stack stack2 hprev
    have := enterSymbol_same_parent next order stack
      { ({ ({ st with buffer := st.buffer ++ text } : WriteState) with
            prev := b, following_terminator := true } : WriteState) with stack := stack2 } hprev
    exact ⟨this.1, this.2.trans hb⟩
  have hsplit : (st.graph.SYMBOLS top).ch = 'Q'
      ∨ ((st.graph.SYMBOLS top).ch = 'N' ∧ (st.graph.SYMBOLS top).num_edges < 2)
      ∨ (((st.graph.SYMBOLS top).ch = 'E' ∨ (st.graph.SYMBOLS top).ch = 'F'
          ∨ (st.graph.SYMBOLS top).ch = 'G' ∨ (st.graph.SYMBOLS top).ch = 'I')
        ∧ (st.graph.SYMBOLS top).num_edges ≤ 1) := by
    simpa [isTerminator, or_assoc] using hterm
  have hdone : ∀ (x : Char) (c : Prop) [Decidable c], x ≠ '&' →
      writeSymbol fuel mol obabel top st
        = .ok (some (afterTerminator
            { st with buffer := if c then (st.buffer.push x).push 'H' else st.buffer.push x },
            top)) →
      ∀ st1 top1, writeSymbol fuel mol obabel top st = .ok (some (st1, top1)) →
        top1 = top ∧ st1.branch_stack = b :: bs
          ∧ (∃ text, st1.buffer = st.buffer ++ text ∧ '&' ∉ text.toList)
          ∧ ∀ next order stack stack2, (st1.graph.SYMBOLS next).previous = b →
              (enterSymbol next order stack { st1 with stack := stack2 }).buffer
                  = st1.buffer ++ bondMarks order
                ∧ (enterSymbol next order stack { st1 with stack := stack2 }).branch_stack
                  = b :: bs := by
    intro x c _ hx hw st1 top1 h
    rw [hw] at h
    simp only [Except.ok.injEq, Option.some.injEq, Prod.mk.injEq] at h
    obtain ⟨h1, h2⟩ := h
    subst h2
    rw [terminal_text] at h1
    refine hfin st1 _ ?_ h1.symm
    split_ifs <;> simp [String.singleton, String.data_push, hx.symm]
  rcases hsplit with hQ | ⟨hN, hlt⟩ | ⟨hH, hle⟩
  · have hw : writeSymbol fuel mol obabel top st
        = .ok (some (afterTerminator
            { st with buffer := if (st.graph.SYMBOLS top).num_edges = 0
                then (st.buffer.push 'Q').push 'H' else st.buffer.push 'Q' }, top)) := by
      unfold writeSymbol
      simp only [hQ]
      rw [if_neg (by decide), if_pos trivial]
      rfl
    exact ⟨hdone 'Q' _ (by decide) hw, fun _ => ⟨_, hw⟩⟩
  · have hw : writeSymbol fuel mol obabel top st
        = .ok (some (afterTerminator
            { st with buffer := if (st.graph.SYMBOLS top).num_edges = 0
                then (st.buffer.push 'Z').push 'H' else st.buffer.push 'Z' }, top)) := by
      unfold writeSymbol
      simp only [hN]
      rw [if_neg (by decide), if_neg (by decide), if_neg (by decide), if_neg (by decide),
        if_pos trivial, if_pos hlt]
      rfl
    exact ⟨hdone 'Z' _ (by decide) hw, fun _ => ⟨_, hw⟩⟩
  · have hgt : ¬ (st.graph.SYMBOLS top).num_edges > 1 := by omega
    have hx : (st.graph.SYMBOLS top).ch ≠ '&' := by
      rcases hH with h | h | h | h <;> rw [h] <;> decide
    have hw : writeSymbol fuel mol obabel top st
        = ((if (st.graph.SYMBOLS top).num_edges = 0
            then (mol.GetFormalCharge (obabel.symbol_atom_map top)).map (fun q => decide (q = 0))
            else pure false) >>= fun hydrogen =>
          pure (some (afterTerminator
            { st with buffer := if hydrogen = true
                then (st.buffer.push (st.graph.SYMBOLS top).ch).push 'H'
                else st.buffer.push (st.graph.SYMBOLS top).ch }, top))) := by
      unfold writeSymbol
      rcases hH with h | h | h | h <;> simp only [h] <;>
        rw [if_neg (by decide), if_neg (by decide), if_neg (by decide), if_neg (by decide),
          if_neg (by decide), if_pos (by decide), if_neg hgt]
    constructor
    · intro st1 top1 h
      have h2 := h
      rw [hw] at h2
      obtain ⟨hydrogen, _, h3⟩ := bind_ok h2
      exact hdone _ (hydrogen = true) hx (h.trans h3.symm) st1 top1 h
    · intro hne
      rw [hw, if_neg hne]
      exact ⟨_, rfl⟩

/-- Witness of `terminator_then_sibling`: the symbol `Q` of isopropanol, written while the
branch of the symbol `Y` is open and the second methyl, a child of `Y` too, waits on the
stack.  The buffer `1Y` becomes `1YQ`, and the whole molecule is written as `1YQ1`. -/
theorem terminator_then_sibling_witness :
    isopropanolAtQ.branch_stack = [2]
      ∧ isTerminator (isopropanolAtQ.graph.SYMBOLS 4) = true
      ∧ ((∀ st1 top1,
            writeSymbol 64 isopropanol (treeOf 64 isopropanol).1 4 isopropanolAtQ
              = .ok (some (st1, top1)) →
            top1 = 4 ∧ st1.branch_stack = [2]
              ∧ (∃ text, st1.buffer = isopropanolAtQ.buffer ++ text ∧ '&' ∉ text.toList)
              ∧ ∀ next order stack stack2, (st1.graph.SYMBOLS next).previous = 2 →
                  (enterSymbol next order stack { st1 with stack := stack2 }).buffer
                      = st1.buffer ++ bondMarks order
                    ∧ (enterSymbol next order stack { st1 with stack := stack2 }).branch_stack
                      = [2])
          ∧ ((isopropanolAtQ.graph.SYMBOLS 4).num_edges ≠ 0 →
              ∃ st1, writeSymbol 64 isopropanol (treeOf 64 isopropanol).1 4 isopropanolAtQ
                = .ok (some (st1, 4))))
      ∧ (writeSymbol 64 isopropanol (treeOf 64 isopropanol).1 4 isopropanolAtQ).map
          (Option.map (fun r => (r.1.buffer, r.1.prev, r.1.branch_stack, r.2)))
          = .ok (some ("1YQ", 2, [2], 4))
      ∧ ((treeOf 64 isopropanol).2.1.SYMBOLS 3).previous = 2
      ∧ WriteWLN 64 "" isopropanol = .ok (true, "1YQ1") :=
  ⟨by decide!, by decide!,
   terminator_then_sibling 64 isopropanol (treeOf 64 isopropanol).1 4 2 [] isopropanolAtQ
     (by decide!) (by decide!),
   by decide!, by decide!, by decide!⟩

/-! ### Ring notations in the grammar automaton -/

/-- A state reached by one more byte is the target of a transition on that byte from one
of the states before. -/
theorem mem_step (m : FSMAutomata) (states : List Nat) (ch : Char) (q : Nat)
    (h : q ∈ m.step states ch) :
    ∃ t ∈ m.transitions, t.1 ∈ states ∧ t.2.2 = ch ∧ t.2.1 = q := by
  unfold FSMAutomata.step at h
  obtain ⟨t, ht, rfl⟩ := List.mem_map.1 h
  obtain ⟨hm, hc⟩ := List.mem_filter.1 ht
  simp only [Bool.and_eq_true, beq_iff_eq] at hc
  exact ⟨t, hm, List.mem_of_elem_eq_true hc.1, hc.2, rfl⟩

/-- A set of states that no transition leaves, except on the byte `bad`, holds every
state reached over an input without that byte. -/
theorem foldl_step_within (m : FSMAutomata) (S : List Nat) (bad : Char)
    (hclosed : ∀ t ∈ m.transitions, t.1 ∈ S → t.2.2 ≠ bad → t.2.1 ∈ S) :
    ∀ (input : List Char) (states : List Nat), (∀ q ∈ states, q ∈ S) → bad ∉ input →
      ∀ q ∈ input.foldl m.step states, q ∈ S
  | [], states, hs, _ => hs
  | ch :: rest, states, hs, hbad => by
    simp only [List.foldl_cons]
    refine foldl_step_within m S bad hclosed rest _ ?_ (fun h => hbad (List.mem_cons_of_mem _ h))
    intro q hq
    obtain ⟨t, ht, hsrc, hch, rfl⟩ := mem_step m states ch q hq
    exact hclosed t ht (hs _ hsrc)
      (fun h => hbad (by rw [← h, hch]; exact List.mem_cons_self _ _))

/-- No transition of the automaton leaves `ringStates` on a byte other than `J`. -/
theorem ringStates_closed (rootAccept : Bool) :
    ∀ t ∈ (CreateWLNNFA rootAccept).transitions,
      t.1 ∈ ringStates → t.2.2 ≠ 'J' → t.2.1 ∈ ringStates := by
  have h : (CreateWLNNFA rootAccept).transitions.all
      (fun t => !ringStates.contains t.1 || t.2.2 == 'J' || ringStates.contains t.2.1) = true := by
    cases rootAccept <;> decide!
  intro t ht hsrc hch
  have := List.all_eq_true.1 h t ht
  simp only [Bool.or_eq_true, Bool.not_eq_true', beq_iff_eq] at this
  rcases this with (h1 | h1) | h1
  · have h2 : ringStates.contains t.1 = true := List.elem_eq_true_of_mem hsrc
    rw [h1] at h2; cases h2
  · exact absurd h1 hch
  · exact List.mem_of_elem_eq_true h1

/-- No state of `ringStates` is accepting. -/
theorem ringStates_not_accepting (rootAccept : Bool) :
    ∀ q ∈ ringStates, ((CreateWLNNFA rootAccept).accept.get? q).getD false = false := by
  have h : ringStates.all
      (fun q => !((CreateWLNNFA rootAccept).accept.get? q).getD false) = true := by
    cases rootAccept <;> decide!
  intro q hq
  have := List.all_eq_true.1 h q hq
  simpa using this

/-- Claim C38: a string that the automaton of `BuildWLNFSM` accepts and that begins with
`L` or `T` contains a `J`, whatever the accept flag of the root. -/
theorem ring_needs_closing (rootAccept : Bool) (input : String)
    (hacc : (CreateWLNNFA rootAccept).accepts input = true)
    (hstart : input.toList.head? = some 'L' ∨ input.toList.head? = some 'T') :
    'J' ∈ input.toList := by
  by_contra hJ
  have hL : (CreateWLNNFA rootAccept).step (CreateWLNNFA rootAccept).root.toList 'L' = [18] := by
    cases rootAccept <;> decide!
  have hT : (CreateWLNNFA rootAccept).step (CreateWLNNFA rootAccept).root.toList 'T' = [18] := by
    cases rootAccept <;> decide!
  have hrun : ∀ q ∈ (CreateWLNNFA rootAccept).run input.toList, q ∈ ringStates := by
    unfold FSMAutomata.run
    cases hl : input.toList with
    | nil => rw [hl] at hstart; simp at hstart
    | cons c rest =>
      rw [hl] at hstart hJ
      simp only [List.head?_cons, Option.some.injEq] at hstart
      simp only [List.foldl_cons]
      have h18 : (CreateWLNNFA rootAccept).step (CreateWLNNFA rootAccept).root.toList c = [18] := by
        rcases hstart with rfl | rfl
        · exact hL
        · exact hT
      rw [h18]
      exact foldl_step_within _ ringStates 'J' (ringStates_closed rootAccept) rest [18]
        (by decide) (fun h => hJ (List.mem_cons_of_mem _ h))
  unfold FSMAutomata.accepts at hacc
  obtain ⟨q, hq, hqa⟩ := List.any_eq_true.1 hacc
  rw [ringStates_not_accepting rootAccept q (hrun q hq)] at hqa
  cases hqa

/-- Witness of `ring_needs_closing`: the line `L6TJ`. -/
theorem ring_needs_closing_witness :
    (CreateWLNNFA false).accepts "L6TJ" = true
      ∧ ("L6TJ".toList.head? = some 'L' ∨ "L6TJ".toList.head? = some 'T')
      ∧ 'J' ∈ "L6TJ".toList :=
  ⟨by decide!, Or.inl (by decide),
   ring_needs_closing false "L6TJ" (by decide!) (Or.inl (by decide))⟩

/-! ### The codes of the special elements -/

/-- Claim C39, failing input: curium (96) and copernicium (112) both get the payload `CN`;
they are the only two atomic numbers up to 118 that share one. -/
theorem curium_copernicium_share_code :
    specialCode 96 = some "CN" ∧ specialCode 112 = some "CN"
      ∧ sharedCodes = [(96, 112)] :=
  ⟨by decide!, by decide!, by decide!⟩

/-! ### A failed allocation of an edge -/

/-- Claim C40: a call of `AllocateWLNEdge` that returns null, on a graph whose edge
counter does not wrap, returns a graph with the symbols as they were, all of their
fields, and with every edge made before the call as it was; so the list of edges of the
parent is the list of before the call. -/
theorem failed_edge_keeps_symbols (fuel child parent : Nat) (graph : WLNGraph)
    (hcount : graph.edge_count < 4294967295)
    (h : (AllocateWLNEdge fuel child parent graph).map Prod.snd = .ok 0) :
    ∃ g, AllocateWLNEdge fuel child parent graph = .ok (g, 0)
      ∧ g.SYMBOLS = graph.SYMBOLS
      ∧ (∀ e, e ≠ graph.edge_count + 1 → g.EDGES e = graph.EDGES e)
      ∧ ∀ n l, edgesFrom graph n (graph.SYMBOLS parent).bonds = .ok l →
          (∀ e ∈ l, e ≤ graph.edge_count) →
          edgesFrom g n (g.SYMBOLS parent).bonds = .ok l := by
  have hu : u32 (graph.edge_count + 1) = graph.edge_count + 1 := Nat.mod_eq_of_lt (by omega)
  obtain ⟨⟨g, e⟩, hg, he⟩ := map_ok h
  simp only at he
  subst he
  have key : g.SYMBOLS = graph.SYMBOLS
      ∧ ∀ e, e ≠ graph.edge_count + 1 → g.EDGES e = graph.EDGES e := by
    unfold AllocateWLNEdge at hg
    simp only [hu] at hg
    by_cases h0 : child = 0 ∨ parent = 0
    · rw [if_pos h0] at hg
      cases hg
      exact ⟨rfl, fun _ _ => rfl⟩
    rw [if_neg h0] at hg
    by_cases h1 : graph.edge_count + 1 > REASONABLE
    · rw [if_pos h1] at hg
      cases hg
      exact ⟨rfl, fun _ _ => rfl⟩
    rw [if_neg h1] at hg
    by_cases h2 : u32 ((graph.SYMBOLS child).num_edges + 1) > (graph.SYMBOLS child).allowed_edges
    · rw [if_pos h2] at hg
      cases hg
      exact ⟨rfl, fun _ _ => rfl⟩
    rw [if_neg h2] at hg
    by_cases h3 : u32 ((graph.SYMBOLS parent).num_edges + 1) > (graph.SYMBOLS parent).allowed_edges
    · rw [if_pos h3] at hg
      cases hg
      exact ⟨rfl, fun _ _ => rfl⟩
    rw [if_neg h3] at hg
    by_cases h4 : (graph.SYMBOLS parent).bonds ≠ 0
    · simp only [WLNGraph.setEdge, WLNGraph.setSym] at hg
      rw [if_pos h4] at hg
      obtain ⟨r, hr, hg⟩ := bind_ok hg
      cases r with
      | none =>
        cases hg
        exact ⟨rfl, fun e he => by simp [setAt, he]⟩
      | some last =>
        simp only [pure, Except.pure, Except.ok.injEq, Prod.mk.injEq] at hg
        omega
    · simp only [WLNGraph.setEdge, WLNGraph.setSym] at hg
      rw [if_neg h4] at hg
      simp only [Except.ok.injEq, Prod.mk.injEq] at hg
      omega
  refine ⟨g, hg, key.1, key.2, ?_⟩
  intro n l hl hle
  obtain ⟨hlist, hlen⟩ := edgesFrom_listAt graph n _ l hl
  rw [key.1]
  exact listAt_edgesFrom g l _ n
    (listAt_congr graph.EDGES g.EDGES l _ (fun e he => key.2 e (by have := hle e he; omega)) hlist)
    hlen

/-- Witness of `failed_edge_keeps_symbols`: the tree of trimethyloxonium, in which the
oxygen, symbol 2, has its two allowed edges, and a further edge to symbol 4. -/
theorem failed_edge_keeps_symbols_witness :
    (treeOf 64 trimethyloxonium).2.1.edge_count < 4294967295
      ∧ (AllocateWLNEdge 64 4 2 (treeOf 64 trimethyloxonium).2.1).map Prod.snd = .ok 0
      ∧ ∃ g, AllocateWLNEdge 64 4 2 (treeOf 64 trimethyloxonium).2.1 = .ok (g, 0)
        ∧ g.SYMBOLS = (treeOf 64 trimethyloxonium).2.1.SYMBOLS
        ∧ (∀ e, e ≠ (treeOf 64 trimethyloxonium).2.1.edge_count + 1 →
            g.EDGES e = (treeOf 64 trimethyloxonium).2.1.EDGES e)
        ∧ ∀ n l, edgesFrom (treeOf 64 trimethyloxonium).2.1 n
              ((treeOf 64 trimethyloxonium).2.1.SYMBOLS 2).bonds = .ok l →
            (∀ e ∈ l, e ≤ (treeOf 64 trimethyloxonium).2.1.edge_count) →
            edgesFrom g n (g.SYMBOLS 2).bonds = .ok l :=
  ⟨by decide!, by decide!,
   failed_edge_keeps_symbols 64 4 2 (treeOf 64 trimethyloxonium).2.1 (by decide!) (by decide!)⟩

end Wisswesser
